import Mathlib

/-! Block cache of the consensus core (`core/new_blockcache/block_cache.go`),
with the consensus loops of `consensus/pob/pob.go`; after them the token
contract of `vm/native/token.go` and the transaction engine of
`new_vm/engine.go`.

A shallow embedding of the fork-aware block cache.  Go pointers to
`BlockCacheNode` are addresses into an explicit heap; a nil pointer is `none`.
A computation that would stop with a Go run-time panic (nil dereference,
failed type assertion) yields `none`.

Go maps are kept as lists of their keys (or key/value pairs).  The order in
which Go ranges over a map is unspecified; the order of the list stands for
the order one run happens to use.

The package `core/block` is not among the sources: a block is the record of
the head fields the cache reads, and the method `(*Block).HeadHash` is a
parameter `hh : Block → Hash` of every operation that calls it.

The chain store `block.BChain` and the state database `StateDB` are not
among the sources either: `flush` takes two oracles that tell whether `Push`
and `Flush` succeed, and a `Store` records what the two have accepted.

The recursive methods `Del` and `flush` take fuel for the depth of the
recursion; the theorems about them show that every fuel above a bound gives
the result.

The receive path and the loops of `consensus/pob/pob.go` are embedded over the
same cache.  A handler runs with the mode it reads as an argument; a statement
`go f(x)` records that `f(x)` has been started, and `f` is a function of its
own that runs with the mode it reads then.  Logging, metrics and locks are left
out, except where an argument of a log line can fault.
-/

namespace blockcache

/-! ## Data model -/

/-- A byte string (`[]byte`). -/
abbrev Hash := List Nat

/-- The address of a heap-allocated `BlockCacheNode`. -/
abbrev Ptr := Nat

/-- The fields of `block.BlockHead` that the cache reads. -/
structure BlockHead where
  Number : Nat
  Time : Int
  ParentHash : Hash
  Witness : String
deriving DecidableEq

/-- A block of the chain: `block.Block`. -/
structure Block where
  Head : BlockHead
  Txs : List Hash
deriving DecidableEq

/-- The status constants `Extend .. Duplicate` (iota order). -/
inductive CacheStatus
  | Extend
  | Fork
  | NotFound
  | ErrorBlock
  | Duplicate
deriving DecidableEq

/-- The node types `Linked` (zero value) and `Single`. -/
inductive BCNType
  | Linked
  | Single
deriving DecidableEq

/-- The error values of the package, and the one `FindBlock` builds. -/
inductive Err
  | ErrNotFound
  | ErrBlock
  | ErrTooOld
  | ErrDup
  | blockNotFound
deriving DecidableEq

/-- The struct `BlockCacheNode`. -/
structure BlockCacheNode where
  Block : Option Block
  Parent : Option Ptr
  Children : List Ptr
  Type_ : BCNType
  Number : Nat
  Witness : String
  ConfirmUntil : Nat
  LastWitnessListNumber : Nat
  PendingWitnessList : List String
  Extension : List Nat
deriving DecidableEq

/-- The zero value of `BlockCacheNode`. -/
def BlockCacheNode.zero : BlockCacheNode :=
  { Block := none, Parent := none, Children := [], Type_ := BCNType.Linked, Number := 0,
    Witness := "", ConfirmUntil := 0, LastWitnessListNumber := 0,
    PendingWitnessList := [], Extension := [] }

/-- The struct `BlockCache` together with the heap its pointers refer to.
`next` is the first address not yet allocated.  `LinkedTree`, `SingleTree` and
`Head` are set to non-nil nodes by `NewBlockCache` and are only ever reassigned
from non-nil pointers. -/
structure BlockCache where
  heap : Ptr → BlockCacheNode
  next : Ptr
  LinkedTree : Ptr
  SingleTree : Ptr
  Head : Ptr
  hash2node : List (Hash × Ptr)
  Leaf : List (Ptr × Nat)

/-- A value of type `interface{}` as it passes through `IF`. -/
inductive Iface
  | nil
  | bcnType (t : BCNType)
  | status (c : CacheStatus)
  | node (p : Option Ptr)
  | error (e : Err)
deriving DecidableEq

/-- The function `IF`. -/
def IF (condition : Bool) (trueRes falseRes : Iface) : Iface :=
  if condition then trueRes else falseRes

/-- The type assertion `x.(BCNType)`; `none` is the panic of a failed assertion. -/
def Iface.asBCNType : Iface → Option BCNType
  | Iface.bcnType t => some t
  | _ => none

/-- The type assertion `x.(CacheStatus)`. -/
def Iface.asStatus : Iface → Option CacheStatus
  | Iface.status c => some c
  | _ => none

/-- The type assertion `x.(*BlockCacheNode)`; a typed nil pointer passes. -/
def Iface.asNode : Iface → Option (Option Ptr)
  | Iface.node p => some p
  | _ => none

/-- The type assertion `x.(error)`; it fails on the nil interface value. -/
def Iface.asError : Iface → Option Err
  | Iface.error e => some e
  | _ => none

/-! ## Heap and map primitives -/

/-- Overwrite the node stored at address `p`. -/
def BlockCache.store (s : BlockCache) (p : Ptr) (n : BlockCacheNode) : BlockCache :=
  { s with heap := Function.update s.heap p n }

/-- Load from a `sync.Map` kept as an association list. -/
def mapLoad : List (Hash × Ptr) → Hash → Option Ptr
  | [], _ => none
  | (k, v) :: rest, h => if k = h then some v else mapLoad rest h

/-- Store into a `sync.Map`: overwrite the entry of the key, or add one. -/
def mapStore : List (Hash × Ptr) → Hash → Ptr → List (Hash × Ptr)
  | [], h, p => [(h, p)]
  | (k, v) :: rest, h, p => if k = h then (k, p) :: rest else (k, v) :: mapStore rest h p

/-- The built-in `delete(m, key)` on the leaf map; a nil key is never present. -/
def leafDelete (l : List (Ptr × Nat)) (key : Option Ptr) : List (Ptr × Nat) :=
  match key with
  | none => l
  | some k => l.filter (fun kv => kv.1 != k)

/-- The assignment `m[key] = val` on the leaf map. -/
def leafSet : List (Ptr × Nat) → Ptr → Nat → List (Ptr × Nat)
  | [], k, v => [(k, v)]
  | (k0, v0) :: rest, k, v => if k0 = k then (k0, v) :: rest else (k0, v0) :: leafSet rest k v

/-! ## Operations -/

/-- The method `(*BlockCacheNode).addChild`. -/
def addChild (s : BlockCache) (bcn : Ptr) (child : Option Ptr) : BlockCache :=
  match child with
  | none => s
  | some c =>
    if c ∈ (s.heap bcn).Children then s
    else
      let s1 := s.store c { s.heap c with Parent := some bcn }
      s1.store bcn { s1.heap bcn with Children := (s1.heap bcn).Children ++ [c] }

/-- The method `(*BlockCacheNode).delChild`. -/
def delChild (s : BlockCache) (bcn : Ptr) (child : Option Ptr) : BlockCache :=
  match child with
  | none => s
  | some c =>
    let s1 := s.store bcn
      { s.heap bcn with Children := (s.heap bcn).Children.filter (fun x => x != c) }
    s1.store c { s1.heap c with Parent := none }

/-- The constructor `NewBCN`: allocates the node at `s.next`. -/
def NewBCN (s : BlockCache) (parent : Option Ptr) (block : Option Block)
    (nodeType : BCNType) : BlockCache × Ptr :=
  let addr := s.next
  let bcn : BlockCacheNode :=
    { BlockCacheNode.zero with Block := block, Children := [], Parent := parent }
  let bcn : BlockCacheNode :=
    match parent with
    | none => { bcn with Type_ := nodeType }
    | some q => { bcn with Type_ := (s.heap q).Type_ }
  let s1 : BlockCache := { s with heap := Function.update s.heap addr bcn, next := addr + 1 }
  match parent with
  | none => (s1, addr)
  | some q => (addChild s1 q (some addr), addr)

/-- The method `hmget`: the node found (nil if none) and the flag `ok`. -/
def hmget (s : BlockCache) (hash : Hash) : Option Ptr × Bool :=
  match mapLoad s.hash2node hash with
  | none => (none, false)
  | some p => (some p, true)

/-- The method `hmset`. -/
def hmset (s : BlockCache) (hash : Hash) (bcn : Ptr) : BlockCache :=
  { s with hash2node := mapStore s.hash2node hash bcn }

/-- The constructor `NewBlockCache`; `lib` is the block `block.BChain.Top()`
returns (nil for an empty chain) and `hh` is `(*Block).HeadHash`.  The
assignment to the package variable `StateDB` does not touch the cache. -/
def NewBlockCache (hh : Block → Hash) (lib : Option Block) : BlockCache :=
  let s0 : BlockCache :=
    { heap := fun _ => BlockCacheNode.zero, next := 0, LinkedTree := 0, SingleTree := 0,
      Head := 0, hash2node := [], Leaf := [] }
  let (s1, linked) := NewBCN s0 none none BCNType.Linked
  let (s2, single) := NewBCN s1 none none BCNType.Single
  let bc : BlockCache := { s2 with LinkedTree := linked, SingleTree := single }
  let bc : BlockCache := { bc with Head := bc.LinkedTree }
  let bc := bc.store bc.LinkedTree { bc.heap bc.LinkedTree with Block := lib }
  let bc :=
    match lib with
    | none => bc
    | some b => hmset bc (hh b) bc.LinkedTree
  { bc with Leaf := leafSet bc.Leaf bc.LinkedTree (bc.heap bc.LinkedTree).Number }

/-- The method `updateLongest`: one pass over the leaf map. -/
def updateLongest (s : BlockCache) : BlockCache :=
  let cur := (s.heap s.Head).Number
  let newHead := s.Head
  let r := s.Leaf.foldl
    (fun (acc : Nat × Ptr) (kv : Ptr × Nat) => if kv.2 > acc.1 then (kv.2, kv.1) else acc)
    (cur, newHead)
  { s with Head := r.2 }

/-- The method `Link`. -/
def Link (s : BlockCache) (bcn : Option Ptr) : BlockCache :=
  match bcn with
  | none => s
  | some n =>
    let s1 := s.store n { s.heap n with Type_ := BCNType.Linked }
    let s2 : BlockCache := { s1 with Leaf := leafDelete s1.Leaf (s1.heap n).Parent }
    let s3 : BlockCache := { s2 with Leaf := leafSet s2.Leaf n (s2.heap n).Number }
    updateLongest s3

/-- The search loop of `mergeSingle` over the children of the single root:
the first child whose parent hash is the head hash of `block`, nil if there is
none; `none` when a nil block is dereferenced on the way. -/
def findChild (hh : Block → Hash) (s : BlockCache) (block : Option Block) :
    List Ptr → Option (Option Ptr)
  | [] => some none
  | bcn :: rest =>
    match (s.heap bcn).Block, block with
    | some b, some blk =>
      if b.Head.ParentHash = hh blk then some (some bcn) else findChild hh s block rest
    | _, _ => none

/-- The method `mergeSingle`. -/
def mergeSingle (hh : Block → Hash) (s : BlockCache) (newNode : Ptr) : Option BlockCache :=
  let block := (s.heap newNode).Block
  match findChild hh s block (s.heap s.SingleTree).Children with
  | none => none
  | some none => some s
  | some (some child) =>
    match (s.heap child).Parent with
    | none => none
    | some q =>
      let s1 := delChild s q (some child)
      some (addChild s1 newNode (some child))

/-- The method `addSingle`. -/
def addSingle (hh : Block → Hash) (s : BlockCache) (newNode : Ptr) : Option BlockCache :=
  mergeSingle hh s newNode

/-- What a call of `Add` leaves behind: the two return values, the local
variable `code` at the time of return, and the cache. -/
structure AddResult where
  node : Option Ptr
  err : Option Err
  code : CacheStatus
  cache : BlockCache

/-- The method `Add`. -/
def Add (hh : Block → Hash) (s : BlockCache) (blk : Block) : Option AddResult :=
  if (hmget s (hh blk)).2 then
    some { node := none, err := some Err.ErrDup, code := CacheStatus.Extend, cache := s }
  else
    let parent := (hmget s blk.Head.ParentHash).1
    let ok := (hmget s blk.Head.ParentHash).2
    match (IF ok (Iface.bcnType BCNType.Linked) (Iface.bcnType BCNType.Single)).asBCNType,
          (IF ok (Iface.node parent) (Iface.node (some s.SingleTree))).asNode with
    | some bcnType, some fa =>
      let s1 := (NewBCN s fa (some blk) bcnType).1
      let newNode := (NewBCN s fa (some blk) bcnType).2
      let code : Option CacheStatus :=
        if ok then
          match parent with
          | none => none
          | some p =>
            (IF (decide ((s1.heap p).Children.length > 1)) (Iface.status CacheStatus.Fork)
              (Iface.status CacheStatus.Extend)).asStatus
        else some CacheStatus.NotFound
      match code with
      | none => none
      | some code =>
        let s2 := hmset s1 (hh blk) newNode
        match code with
        | CacheStatus.Extend | CacheStatus.Fork =>
          if (s2.heap newNode).Type_ = BCNType.Linked then
            match addSingle hh s2 newNode with
            | none => none
            | some s3 =>
              some { node := some newNode, err := none, code := code,
                     cache := Link s3 (some newNode) }
          else
            match mergeSingle hh s2 newNode with
            | none => none
            | some s3 =>
              some { node := some newNode, err := some Err.ErrNotFound, code := code,
                     cache := s3 }
        | CacheStatus.NotFound =>
          match mergeSingle hh s2 newNode with
          | none => none
          | some s3 =>
            some { node := some newNode, err := some Err.ErrNotFound, code := code,
                   cache := s3 }
        | _ => some { node := some newNode, err := none, code := code, cache := s2 }
    | _, _ => none

/-- The method `FindBlock`: the operands of the return statement are
evaluated left to right, first `bcn.Block`, then the asserted `IF`. -/
def FindBlock (s : BlockCache) (hash : Hash) : Option (Option Block × Option Err) :=
  let bcn := (hmget s hash).1
  let ok := (hmget s hash).2
  match bcn with
  | none => none
  | some p =>
    match (IF ok Iface.nil (Iface.error Err.blockNotFound)).asError with
    | none => none
    | some e => some ((s.heap p).Block, some e)

/-- A run of `Add` over a list of blocks, in order; `none` if a call panics. -/
def addAll (hh : Block → Hash) : BlockCache → List Block → Option BlockCache
  | s, [] => some s
  | s, b :: rest =>
    match Add hh s b with
    | none => none
    | some r => addAll hh r.cache rest

/-! ## Representation invariant and reachability -/

/-- The representation invariant of a cache: allocated addresses lie below
`next`, the two roots are distinct allocated nodes, every index entry points to
an allocated node holding a block with that head hash, every child is an
allocated node that points back to its parent and is indexed under its own
head hash, the single root is a block-less node of type `Single`, and the
linked root is indexed if it holds a block. -/
structure WF (hh : Block → Hash) (s : BlockCache) : Prop where
  linked_lt : s.LinkedTree < s.next
  single_lt : s.SingleTree < s.next
  roots_ne : s.LinkedTree ≠ s.SingleTree
  index_lt : ∀ h p, mapLoad s.hash2node h = some p → p < s.next
  index_block : ∀ h p, mapLoad s.hash2node h = some p →
    ∃ b, (s.heap p).Block = some b ∧ hh b = h
  child_lt : ∀ p c, p < s.next → c ∈ (s.heap p).Children → c < s.next
  child_parent : ∀ p c, p < s.next → c ∈ (s.heap p).Children → (s.heap c).Parent = some p
  child_indexed : ∀ p c, p < s.next → c ∈ (s.heap p).Children →
    ∃ b, (s.heap c).Block = some b ∧ mapLoad s.hash2node (hh b) = some c
  children_nodup : ∀ p, p < s.next → (s.heap p).Children.Nodup
  single_block : (s.heap s.SingleTree).Block = none
  single_type : (s.heap s.SingleTree).Type_ = BCNType.Single
  linked_indexed : ∀ b, (s.heap s.LinkedTree).Block = some b →
    mapLoad s.hash2node (hh b) = some s.LinkedTree

/-- Reachability from a root by following `Children`, zero or more steps. -/
inductive Reach (s : BlockCache) (root : Ptr) : Ptr → Prop
  | here : Reach s root root
  | child {p c : Ptr} : Reach s root p → c ∈ (s.heap p).Children → Reach s root c

/-- Ancestry by following `Parent`, zero or more steps: `Anc s n a` says that
`a` is `n` itself or an ancestor of `n`. -/
inductive Anc (s : BlockCache) : Ptr → Ptr → Prop
  | here (n : Ptr) : Anc s n n
  | up {n p a : Ptr} : (s.heap n).Parent = some p → Anc s p a → Anc s n a

/-- The tree invariant of a cache: a node with a parent is an allocated child
of that allocated parent, the two roots have no parent, every allocated node
has one of the roots as ancestor, and a node under a parent other than the
single root names the head hash of the block of its parent as its parent hash. -/
structure Rooted (hh : Block → Hash) (s : BlockCache) : Prop where
  parent_child : ∀ c p, c < s.next → (s.heap c).Parent = some p →
    p < s.next ∧ c ∈ (s.heap p).Children
  linked_root : (s.heap s.LinkedTree).Parent = none
  single_root : (s.heap s.SingleTree).Parent = none
  rooted : ∀ n, n < s.next → Anc s n s.LinkedTree ∨ Anc s n s.SingleTree
  parent_hash : ∀ n p, n < s.next → (s.heap n).Parent = some p → p ≠ s.SingleTree →
    ∃ bn bp, (s.heap n).Block = some bn ∧ (s.heap p).Block = some bp ∧
      bn.Head.ParentHash = hh bp

/-- The invariant of the leaf set in a cache built by `Add` alone: every node
recorded in the leaf set has type `Linked`, is the linked root or indexed under
the head hash of its block, and has no child of type `Linked`; the children of
the single root have type `Single`. -/
structure LeafInv (hh : Block → Hash) (s : BlockCache) : Prop where
  leaf_linked : ∀ k v, (k, v) ∈ s.Leaf → (s.heap k).Type_ = BCNType.Linked
  leaf_cached : ∀ k v, (k, v) ∈ s.Leaf →
    k = s.LinkedTree ∨ ∃ b, (s.heap k).Block = some b ∧ (hmget s (hh b)).1 = some k
  leaf_children : ∀ k v, (k, v) ∈ s.Leaf →
    ∀ c ∈ (s.heap k).Children, (s.heap c).Type_ = BCNType.Single
  single_children : ∀ c ∈ (s.heap s.SingleTree).Children, (s.heap c).Type_ = BCNType.Single

/-! ## Intermediate states of `Add` -/

/-- The cache in the middle of `Add`: after `NewBCN` under the parent `fa`
and `hmset`, before `mergeSingle`. -/
def attached (hh : Block → Hash) (s : BlockCache) (fa : Ptr) (blk : Block) : BlockCache :=
  hmset (NewBCN s (some fa) (some blk) BCNType.Linked).1 (hh blk) s.next

/-- The cache after `mergeSingle` has moved the orphan `c` from the single root
under `n`. -/
def adopted (s : BlockCache) (n c : Ptr) : BlockCache :=
  addChild (delChild s s.SingleTree (some c)) n (some c)

/-! ## Runs without adoption under a linked node -/

/-- Whether some child of the single root waits for `blk`, that is, names the
head hash of `blk` as its parent hash (the test of the loop in `mergeSingle`). -/
def orphanWaiting (hh : Block → Hash) (s : BlockCache) (blk : Block) : Bool :=
  (s.heap s.SingleTree).Children.any (fun c =>
    match (s.heap c).Block with
    | some b => decide (b.Head.ParentHash = hh blk)
    | none => false)

/-- Whether `Add` of `blk` would attach it under an indexed parent of type
`Linked` while an orphan waits for it, so that `mergeSingle` moves that orphan
into the linked tree. -/
def linkedAdoption (hh : Block → Hash) (s : BlockCache) (blk : Block) : Bool :=
  !(hmget s (hh blk)).2 &&
  (match (hmget s blk.Head.ParentHash).1 with
   | some p => decide ((s.heap p).Type_ = BCNType.Linked)
   | none => false) &&
  orphanWaiting hh s blk

/-- A run of `Add` in which every call returns and none moves an orphan into
the linked tree. -/
def noLinkedAdoption (hh : Block → Hash) : BlockCache → List Block → Bool
  | _, [] => true
  | s, b :: rest =>
    match Add hh s b with
    | none => false
    | some r => !linkedAdoption hh s b && noLinkedAdoption hh r.cache rest

/-! ## Deletion and flushing -/

/-- Delete from a `sync.Map`: no entry of the key is left. -/
def mapErase (m : List (Hash × Ptr)) (h : Hash) : List (Hash × Ptr) :=
  m.filter (fun kv => kv.1 != h)

/-- Lookup `m[key]` in the leaf map; `none` if the key is absent. -/
def leafGet : List (Ptr × Nat) → Ptr → Option Nat
  | [], _ => none
  | (k0, v0) :: rest, k => if k0 = k then some v0 else leafGet rest k

/-- The method `hmdel`. -/
def hmdel (s : BlockCache) (hash : Hash) : BlockCache :=
  { s with hash2node := mapErase s.hash2node hash }

/-- The method `delNode`; `none` when the block of the node is nil. -/
def delNode (hh : Block → Hash) (s : BlockCache) (bcn : Ptr) : Option BlockCache :=
  let fa := (s.heap bcn).Parent
  let s1 := s.store bcn { s.heap bcn with Parent := none }
  match (s1.heap bcn).Block with
  | none => none
  | some b =>
    let s2 := hmdel s1 (hh b)
    let s3 : BlockCache := { s2 with Leaf := leafDelete s2.Leaf (some bcn) }
    match fa with
    | none => some s3
    | some f =>
      let s4 : BlockCache := { s3 with Leaf := leafSet s3.Leaf f (s3.heap f).Number }
      some (delChild s4 f (some bcn))

/-- A Go loop `for ch := range par.Children` whose body may delete entries of
the map it ranges over: the keys are met in the order of the snapshot, and a
key that was deleted before it is met is not produced. -/
def rangeChildren (body : BlockCache → Ptr → Option BlockCache) (par : Ptr) :
    List Ptr → BlockCache → Option BlockCache
  | [], s => some s
  | ch :: rest, s =>
    if ch ∈ (s.heap par).Children then
      match body s ch with
      | none => none
      | some s1 => rangeChildren body par rest s1
    else rangeChildren body par rest s

/-- The method `Del`, with fuel for the depth of the recursion; `none` when a
nil block is dereferenced or the fuel runs out. -/
def Del (hh : Block → Hash) : Nat → BlockCache → Option Ptr → Option BlockCache
  | _, s, none => some s
  | 0, _, some _ => none
  | fuel + 1, s, some bcn =>
    let len := (s.heap bcn).Children.length
    match rangeChildren (fun s1 ch => Del hh fuel s1 (some ch)) bcn (s.heap bcn).Children s with
    | none => none
    | some s1 =>
      match delNode hh s1 bcn with
      | none => none
      | some s2 => if len = 0 then some (updateLongest s2) else some s2

/-- The constant `DelSingleBlockTime`. -/
def DelSingleBlockTime : Nat := 10

/-- The method `delSingle`. -/
def delSingle (hh : Block → Hash) (fuel : Nat) (s : BlockCache) : Option BlockCache :=
  let height := (s.heap s.LinkedTree).Number
  if height % DelSingleBlockTime ≠ 0 then some s
  else
    rangeChildren
      (fun s1 bcn => if (s1.heap bcn).Number ≤ height then Del hh fuel s1 (some bcn) else some s1)
      s.SingleTree (s.heap s.SingleTree).Children s

/-- What `flush` drives outside the cache: the blocks pushed to the chain
store `block.BChain`, in order, and the tags flushed in the state database
`StateDB`, in order. -/
structure Store where
  chain : List Block
  flushed : List Hash

/-- The errors `flush` can return: the one of `BlockChain.Push` and the one of
`StateDB.Flush`. -/
inductive StoreErr
  | push
  | stateFlush
deriving DecidableEq

/-- The method `flush`, with fuel for the depth of the recursion.  `pushOK`
and `flushOK` tell whether `blkchain.Push` and `StateDB.Flush` succeed.  The
error a recursive call returns is dropped, as in the source. -/
def flush (hh : Block → Hash) (pushOK : Block → Bool) (flushOK : Hash → Bool) :
    Nat → BlockCache × Store → Option Ptr → Ptr → Option ((BlockCache × Store) × Option StoreErr)
  | 0, _, _, _ => none
  | fuel + 1, w, cur, retain =>
    match cur with
    | none => none
    | some c =>
      let inner : Option (BlockCache × Store) :=
        if c ≠ w.1.LinkedTree then
          (flush hh pushOK flushOK fuel w (w.1.heap c).Parent c).map Prod.fst
        else some w
      match inner with
      | none => none
      | some w1 =>
        match rangeChildren
            (fun s child => if child = retain then some s else Del hh fuel s (some child))
            c (w1.1.heap c).Children w1.1 with
        | none => none
        | some s2 =>
          match (s2.heap retain).Block with
          | none => some ((s2, w1.2), none)
          | some b =>
            if pushOK b then
              let st2 : Store := { w1.2 with chain := w1.2.chain ++ [b] }
              if flushOK (hh b) then
                let st3 : Store := { st2 with flushed := st2.flushed ++ [hh b] }
                match (s2.heap c).Block with
                | none => none
                | some cb =>
                  let s3 := hmdel s2 (hh cb)
                  let s4 := s3.store retain { s3.heap retain with Parent := none }
                  some (({ s4 with LinkedTree := retain }, st3), none)
              else some ((s2, st2), some StoreErr.stateFlush)
            else some ((s2, w1.2), some StoreErr.push)

/-- The method `Flush`. -/
def Flush (hh : Block → Hash) (pushOK : Block → Bool) (flushOK : Hash → Bool) (fuel : Nat)
    (w : BlockCache × Store) (bcn : Option Ptr) : Option (BlockCache × Store) :=
  match bcn with
  | none => some w
  | some n =>
    match flush hh pushOK flushOK fuel w (w.1.heap n).Parent n with
    | none => none
    | some r =>
      match delSingle hh fuel r.1.1 with
      | none => none
      | some s2 => some (s2, r.1.2)

/-! ## What deletion does -/

/-- A bound on the height of the tree below a node: `Height s k n` says that
following `Children` from `n` ends after at most `k` steps. -/
def Height (s : BlockCache) : Nat → Ptr → Prop
  | 0, n => (s.heap n).Children = []
  | k + 1, n => ∀ c ∈ (s.heap n).Children, Height s k c

/-- The nodes below `n` form a tree of blocks: every node reachable from `n`
holds a block, and every child of such a node points back to it. -/
structure TreeBelow (s : BlockCache) (n : Ptr) : Prop where
  block : ∀ m, Reach s n m → ∃ b, (s.heap m).Block = some b
  parent : ∀ p c, Reach s n p → c ∈ (s.heap p).Children → (s.heap c).Parent = some p

/-- What `Del` of the node `n` does to the cache `s`: every node below `n` is
detached (no parent, no children), dropped from the index and from the leaf
set; the parent of `n` loses the child `n`; blocks, numbers and types stay;
nothing else in the heap or the index changes. -/
structure Deleted (hh : Block → Hash) (s : BlockCache) (n : Ptr) (s2 : BlockCache) : Prop where
  next_eq : s2.next = s.next
  linked_eq : s2.LinkedTree = s.LinkedTree
  single_eq : s2.SingleTree = s.SingleTree
  fields : ∀ m, (s2.heap m).Block = (s.heap m).Block ∧
    (s2.heap m).Number = (s.heap m).Number ∧ (s2.heap m).Type_ = (s.heap m).Type_
  inside : ∀ m, Reach s n m → (s2.heap m).Parent = none ∧ (s2.heap m).Children = []
  outside : ∀ m, ¬ Reach s n m → (s2.heap m).Parent = (s.heap m).Parent ∧
    ((s.heap n).Parent ≠ some m → (s2.heap m).Children = (s.heap m).Children)
  parent : ∀ f, (s.heap n).Parent = some f → ¬ Reach s n f →
    (s2.heap f).Children = (s.heap f).Children.filter (fun x => x != n)
  index_gone : ∀ m b, Reach s n m → (s.heap m).Block = some b →
    mapLoad s2.hash2node (hh b) = none
  index_kept : ∀ h, (∀ m b, Reach s n m → (s.heap m).Block = some b → hh b ≠ h) →
    mapLoad s2.hash2node h = mapLoad s.hash2node h
  leaf_gone : ∀ m, Reach s n m → leafGet s2.Leaf m = none
  leaf_none : ∀ m, leafGet s.Leaf m = none → (s.heap n).Parent ≠ some m →
    leafGet s2.Leaf m = none

/-- What a loop of `Del` calls over the children of `par` does to the cache
`s`, `sel` telling which children are deleted: the nodes below the deleted
children are detached and dropped from the index and the leaf set, `par` keeps
the other children, nothing else in the heap or the index changes. -/
structure Pruned (hh : Block → Hash) (s : BlockCache) (par : Ptr) (sel : Ptr → Bool)
    (s2 : BlockCache) : Prop where
  next_eq : s2.next = s.next
  linked_eq : s2.LinkedTree = s.LinkedTree
  single_eq : s2.SingleTree = s.SingleTree
  fields : ∀ m, (s2.heap m).Block = (s.heap m).Block ∧
    (s2.heap m).Number = (s.heap m).Number ∧ (s2.heap m).Type_ = (s.heap m).Type_
  inside : ∀ c m, c ∈ (s.heap par).Children → sel c = true → Reach s c m →
    (s2.heap m).Parent = none ∧ (s2.heap m).Children = []
  par_parent : (s2.heap par).Parent = (s.heap par).Parent
  par_children : (s2.heap par).Children = (s.heap par).Children.filter (fun c => !sel c)
  outside : ∀ m, m ≠ par →
    (∀ c, c ∈ (s.heap par).Children → sel c = true → ¬ Reach s c m) →
    (s2.heap m).Parent = (s.heap m).Parent ∧ (s2.heap m).Children = (s.heap m).Children
  index_gone : ∀ c m b, c ∈ (s.heap par).Children → sel c = true → Reach s c m →
    (s.heap m).Block = some b → mapLoad s2.hash2node (hh b) = none
  index_kept : ∀ h,
    (∀ c m b, c ∈ (s.heap par).Children → sel c = true → Reach s c m →
      (s.heap m).Block = some b → hh b ≠ h) →
    mapLoad s2.hash2node h = mapLoad s.hash2node h
  leaf_gone : ∀ c m, c ∈ (s.heap par).Children → sel c = true → Reach s c m →
    leafGet s2.Leaf m = none
  leaf_none : ∀ m, leafGet s.Leaf m = none → m ≠ par → leafGet s2.Leaf m = none

/-- The children of `par` root disjoint trees of blocks of height at most `k`
that hang under `par` and do not contain it. -/
structure Kids (s : BlockCache) (par : Ptr) (k : Nat) : Prop where
  tree : ∀ c, c ∈ (s.heap par).Children → TreeBelow s c
  up : ∀ c, c ∈ (s.heap par).Children → (s.heap c).Parent = some par
  height : ∀ c, c ∈ (s.heap par).Children → Height s k c
  acyclic : ∀ c, c ∈ (s.heap par).Children → ¬ Reach s c par
  disjoint : ∀ c1 c2 m, c1 ∈ (s.heap par).Children → c2 ∈ (s.heap par).Children → c1 ≠ c2 →
    Reach s c1 m → Reach s c2 m → False

/-- The node reached from `n` by following `Parent` `j` times, if there is one. -/
def ancN (s : BlockCache) : Nat → Ptr → Option Ptr
  | 0, n => some n
  | j + 1, n =>
    match (s.heap n).Parent with
    | none => none
    | some p => ancN s j p

/-- What `flush` up to the node `t` of the linked tree does to the cache `s`:
`t` is the linked root and has no parent; below `t` nothing else changes;
outside the linked tree nothing changes; blocks, numbers and types stay; the
index loses the nodes of the linked tree that are not below `t` and keeps the
other entries. -/
structure Flushed (hh : Block → Hash) (s : BlockCache) (t : Ptr) (s2 : BlockCache) : Prop where
  next_eq : s2.next = s.next
  single_eq : s2.SingleTree = s.SingleTree
  linked : s2.LinkedTree = t
  fields : ∀ m, (s2.heap m).Block = (s.heap m).Block ∧
    (s2.heap m).Number = (s.heap m).Number ∧ (s2.heap m).Type_ = (s.heap m).Type_
  root_parent : (s2.heap t).Parent = none
  below : ∀ m, Reach s t m → (s2.heap m).Children = (s.heap m).Children ∧
    (m ≠ t → (s2.heap m).Parent = (s.heap m).Parent)
  outside : ∀ m, ¬ Reach s s.LinkedTree m →
    (s2.heap m).Parent = (s.heap m).Parent ∧ (s2.heap m).Children = (s.heap m).Children
  index_gone : ∀ m b, Reach s s.LinkedTree m → ¬ Reach s t m → (s.heap m).Block = some b →
    mapLoad s2.hash2node (hh b) = none
  index_kept : ∀ h,
    (∀ m b, Reach s s.LinkedTree m → ¬ Reach s t m → (s.heap m).Block = some b → hh b ≠ h) →
    mapLoad s2.hash2node h = mapLoad s.hash2node h

/-- The path of `Parent` links between two nodes: `Path s a t l` says that `l`
lists the nodes from `a` (exclusive) down to `t` (inclusive), every node right
after its parent. -/
inductive Path (s : BlockCache) (a : Ptr) : Ptr → List Ptr → Prop
  | nil : Path s a a []
  | snoc {p t : Ptr} {l : List Ptr} : Path s a p l → (s.heap t).Parent = some p →
      Path s a t (l ++ [t])

/-- The blocks held by the nodes of a list, in order. -/
def blocksOf (s : BlockCache) (l : List Ptr) : List Block :=
  l.filterMap (fun n => (s.heap n).Block)

/-- What the calls of `flush` along the path down to the node `t` do to the
cache `s`, whether the chain store and the state database accept the blocks or
not: below `t` nothing changes but the parent of `t`, outside the linked tree
nothing changes, and blocks, numbers and types stay. -/
structure Swept (s : BlockCache) (t : Ptr) (s2 : BlockCache) : Prop where
  single_eq : s2.SingleTree = s.SingleTree
  fields : ∀ m, (s2.heap m).Block = (s.heap m).Block ∧
    (s2.heap m).Number = (s.heap m).Number ∧ (s2.heap m).Type_ = (s.heap m).Type_
  below : ∀ m, Reach s t m → (s2.heap m).Children = (s.heap m).Children ∧
    (m ≠ t → (s2.heap m).Parent = (s.heap m).Parent)
  outside : ∀ m, ¬ Reach s s.LinkedTree m →
    (s2.heap m).Parent = (s.heap m).Parent ∧ (s2.heap m).Children = (s.heap m).Children

/-- Whether `flush` gets the block of the node `m` into the chain store and
its tag flushed in the state database. -/
def stored (hh : Block → Hash) (pushOK : Block → Bool) (flushOK : Hash → Bool)
    (s : BlockCache) (m : Ptr) : Bool :=
  match (s.heap m).Block with
  | none => false
  | some b => pushOK b && flushOK (hh b)

/-- The last node of a path whose block is stored, `r` if there is none. -/
def lastStored (hh : Block → Hash) (pushOK : Block → Bool) (flushOK : Hash → Bool)
    (s : BlockCache) (r : Ptr) (path : List Ptr) : Ptr :=
  path.foldl (fun x m => if stored hh pushOK flushOK s m then m else x) r

/-! ## The invariant that every operation keeps -/

/-- The invariant that every operation of the cache keeps, whatever the chain
store and the state database answer: the roots and the values of the index are
allocated nodes; an index entry points to a node that holds a block with that
head hash; a child is an allocated node that holds a block; a node with a
parent is an allocated child of that allocated parent; the linked root has no
parent; the single root holds no block, has type `Single`, and its children
point back to it. -/
structure Sound (hh : Block → Hash) (s : BlockCache) : Prop where
  linked_lt : s.LinkedTree < s.next
  single_lt : s.SingleTree < s.next
  roots_ne : s.LinkedTree ≠ s.SingleTree
  index_lt : ∀ h p, mapLoad s.hash2node h = some p → p < s.next
  index_block : ∀ h p, mapLoad s.hash2node h = some p →
    ∃ b, (s.heap p).Block = some b ∧ hh b = h
  child_lt : ∀ p c, c ∈ (s.heap p).Children → c < s.next
  child_block : ∀ p c, c ∈ (s.heap p).Children → ∃ b, (s.heap c).Block = some b
  parent_child : ∀ c p, (s.heap c).Parent = some p → c ∈ (s.heap p).Children
  parent_lt : ∀ c p, (s.heap c).Parent = some p → p < s.next
  linked_parent : (s.heap s.LinkedTree).Parent = none
  single_block : (s.heap s.SingleTree).Block = none
  single_type : (s.heap s.SingleTree).Type_ = BCNType.Single
  single_child : ∀ c, c ∈ (s.heap s.SingleTree).Children →
    (s.heap c).Parent = some s.SingleTree

/-- The blocks of the cache are layered by `rank`: the block of a child ranks
its head hash above its parent hash, and names the head hash of the block of
its parent as its parent hash. -/
structure Layered (rank : Hash → Nat) (hh : Block → Hash) (s : BlockCache) : Prop where
  child_rank : ∀ p c b, c ∈ (s.heap p).Children → (s.heap c).Block = some b →
    rank b.Head.ParentHash < rank (hh b)
  edge_hash : ∀ p c bp bc, c ∈ (s.heap p).Children → (s.heap p).Block = some bp →
    (s.heap c).Block = some bc → bc.Head.ParentHash = hh bp

/-- The cache `s2` is the cache `s` with nodes detached: no node is allocated,
the single root, the blocks, the numbers and the types stay, child lists and
the index lose entries only, and a parent link stays or becomes nil. -/
structure Shrunk (s s2 : BlockCache) : Prop where
  next_eq : s2.next = s.next
  single_eq : s2.SingleTree = s.SingleTree
  fields : ∀ m, (s2.heap m).Block = (s.heap m).Block ∧
    (s2.heap m).Number = (s.heap m).Number ∧ (s2.heap m).Type_ = (s.heap m).Type_
  children : ∀ m c, c ∈ (s2.heap m).Children → c ∈ (s.heap m).Children
  parent : ∀ m, (s2.heap m).Parent = (s.heap m).Parent ∨ (s2.heap m).Parent = none
  index : ∀ h p, mapLoad s2.hash2node h = some p → mapLoad s.hash2node h = some p

/-- The caches that the operations of the package build from the cache
`NewBlockCache` makes on the block `lib`: `Add` of any block that ranks its
head hash above its parent hash, `Link` of any node but the single root, `Del`
and `Flush` of any node, with any answers of the chain store and the state
database; only calls that return count. -/
inductive Built (hh : Block → Hash) (rank : Hash → Nat) (lib : Option Block) :
    BlockCache → Prop
  | fresh : Built hh rank lib (NewBlockCache hh lib)
  | add {s : BlockCache} (blk : Block) (r : AddResult) : Built hh rank lib s →
      rank blk.Head.ParentHash < rank (hh blk) → Add hh s blk = some r →
      Built hh rank lib r.cache
  | link {s : BlockCache} (n : Ptr) : Built hh rank lib s → n ≠ s.SingleTree →
      Built hh rank lib (Link s (some n))
  | del {s : BlockCache} (fuel : Nat) (n : Ptr) (s2 : BlockCache) : Built hh rank lib s →
      Del hh fuel s (some n) = some s2 → Built hh rank lib s2
  | flush {s : BlockCache} (pushOK : Block → Bool) (flushOK : Hash → Bool) (fuel : Nat)
      (st : Store) (n : Ptr) (w : BlockCache × Store) : Built hh rank lib s →
      Flush hh pushOK flushOK fuel (s, st) (some n) = some w → Built hh rank lib w.1

/-! ## The consensus loops of `consensus/pob/pob.go`

`pob.go` reaches the cache through the package `core/blockcache`, which is not
among the sources.  The methods of it that `pob.go` calls (`Add`, `Link`, `Del`,
`Find`, `LinkedRoot`) are modelled from the spec, on the cache structure above
and from a cache that `NewBlockCache` has made; everything else that `pob.go`
calls outside the sources is a field of `Outside`. -/

/-- The type `global.TMode` (iota order). -/
inductive TMode
  | ModeNormal
  | ModeSync
  | ModeInit
deriving DecidableEq

/-- The message types of the p2p service that `pob.go` names. -/
inductive MessageType
  | NewBlock
  | SyncBlockResponse
  | NewBlockHash
  | NewBlockRequest
deriving DecidableEq

/-- An `error` value in `pob.go`: the two package variables, or an error
returned by `verifyBasics` or `verifyBlock`. -/
inductive PobErr
  | errSingle
  | errDuplicate
  | other (code : Nat)
deriving DecidableEq

/-- The message `msgpb.BlockInfo`. -/
structure BlockInfo where
  Number : Nat
  Hash : Hash
deriving DecidableEq

/-- A call of the p2p service: `Broadcast` or `SendToPeer`, with the data and
the message type. -/
inductive Sent
  | broadcast (data : List Nat) (typ : MessageType)
  | toPeer (peer : Nat) (data : List Nat) (typ : MessageType)
deriving DecidableEq

/-- A call of `pob.go` that changes the cache. -/
inductive CacheCall
  | add (blk : Block)
  | link (node : Option Ptr)
  | del (node : Option Ptr)
deriving DecidableEq

/-- What of the struct `PoB` and of its collaborators the loops read and
write: the cache; the tags made in `verifyDB`; `blockReqMap`, whose values are
timers (`true`) or nil (`false`); the slots marked in `staticProperty.SlotUsed`;
the calls of the p2p service so far; the blocks for which
`go p.broadcastBlockHash(blk)` has been started; the cache-changing calls made
so far; the time limits handed to `generateBlock` so far, in nanoseconds. -/
structure PoB where
  blockCache : BlockCache
  tags : List Hash
  blockReqMap : List (Hash × Bool)
  slotUsed : List Int
  sent : List Sent
  spawned : List Block
  calls : List CacheCall
  budgets : List Int

/-- The code that `pob.go` calls and that is not among the sources. -/
structure Outside where
  hh : Block → Hash
  accountID : String
  verifyBasics : Block → Option PobErr
  verifyBlock : List Hash → Block → Option Block → Option Block → Bool → Option PobErr
  checkout : List Hash → Hash → Bool
  updateWaterMark : BlockCache → Ptr → BlockCache
  updateLib : BlockCache → Ptr → BlockCache
  marshal : BlockInfo → Option (List Nat)
  unmarshal : List Nat → Option BlockInfo
  encode : Block → Option (List Nat)
  getBlockByHash : BlockCache → Hash → Option Block
  chainBlock : Hash → Option Block
  generateBlock : PoB → Int → Option Block
  witnessOfNanoSec : BlockCache → Int → String

/-- Modelled from the spec: `find(hash) → node | NotFound`.  The method `Find`
of the cache interface is not among the sources; it is the lookup in the hash
index, `none` standing for the error. -/
def Find (s : BlockCache) (hash : Hash) : Option Ptr :=
  (hmget s hash).1

/-- Modelled from the spec: `linked_root`, the most recent confirmed block.
The method `LinkedRoot` of the cache interface is not among the sources. -/
def LinkedRoot (s : BlockCache) : Ptr :=
  s.LinkedTree

/-- What `add` of the cache interface returns: the node, the status, and the
cache it leaves. -/
structure Added where
  node : Option Ptr
  status : CacheStatus
  cache : BlockCache

/-- Whether the node `c` holds a block that names `h` as its parent hash. -/
def waitsFor (s : BlockCache) (h : Hash) (c : Ptr) : Bool :=
  match (s.heap c).Block with
  | some b => decide (b.Head.ParentHash = h)
  | none => false

/-- Modelled from the spec: the attachment of a new node in `add`.  The package
`core/blockcache` is not among the sources.  A node is allocated for the block
with the given type, with `number` a copy of `head.number` and `witness` the
producer of the block; it becomes a child of `fa` and is indexed under the head
hash of the block. -/
def cacheAttach (hh : Block → Hash) (s : BlockCache) (fa : Ptr) (typ : BCNType)
    (blk : Block) : BlockCache :=
  let node : BlockCacheNode :=
    { BlockCacheNode.zero with
      Block := some blk, Parent := some fa, Type_ := typ, Number := blk.Head.Number,
      Witness := blk.Head.Witness }
  let s1 : BlockCache := { s with heap := Function.update s.heap s.next node, next := s.next + 1 }
  let s2 := s1.store fa { s1.heap fa with Children := (s1.heap fa).Children ++ [s.next] }
  hmset s2 (hh blk) s.next

/-- Modelled from the spec: merge-single, "scan `single_root`'s children for
any orphan whose `parent_hash` equals the new node's `head_hash` and reparent
it".  The package `core/blockcache` is not among the sources.  Each of the
orphans listed leaves the children of the single root and becomes a child of
the node `n`. -/
def cacheMerge (s : BlockCache) (n : Ptr) : List Ptr → BlockCache
  | [] => s
  | c :: rest => cacheMerge (adopted s n c) n rest

/-- Modelled from the spec: `add(block) → (node, status)`.  The method `Add`
of the package `core/blockcache` is not among the sources.  The status is
`Duplicate` (with the node found) if the head hash is already indexed.  If the
parent hash is in the index, the new node is attached under that node and
inherits its type; the status is `Extend` if the parent had no children, else
`Fork`.  Else the new node is attached under the single root with type
`Single`, and the status is `NotFound`.  On attach every orphan that waited
among the children of the single root for the head hash of the new node is
reparented under the new node. -/
def cacheAdd (hh : Block → Hash) (s : BlockCache) (blk : Block) : Added :=
  match mapLoad s.hash2node (hh blk) with
  | some n => { node := some n, status := CacheStatus.Duplicate, cache := s }
  | none =>
    let waiting := (s.heap s.SingleTree).Children.filter (waitsFor s (hh blk))
    match mapLoad s.hash2node blk.Head.ParentHash with
    | some p =>
      { node := some s.next
        status := if (s.heap p).Children = [] then CacheStatus.Extend else CacheStatus.Fork
        cache := cacheMerge (cacheAttach hh s p (s.heap p).Type_ blk) s.next waiting }
    | none =>
      { node := some s.next
        status := CacheStatus.NotFound
        cache := cacheMerge (cacheAttach hh s s.SingleTree BCNType.Single blk) s.next waiting }

/-- The lexicographic order on byte strings. -/
def hashLt : Hash → Hash → Bool
  | [], [] => false
  | [], _ :: _ => true
  | _ :: _, [] => false
  | a :: x, b :: y => decide (a < b) || (decide (a = b) && hashLt x y)

/-- The head hash of the block of a node; the empty string for a node without
a block. -/
def nodeHash (hh : Block → Hash) (s : BlockCache) (n : Ptr) : Hash :=
  match (s.heap n).Block with
  | some b => hh b
  | none => []

/-- Modelled from the spec: "recomputes `head` as the max-number leaf.  Ties
broken by lexicographically smaller `head_hash`".  The package
`core/blockcache` is not among the sources.  The search starts from the leaf
`start`. -/
def bestLeaf (hh : Block → Hash) (s : BlockCache) (start : Ptr × Nat)
    (leaves : List (Ptr × Nat)) : Ptr :=
  (leaves.foldl
    (fun (acc : Ptr × Nat) (kv : Ptr × Nat) =>
      if kv.2 > acc.2 ∨ (kv.2 = acc.2 ∧ hashLt (nodeHash hh s kv.1) (nodeHash hh s acc.1) = true)
      then kv else acc)
    start).1

/-- Modelled from the spec: `link(node)` "sets `type = Linked`, removes the
node's parent from `leaves` (if present), adds node to `leaves`, and recomputes
`head` as the max-number leaf".  The method `Link` of the package
`core/blockcache` is not among the sources.  A nil node is left alone. -/
def cacheLink (hh : Block → Hash) (s : BlockCache) (node : Option Ptr) : BlockCache :=
  match node with
  | none => s
  | some n =>
    let s1 := s.store n { s.heap n with Type_ := BCNType.Linked }
    let leaves := leafSet (leafDelete s1.Leaf (s1.heap n).Parent) n (s1.heap n).Number
    { s1 with Leaf := leaves, Head := bestLeaf hh s1 (n, (s1.heap n).Number) leaves }

/-- Modelled from the spec: what `del` does to one node, "detaches from parent
by index, then drops from the hash index", and "removes from index and
leaves".  The package `core/blockcache` is not among the sources.  The node
leaves the children of its parent and has no parent any more, no entry of the
index points to it, and it is no leaf. -/
def cacheDrop (s : BlockCache) (n : Ptr) : BlockCache :=
  let s1 :=
    match (s.heap n).Parent with
    | none => s
    | some q => s.store q { s.heap q with Children := (s.heap q).Children.filter (fun x => x != n) }
  let s2 := s1.store n { s1.heap n with Parent := none }
  { s2 with hash2node := s2.hash2node.filter (fun kv => kv.2 != n),
            Leaf := leafDelete s2.Leaf (some n) }

/-- One call of `del` after the other on the nodes of a list. -/
def cacheDelEach (del : BlockCache → Ptr → Option BlockCache) :
    List Ptr → BlockCache → Option BlockCache
  | [], s => some s
  | c :: rest, s =>
    match del s c with
    | none => none
    | some s1 => cacheDelEach del rest s1

/-- Modelled from the spec: `del(node)`, "recursive delete; removes from index
and leaves", which "walks children first, then detaches from parent by index,
then drops from the hash index".  The method `Del` of the package
`core/blockcache` is not among the sources.  The fuel bounds the depth of the
recursion (`none` when it runs out); a nil node is left alone. -/
def cacheDel : Nat → BlockCache → Option Ptr → Option BlockCache
  | 0, _, _ => none
  | _ + 1, s, none => some s
  | fuel + 1, s, some n =>
    match cacheDelEach (fun x c => cacheDel fuel x (some c)) (s.heap n).Children s with
    | none => none
    | some s1 => some (cacheDrop s1 n)

/-- `blockReqMap.Load`. -/
def reqLoad : List (Hash × Bool) → Hash → Option Bool
  | [], _ => none
  | (k, v) :: rest, h => if k = h then some v else reqLoad rest h

/-- `blockReqMap.Store`. -/
def reqStore : List (Hash × Bool) → Hash → Bool → List (Hash × Bool)
  | [], h, v => [(h, v)]
  | (k, v0) :: rest, h, v => if k = h then (k, v) :: rest else (k, v0) :: reqStore rest h v

/-- `blockReqMap.Delete`. -/
def reqDelete (m : List (Hash × Bool)) (h : Hash) : List (Hash × Bool) :=
  m.filter (fun kv => kv.1 != h)

/-- The durations `genBlockTime` and `last2GenBlockTime`, in nanoseconds. -/
def genBlockTime : Int := 250 * 1000000

/-- The duration `last2GenBlockTime`, in nanoseconds. -/
def last2GenBlockTime : Int := 30 * 1000000

/-- The method `updateInfo`, as far as the cache goes: the effects of
`updateWaterMark` and `updateLib`. -/
def updateInfo (o : Outside) (s : BlockCache) (node : Ptr) : BlockCache :=
  o.updateLib (o.updateWaterMark s node) node

/-- A Go loop `for child := range node.Children` over the state of `PoB`. -/
def rangePob (body : PoB → Ptr → Option PoB) (par : Ptr) : List Ptr → PoB → Option PoB
  | [], p => some p
  | ch :: rest, p =>
    if ch ∈ (p.blockCache.heap par).Children then
      match body p ch with
      | none => none
      | some p1 => rangePob body par rest p1
    else rangePob body par rest p

/-- The method `addExistingBlock`, with fuel for the depth of the recursion
and for `Del`; the calls `Find`, `Del`, `Link` and `LinkedRoot` of the cache
are the ones modelled from the spec.  `none` when a nil node or a nil block is
dereferenced, when
`node.Head.Witness[:10]` is out of range, or when the fuel runs out.  The log
line for a block of another witness slices `node.Head.Witness[:10]` and reads
the head of the block of the linked root. -/
def addExistingBlock (o : Outside) :
    Nat → PoB → Block → Option Block → Bool → Option (PoB × Option PobErr)
  | 0, _, _, _, _ => none
  | fuel + 1, p, blk, parentBlock, replay =>
    let node := Find p.blockCache (o.hh blk)
    let ok := o.checkout p.tags (o.hh blk)
    let verr : Option PobErr :=
      if ok then none
      else o.verifyBlock p.tags blk parentBlock
        (p.blockCache.heap (LinkedRoot p.blockCache)).Block replay
    match verr with
    | some err =>
      match cacheDel fuel p.blockCache node with
      | none => none
      | some c => some ({ p with blockCache := c, calls := p.calls ++ [CacheCall.del node] },
          some err)
    | none =>
      let p1 : PoB := if ok then p else { p with tags := p.tags ++ [o.hh blk] }
      let p2 : PoB := { p1 with blockCache := cacheLink o.hh p1.blockCache node,
                                calls := p1.calls ++ [CacheCall.link node] }
      match node with
      | none => none
      | some n =>
        let p3 : PoB := { p2 with blockCache := updateInfo o p2.blockCache n }
        match (p3.blockCache.heap n).Block with
        | none => none
        | some nb =>
          if nb.Head.Witness ≠ o.accountID ∧
              (nb.Head.Witness.utf8ByteSize < 10 ∨
                (p3.blockCache.heap (LinkedRoot p3.blockCache)).Block = none) then none
          else
            match rangePob
                (fun q child =>
                  match (q.blockCache.heap child).Block with
                  | none => none
                  | some cb =>
                    (addExistingBlock o fuel q cb (q.blockCache.heap n).Block replay).map
                      Prod.fst)
                n (p3.blockCache.heap n).Children p3 with
            | none => none
            | some p4 => some (p4, none)

/-- The method `handleRecvBlock`; the calls `Find` and `Add` of the cache are
the ones modelled from the spec. -/
def handleRecvBlock (o : Outside) (fuel : Nat) (p : PoB) (blk : Block) :
    Option (PoB × Option PobErr) :=
  match Find p.blockCache (o.hh blk) with
  | some _ => some (p, some PobErr.errDuplicate)
  | none =>
    match o.verifyBasics blk with
    | some err => some (p, some err)
    | none =>
      let parent := Find p.blockCache blk.Head.ParentHash
      let p1 : PoB := { p with blockCache := (cacheAdd o.hh p.blockCache blk).cache,
                               calls := p.calls ++ [CacheCall.add blk] }
      match parent with
      | none => some (p1, some PobErr.errSingle)
      | some par =>
        if (p1.blockCache.heap par).Type_ = BCNType.Linked then
          addExistingBlock o fuel p1 blk (p1.blockCache.heap par).Block false
        else some (p1, some PobErr.errSingle)

/-- The method `broadcastBlockHash`, run with the mode it reads. -/
def broadcastBlockHash (o : Outside) (mode : TMode) (p : PoB) (blk : Block) : PoB :=
  match o.marshal { Number := blk.Head.Number, Hash := o.hh blk } with
  | none => p
  | some b =>
    if mode = TMode.ModeNormal then
      { p with sent := p.sent ++ [Sent.broadcast b MessageType.NewBlockHash] }
    else p

/-- The method `doVerifyBlock`, run with the mode it reads.  The statement
`go p.broadcastBlockHash(blk)` records the block in `spawned`. -/
def doVerifyBlock (o : Outside) (fuel : Nat) (mode : TMode) (p : PoB) (blk : Block)
    (p2pType : MessageType) : Option PoB :=
  if mode = TMode.ModeInit then some p
  else
    match p2pType with
    | MessageType.NewBlock =>
      let p1 : PoB :=
        if (reqLoad p.blockReqMap (o.hh blk)).isSome then p
        else { p with blockReqMap := reqStore p.blockReqMap (o.hh blk) false }
      match handleRecvBlock o fuel p1 blk with
      | none => none
      | some r =>
        let p2 : PoB := { r.1 with spawned := r.1.spawned ++ [blk] }
        some { p2 with blockReqMap := reqDelete p2.blockReqMap (o.hh blk) }
    | MessageType.SyncBlockResponse =>
      match handleRecvBlock o fuel p blk with
      | none => none
      | some r => some r.1
    | _ => some p

/-- The method `handleRecvBlockHash`. -/
def handleRecvBlockHash (o : Outside) (p : PoB) (blkInfo : BlockInfo) (peerID : Nat) : PoB :=
  match reqLoad p.blockReqMap blkInfo.Hash with
  | some _ => p
  | none =>
    match Find p.blockCache blkInfo.Hash with
    | some _ => p
    | none =>
      match o.marshal blkInfo with
      | none => p
      | some bytes =>
        { p with blockReqMap := reqStore p.blockReqMap blkInfo.Hash true,
                 sent := p.sent ++ [Sent.toPeer peerID bytes MessageType.NewBlockRequest] }

/-- The method `handleBlockQuery`. -/
def handleBlockQuery (o : Outside) (p : PoB) (rh : BlockInfo) (peerID : Nat) : PoB :=
  let blk : Option Block :=
    match o.getBlockByHash p.blockCache rh.Hash with
    | some b => some b
    | none => o.chainBlock rh.Hash
  match blk with
  | none => p
  | some b =>
    match o.encode b with
    | none => p
    | some bytes => { p with sent := p.sent ++ [Sent.toPeer peerID bytes MessageType.NewBlock] }

/-- A message taken from one of the two channels of `messageLoop`. -/
inductive Incoming
  | blockHash (data : List Nat) (src : Nat)
  | queryBlock (data : List Nat) (src : Nat)

/-- One round of the `select` of `messageLoop` that receives a message, run
with the mode it reads. -/
def messageLoop (o : Outside) (mode : TMode) (p : PoB) : Incoming → PoB
  | Incoming.blockHash data src =>
    if mode = TMode.ModeNormal then
      match o.unmarshal data with
      | none => p
      | some blkInfo => handleRecvBlockHash o p blkInfo src
    else p
  | Incoming.queryBlock data src =>
    if mode = TMode.ModeNormal then
      match o.unmarshal data with
      | none => p
      | some rh => handleBlockQuery o p rh src
    else p

/-- The method `gen`; the time limit that it hands to `generateBlock` is
recorded in `budgets`.  `printStatistics` slices `p.account.ID[:10]` and reads
the head of the block of the linked root. -/
def gen (o : Outside) (fuel : Nat) (continuousNum : Int) (p : PoB) (num : Int) : Option PoB :=
  let limitTime : Int := if num ≥ continuousNum - 2 then last2GenBlockTime else genBlockTime
  let p0 : PoB := { p with budgets := p.budgets ++ [limitTime] }
  match o.generateBlock p limitTime with
  | none => some p0
  | some blk =>
    if o.accountID.utf8ByteSize < 10 then none
    else
      match (p0.blockCache.heap (LinkedRoot p0.blockCache)).Block with
      | none => none
      | some _ =>
        match o.encode blk with
        | none => some p0
        | some blkByte =>
          let p1 : PoB :=
            { p0 with sent := p0.sent ++ [Sent.broadcast blkByte MessageType.NewBlock] }
          match handleRecvBlock o fuel p1 blk with
          | none => none
          | some r => some r.1

/-- The loop `for num := 0; num < continuousNum; num++` of `scheduleLoop`,
from `num` on, `k` bounding the rounds left; `t` is the time read before the
loop. -/
def burst (o : Outside) (fuel : Nat) (continuousNum : Int) (t : Int) :
    Nat → Int → PoB → Option PoB
  | 0, _, p => some p
  | k + 1, num, p =>
    if num < continuousNum then
      match gen o fuel continuousNum p num with
      | none => none
      | some p1 =>
        if num = continuousNum - 1 then some p1
        else if o.witnessOfNanoSec p1.blockCache t ≠ o.accountID then some p1
        else burst o fuel continuousNum t k (num + 1) p1
    else some p

/-- One round of the `select` of `scheduleLoop` in which the timer fires, run
with the mode it reads and the time `t` (nanoseconds) it reads. -/
def scheduleLoop (o : Outside) (fuel : Nat) (continuousNum : Int) (mode : TMode) (t : Int)
    (p : PoB) : Option PoB :=
  if (t / 1000000000) ∉ p.slotUsed ∧ mode = TMode.ModeNormal ∧
      o.witnessOfNanoSec p.blockCache t = o.accountID then
    burst o fuel continuousNum t continuousNum.toNat 0
      { p with slotUsed := (t / 1000000000) :: p.slotUsed }
  else some p

/-- The loop of `scheduleLoop` as the specification words it: after the tick
that follows round `num`, the witness of the wall-clock time `now num` of that
tick is compared with the local identity.  It differs from `burst` in the
argument of `witnessOfNanoSec` only. -/
def burstWallClock (o : Outside) (fuel : Nat) (continuousNum : Int) (now : Int → Int) :
    Nat → Int → PoB → Option PoB
  | 0, _, p => some p
  | k + 1, num, p =>
    if num < continuousNum then
      match gen o fuel continuousNum p num with
      | none => none
      | some p1 =>
        if num = continuousNum - 1 then some p1
        else if o.witnessOfNanoSec p1.blockCache (now num) ≠ o.accountID then some p1
        else burstWallClock o fuel continuousNum now k (num + 1) p1
    else some p

/-! ## The states of the cache in `pob.go` -/

/-- No entry of the index points to the node. -/
def Unindexed (s : BlockCache) (x : Ptr) : Prop :=
  ∀ h, (h, x) ∉ s.hash2node

/-- The invariant of the cache that `pob.go` works on: the cache is sound;
every child points back to its parent, holds a block and is indexed under the
head hash of its block; no node occurs twice in a child list and no hash twice
among the keys of the index; the linked root holds a block. -/
structure Tidy (hh : Block → Hash) (s : BlockCache) extends Sound hh s : Prop where
  child_parent : ∀ p c, c ∈ (s.heap p).Children → (s.heap c).Parent = some p
  child_indexed : ∀ p c b, c ∈ (s.heap p).Children → (s.heap c).Block = some b →
    mapLoad s.hash2node (hh b) = some c
  children_nodup : ∀ p, (s.heap p).Children.Nodup
  index_nodup : (s.hash2node.map Prod.fst).Nodup
  linked_block : ∃ b, (s.heap s.LinkedTree).Block = some b

/-- The cache `s2` has the trees and the index of the cache `s`: the same
allocation, roots and index, and in every node the same block, parent, children
and type. -/
structure Steady (s s2 : BlockCache) : Prop where
  next_eq : s2.next = s.next
  linked_eq : s2.LinkedTree = s.LinkedTree
  single_eq : s2.SingleTree = s.SingleTree
  index_eq : s2.hash2node = s.hash2node
  block : ∀ x, (s2.heap x).Block = (s.heap x).Block
  parent : ∀ x, (s2.heap x).Parent = (s.heap x).Parent
  children : ∀ x, (s2.heap x).Children = (s.heap x).Children
  type : ∀ x, (s2.heap x).Type_ = (s.heap x).Type_

/-- The cache `s2` is a later state of the cache `s` within a call of
`addExistingBlock`: the allocation, the roots and the blocks are the same, a
node of type `Linked` has stayed so, and child lists have lost nodes only. -/
structure Later (s s2 : BlockCache) : Prop where
  next_eq : s2.next = s.next
  linked_eq : s2.LinkedTree = s.LinkedTree
  single_eq : s2.SingleTree = s.SingleTree
  block : ∀ m, (s2.heap m).Block = (s.heap m).Block
  linked : ∀ m, (s.heap m).Type_ = BCNType.Linked → (s2.heap m).Type_ = BCNType.Linked
  children : ∀ u c, c ∈ (s2.heap u).Children → c ∈ (s.heap u).Children

/-- The nodes outside the set `T` are in `s2` as they were in `s`: they have
the parent and the type they had, and they are in the child lists they were
in. -/
structure Apart (s s2 : BlockCache) (T : Ptr → Prop) : Prop where
  fields : ∀ m, ¬ T m → (s2.heap m).Parent = (s.heap m).Parent ∧
    (s2.heap m).Type_ = (s.heap m).Type_
  kept : ∀ u c, c ∈ (s.heap u).Children → ¬ T c → c ∈ (s2.heap u).Children

/-- The block passes the execution check whenever `addExistingBlock` makes it:
its state is checked out from a tag, or `verifyBlock` accepts it. -/
def passes (o : Outside) (b : Block) : Prop :=
  ∀ tags pb lb replay, o.checkout tags (o.hh b) = true ∨ o.verifyBlock tags b pb lb replay = none

/-- The log line of `addExistingBlock` can be written for the block: the
witness is the local account, for which no line is written, or a string of at
least ten bytes, of which `[:10]` can be sliced. -/
def logOK (o : Outside) (b : Block) : Prop :=
  b.Head.Witness = o.accountID ∨ 10 ≤ b.Head.Witness.utf8ByteSize

/-- The state of `PoB` in `addExistingBlock` after the calls of `Link` and of
`updateInfo` for the node `n` that holds `blk`. -/
def afterLink (o : Outside) (p : PoB) (blk : Block) (n : Ptr) : PoB :=
  let p1 : PoB := if o.checkout p.tags (o.hh blk) then p else { p with tags := p.tags ++ [o.hh blk] }
  { p1 with blockCache := updateInfo o (cacheLink o.hh p1.blockCache (some n)) n,
            calls := p1.calls ++ [CacheCall.link (some n)] }

/-- What a call of `addExistingBlock` for the block of the node `x` that
returns `err` leaves of the cache `s`: a tidy later state `s2` in which the
nodes that were not below `x` are as they were; if the call has returned nil,
every node below `x` has type `Linked`, `x` is where it was, and every child
of `x` whose block passes the execution check is still a child of `x`, with
type `Linked`; if it has returned an error, `x` is a child of no node. -/
structure Outcome (o : Outside) (s s2 : BlockCache) (x : Ptr) (err : Option PobErr) : Prop where
  tidy : Tidy o.hh s2
  later : Later s s2
  apart : Apart s s2 (Reach s x)
  linked : err = none → ∀ m, Reach s2 x m → (s2.heap m).Type_ = BCNType.Linked
  kept : err = none → (s2.heap x).Parent = (s.heap x).Parent ∧
    ∀ u, x ∈ (s.heap u).Children → x ∈ (s2.heap u).Children
  promoted : err = none → ∀ c cb, c ∈ (s.heap x).Children → (s.heap c).Block = some cb →
    passes o cb → c ∈ (s2.heap x).Children ∧ (s2.heap c).Parent = some x ∧
      (s2.heap c).Type_ = BCNType.Linked
  gone : err ≠ none → ∀ u, x ∉ (s2.heap u).Children

/-! ## The loops of `pob.go` side by side

`blockLoop`, `verifyLoop` and `scheduleLoop` run as goroutines of their own.
The node is a state with a step function: one step for each channel operation
and for each call of `doVerifyBlock` and of `gen`, which run as a whole
(`handleRecvBlock` holds the lock `p.mu`).  The steps of the loops interleave
in any order; a read of the field `quitGenerateMode` sees the last write. -/

/-- Where `verifyLoop` stands: at the outer `select`; at the inner `select`
with a message taken from `chVerifyBlock`; or past the inner `select`, about
to call `doVerifyBlock`. -/
inductive VerifyAt
  | idle
  | gate (blk : Block) (typ : MessageType)
  | passed (blk : Block) (typ : MessageType)
deriving DecidableEq

/-- Where `scheduleLoop` stands: at the `select`; in the loop of a burst that
started at time `t`, before round `num`; or past the loop, about to close
`quitGenerateMode`. -/
inductive ScheduleAt
  | idle
  | round (t : Int) (num : Int)
  | closing
deriving DecidableEq

/-- The node with its loops `blockLoop`, `verifyLoop` and `scheduleLoop`
running side by side: the state of `PoB`, the messages in `chVerifyBlock`,
whether the channel in `quitGenerateMode` is closed, and where the two loops
stand. -/
structure Node where
  pob : PoB
  chVerifyBlock : List (Block × MessageType)
  gateClosed : Bool
  verify : VerifyAt
  schedule : ScheduleAt

/-- A step of one of the loops.  `recv`: `blockLoop` sends a decoded message
to `chVerifyBlock`.  `take`, `pass`, `verify`: `verifyLoop` receives a message
from `chVerifyBlock`, receives from `quitGenerateMode`, calls `doVerifyBlock`
(with the mode it reads).  `start`, `gen`, `close`: `scheduleLoop` tests the
condition of a burst at time `t` (with the mode it reads) and, if it holds,
marks the slot and makes a new channel; runs one round of the loop; closes
the channel. -/
inductive Event
  | recv (blk : Block) (typ : MessageType)
  | take
  | pass
  | verify (mode : TMode)
  | start (mode : TMode) (t : Int)
  | gen
  | close
deriving DecidableEq

/-- One step of the node; `none` when the loop cannot take the step in this
state (a receive that blocks, a send to a full channel), or when the step
faults. -/
def step (o : Outside) (fuel : Nat) (continuousNum : Int) (s : Node) : Event → Option Node
  | Event.recv blk typ =>
    if s.chVerifyBlock.length < 1024 then
      some { s with chVerifyBlock := s.chVerifyBlock ++ [(blk, typ)] }
    else none
  | Event.take =>
    match s.verify, s.chVerifyBlock with
    | VerifyAt.idle, vbm :: rest =>
      some { s with chVerifyBlock := rest, verify := VerifyAt.gate vbm.1 vbm.2 }
    | _, _ => none
  | Event.pass =>
    match s.verify with
    | VerifyAt.gate blk typ =>
      if s.gateClosed then some { s with verify := VerifyAt.passed blk typ } else none
    | _ => none
  | Event.verify mode =>
    match s.verify with
    | VerifyAt.passed blk typ =>
      match doVerifyBlock o fuel mode s.pob blk typ with
      | none => none
      | some p => some { s with pob := p, verify := VerifyAt.idle }
    | _ => none
  | Event.start mode t =>
    match s.schedule with
    | ScheduleAt.idle =>
      if (t / 1000000000) ∉ s.pob.slotUsed ∧ mode = TMode.ModeNormal ∧
          o.witnessOfNanoSec s.pob.blockCache t = o.accountID then
        some { s with pob := { s.pob with slotUsed := (t / 1000000000) :: s.pob.slotUsed }
                      gateClosed := false
                      schedule := ScheduleAt.round t 0 }
      else some s
    | _ => none
  | Event.gen =>
    match s.schedule with
    | ScheduleAt.round t num =>
      if num < continuousNum then
        match gen o fuel continuousNum s.pob num with
        | none => none
        | some p1 =>
          if num = continuousNum - 1 then some { s with pob := p1, schedule := ScheduleAt.closing }
          else if o.witnessOfNanoSec p1.blockCache t ≠ o.accountID then
            some { s with pob := p1, schedule := ScheduleAt.closing }
          else some { s with pob := p1, schedule := ScheduleAt.round t (num + 1) }
      else some { s with schedule := ScheduleAt.closing }
    | _ => none
  | Event.close =>
    match s.schedule with
    | ScheduleAt.closing => some { s with gateClosed := true, schedule := ScheduleAt.idle }
    | _ => none

/-- A sequence of steps of the node. -/
def run (o : Outside) (fuel : Nat) (continuousNum : Int) : Node → List Event → Option Node
  | s, [] => some s
  | s, ev :: rest =>
    match step o fuel continuousNum s ev with
    | none => none
    | some s1 => run o fuel continuousNum s1 rest

/-- The number of calls of `doVerifyBlock` in a sequence of steps. -/
def applied (evs : List Event) : Nat :=
  (evs.filter (fun ev => match ev with
    | Event.verify _ => true
    | _ => false)).length

/-- The node right after `New`, which closes `quitGenerateMode`. -/
def newNode (p : PoB) : Node :=
  { pob := p, chVerifyBlock := [], gateClosed := true, verify := VerifyAt.idle,
    schedule := ScheduleAt.idle }

/-- The number of messages that `verifyLoop` holds past the gate: 1 if it is
about to call `doVerifyBlock`, 0 otherwise. -/
def pastGate : VerifyAt → Nat
  | VerifyAt.passed _ _ => 1
  | _ => 0

/-! ## Sample data -/

/-- A sample head-hash function: the parent hash with the block number and
the time in front, so a block never hashes to its own parent hash. -/
def sampleHash (b : Block) : Hash :=
  b.Head.Number :: b.Head.Time.toNat :: b.Head.ParentHash

/-- A sample block with the given number, time and parent hash. -/
def mkBlock (number : Nat) (time : Int) (parent : Hash) : Block :=
  { Head := { Number := number, Time := time, ParentHash := parent, Witness := "" }, Txs := [] }

/-- The sample last irreversible block. -/
def libBlock : Block := mkBlock 5 0 []

/-- A sample block 6 on top of `libBlock`. -/
def block6 : Block := mkBlock 6 0 (sampleHash libBlock)

/-- A sample block 7 on top of `block6`. -/
def block7 : Block := mkBlock 7 0 (sampleHash block6)

/-- A second block 7 on top of `block6` (a later time stamp). -/
def block7b : Block := mkBlock 7 1 (sampleHash block6)

/-- A second block 6 on top of `libBlock` (a later time stamp). -/
def block6b : Block := mkBlock 6 1 (sampleHash libBlock)

/-- A sample block 8 on top of `block7`. -/
def block8 : Block := mkBlock 8 0 (sampleHash block7)

/-- The assignment `n.Number = v` of a caller to the exported field. -/
def setNumber (s : BlockCache) (n : Ptr) (v : Nat) : BlockCache :=
  s.store n { s.heap n with Number := v }

/-- A chain store and state database that have seen nothing yet. -/
def emptyStore : Store := { chain := [], flushed := [] }

/-- The fresh sample cache: its linked root holds `libBlock`. -/
def freshCache : BlockCache := NewBlockCache sampleHash (some libBlock)

/-- A sample of the code outside the sources: every check passes, a state is
checked out if it has been tagged, `updateInfo` leaves the cache alone, a block
info is encoded as its number followed by its hash, a block as its head hash;
the node produces nothing itself. -/
def sampleOutside : Outside :=
  { hh := sampleHash
    accountID := "producer-0001"
    verifyBasics := fun _ => none
    verifyBlock := fun _ _ _ _ _ => none
    checkout := fun tags h => decide (h ∈ tags)
    updateWaterMark := fun s _ => s
    updateLib := fun s _ => s
    marshal := fun i => some (i.Number :: i.Hash)
    unmarshal := fun d =>
      match d with
      | [] => none
      | n :: h => some { Number := n, Hash := h }
    encode := fun b => some (sampleHash b)
    getBlockByHash := fun s h =>
      match Find s h with
      | none => none
      | some n => (s.heap n).Block
    chainBlock := fun _ => none
    generateBlock := fun _ _ => none
    witnessOfNanoSec := fun _ _ => "" }

/-- The state of `PoB` right after `New`, around a given cache. -/
def newPoB (s : BlockCache) : PoB :=
  { blockCache := s, tags := [], blockReqMap := [], slotUsed := [], sent := [], spawned := [],
    calls := [], budgets := [] }

/-- A block with the witness field filled in. -/
def signedBy (w : String) (b : Block) : Block :=
  { b with Head := { b.Head with Witness := w } }

/-- The blocks handed to `handleRecvBlock` one after the other; `none` if a
call faults. -/
def recvAll (o : Outside) (fuel : Nat) : PoB → List Block → Option PoB
  | p, [] => some p
  | p, b :: rest =>
    match handleRecvBlock o fuel p b with
    | none => none
    | some r => recvAll o fuel r.1 rest

/-- The name of the witness of the sample blocks that arrive from peers. -/
def sampleWitness : String := "witness-0001"

/-- Block 6, block 7 and the second block 7 as they arrive from a peer. -/
def peer6 : Block := signedBy sampleWitness block6

/-- Block 7 as it arrives from a peer. -/
def peer7 : Block := signedBy sampleWitness block7

/-- The second block 7 as it arrives from a peer. -/
def peer7b : Block := signedBy sampleWitness block7b

/-- A sample `generateBlock`: a block of the account `producer-0001` on top of
the block of the only leaf of the cache. -/
def sampleGenerate (p : PoB) : Option Block :=
  match p.blockCache.Leaf with
  | [leaf] =>
    match (p.blockCache.heap leaf.1).Block with
    | some b => some (signedBy "producer-0001" (mkBlock (b.Head.Number + 1) 0 (sampleHash b)))
    | none => none
  | _ => none

/-- A sample of the code outside the sources for a producing node: as
`sampleOutside`, but slots last three seconds, the slots with an even number
belong to the local account `producer-0001` and the others to `witness-0001`,
and `generateBlock` is `sampleGenerate`. -/
def producerOutside : Outside :=
  { sampleOutside with
    generateBlock := fun p _ => sampleGenerate p
    witnessOfNanoSec := fun _ t =>
      if (t / 3000000000) % 2 = 0 then "producer-0001" else "witness-0001" }

/-- Wall-clock times of the ticks of a burst that starts at one millisecond
and whose rounds take one second each, more than `subSlotTime`: the tick after
round `num` is received when the round ends, at `num + 1` seconds and one
millisecond. -/
def slowTicks (num : Int) : Int :=
  1000000000 * (num + 1) + 1000000

/-- The number of blocks that the node has broadcast. -/
def blocksSent (p : PoB) : Nat :=
  (p.sent.filter (fun m => match m with
    | Sent.broadcast _ MessageType.NewBlock => true
    | _ => false)).length

/-- The sample node in a burst: block 6 has come from a peer and `verifyLoop`
is past the inner `select` with it, when `scheduleLoop` starts a burst at one
millisecond. -/
def burstNode : Node :=
  (run producerOutside 10 3 (newNode (newPoB freshCache))
    [Event.recv peer6 MessageType.NewBlock, Event.take, Event.pass,
     Event.start TMode.ModeNormal 1000000]).getD (newNode (newPoB freshCache))

/-- Steps of the sample node during the burst: block 6 is applied, block 7
comes from a peer and is taken from the queue, and the producer runs a round
of its loop. -/
def burstEvents : List Event :=
  [Event.verify TMode.ModeNormal, Event.recv peer7 MessageType.NewBlock, Event.take, Event.gen]

/-- A head-hash rank for `sampleHash`: the length of the hash. -/
def sampleRank (h : Hash) : Nat := h.length

/-- The sample cache after a flush: blocks 6 and 7 are added to the fresh cache
(nodes 2 and 3) and the cache is flushed to node 2, the chain store and the
state database accepting everything.  The linked root is node 2 and has no
parent, but node 0, the former root, still lists node 2 among its children. -/
def flushedCache : BlockCache :=
  ((Flush sampleHash (fun _ => true) (fun _ => true) 5
    ((addAll sampleHash freshCache [block6, block7]).getD freshCache, emptyStore)
    (some 2)).getD (freshCache, emptyStore)).1

/-- The sample cache after a flush, with block 8 added on top of block 7
(node 4 below node 3 below the linked root, node 2). -/
def flushedCache8 : BlockCache :=
  (addAll sampleHash flushedCache [block8]).getD flushedCache

/-- The sample cache after a flush in which the chain store refuses block 6:
blocks 6 and 7 are added to the fresh cache (nodes 2 and 3) and the cache is
flushed to node 3. -/
def gapCache : BlockCache × Store :=
  (Flush sampleHash (fun b => b.Head.Number != 6) (fun _ => true) 5
    ((addAll sampleHash freshCache [block6, block7]).getD freshCache, emptyStore)
    (some 3)).getD (freshCache, emptyStore)

/-- The sample cache of `pob.go` with block 6 and block 7 in it (nodes 2 and
3, node 3 below node 2 below the linked root). -/
def cachedTwo : BlockCache :=
  (cacheAdd sampleHash (cacheAdd sampleHash freshCache block6).cache block7).cache

/-- The sample cache of `pob.go` in which block 7 and the second block 7 wait
under the single root for block 6 (nodes 2 and 3). -/
def waitingCache : BlockCache :=
  (cacheAdd sampleHash (cacheAdd sampleHash freshCache peer7).cache peer7b).cache

end blockcache

/-! ## What the Go language defines

A Go string is the list of its bytes.  A value of type `int64` is an integer,
and an operation on such values wraps modulo `2 ^ 64`. -/

namespace golang

/-- A Go string: its bytes. -/
abbrev GoString := List Nat

/-- The value of type `int64` with the bit pattern of the integer `x`. -/
def wrap64 (x : Int) : Int :=
  (x + 2 ^ 63) % 2 ^ 64 - 2 ^ 63

/-- The conversion `uint64(x)` of an `int64`. -/
def toUint64 (x : Int) : Nat :=
  (x % 2 ^ 64).toNat

/-- The constant `math.MaxInt64`. -/
def MaxInt64 : Int := 2 ^ 63 - 1

/-- The rune `utf8.RuneError`. -/
def RuneError : Nat := 0xFFFD

/-- A continuation byte of UTF-8. -/
def isCont (b : Nat) : Bool :=
  decide (0x80 ≤ b ∧ b ≤ 0xBF)

/-- The rune at the start of a string and its width in bytes, as `range` over
a string decodes it: an encoding that is not valid UTF-8 gives `RuneError`
with width 1. -/
def decodeRune : List Nat → Nat × Nat
  | [] => (RuneError, 0)
  | b0 :: rest =>
    if b0 < 0x80 then (b0, 1)
    else if 0xC2 ≤ b0 ∧ b0 ≤ 0xDF then
      match rest with
      | b1 :: _ =>
        if isCont b1 then ((b0 % 32) * 64 + b1 % 64, 2) else (RuneError, 1)
      | _ => (RuneError, 1)
    else if 0xE0 ≤ b0 ∧ b0 ≤ 0xEF then
      match rest with
      | b1 :: b2 :: _ =>
        if (if b0 = 0xE0 then 0xA0 else 0x80) ≤ b1 ∧ b1 ≤ (if b0 = 0xED then 0x9F else 0xBF) ∧
            isCont b2 then
          ((b0 % 16) * 4096 + (b1 % 64) * 64 + b2 % 64, 3)
        else (RuneError, 1)
      | _ => (RuneError, 1)
    else if 0xF0 ≤ b0 ∧ b0 ≤ 0xF4 then
      match rest with
      | b1 :: b2 :: b3 :: _ =>
        if (if b0 = 0xF0 then 0x90 else 0x80) ≤ b1 ∧ b1 ≤ (if b0 = 0xF4 then 0x8F else 0xBF) ∧
            isCont b2 ∧ isCont b3 then
          ((b0 % 8) * 262144 + (b1 % 64) * 4096 + (b2 % 64) * 64 + b3 % 64, 4)
        else (RuneError, 1)
      | _ => (RuneError, 1)
    else (RuneError, 1)

/-- The runes that `for _, ch := range s` yields, `skip` being the number of
bytes of the current rune that are still to pass. -/
def runesFrom : List Nat → Nat → List Nat
  | [], _ => []
  | _ :: rest, skip + 1 => runesFrom rest skip
  | b :: rest, 0 => (decodeRune (b :: rest)).1 :: runesFrom rest ((decodeRune (b :: rest)).2 - 1)

/-- The runes that `for _, ch := range s` yields. -/
def runes (s : GoString) : List Nat :=
  runesFrom s 0

/-- The bytes of a string of ASCII characters. -/
def ascii (s : String) : GoString :=
  s.data.map Char.toNat

end golang

/-! ## The token contract of `vm/native/token.go`

The packages `vm/host`, `vm/database`, `core/contract` and `common` are not
among the sources.  The maps of the host are functions: the map of the token
information by token name, one function for each field; the maps of the
balances and of the freeze lists by account and token name.  A field holds a
value of the type that `token.go` stores in it.  A freeze list is kept as the
list that its JSON text encodes.  `MapPut`, `json.Marshal` and
`json.Unmarshal` do not fail on these values, so the error returns that come
from them are left out; so are the costs, except that `CheckCost` may refuse:
its answers are a field of `Env`, by the position of the call in the text of
the function.  The receipt that a successful call leaves is left out.  An
ABI function gives `none` when it stops with a run-time panic.  The Go
variables `from` and `to` are written `frm` and `dst`. -/

namespace native

open golang

/-- The type `database.FreezeItem`. -/
structure FreezeItem where
  Amount : Int
  Ftime : Int
deriving DecidableEq

/-- The errors that the functions of `token.go` return. -/
inductive TokenErr
  | nameLength
  | nameChar (ch : Nat)
  | configJSON
  | configDecimal
  | configCanTransfer
  | configDefaultRate
  | ErrGasLimitExceeded
  | ErrPermissionLost
  | ErrTokenExists
  | ErrTokenNotExists
  | invalidDecimal
  | invalidTotalSupply
  | invalidAmount
  | ErrInvalidAmount
  | supplyTooMuch
  | ErrMemoTooLarge
  | invalidAccount (account : GoString)
  | ErrTokenNoTransfer
  | balanceNotEnough (fbalance amount : Int)
deriving DecidableEq

/-- The maps of the host that `token.go` reads and writes.  The balance and
the freeze list are keyed by account and token name. -/
structure DB where
  issuer : GoString → Option GoString
  supply : GoString → Option Int
  totalSupply : GoString → Option Int
  canTransfer : GoString → Option Bool
  defaultRate : GoString → Option GoString
  decimal : GoString → Option Int
  balance : GoString × GoString → Option Int
  freeze : GoString × GoString → Option (List FreezeItem)

/-- What the host answers besides its maps: the block time, `RequireAuth`,
`IsValidAccount`, the value of `common.NewFixed` (`none` for an error), and
the answers of `CheckCost`. -/
structure Env where
  BlockTime : Int
  RequireAuth : GoString → String → Bool
  IsValidAccount : GoString → Bool
  NewFixed : GoString → Int → Option Int
  CheckCost : Nat → Bool

/-- What an ABI function leaves and returns: the maps, the amount it returns
(before `genAmount` prints it), and the error. -/
structure Result where
  db : DB
  rtn : Option Int
  err : Option TokenErr

/-- A value of the map that `json.Unmarshal` fills from the configuration of
`create`; a number stands by the value that `int(tmp.(float64))` gives. -/
inductive ConfigValue
  | number (asInt : Int)
  | bool (b : Bool)
  | string (s : GoString)
  | other
deriving DecidableEq

/-- The three entries of the configuration that `create` reads. -/
structure Config where
  decimal : Option ConfigValue
  canTransfer : Option ConfigValue
  defaultRate : Option ConfigValue
deriving DecidableEq

/-- The function `checkTokenExists`. -/
def checkTokenExists (db : DB) (tokenName : GoString) : Bool :=
  (db.issuer tokenName).isSome

/-- The function `setBalance`. -/
def setBalance (db : DB) (tokenName frm : GoString) (balance : Int) : DB :=
  { db with balance := Function.update db.balance (frm, tokenName) (some balance) }

/-- The loop `for i < len(freezeList)` of `getBalance`, from index `i` on:
the final `i` and `addBalance`. -/
def thawLoop (ntime : Int) : List FreezeItem → Nat → Int → Nat × Int
  | [], i, addBalance => (i, addBalance)
  | x :: rest, i, addBalance =>
    if x.Ftime > ntime then (i, addBalance)
    else thawLoop ntime rest (i + 1) (wrap64 (addBalance + x.Amount))

/-- The function `getBalance`: the balance it returns and the maps it
leaves. -/
def getBalance (e : Env) (db : DB) (tokenName frm : GoString) : Int × DB :=
  let balance : Int := (db.balance (frm, tokenName)).getD 0
  match db.freeze (frm, tokenName) with
  | none => (balance, db)
  | some freezeList =>
    let r := thawLoop e.BlockTime freezeList 0 0
    let b1 : Int × DB :=
      if r.2 > 0 then
        (wrap64 (balance + r.2), setBalance db tokenName frm (wrap64 (balance + r.2)))
      else (balance, db)
    if r.1 > 0 then
      (b1.1, { b1.2 with
        freeze := Function.update b1.2.freeze (frm, tokenName) (some (freezeList.drop r.1)) })
    else b1

/-- The function that `freezeBalance` hands to `sort.Slice`: `a` is before
`b`. -/
def freezeLess (a b : FreezeItem) : Bool :=
  decide (a.Ftime < b.Ftime) || (decide (a.Ftime = b.Ftime) && decide (a.Amount < b.Amount))

/-- The call of `sort.Slice` in `freezeBalance`.  Two items of which neither
is before the other are equal, so the sorted list does not depend on the
algorithm; it is computed by insertion. -/
def sortSlice (l : List FreezeItem) : List FreezeItem :=
  l.insertionSort (fun a b => freezeLess b a = false)

/-- The function `freezeBalance`. -/
def freezeBalance (db : DB) (tokenName frm : GoString) (balance ftime : Int) : DB :=
  let freezeList : List FreezeItem := (db.freeze (frm, tokenName)).getD []
  { db with
    freeze := Function.update db.freeze (frm, tokenName)
      (some (sortSlice (freezeList ++ [{ Amount := balance, Ftime := ftime }]))) }

/-- The function `parseAmount`: `none` when `decimal.(int64)` faults. -/
def parseAmount (e : Env) (db : DB) (tokenName amountStr : GoString) :
    Option (Except TokenErr Int) :=
  match db.decimal tokenName with
  | none => none
  | some decimal =>
    match e.NewFixed amountStr decimal with
    | none => some (Except.error TokenErr.invalidAmount)
    | some v => some (Except.ok v)

/-- The test on a character in `checkTokenNameValid`. -/
def validChar (ch : Nat) : Bool :=
  decide (97 ≤ ch ∧ ch ≤ 122 ∨ 48 ≤ ch ∧ ch ≤ 57 ∨ ch = 95)

/-- The function `checkTokenNameValid`: the error it returns, if any. -/
def checkTokenNameValid (name : GoString) : Option TokenErr :=
  if name.length ≤ 0 ∨ name.length > 32 then some TokenErr.nameLength
  else
    match (runes name).find? (fun ch => !validChar ch) with
    | some ch => some (TokenErr.nameChar ch)
    | none => none

/-- An ABI function returns with the given error. -/
def Result.fail (db : DB) (err : TokenErr) : Option Result :=
  some { db := db, rtn := none, err := some err }

/-- An ABI function returns without error and without value. -/
def Result.done (db : DB) : Option Result :=
  some { db := db, rtn := none, err := none }

/-- The function `do` of `createTokenABI`. -/
def createTokenABI (e : Env) (db : DB) (tokenName issuer : GoString) (totalSupply : Int)
    (configJSON : Option Config) : Option Result :=
  match checkTokenNameValid tokenName with
  | some err => Result.fail db err
  | none =>
    match configJSON with
    | none => Result.fail db TokenErr.configJSON
    | some config =>
      let decimal : Except TokenErr Int :=
        match config.decimal with
        | none => Except.ok 8
        | some (ConfigValue.number n) => Except.ok n
        | some _ => Except.error TokenErr.configDecimal
      match decimal with
      | Except.error err => Result.fail db err
      | Except.ok decimal =>
        let canTransfer : Except TokenErr Bool :=
          match config.canTransfer with
          | none => Except.ok true
          | some (ConfigValue.bool b) => Except.ok b
          | some _ => Except.error TokenErr.configCanTransfer
        match canTransfer with
        | Except.error err => Result.fail db err
        | Except.ok canTransfer =>
          let defaultRate : Except TokenErr GoString :=
            match config.defaultRate with
            | none => Except.ok (ascii "1.0")
            | some (ConfigValue.string s) => Except.ok s
            | some _ => Except.error TokenErr.configDefaultRate
          match defaultRate with
          | Except.error err => Result.fail db err
          | Except.ok defaultRate =>
            if ¬ e.CheckCost 0 then Result.fail db TokenErr.ErrGasLimitExceeded
            else if ¬ e.RequireAuth issuer "token.iost" then
              Result.fail db TokenErr.ErrPermissionLost
            else if ¬ e.CheckCost 1 then Result.fail db TokenErr.ErrGasLimitExceeded
            else if checkTokenExists db tokenName then Result.fail db TokenErr.ErrTokenExists
            else if decimal < 0 ∨ decimal ≥ 19 then Result.fail db TokenErr.invalidDecimal
            else if totalSupply > Int.tdiv MaxInt64 (10 ^ decimal.toNat) then
              Result.fail db TokenErr.invalidTotalSupply
            else
              Result.done
                { db with
                  issuer := Function.update db.issuer tokenName (some issuer)
                  totalSupply := Function.update db.totalSupply tokenName
                    (some (wrap64 (totalSupply * 10 ^ decimal.toNat)))
                  supply := Function.update db.supply tokenName (some 0)
                  canTransfer := Function.update db.canTransfer tokenName (some canTransfer)
                  defaultRate := Function.update db.defaultRate tokenName (some defaultRate)
                  decimal := Function.update db.decimal tokenName (some decimal) }

/-- The function `do` of `issueTokenABI`. -/
def issueTokenABI (e : Env) (db : DB) (tokenName dst amountStr : GoString) : Option Result :=
  if ¬ checkTokenExists db tokenName then Result.fail db TokenErr.ErrTokenNotExists
  else if ¬ e.CheckCost 0 then Result.fail db TokenErr.ErrGasLimitExceeded
  else
    match db.issuer tokenName with
    | none => none
    | some issuer =>
      if ¬ e.RequireAuth issuer "token.iost" then Result.fail db TokenErr.ErrPermissionLost
      else if ¬ e.CheckCost 1 then Result.fail db TokenErr.ErrGasLimitExceeded
      else
        match parseAmount e db tokenName amountStr with
        | none => none
        | some (Except.error err) => Result.fail db err
        | some (Except.ok amount) =>
          if amount ≤ 0 then Result.fail db TokenErr.ErrInvalidAmount
          else
            match db.totalSupply tokenName, db.supply tokenName with
            | some totalSupply, some supply =>
              if wrap64 (totalSupply - supply) < amount then
                Result.fail db TokenErr.supplyTooMuch
              else if ¬ e.CheckCost 2 then Result.fail db TokenErr.ErrGasLimitExceeded
              else
                let db1 : DB :=
                  { db with
                    supply := Function.update db.supply tokenName (some (wrap64 (supply + amount))) }
                let r := getBalance e db1 tokenName dst
                Result.done (setBalance r.2 tokenName dst (wrap64 (r.1 + amount)))
            | _, _ => none

/-- The function `do` of `transferTokenABI`. -/
def transferTokenABI (e : Env) (db : DB) (tokenName frm dst amountStr memo : GoString) :
    Option Result :=
  if memo.length > 512 then Result.fail db TokenErr.ErrMemoTooLarge
  else if ¬ e.IsValidAccount frm then Result.fail db (TokenErr.invalidAccount frm)
  else if ¬ e.IsValidAccount dst then Result.fail db (TokenErr.invalidAccount dst)
  else if frm = dst then Result.done db
  else if ¬ checkTokenExists db tokenName then Result.fail db TokenErr.ErrTokenNotExists
  else
    match db.canTransfer tokenName with
    | none => none
    | some canTransfer =>
      if ¬ canTransfer then Result.fail db TokenErr.ErrTokenNoTransfer
      else if ¬ e.CheckCost 0 then Result.fail db TokenErr.ErrGasLimitExceeded
      else if ¬ e.RequireAuth frm "transfer" then Result.fail db TokenErr.ErrPermissionLost
      else if ¬ e.CheckCost 1 then Result.fail db TokenErr.ErrGasLimitExceeded
      else
        match parseAmount e db tokenName amountStr with
        | none => none
        | some (Except.error err) => Result.fail db err
        | some (Except.ok amount) =>
          if amount ≤ 0 then Result.fail db TokenErr.ErrInvalidAmount
          else if ¬ e.CheckCost 2 then Result.fail db TokenErr.ErrGasLimitExceeded
          else
            let f := getBalance e db tokenName frm
            let t := getBalance e f.2 tokenName dst
            if f.1 < amount then Result.fail t.2 (TokenErr.balanceNotEnough f.1 amount)
            else if ¬ e.CheckCost 3 then Result.fail t.2 TokenErr.ErrGasLimitExceeded
            else
              Result.done
                (setBalance (setBalance t.2 tokenName dst (wrap64 (t.1 + amount))) tokenName frm
                  (wrap64 (f.1 - amount)))

/-- The function `do` of `transferFreezeTokenABI`. -/
def transferFreezeTokenABI (e : Env) (db : DB) (tokenName frm dst amountStr : GoString)
    (ftime : Int) (memo : GoString) : Option Result :=
  if memo.length > 512 then Result.fail db TokenErr.ErrMemoTooLarge
  else if ¬ checkTokenExists db tokenName then Result.fail db TokenErr.ErrTokenNotExists
  else
    match db.canTransfer tokenName with
    | none => none
    | some canTransfer =>
      if ¬ canTransfer then Result.fail db TokenErr.ErrTokenNoTransfer
      else if ¬ e.CheckCost 0 then Result.fail db TokenErr.ErrGasLimitExceeded
      else if ¬ e.RequireAuth frm "transfer" then Result.fail db TokenErr.ErrPermissionLost
      else if ¬ e.CheckCost 1 then Result.fail db TokenErr.ErrGasLimitExceeded
      else
        match parseAmount e db tokenName amountStr with
        | none => none
        | some (Except.error err) => Result.fail db err
        | some (Except.ok amount) =>
          if amount ≤ 0 then Result.fail db TokenErr.ErrInvalidAmount
          else if ¬ e.CheckCost 2 then Result.fail db TokenErr.ErrGasLimitExceeded
          else
            let f := getBalance e db tokenName frm
            if f.1 < amount then Result.fail f.2 (TokenErr.balanceNotEnough f.1 amount)
            else
              let db1 := setBalance f.2 tokenName frm (wrap64 (f.1 - amount))
              if ¬ e.CheckCost 3 then Result.fail db1 TokenErr.ErrGasLimitExceeded
              else Result.done (freezeBalance db1 tokenName dst amount ftime)

/-- The function `do` of `destroyTokenABI`. -/
def destroyTokenABI (e : Env) (db : DB) (tokenName frm amountStr : GoString) : Option Result :=
  if ¬ checkTokenExists db tokenName then Result.fail db TokenErr.ErrTokenNotExists
  else if ¬ e.RequireAuth frm "transfer" then Result.fail db TokenErr.ErrPermissionLost
  else if ¬ e.CheckCost 0 then Result.fail db TokenErr.ErrGasLimitExceeded
  else
    match parseAmount e db tokenName amountStr with
    | none => none
    | some (Except.error err) => Result.fail db err
    | some (Except.ok amount) =>
      if amount ≤ 0 then Result.fail db TokenErr.ErrInvalidAmount
      else if ¬ e.CheckCost 1 then Result.fail db TokenErr.ErrGasLimitExceeded
      else
        let f := getBalance e db tokenName frm
        if f.1 < amount then Result.fail f.2 (TokenErr.balanceNotEnough f.1 amount)
        else
          let db1 := setBalance f.2 tokenName frm (wrap64 (f.1 - amount))
          if ¬ e.CheckCost 2 then Result.fail db1 TokenErr.ErrGasLimitExceeded
          else
            match db1.supply tokenName with
            | none => none
            | some supply =>
              Result.done
                { db1 with
                  supply := Function.update db1.supply tokenName (some (wrap64 (supply - amount))) }

/-- The function `do` of `balanceOfTokenABI`; `genAmount` faults when the
token has no `decimal`. -/
def balanceOfTokenABI (e : Env) (db : DB) (tokenName dst : GoString) : Option Result :=
  if ¬ checkTokenExists db tokenName then Result.fail db TokenErr.ErrTokenNotExists
  else
    let r := getBalance e db tokenName dst
    if ¬ e.CheckCost 0 then Result.fail r.2 TokenErr.ErrGasLimitExceeded
    else
      match db.decimal tokenName with
      | none => none
      | some _ => some { db := r.2, rtn := some r.1, err := none }

/-- The function `do` of `supplyTokenABI`. -/
def supplyTokenABI (e : Env) (db : DB) (tokenName : GoString) : Option Result :=
  if ¬ checkTokenExists db tokenName then Result.fail db TokenErr.ErrTokenNotExists
  else if ¬ e.CheckCost 0 then Result.fail db TokenErr.ErrGasLimitExceeded
  else
    match db.supply tokenName, db.decimal tokenName with
    | some supply, some _ => some { db := db, rtn := some supply, err := none }
    | _, _ => none

/-- The function `do` of `totalSupplyTokenABI`. -/
def totalSupplyTokenABI (db : DB) (tokenName : GoString) : Option Result :=
  if ¬ checkTokenExists db tokenName then Result.fail db TokenErr.ErrTokenNotExists
  else
    match db.totalSupply tokenName, db.decimal tokenName with
    | some totalSupply, some _ => some { db := db, rtn := some totalSupply, err := none }
    | _, _ => none

/-- A call of one of the functions registered in `tokenABIs`, with its
arguments. -/
inductive TokenCall
  | create (tokenName issuer : GoString) (totalSupply : Int) (configJSON : Option Config)
  | issue (tokenName dst amountStr : GoString)
  | transfer (tokenName frm dst amountStr memo : GoString)
  | transferFreeze (tokenName frm dst amountStr : GoString) (ftime : Int) (memo : GoString)
  | destroy (tokenName frm amountStr : GoString)
  | balanceOf (tokenName dst : GoString)
  | supply (tokenName : GoString)
  | totalSupply (tokenName : GoString)

/-- The function that `tokenABIs` holds under the name of the call, applied to
its arguments. -/
def runCall (e : Env) (db : DB) : TokenCall → Option Result
  | TokenCall.create tokenName issuer totalSupply configJSON =>
    createTokenABI e db tokenName issuer totalSupply configJSON
  | TokenCall.issue tokenName dst amountStr => issueTokenABI e db tokenName dst amountStr
  | TokenCall.transfer tokenName frm dst amountStr memo =>
    transferTokenABI e db tokenName frm dst amountStr memo
  | TokenCall.transferFreeze tokenName frm dst amountStr ftime memo =>
    transferFreezeTokenABI e db tokenName frm dst amountStr ftime memo
  | TokenCall.destroy tokenName frm amountStr => destroyTokenABI e db tokenName frm amountStr
  | TokenCall.balanceOf tokenName dst => balanceOfTokenABI e db tokenName dst
  | TokenCall.supply tokenName => supplyTokenABI e db tokenName
  | TokenCall.totalSupply tokenName => totalSupplyTokenABI db tokenName

/-- A sequence of calls, each with the answers of the host at the time; every
call returns without error (`none` otherwise). -/
def runCalls : DB → List (Env × TokenCall) → Option DB
  | db, [] => some db
  | db, (e, c) :: rest =>
    match runCall e db c with
    | none => none
    | some r => if r.err.isSome then none else runCalls r.db rest

/-- The maps of a host in which no token has been created. -/
def emptyDB : DB :=
  { issuer := fun _ => none
    supply := fun _ => none
    totalSupply := fun _ => none
    canTransfer := fun _ => none
    defaultRate := fun _ => none
    decimal := fun _ => none
    balance := fun _ => none
    freeze := fun _ => none }

/-- The sum of the amounts of a freeze list. -/
def frozenSum (l : List FreezeItem) : Int :=
  (l.map (fun x => x.Amount)).sum

/-- What an account holds of a token: the stored balance and the amounts of
the items of its freeze list. -/
def holdings (db : DB) (tokenName account : GoString) : Int :=
  (db.balance (account, tokenName)).getD 0 +
    frozenSum ((db.freeze (account, tokenName)).getD [])

/-- The items that the loop of `getBalance` passes at block time `ntime`: the
longest prefix of the freeze list with `Ftime ≤ ntime`. -/
def thawed (ntime : Int) (l : List FreezeItem) : List FreezeItem :=
  l.takeWhile (fun x => decide (x.Ftime ≤ ntime))

/-- The balances and freeze lists of one token add up to `s`: no stored balance
is negative, every frozen amount is positive, no account outside the finite
set `A` holds anything, and the holdings of the accounts of `A` add up to
`s`. -/
structure Ledger (db : DB) (tokenName : GoString) (A : Finset GoString) (s : Int) : Prop where
  balance_nonneg : ∀ a b, db.balance (a, tokenName) = some b → 0 ≤ b
  frozen_pos : ∀ a l, db.freeze (a, tokenName) = some l → ∀ x ∈ l, 0 < x.Amount
  outside : ∀ a, a ∉ A → holdings db tokenName a = 0
  total : Finset.sum A (holdings db tokenName) = s

/-- The state of one token that the functions keep: the balances and freeze
lists add up to the stored supply, which fits an `int64` and, unless it is 0,
is not above the total supply. -/
def Conserved (db : DB) (tokenName : GoString) (A : Finset GoString) : Prop :=
  ∃ s, Ledger db tokenName A s ∧ db.supply tokenName = some s ∧ s ≤ MaxInt64 ∧
    ∀ ts, db.totalSupply tokenName = some ts →
      - 2 ^ 63 ≤ ts ∧ ts ≤ MaxInt64 ∧ (s = 0 ∨ s ≤ ts)

/-- The state of all tokens that the functions keep: a token that exists is
`Conserved` for some finite set of accounts; of a token that does not exist
there is neither a balance nor a freeze list. -/
def AllConserved (db : DB) : Prop :=
  ∀ tokenName,
    (checkTokenExists db tokenName = true → ∃ A, Conserved db tokenName A) ∧
    (checkTokenExists db tokenName = false →
      ∀ a, db.balance (a, tokenName) = none ∧ db.freeze (a, tokenName) = none)

/-- The entries of the token `tokenName` are the same in two states of the
maps. -/
structure SameToken (db db2 : DB) (tokenName : GoString) : Prop where
  issuer : db2.issuer tokenName = db.issuer tokenName
  supply : db2.supply tokenName = db.supply tokenName
  totalSupply : db2.totalSupply tokenName = db.totalSupply tokenName
  balance : ∀ a, db2.balance (a, tokenName) = db.balance (a, tokenName)
  freeze : ∀ a, db2.freeze (a, tokenName) = db.freeze (a, tokenName)

/-! ## Sample data for the token contract -/

/-- The account `alice`. -/
def alice : GoString := ascii "alice"

/-- The account `bob`. -/
def bob : GoString := ascii "bob"

/-- The token name `iost`. -/
def iost : GoString := ascii "iost"

/-- The number that a string of decimal digits writes; `none` for any other
string. -/
def readDigits : GoString → Option Int
  | [] => none
  | s => s.foldl
      (fun acc b =>
        match acc with
        | none => none
        | some n => if 48 ≤ b ∧ b ≤ 57 then some (10 * n + ((b : Int) - 48)) else none)
      (some 0)

/-- A sample host at block time `t`: every permission is given, every account
is valid, nothing runs out of gas, and an amount is a string of digits that
is read as it stands. -/
def sampleEnv (t : Int) : Env :=
  { BlockTime := t
    RequireAuth := fun _ _ => true
    IsValidAccount := fun _ => true
    NewFixed := fun s _ => readDigits s
    CheckCost := fun _ => true }

/-- A configuration without entries. -/
def noConfig : Option Config :=
  some { decimal := none, canTransfer := none, defaultRate := none }

/-- A configuration with `decimal` 1. -/
def decimalOne : Option Config :=
  some { decimal := some (ConfigValue.number 1), canTransfer := none, defaultRate := none }

/-- A sample run: the token is created, 100 are issued to `alice`, who
transfers 30 to `bob` and 20 more that are frozen until time 5; at time 10
`bob` asks for his balance, and `alice` destroys 10. -/
def sampleCalls : List (Env × TokenCall) :=
  [(sampleEnv 0, TokenCall.create iost alice 1000 noConfig),
   (sampleEnv 0, TokenCall.issue iost alice (ascii "100")),
   (sampleEnv 0, TokenCall.transfer iost alice bob (ascii "30") []),
   (sampleEnv 0, TokenCall.transferFreeze iost alice bob (ascii "20") 5 []),
   (sampleEnv 10, TokenCall.balanceOf iost bob),
   (sampleEnv 10, TokenCall.destroy iost alice (ascii "10"))]

/-- The maps after the first `n` calls of the sample run. -/
def sampleLedger (n : Nat) : DB :=
  (runCalls emptyDB (sampleCalls.take n)).getD emptyDB

end native

/-! ## The transaction engine of `new_vm/engine.go`

The packages `core/new_tx`, `core/contract`, `new_vm/host`, `new_vm/database`
and `simplejson` are not among the sources.  The state of the database is a
type parameter `σ`; what the engine calls in those packages is a field of
`Outside`.  Of the context of the host, the two global values `gas_limit` and
`receipts` are kept.  A `uint64` is a natural number below `2 ^ 64`. -/

namespace new_vm

open golang

/-- The constant `GasCheckTxFailed`. -/
def GasCheckTxFailed : Int := 100

/-- The type `contract.Cost` and the constructor `contract.NewCost`. -/
structure Cost where
  Data : Int
  Net : Int
  CPU : Int
deriving DecidableEq

/-- The value `contract.Cost0()`. -/
def Cost0 : Cost := { Data := 0, Net := 0, CPU := 0 }

/-- The status codes of `core/new_tx` that the engine names. -/
inductive StatusCode
  | Success
  | ErrorBalanceNotEnough
  | ErrorParamter
  | ErrorRuntime
  | ErrorTxFormat
deriving DecidableEq

/-- The type `tx.Status`. -/
structure Status where
  Code : StatusCode
  Message : String
deriving DecidableEq

/-- The receipt types of `core/new_tx` that the engine names. -/
inductive ReceiptType
  | SystemDefined
  | UserDefined
deriving DecidableEq

/-- The type `tx.Receipt`. -/
structure Receipt where
  Type_ : ReceiptType
  Content : String
deriving DecidableEq

/-- The type `tx.TxReceipt`; `Receipts` is `none` for a nil slice. -/
structure TxReceipt where
  TxHash : List Nat
  GasUsage : Nat
  Status : Status
  SuccActionNum : Nat
  Receipts : Option (List Receipt)
deriving DecidableEq

/-- The type `tx.Action`. -/
structure Action where
  Contract : String
  ActionName : String
  Data : String
deriving DecidableEq

/-- The fields of `tx.Tx` that the engine reads, with the identity of the
publisher and the hash of the transaction. -/
structure Tx where
  GasPrice : Int
  GasLimit : Int
  Actions : List Action
  Publisher : String
  Hash : List Nat
deriving DecidableEq

/-- The type `contract.ABI`, as far as `unmarshalArgs` reads it. -/
structure ABI where
  Name : String
  Args : List String
deriving DecidableEq

/-- A value of `simplejson`: for a number, what `Int64()` gives, if anything. -/
inductive Json
  | null
  | bool (b : Bool)
  | number (int64 : Option Int)
  | string (s : String)
  | array (l : List Json)
  | object (l : List (String × Json))

/-- An element of the slice that `unmarshalArgs` returns. -/
inductive Arg
  | string (s : String)
  | bool (b : Bool)
  | int64 (n : Int)
  | json (s : String)
deriving DecidableEq

/-- An error that `unmarshalArgs` returns: from `NewJson`, from `Array()`, or
from the conversion of the element with the given index. -/
inductive ArgErr
  | newJson
  | array
  | element (i : Nat)
deriving DecidableEq

/-- What `unmarshalArgs` does: it returns a slice, returns an error, or stops
with a run-time panic. -/
inductive ArgResult
  | value (rtn : List Arg)
  | error (err : ArgErr)
  | fault
deriving DecidableEq

/-- The host of the engine: the database, and the global context values
`gas_limit` and `receipts`. -/
structure Host (σ : Type) where
  DB : σ
  gas_limit : Int
  receipts : List Receipt

/-- The code that `engine.go` calls and that is not among the sources.
`Contract` is `none` when `c.Info` is nil, and gives the method `c.ABI`
otherwise; `Call` is `staticMonitor.Call`, with the cost (nil is `none`) and
the error it returns. -/
structure Outside (σ : Type) where
  NewJson : String → Option Json
  Encode : Json → Option String
  Balance : σ → String → Int
  Contract : σ → String → Option (String → Option ABI)
  Call : Host σ → String → String → List Arg → Host σ × Option Cost × Option String
  ToGas : Cost → Int
  Rollback : σ → σ
  Commit : σ → σ
  PayCost : Host σ → Cost → String → Host σ
  DoPay : Host σ → Int → Host σ
  NewTxReceipt : List Nat → TxReceipt
  ErrContractNotFound : String
  ErrABINotFound : String
  ErrGasPriceTooBig : String

/-- The function `checkTx`: the error it returns, if any. -/
def checkTx {σ : Type} (o : Outside σ) (tx0 : Tx) : Option String :=
  if tx0.GasPrice ≤ 0 ∨ tx0.GasPrice > 10000 then some o.ErrGasPriceTooBig else none

/-- One case of the `switch abi.Args[i]` of `unmarshalArgs` for the element
`x`: the value to append, if the declared type is one of the four; `none` when
the conversion returns an error. -/
def convertArg {σ : Type} (o : Outside σ) (typ : String) (x : Json) : Option (Option Arg) :=
  if typ = "string" then
    match x with
    | Json.string s => some (some (Arg.string s))
    | _ => none
  else if typ = "bool" then
    match x with
    | Json.bool b => some (some (Arg.bool b))
    | _ => none
  else if typ = "number" then
    match x with
    | Json.number (some n) => some (some (Arg.int64 n))
    | _ => none
  else if typ = "json" then
    match o.Encode x with
    | some s => some (some (Arg.json s))
    | none => none
  else some none

/-- The loop `for i := range arr` of `unmarshalArgs`, from index `i` on;
`abi.Args[i]` is out of range when `i` is not below `len(abi.Args)`. -/
def unmarshalLoop {σ : Type} (o : Outside σ) (abi : ABI) : List Json → Nat → List Arg → ArgResult
  | [], _, rtn => ArgResult.value rtn
  | x :: rest, i, rtn =>
    match abi.Args.get? i with
    | none => ArgResult.fault
    | some typ =>
      match convertArg o typ x with
      | none => ArgResult.error (ArgErr.element i)
      | some a => unmarshalLoop o abi rest (i + 1) (rtn ++ a.toList)

/-- The function `unmarshalArgs`. -/
def unmarshalArgs {σ : Type} (o : Outside σ) (abi : ABI) (data : String) : ArgResult :=
  match o.NewJson data with
  | none => ArgResult.error ArgErr.newJson
  | some js =>
    match js with
    | Json.array arr =>
      if arr.length < abi.Args.length then ArgResult.fault
      else unmarshalLoop o abi arr 0 []
    | _ => ArgResult.error ArgErr.array

/-- The function `errReceipt`. -/
def errReceipt (hash : List Nat) (code : StatusCode) (message : String) : TxReceipt :=
  { TxHash := hash
    GasUsage := toUint64 GasCheckTxFailed
    Status := { Code := code, Message := message }
    SuccActionNum := 0
    Receipts := some [] }

/-- What `runAction` returns, with the host it leaves; the error it returns is
nil on every path. -/
structure ActionResult (σ : Type) where
  host : Host σ
  cost : Cost
  status : Status
  receipts : List Receipt

/-- The method `runAction`; `none` when it stops with a panic. -/
def runAction {σ : Type} (o : Outside σ) (h : Host σ) (action : Action) :
    Option (ActionResult σ) :=
  match o.Contract h.DB action.Contract with
  | none =>
    some { host := h
           cost := { Data := 0, Net := 0, CPU := GasCheckTxFailed }
           status := { Code := StatusCode.ErrorParamter,
                       Message := o.ErrContractNotFound ++ action.Contract }
           receipts := [] }
  | some c =>
    match c action.ActionName with
    | none =>
      some { host := h
             cost := { Data := 0, Net := 0, CPU := GasCheckTxFailed }
             status := { Code := StatusCode.ErrorParamter,
                         Message := o.ErrABINotFound ++ action.Contract }
             receipts := [] }
    | some abi =>
      match unmarshalArgs o abi action.Data with
      | ArgResult.value args =>
        let r := o.Call h action.Contract action.ActionName args
        let cost : Cost := match r.2.1 with
          | some c0 => c0
          | none => Cost0
        match r.2.2 with
        | some err =>
          some { host := r.1
                 cost := cost
                 status := { Code := StatusCode.ErrorRuntime, Message := err }
                 receipts := [{ Type_ := ReceiptType.SystemDefined, Content := err }] }
        | none =>
          some { host := r.1
                 cost := cost
                 status := { Code := StatusCode.Success, Message := "" }
                 receipts := r.1.receipts }
      | _ => none

/-- The loop `for _, action := range tx0.Actions` of `Exec`; `none` when
`runAction` stops with a panic. -/
def execLoop {σ : Type} (o : Outside σ) (tx0 : Tx) :
    List Action → Host σ → TxReceipt → Option (Host σ × TxReceipt)
  | [], h, txr => some (h, txr)
  | action :: rest, h, txr =>
    match runAction o h action with
    | none => none
    | some r =>
      let txr1 : TxReceipt :=
        { txr with Status := r.status
                   GasUsage := (txr.GasUsage + toUint64 (o.ToGas r.cost)) % 2 ^ 64 }
      if r.status.Code ≠ StatusCode.Success then
        some ({ r.host with DB := o.Rollback r.host.DB }, { txr1 with Receipts := none })
      else
        let txr2 : TxReceipt :=
          { txr1 with Receipts := some ((txr1.Receipts.getD []) ++ r.receipts)
                      SuccActionNum := txr1.SuccActionNum + 1 }
        let h1 : Host σ := { r.host with gas_limit := wrap64 (tx0.GasLimit - o.ToGas r.cost) }
        execLoop o tx0 rest (o.PayCost h1 r.cost tx0.Publisher) txr2

/-- The method `Exec`: the host it leaves and the receipt it returns (the
error it returns is nil on every path); `none` when it stops with a panic. -/
def Exec {σ : Type} (o : Outside σ) (h : Host σ) (tx0 : Tx) : Option (Host σ × TxReceipt) :=
  match checkTx o tx0 with
  | some err => some (h, errReceipt tx0.Hash StatusCode.ErrorTxFormat err)
  | none =>
    let bl := o.Balance h.DB tx0.Publisher
    if bl ≤ 0 ∨ bl < wrap64 (tx0.GasPrice * tx0.GasLimit) then
      some (h, errReceipt tx0.Hash StatusCode.ErrorBalanceNotEnough
        "publisher\x27s balance less than price * limit")
    else
      let h1 : Host σ := { h with gas_limit := tx0.GasLimit, receipts := [] }
      match execLoop o tx0 tx0.Actions h1 (o.NewTxReceipt tx0.Hash) with
      | none => none
      | some r =>
        let h2 := o.DoPay r.1 tx0.GasPrice
        some ({ h2 with DB := o.Commit h2.DB }, r.2)

/-! ## Sample data for the engine -/

/-- The cost of a sample action, read off its name. -/
def sampleCost (name : String) : Int :=
  if name = "use60" then 60 else if name = "use30" then 30 else if name = "use70" then 70 else 1

/-- A sample of the code outside the sources.  The database is the list of the
calls made so far, each with the `gas_limit` it found; the contract `sample`
has every action, without arguments; an action costs what its name says and
does not fail; the account `poor` owns 1, every other account 1000000. -/
def sampleOutside : Outside (List (String × Int)) :=
  { NewJson := fun _ => some (Json.array [])
    Encode := fun _ => some ""
    Balance := fun _ who => if who = "poor" then 1 else 1000000
    Contract := fun _ c =>
      if c = "sample" then some (fun n => some { Name := n, Args := [] }) else none
    Call := fun h _ name _ =>
      ({ h with DB := h.DB ++ [(name, h.gas_limit)] },
        some { Data := 0, Net := 0, CPU := sampleCost name }, none)
    ToGas := fun c => c.Data + c.Net + c.CPU
    Rollback := fun s => s
    Commit := fun s => s
    PayCost := fun h _ _ => h
    DoPay := fun h _ => h
    NewTxReceipt := fun hash =>
      { TxHash := hash, GasUsage := 0, Status := { Code := StatusCode.Success, Message := "" },
        SuccActionNum := 0, Receipts := some [] }
    ErrContractNotFound := "contract not found"
    ErrABINotFound := "abi not found"
    ErrGasPriceTooBig := "gas price too big" }

/-- The host before the first transaction. -/
def sampleHost : Host (List (String × Int)) :=
  { DB := [], gas_limit := 0, receipts := [] }

/-- A transaction of the account `poor` with gas price 2 and gas limit
`2 ^ 62`. -/
def wrappingTx : Tx :=
  { GasPrice := 2, GasLimit := 2 ^ 62
    Actions := [{ Contract := "sample", ActionName := "use60", Data := "[]" }]
    Publisher := "poor", Hash := [] }

/-- A transaction with gas limit 100 and three actions that cost 60, 30 and
70. -/
def threeActionTx : Tx :=
  { GasPrice := 1, GasLimit := 100
    Actions := [{ Contract := "sample", ActionName := "use60", Data := "[]" },
                { Contract := "sample", ActionName := "use30", Data := "[]" },
                { Contract := "sample", ActionName := "use70", Data := "[]" }]
    Publisher := "rich", Hash := [] }

/-- A sample `simplejson`: the data `two` parses as an array of two strings. -/
def twoStrings : Outside Unit :=
  { NewJson := fun d => if d = "[\x22a\x22,\x22b\x22]" then some (Json.array [Json.string "a", Json.string "b"]) else none
    Encode := fun _ => some ""
    Balance := fun _ _ => 0
    Contract := fun _ _ => none
    Call := fun h _ _ _ => (h, none, none)
    ToGas := fun _ => 0
    Rollback := fun s => s
    Commit := fun s => s
    PayCost := fun h _ _ => h
    DoPay := fun h _ => h
    NewTxReceipt := fun hash =>
      { TxHash := hash, GasUsage := 0, Status := { Code := StatusCode.Success, Message := "" },
        SuccActionNum := 0, Receipts := some [] }
    ErrContractNotFound := ""
    ErrABINotFound := ""
    ErrGasPriceTooBig := "" }

end new_vm

namespace blockcache

/-! ## Lemmas on the primitives and on the steps of `Add` -/

theorem mapLoad_mapStore (m : List (Hash × Ptr)) (h k : Hash) (p : Ptr) :
    mapLoad (mapStore m h p) k = if k = h then some p else mapLoad m k := by
  induction m with
  | nil =>
    by_cases hk : k = h
    · simp [mapStore, mapLoad, hk]
    · have : ¬ h = k := fun e => hk e.symm
      simp [mapStore, mapLoad, hk, this]
  | cons kv rest ih =>
    obtain ⟨k0, v0⟩ := kv
    by_cases h0 : k0 = h
    · subst h0
      by_cases hk : k = k0
      · simp [mapStore, mapLoad, hk]
      · have : ¬ k0 = k := fun e => hk e.symm
        simp [mapStore, mapLoad, hk, this]
    · by_cases h0k : k0 = k
      · subst h0k
        simp [mapStore, mapLoad, h0]
      · simp [mapStore, mapLoad, h0, h0k, ih]

theorem hmget_fst (s : BlockCache) (h : Hash) : (hmget s h).1 = mapLoad s.hash2node h := by
  unfold hmget; cases mapLoad s.hash2node h <;> rfl

theorem hmget_snd (s : BlockCache) (h : Hash) :
    (hmget s h).2 = (mapLoad s.hash2node h).isSome := by
  unfold hmget; cases mapLoad s.hash2node h <;> rfl

/-- The state after NewBCN under an allocated parent and hmset. -/
theorem NewBCN_some (s : BlockCache) (fa : Ptr) (blk : Option Block) (t : BCNType)
    (hfresh : s.next ∉ (s.heap fa).Children) (hfa : fa ≠ s.next) :
    NewBCN s (some fa) blk t =
      ({ s with
          heap := Function.update
            (Function.update s.heap s.next
              { BlockCacheNode.zero with Block := blk, Parent := some fa,
                                         Type_ := (s.heap fa).Type_ })
            fa { s.heap fa with Children := (s.heap fa).Children ++ [s.next] },
          next := s.next + 1 }, s.next) := by
  simp [NewBCN, addChild, BlockCache.store, Function.update_noteq hfa, hfresh]
  rfl

theorem attached_eq (hh : Block → Hash) (s : BlockCache) (fa : Ptr) (blk : Block)
    (hwf : WF hh s) (hfa : fa < s.next) :
    attached hh s fa blk =
      { s with
          heap := Function.update
            (Function.update s.heap s.next
              { BlockCacheNode.zero with Block := some blk, Parent := some fa,
                                         Type_ := (s.heap fa).Type_ })
            fa { s.heap fa with Children := (s.heap fa).Children ++ [s.next] },
          next := s.next + 1,
          hash2node := mapStore s.hash2node (hh blk) s.next } := by
  have hfresh : s.next ∉ (s.heap fa).Children := fun hc =>
    absurd (hwf.child_lt fa s.next hfa hc) (lt_irrefl _)
  have hne : fa ≠ s.next := Nat.ne_of_lt hfa
  simp [attached, NewBCN_some s fa (some blk) BCNType.Linked hfresh hne, hmset]

theorem WF_attached (hh : Block → Hash) (s : BlockCache) (fa : Ptr) (blk : Block)
    (hwf : WF hh s) (hfa : fa < s.next) (hdup : mapLoad s.hash2node (hh blk) = none) :
    WF hh (attached hh s fa blk) := by
  have hne : fa ≠ s.next := Nat.ne_of_lt hfa
  have hfresh : s.next ∉ (s.heap fa).Children := fun hc =>
    absurd (hwf.child_lt fa s.next hfa hc) (lt_irrefl _)
  have hL := hwf.linked_lt
  have hS := hwf.single_lt
  rw [attached_eq hh s fa blk hwf hfa]
  constructor
  · exact Nat.lt_succ_of_lt hL
  · exact Nat.lt_succ_of_lt hS
  · exact hwf.roots_ne
  · intro h p hp
    simp only [mapLoad_mapStore] at hp
    split_ifs at hp with hk
    · simp at hp; subst hp; exact Nat.lt_succ_self _
    · exact Nat.lt_succ_of_lt (hwf.index_lt h p hp)
  · intro h p hp
    simp only [mapLoad_mapStore] at hp
    split_ifs at hp with hk
    · simp at hp; subst hp; subst hk
      simp [Function.update_apply, hne.symm]
    · have hlt := hwf.index_lt h p hp
      have hpn : p ≠ s.next := Nat.ne_of_lt hlt
      obtain ⟨b, hb, hhb⟩ := hwf.index_block h p hp
      refine ⟨b, ?_, hhb⟩
      by_cases hpf : p = fa
      · subst hpf; simp [hb]
      · simp [Function.update_apply, hpf, hpn, hb]
  · -- child_lt
    intro p c hp hc
    by_cases hpf : p = fa
    · subst hpf
      simp at hc
      rcases hc with hc | hc
      · exact Nat.lt_succ_of_lt (hwf.child_lt p c hfa hc)
      · subst hc; exact Nat.lt_succ_self _
    · by_cases hpn : p = s.next
      · subst hpn; simp [Function.update_apply, hpf, BlockCacheNode.zero] at hc
      · simp [Function.update_apply, hpf, hpn] at hc
        have hp2 : p < s.next := lt_of_le_of_ne (Nat.lt_succ_iff.mp hp) hpn
        exact Nat.lt_succ_of_lt (hwf.child_lt p c hp2 hc)
  · -- child_parent
    intro p c hp hc
    by_cases hpf : p = fa
    · subst hpf
      simp at hc
      rcases hc with hc | hc
      · have hcl := hwf.child_lt p c hfa hc
        have hcn : c ≠ s.next := Nat.ne_of_lt hcl
        have := hwf.child_parent p c hfa hc
        by_cases hcp : c = p
        · subst hcp; simp [this]
        · simp [Function.update_apply, hcp, hcn, this]
      · subst hc; simp [Function.update_apply, hne.symm]
    · by_cases hpn : p = s.next
      · subst hpn; simp [Function.update_apply, hpf, BlockCacheNode.zero] at hc
      · simp [Function.update_apply, hpf, hpn] at hc
        have hp2 : p < s.next := lt_of_le_of_ne (Nat.lt_succ_iff.mp hp) hpn
        have hcl := hwf.child_lt p c hp2 hc
        have hcn : c ≠ s.next := Nat.ne_of_lt hcl
        have := hwf.child_parent p c hp2 hc
        by_cases hcf : c = fa
        · subst hcf; simp [this]
        · simp [Function.update_apply, hcf, hcn, this]
  · -- child_indexed
    have old : ∀ p c, p < s.next → c ∈ (s.heap p).Children →
        ∃ b, ((Function.update
            (Function.update s.heap s.next
              { BlockCacheNode.zero with Block := some blk, Parent := some fa,
                                         Type_ := (s.heap fa).Type_ })
            fa { s.heap fa with Children := (s.heap fa).Children ++ [s.next] }) c).Block = some b ∧
          mapLoad (mapStore s.hash2node (hh blk) s.next) (hh b) = some c := by
      intro p c hp hc
      obtain ⟨b, hb, hib⟩ := hwf.child_indexed p c hp hc
      have hcl := hwf.child_lt p c hp hc
      have hcn : c ≠ s.next := Nat.ne_of_lt hcl
      refine ⟨b, ?_, ?_⟩
      · by_cases hcf : c = fa
        · subst hcf; simp [hb]
        · simp [Function.update_apply, hcf, hcn, hb]
      · rw [mapLoad_mapStore]
        have : hh b ≠ hh blk := by
          intro e; rw [e, hdup] at hib; exact absurd hib (by simp)
        simp [this, hib]
    intro p c hp hc
    by_cases hpf : p = fa
    · subst hpf
      simp at hc
      rcases hc with hc | hc
      · exact old p c hfa hc
      · subst hc
        refine ⟨blk, ?_, ?_⟩
        · simp [Function.update_apply, hne.symm]
        · simp [mapLoad_mapStore]
    · by_cases hpn : p = s.next
      · subst hpn; simp [Function.update_apply, hpf, BlockCacheNode.zero] at hc
      · simp [Function.update_apply, hpf, hpn] at hc
        have hp2 : p < s.next := lt_of_le_of_ne (Nat.lt_succ_iff.mp hp) hpn
        exact old p c hp2 hc
  · -- children_nodup
    intro p hp
    by_cases hpf : p = fa
    · subst hpf
      simp
      exact List.Nodup.append (hwf.children_nodup p hfa) (List.nodup_singleton _)
        (by simpa using hfresh)
    · by_cases hpn : p = s.next
      · subst hpn; simp [Function.update_apply, hpf, BlockCacheNode.zero]
      · simp [Function.update_apply, hpf, hpn]
        have hp2 : p < s.next := lt_of_le_of_ne (Nat.lt_succ_iff.mp hp) hpn
        exact hwf.children_nodup p hp2
  · -- single_block
    have hsn : s.SingleTree ≠ s.next := Nat.ne_of_lt hS
    by_cases hsf : s.SingleTree = fa
    · subst hsf; simp [hwf.single_block]
    · simp [Function.update_apply, hsf, hsn, hwf.single_block]
  · -- single_type
    have hsn : s.SingleTree ≠ s.next := Nat.ne_of_lt hS
    by_cases hsf : s.SingleTree = fa
    · subst hsf; simp [hwf.single_type]
    · simp [Function.update_apply, hsf, hsn, hwf.single_type]
  · -- linked_indexed
    have hln : s.LinkedTree ≠ s.next := Nat.ne_of_lt hL
    intro b hb
    have hb2 : (s.heap s.LinkedTree).Block = some b := by
      by_cases hlf : s.LinkedTree = fa
      · rw [← hlf] at hb; simpa using hb
      · simpa [Function.update_apply, hlf, hln] using hb
    have hib := hwf.linked_indexed b hb2
    show mapLoad (mapStore s.hash2node (hh blk) s.next) (hh b) = some s.LinkedTree
    rw [mapLoad_mapStore]
    have : hh b ≠ hh blk := by
      intro e; rw [e, hdup] at hib; exact absurd hib (by simp)
    simp [this, hib]

theorem findChild_spec (hh : Block → Hash) (s : BlockCache) (blk : Block) (l : List Ptr)
    (hall : ∀ x ∈ l, ∃ b, (s.heap x).Block = some b) :
    (findChild hh s (some blk) l = some none ∧
      ∀ x ∈ l, ∀ b, (s.heap x).Block = some b → b.Head.ParentHash ≠ hh blk) ∨
    (∃ c, findChild hh s (some blk) l = some (some c) ∧ c ∈ l ∧
      ∃ b, (s.heap c).Block = some b ∧ b.Head.ParentHash = hh blk) := by
  induction l with
  | nil => left; simp [findChild]
  | cons a rest ih =>
    obtain ⟨b, hb⟩ := hall a (List.mem_cons_self _ _)
    by_cases hm : b.Head.ParentHash = hh blk
    · right
      exact ⟨a, by simp [findChild, hb, hm], List.mem_cons_self _ _, b, hb, hm⟩
    · have ih2 := ih (fun x hx => hall x (List.mem_cons_of_mem _ hx))
      rcases ih2 with ⟨h1, h2⟩ | ⟨c, h1, h2, h3⟩
      · left
        refine ⟨by simp [findChild, hb, hm, h1], ?_⟩
        intro x hx b2 hb2
        rcases List.mem_cons.mp hx with hx | hx
        · subst hx; rw [hb] at hb2; cases hb2; exact hm
        · exact h2 x hx b2 hb2
      · right
        exact ⟨c, by simp [findChild, hb, hm, h1], List.mem_cons_of_mem _ h2, h3⟩

theorem adopted_heap (hh : Block → Hash) (s : BlockCache) (n c : Ptr) (blk : Block)
    (hwf : WF hh s) (hn : n < s.next) (hb : (s.heap n).Block = some blk)
    (hc : c ∈ (s.heap s.SingleTree).Children) (x : Ptr) :
    (adopted s n c).heap x =
      { s.heap x with
        Parent := if x = c then some n else (s.heap x).Parent,
        Children :=
          if x = n then (s.heap n).Children ++ [c]
          else if x = s.SingleTree then (s.heap s.SingleTree).Children.filter (fun y => y != c)
          else (s.heap x).Children } := by
  have hnS : n ≠ s.SingleTree := by
    intro e; rw [e, hwf.single_block] at hb; exact absurd hb (by simp)
  have hcS : c ≠ s.SingleTree := by
    intro e
    obtain ⟨b, hb2, _⟩ := hwf.child_indexed _ c hwf.single_lt hc
    rw [e, hwf.single_block] at hb2; exact absurd hb2 (by simp)
  have hcn : c ∉ (s.heap n).Children := by
    intro hmem
    have h1 := hwf.child_parent n c hn hmem
    have h2 := hwf.child_parent _ c hwf.single_lt hc
    rw [h1] at h2; simp at h2; exact hnS h2
  have hSn := Ne.symm hnS
  have hSc := Ne.symm hcS
  by_cases hnc : n = c
  · subst hnc
    by_cases hxn : x = n
    · subst hxn
      simp [adopted, addChild, delChild, BlockCache.store, Function.update_apply, hnS, hcn]
    · by_cases hxS : x = s.SingleTree
      · subst hxS
        simp [adopted, addChild, delChild, BlockCache.store, Function.update_apply, hnS, hcn, hxn]
      · simp [adopted, addChild, delChild, BlockCache.store, Function.update_apply, hnS, hcn, hxn,
          hxS]
  · have hcn2 : c ≠ n := Ne.symm hnc
    by_cases hxn : x = n
    · subst hxn
      simp [adopted, addChild, delChild, BlockCache.store, Function.update_apply, hnS, hcn, hnc,
        hcn2]
    · by_cases hxc : x = c
      · subst hxc
        simp [adopted, addChild, delChild, BlockCache.store, Function.update_apply, hnS, hcn, hnc,
          hcS, hxn]
      · by_cases hxS : x = s.SingleTree
        · subst hxS
          simp [adopted, addChild, delChild, BlockCache.store, Function.update_apply, hnS, hcn,
            hnc, hcn2, hxn, hxc]
        · simp [adopted, addChild, delChild, BlockCache.store, Function.update_apply, hnS, hcn,
            hnc, hcn2, hxn, hxc, hxS]

theorem adopted_frame (s : BlockCache) (n c : Ptr) :
    (adopted s n c).next = s.next ∧ (adopted s n c).LinkedTree = s.LinkedTree ∧
    (adopted s n c).SingleTree = s.SingleTree ∧ (adopted s n c).Head = s.Head ∧
    (adopted s n c).hash2node = s.hash2node ∧ (adopted s n c).Leaf = s.Leaf := by
  unfold adopted addChild delChild BlockCache.store
  simp only
  split <;> simp

theorem WF_adopted (hh : Block → Hash) (s : BlockCache) (n c : Ptr) (blk : Block)
    (hwf : WF hh s) (hn : n < s.next) (hb : (s.heap n).Block = some blk)
    (hc : c ∈ (s.heap s.SingleTree).Children) : WF hh (adopted s n c) := by
  have hnS : n ≠ s.SingleTree := by
    intro e; rw [e, hwf.single_block] at hb; exact absurd hb (by simp)
  have hcn : c ∉ (s.heap n).Children := by
    intro hmem
    have h1 := hwf.child_parent n c hn hmem
    have h2 := hwf.child_parent _ c hwf.single_lt hc
    rw [h1] at h2; simp at h2; exact hnS h2
  obtain ⟨f1, f2, f3, f4, f5, f6⟩ := adopted_frame s n c
  have hheap := adopted_heap hh s n c blk hwf hn hb hc
  have hS := hwf.single_lt
  have hcl := hwf.child_lt _ c hS hc
  have hcp := hwf.child_parent _ c hS hc
  -- children of the new state come from children of the old one
  have hsub : ∀ p y, p < s.next → y ∈ ((adopted s n c).heap p).Children →
      (y ∈ (s.heap p).Children ∧ (p = s.SingleTree → y ≠ c)) ∨ (p = n ∧ y = c) := by
    intro p y hp hy
    rw [hheap p] at hy
    simp only at hy
    split_ifs at hy with h1 h2
    · rcases List.mem_append.mp hy with hy | hy
      · left; subst h1; exact ⟨hy, fun e => absurd e hnS⟩
      · right; exact ⟨h1, by simpa using hy⟩
    · left
      simp at hy
      subst h2
      exact ⟨hy.1, fun _ => hy.2⟩
    · left; exact ⟨hy, fun e => absurd e h2⟩
  constructor
  · rw [f1, f2]; exact hwf.linked_lt
  · rw [f1, f3]; exact hS
  · rw [f2, f3]; exact hwf.roots_ne
  · intro h p hp; rw [f5] at hp; rw [f1]; exact hwf.index_lt h p hp
  · intro h p hp; rw [f5] at hp
    obtain ⟨b, hb1, hb2⟩ := hwf.index_block h p hp
    exact ⟨b, by rw [hheap p]; exact hb1, hb2⟩
  · intro p y hp hy; rw [f1] at hp ⊢
    rcases hsub p y hp hy with ⟨h1, _⟩ | ⟨_, h2⟩
    · exact hwf.child_lt p y hp h1
    · rw [h2]; exact hcl
  · intro p y hp hy; rw [f1] at hp
    rw [hheap y]
    rcases hsub p y hp hy with ⟨h1, h2⟩ | ⟨h1, h2⟩
    · have hyp := hwf.child_parent p y hp h1
      by_cases hyc : y = c
      · exfalso
        subst hyc
        rw [hcp] at hyp; simp at hyp
        exact h2 hyp.symm rfl
      · simp [hyc, hyp]
    · simp [h1, h2]
  · intro p y hp hy; rw [f1] at hp
    rw [hheap y, f5]
    rcases hsub p y hp hy with ⟨h1, _⟩ | ⟨_, h2⟩
    · exact hwf.child_indexed p y hp h1
    · rw [h2]; exact hwf.child_indexed _ c hS hc
  · intro p hp; rw [f1] at hp
    rw [hheap p]
    simp only
    split_ifs with h1 h2
    · exact List.Nodup.append (hwf.children_nodup n hn) (List.nodup_singleton _)
        (by simpa using hcn)
    · exact (hwf.children_nodup _ hS).filter _
    · exact hwf.children_nodup p hp
  · rw [f3, hheap]; exact hwf.single_block
  · rw [f3, hheap]; exact hwf.single_type
  · intro b hb2; rw [f2, hheap] at hb2; rw [f5, f2]
    exact hwf.linked_indexed b hb2

theorem mergeSingle_spec (hh : Block → Hash) (s : BlockCache) (n : Ptr) (blk : Block)
    (hwf : WF hh s) (hb : (s.heap n).Block = some blk) :
    (mergeSingle hh s n = some s ∧
      ∀ x ∈ (s.heap s.SingleTree).Children, ∀ b, (s.heap x).Block = some b →
        b.Head.ParentHash ≠ hh blk) ∨
    (∃ c, mergeSingle hh s n = some (adopted s n c) ∧ c ∈ (s.heap s.SingleTree).Children ∧
      ∃ b, (s.heap c).Block = some b ∧ b.Head.ParentHash = hh blk) := by
  have hall : ∀ x ∈ (s.heap s.SingleTree).Children, ∃ b, (s.heap x).Block = some b := by
    intro x hx
    obtain ⟨b, hb1, _⟩ := hwf.child_indexed _ x hwf.single_lt hx
    exact ⟨b, hb1⟩
  rcases findChild_spec hh s blk _ hall with ⟨h1, h2⟩ | ⟨c, h1, h2, h3⟩
  · left
    exact ⟨by simp [mergeSingle, hb, h1], h2⟩
  · right
    refine ⟨c, ?_, h2, h3⟩
    have hcp := hwf.child_parent _ c hwf.single_lt h2
    simp [mergeSingle, hb, h1, hcp, adopted]

theorem updateLongest_frame (s : BlockCache) :
    (updateLongest s).heap = s.heap ∧ (updateLongest s).next = s.next ∧
    (updateLongest s).LinkedTree = s.LinkedTree ∧ (updateLongest s).SingleTree = s.SingleTree ∧
    (updateLongest s).hash2node = s.hash2node ∧ (updateLongest s).Leaf = s.Leaf := by
  simp [updateLongest]

theorem Link_heap (s : BlockCache) (n x : Ptr) :
    (Link s (some n)).heap x =
      if x = n then { s.heap n with Type_ := BCNType.Linked } else s.heap x := by
  simp [Link, updateLongest, BlockCache.store, Function.update_apply]

theorem Link_frame (s : BlockCache) (n : Ptr) :
    (Link s (some n)).next = s.next ∧ (Link s (some n)).LinkedTree = s.LinkedTree ∧
    (Link s (some n)).SingleTree = s.SingleTree ∧
    (Link s (some n)).hash2node = s.hash2node := by
  simp [Link, updateLongest, BlockCache.store]

theorem Link_fields (s : BlockCache) (n x : Ptr) :
    ((Link s (some n)).heap x).Block = (s.heap x).Block ∧
    ((Link s (some n)).heap x).Parent = (s.heap x).Parent ∧
    ((Link s (some n)).heap x).Children = (s.heap x).Children ∧
    ((Link s (some n)).heap x).Number = (s.heap x).Number := by
  rw [Link_heap]
  by_cases h : x = n
  · subst h; simp
  · simp [h]

theorem WF_Link (hh : Block → Hash) (s : BlockCache) (n : Ptr) (hwf : WF hh s)
    (hn : n ≠ s.SingleTree) : WF hh (Link s (some n)) := by
  obtain ⟨f1, f2, f3, f5⟩ := Link_frame s n
  have hf := Link_fields s n
  constructor
  · rw [f1, f2]; exact hwf.linked_lt
  · rw [f1, f3]; exact hwf.single_lt
  · rw [f2, f3]; exact hwf.roots_ne
  · intro h p hp; rw [f5] at hp; rw [f1]; exact hwf.index_lt h p hp
  · intro h p hp; rw [f5] at hp; rw [(hf p).1]; exact hwf.index_block h p hp
  · intro p c hp hc; rw [f1] at hp ⊢; rw [(hf p).2.2.1] at hc; exact hwf.child_lt p c hp hc
  · intro p c hp hc; rw [f1] at hp; rw [(hf p).2.2.1] at hc; rw [(hf c).2.1]
    exact hwf.child_parent p c hp hc
  · intro p c hp hc; rw [f1] at hp; rw [(hf p).2.2.1] at hc; rw [(hf c).1, f5]
    exact hwf.child_indexed p c hp hc
  · intro p hp; rw [f1] at hp; rw [(hf p).2.2.1]; exact hwf.children_nodup p hp
  · rw [f3, (hf _).1]; exact hwf.single_block
  · rw [f3, Link_heap]; simp [Ne.symm hn, hwf.single_type]
  · intro b hb; rw [f2, (hf _).1] at hb; rw [f5, f2]; exact hwf.linked_indexed b hb

theorem attached_type (hh : Block → Hash) (s : BlockCache) (fa : Ptr) (blk : Block)
    (hwf : WF hh s) (hfa : fa < s.next) :
    ((attached hh s fa blk).heap s.next).Type_ = (s.heap fa).Type_ ∧
    ((attached hh s fa blk).heap s.next).Block = some blk ∧
    ((attached hh s fa blk).heap s.next).Parent = some fa ∧
    ((attached hh s fa blk).heap s.next).Children = [] ∧
    ((attached hh s fa blk).heap fa).Children = (s.heap fa).Children ++ [s.next] := by
  have hne : s.next ≠ fa := Ne.symm (Nat.ne_of_lt hfa)
  rw [attached_eq hh s fa blk hwf hfa]
  simp [Function.update_apply, hne, BlockCacheNode.zero]

/-- `Add` of a block whose parent hash is indexed at `p`. -/
theorem Add_parent (hh : Block → Hash) (s : BlockCache) (blk : Block) (p : Ptr)
    (s3 : BlockCache) (hwf : WF hh s)
    (hdup : mapLoad s.hash2node (hh blk) = none)
    (hpar : mapLoad s.hash2node blk.Head.ParentHash = some p)
    (hm : mergeSingle hh (attached hh s p blk) s.next = some s3) :
    Add hh s blk = some
      { node := some s.next,
        err := if (s.heap p).Type_ = BCNType.Linked then none else some Err.ErrNotFound,
        code := if (s.heap p).Children = [] then CacheStatus.Extend else CacheStatus.Fork,
        cache := if (s.heap p).Type_ = BCNType.Linked then Link s3 (some s.next) else s3 } := by
  have hp := hwf.index_lt _ p hpar
  obtain ⟨a1, a2, a3, a4, a5⟩ := attached_type hh s p blk hwf hp
  have hs2 : hmset (NewBCN s (some p) (some blk) BCNType.Linked).1 (hh blk)
      (NewBCN s (some p) (some blk) BCNType.Linked).2 = attached hh s p blk := rfl
  have hlen : ((NewBCN s (some p) (some blk) BCNType.Linked).1.heap p).Children
      = (s.heap p).Children ++ [s.next] := a5
  have h2 : (NewBCN s (some p) (some blk) BCNType.Linked).2 = s.next := rfl
  unfold Add
  simp only [hmget_snd, hmget_fst, hdup, hpar, IF, Iface.asBCNType, Iface.asNode,
    Option.isSome_none, Option.isSome_some, if_true, Bool.false_eq_true, if_false, hs2, hlen]
  by_cases hc : (s.heap p).Children = []
  · by_cases ht : (s.heap p).Type_ = BCNType.Linked
    · simp [hc, ht, Iface.asStatus, h2, a1, addSingle, hm]
    · simp [hc, ht, Iface.asStatus, h2, a1, hm]
  · have hl : 1 < (s.heap p).Children.length + 1 := by
      have : 0 < (s.heap p).Children.length := List.length_pos.mpr hc
      omega
    by_cases ht : (s.heap p).Type_ = BCNType.Linked
    · simp [hc, ht, Iface.asStatus, h2, a1, addSingle, hm, hl]
    · simp [hc, ht, Iface.asStatus, h2, a1, hm, hl]

/-- `Add` of a block whose hash and parent hash are both unknown. -/
theorem Add_orphan (hh : Block → Hash) (s : BlockCache) (blk : Block)
    (s3 : BlockCache) (hdup : mapLoad s.hash2node (hh blk) = none)
    (hpar : mapLoad s.hash2node blk.Head.ParentHash = none)
    (hm : mergeSingle hh (attached hh s s.SingleTree blk) s.next = some s3) :
    Add hh s blk = some
      { node := some s.next, err := some Err.ErrNotFound, code := CacheStatus.NotFound,
        cache := s3 } := by
  have hs2 : hmset (NewBCN s (some s.SingleTree) (some blk) BCNType.Single).1 (hh blk)
      s.next = attached hh s s.SingleTree blk := rfl
  have h2 : (NewBCN s (some s.SingleTree) (some blk) BCNType.Single).2 = s.next := rfl
  unfold Add
  simp only [hmget_snd, hmget_fst, hdup, hpar, IF, Iface.asBCNType, Iface.asNode,
    Option.isSome_none, Option.isSome_some, if_true, Bool.false_eq_true, if_false, hs2, h2, hm]

theorem attached_frame (hh : Block → Hash) (s : BlockCache) (fa : Ptr) (blk : Block) :
    (attached hh s fa blk).next = s.next + 1 ∧
    (attached hh s fa blk).LinkedTree = s.LinkedTree ∧
    (attached hh s fa blk).SingleTree = s.SingleTree ∧
    (attached hh s fa blk).Head = s.Head ∧
    (attached hh s fa blk).hash2node = mapStore s.hash2node (hh blk) s.next ∧
    (attached hh s fa blk).Leaf = s.Leaf := by
  unfold attached hmset NewBCN addChild BlockCache.store
  simp only
  split <;> simp

theorem attached_old (hh : Block → Hash) (s : BlockCache) (fa : Ptr) (blk : Block)
    (hwf : WF hh s) (hfa : fa < s.next) (x : Ptr) (hx : x ≠ s.next) :
    ((attached hh s fa blk).heap x).Block = (s.heap x).Block ∧
    ((attached hh s fa blk).heap x).Parent = (s.heap x).Parent ∧
    ((attached hh s fa blk).heap x).Type_ = (s.heap x).Type_ ∧
    ((attached hh s fa blk).heap x).Number = (s.heap x).Number ∧
    ((attached hh s fa blk).heap x).Children =
      if x = fa then (s.heap fa).Children ++ [s.next] else (s.heap x).Children := by
  rw [attached_eq hh s fa blk hwf hfa]
  by_cases hxf : x = fa
  · subst hxf; simp
  · simp [Function.update_apply, hxf, hx]

/-- What `mergeSingle` does right after the new node has been attached. -/
theorem merge_attached (hh : Block → Hash) (s : BlockCache) (fa : Ptr) (blk : Block)
    (hwf : WF hh s) (hfa : fa < s.next) (hdup : mapLoad s.hash2node (hh blk) = none) :
    (mergeSingle hh (attached hh s fa blk) s.next = some (attached hh s fa blk) ∧
      ∀ x ∈ ((attached hh s fa blk).heap s.SingleTree).Children, ∀ b,
        ((attached hh s fa blk).heap x).Block = some b → b.Head.ParentHash ≠ hh blk) ∨
    (∃ c, mergeSingle hh (attached hh s fa blk) s.next
          = some (adopted (attached hh s fa blk) s.next c) ∧
      c ∈ ((attached hh s fa blk).heap s.SingleTree).Children ∧
      ∃ b, ((attached hh s fa blk).heap c).Block = some b ∧ b.Head.ParentHash = hh blk) := by
  have hwf2 := WF_attached hh s fa blk hwf hfa hdup
  have hb := (attached_type hh s fa blk hwf hfa).2.1
  have h := mergeSingle_spec hh (attached hh s fa blk) s.next blk hwf2 hb
  rw [(attached_frame hh s fa blk).2.2.1] at h
  exact h

/-- The state `mergeSingle` leaves is again well formed. -/
theorem WF_merge_attached (hh : Block → Hash) (s : BlockCache) (fa : Ptr) (blk : Block)
    (s3 : BlockCache) (hwf : WF hh s) (hfa : fa < s.next)
    (hdup : mapLoad s.hash2node (hh blk) = none)
    (hm : mergeSingle hh (attached hh s fa blk) s.next = some s3) : WF hh s3 := by
  have hwf2 := WF_attached hh s fa blk hwf hfa hdup
  have hb := (attached_type hh s fa blk hwf hfa).2.1
  rcases merge_attached hh s fa blk hwf hfa hdup with ⟨h1, _⟩ | ⟨c, h1, h2, _⟩
  · rw [h1] at hm; cases hm; exact hwf2
  · rw [h1] at hm; cases hm
    have hlt : s.next < (attached hh s fa blk).next := by
      rw [(attached_frame hh s fa blk).1]; exact Nat.lt_succ_self _
    rw [← (attached_frame hh s fa blk).2.2.1] at h2
    exact WF_adopted hh _ s.next c blk hwf2 hlt hb h2

theorem Add_dup (hh : Block → Hash) (s : BlockCache) (blk : Block)
    (h : (hmget s (hh blk)).2 = true) :
    Add hh s blk = some
      { node := none, err := some Err.ErrDup, code := CacheStatus.Extend, cache := s } := by
  simp [Add, h]

/-- `Add` returns in every well-formed cache and leaves a well-formed cache. -/
theorem Add_total_WF (hh : Block → Hash) (s : BlockCache) (blk : Block) (hwf : WF hh s) :
    ∃ r, Add hh s blk = some r ∧ WF hh r.cache := by
  cases hdup : mapLoad s.hash2node (hh blk) with
  | some q =>
    refine ⟨_, Add_dup hh s blk (by simp [hmget_snd, hdup]), hwf⟩
  | none =>
    cases hpar : mapLoad s.hash2node blk.Head.ParentHash with
    | some p =>
      have hp := hwf.index_lt _ p hpar
      have hm := merge_attached hh s p blk hwf hp hdup
      have hnS : s.next ≠ s.SingleTree := Ne.symm (Nat.ne_of_lt hwf.single_lt)
      rcases hm with ⟨h1, _⟩ | ⟨c, h1, _, _⟩
      · refine ⟨_, Add_parent hh s blk p _ hwf hdup hpar h1, ?_⟩
        have hw3 := WF_merge_attached hh s p blk _ hwf hp hdup h1
        by_cases ht : (s.heap p).Type_ = BCNType.Linked
        · simp only [ht, if_true]
          exact WF_Link hh _ s.next hw3 (by rw [(attached_frame hh s p blk).2.2.1]; exact hnS)
        · simp only [ht, if_false]; exact hw3
      · refine ⟨_, Add_parent hh s blk p _ hwf hdup hpar h1, ?_⟩
        have hw3 := WF_merge_attached hh s p blk _ hwf hp hdup h1
        by_cases ht : (s.heap p).Type_ = BCNType.Linked
        · simp only [ht, if_true]
          exact WF_Link hh _ s.next hw3 (by
            rw [(adopted_frame _ _ _).2.2.1, (attached_frame hh s p blk).2.2.1]; exact hnS)
        · simp only [ht, if_false]; exact hw3
    | none =>
      have hp := hwf.single_lt
      rcases merge_attached hh s s.SingleTree blk hwf hp hdup with ⟨h1, _⟩ | ⟨c, h1, _, _⟩
      · exact ⟨_, Add_orphan hh s blk _ hdup hpar h1,
          WF_merge_attached hh s _ blk _ hwf hp hdup h1⟩
      · exact ⟨_, Add_orphan hh s blk _ hdup hpar h1,
          WF_merge_attached hh s _ blk _ hwf hp hdup h1⟩

theorem NewBlockCache_eq (hh : Block → Hash) (lib : Option Block) :
    NewBlockCache hh lib =
      { heap := Function.update
          (Function.update (Function.update (fun _ => BlockCacheNode.zero) 0 BlockCacheNode.zero) 1
            { BlockCacheNode.zero with Type_ := BCNType.Single })
          0 { BlockCacheNode.zero with Block := lib },
        next := 2, LinkedTree := 0, SingleTree := 1, Head := 0,
        hash2node := match lib with
          | none => []
          | some b => [(hh b, 0)],
        Leaf := [(0, 0)] } := by
  cases lib <;>
  simp [NewBlockCache, NewBCN, BlockCache.store, hmset, mapStore, leafSet, BlockCacheNode.zero,
    Function.update_apply]

theorem WF_NewBlockCache (hh : Block → Hash) (lib : Option Block) :
    WF hh (NewBlockCache hh lib) := by
  rw [NewBlockCache_eq]
  have hch : ∀ p : Ptr, ((Function.update
          (Function.update (Function.update (fun _ => BlockCacheNode.zero) 0 BlockCacheNode.zero) 1
            { BlockCacheNode.zero with Type_ := BCNType.Single })
          0 { BlockCacheNode.zero with Block := lib }) p).Children = [] := by
    intro p
    simp only [Function.update_apply]
    split_ifs <;> rfl
  constructor
  · show (0 : Nat) < 2; decide
  · show (1 : Nat) < 2; decide
  · show (0 : Nat) ≠ 1; decide
  · intro h p hp
    cases lib with
    | none => simp [mapLoad] at hp
    | some b =>
      simp only [mapLoad] at hp
      split_ifs at hp
      cases hp; show (0 : Nat) < 2; decide
  · intro h p hp
    cases lib with
    | none => simp [mapLoad] at hp
    | some b =>
      simp only [mapLoad] at hp
      split_ifs at hp with hk
      cases hp; exact ⟨b, by simp, hk⟩
  · intro p c _ hc; simp only [hch p] at hc; cases hc
  · intro p c _ hc; simp only [hch p] at hc; cases hc
  · intro p c _ hc; simp only [hch p] at hc; cases hc
  · intro p _; simp only [hch p]; exact List.nodup_nil
  · simp [Function.update_apply, BlockCacheNode.zero]
  · simp [Function.update_apply, BlockCacheNode.zero]
  · intro b hb
    simp at hb
    subst hb
    simp [mapLoad]

theorem WF_addAll (hh : Block → Hash) (blocks : List Block) :
    ∀ s, WF hh s → ∃ s2, addAll hh s blocks = some s2 ∧ WF hh s2 := by
  induction blocks with
  | nil => intro s hwf; exact ⟨s, rfl, hwf⟩
  | cons b rest ih =>
    intro s hwf
    obtain ⟨r, hr, hwr⟩ := Add_total_WF hh s b hwf
    obtain ⟨s2, h2, hw2⟩ := ih r.cache hwr
    exact ⟨s2, by simp [addAll, hr, h2], hw2⟩

/-- After `mergeSingle` has run on the attached state the new node still
holds its block and the type `NewBCN` gave it, and the index is the old one
with the new entry. -/
theorem merged_basic (hh : Block → Hash) (s : BlockCache) (fa : Ptr) (blk : Block)
    (s3 : BlockCache) (hwf : WF hh s) (hfa : fa < s.next)
    (hdup : mapLoad s.hash2node (hh blk) = none)
    (hm : mergeSingle hh (attached hh s fa blk) s.next = some s3) :
    (s3.heap s.next).Block = some blk ∧ (s3.heap s.next).Type_ = (s.heap fa).Type_ ∧
    s3.hash2node = mapStore s.hash2node (hh blk) s.next ∧
    s3.SingleTree = s.SingleTree ∧ s3.LinkedTree = s.LinkedTree ∧ s3.next = s.next + 1 := by
  have hwf2 := WF_attached hh s fa blk hwf hfa hdup
  obtain ⟨a1, a2, a3, a4, a5⟩ := attached_type hh s fa blk hwf hfa
  obtain ⟨f1, f2, f3, f4, f5, f6⟩ := attached_frame hh s fa blk
  rcases merge_attached hh s fa blk hwf hfa hdup with ⟨h1, _⟩ | ⟨c, h1, h2, b, h3, h4⟩
  · rw [h1] at hm; cases hm
    exact ⟨a2, a1, f5, f3, f2, f1⟩
  · rw [h1] at hm; cases hm
    have hlt : s.next < (attached hh s fa blk).next := by rw [f1]; exact Nat.lt_succ_self _
    have h2b : c ∈ ((attached hh s fa blk).heap (attached hh s fa blk).SingleTree).Children := by
      rw [f3]; exact h2
    have hheap := adopted_heap hh _ s.next c blk hwf2 hlt a2 h2b
    obtain ⟨g1, g2, g3, g4, g5, g6⟩ := adopted_frame (attached hh s fa blk) s.next c
    exact ⟨by rw [hheap]; exact a2, by rw [hheap]; exact a1, by rw [g5, f5], by rw [g3, f3],
      by rw [g2, f2], by rw [g1, f1]⟩

theorem fresh_of_not_indexed (s : BlockCache) (h : Hash) (hnew : (hmget s h).2 = false) :
    mapLoad s.hash2node h = none := by
  rw [hmget_snd] at hnew
  cases hq : mapLoad s.hash2node h with
  | none => rfl
  | some q => rw [hq] at hnew; simp at hnew

theorem merge_attached_some (hh : Block → Hash) (s : BlockCache) (fa : Ptr) (blk : Block)
    (hwf : WF hh s) (hfa : fa < s.next) (hdup : mapLoad s.hash2node (hh blk) = none) :
    ∃ s3, mergeSingle hh (attached hh s fa blk) s.next = some s3 := by
  rcases merge_attached hh s fa blk hwf hfa hdup with ⟨h1, _⟩ | ⟨c, h1, _⟩
  · exact ⟨_, h1⟩
  · exact ⟨_, h1⟩

/-! ## The invariant that every operation keeps -/

theorem leafGet_leafSet (l : List (Ptr × Nat)) (k x : Ptr) (v : Nat) :
    leafGet (leafSet l k v) x = if x = k then some v else leafGet l x := by
  induction l with
  | nil =>
    by_cases h : x = k
    · simp [leafSet, leafGet, h]
    · have : ¬ k = x := fun e => h e.symm
      simp [leafSet, leafGet, h, this]
  | cons kv rest ih =>
    obtain ⟨k0, v0⟩ := kv
    by_cases h0 : k0 = k
    · subst h0
      by_cases h : x = k0
      · simp [leafSet, leafGet, h]
      · have : ¬ k0 = x := fun e => h e.symm
        simp [leafSet, leafGet, h, this]
    · by_cases h1 : k0 = x
      · subst h1
        simp [leafSet, leafGet, h0]
      · simp [leafSet, leafGet, h0, h1, ih]

theorem leafGet_leafDelete (l : List (Ptr × Nat)) (p x : Ptr) :
    leafGet (leafDelete l (some p)) x = if x = p then none else leafGet l x := by
  induction l with
  | nil => simp [leafDelete, leafGet]
  | cons kv rest ih =>
    obtain ⟨k0, v0⟩ := kv
    simp only [leafDelete] at ih
    by_cases h0 : k0 = p
    · subst h0
      by_cases h : x = k0
      · subst h
        simp [leafDelete, leafGet, List.filter_cons, ih]
      · have : ¬ k0 = x := fun e => h e.symm
        simp [leafDelete, leafGet, List.filter_cons, h, this, ih]
    · by_cases h1 : k0 = x
      · subst h1
        simp [leafDelete, leafGet, List.filter_cons, h0]
      · simp [leafDelete, leafGet, List.filter_cons, h0, h1, ih]

theorem mapLoad_mapErase (m : List (Hash × Ptr)) (h k : Hash) :
    mapLoad (mapErase m h) k = if k = h then none else mapLoad m k := by
  induction m with
  | nil => simp [mapErase, mapLoad]
  | cons kv rest ih =>
    obtain ⟨k0, v0⟩ := kv
    simp only [mapErase] at ih
    by_cases h0 : k0 = h
    · subst h0
      by_cases hk : k = k0
      · subst hk
        simp [mapErase, mapLoad, List.filter_cons, ih]
      · have : ¬ k0 = k := fun e => hk e.symm
        simp [mapErase, mapLoad, List.filter_cons, hk, this, ih]
    · by_cases h1 : k0 = k
      · subst h1
        simp [mapErase, mapLoad, List.filter_cons, h0]
      · simp [mapErase, mapLoad, List.filter_cons, h0, h1, ih]

/-- What `delNode` does, field by field. -/
theorem delNode_spec (hh : Block → Hash) (s : BlockCache) (n : Ptr) (b : Block)
    (hb : (s.heap n).Block = some b) :
    ∃ s2, delNode hh s n = some s2 ∧
      s2.next = s.next ∧ s2.LinkedTree = s.LinkedTree ∧ s2.SingleTree = s.SingleTree ∧
      s2.Head = s.Head ∧
      (∀ m, (s2.heap m).Block = (s.heap m).Block ∧ (s2.heap m).Number = (s.heap m).Number ∧
        (s2.heap m).Type_ = (s.heap m).Type_) ∧
      (∀ m, (s2.heap m).Parent = if m = n then none else (s.heap m).Parent) ∧
      (∀ m, (s2.heap m).Children =
        if (s.heap n).Parent = some m then (s.heap m).Children.filter (fun x => x != n)
        else (s.heap m).Children) ∧
      (∀ h, mapLoad s2.hash2node h = if h = hh b then none else mapLoad s.hash2node h) ∧
      (∀ m, leafGet s2.Leaf m =
        if (s.heap n).Parent = some m then some (s.heap m).Number
        else if m = n then none else leafGet s.Leaf m) := by
  cases hpar : (s.heap n).Parent with
  | none =>
    simp only [delNode, BlockCache.store, Function.update_same, hb, hpar]
    refine ⟨_, rfl, ?_⟩
    refine ⟨rfl, rfl, rfl, rfl, ?_, ?_, ?_, ?_, ?_⟩
    · intro m
      by_cases hm : m = n
      · subst hm; simp [hmdel, hb]
      · simp [hmdel, Function.update_apply, hm]
    · intro m
      by_cases hm : m = n
      · subst hm; simp [hmdel]
      · simp [hmdel, Function.update_apply, hm]
    · intro m
      by_cases hm : m = n
      · subst hm; simp [hmdel]
      · simp [hmdel, Function.update_apply, hm]
    · intro h; simp [hmdel, mapLoad_mapErase]
    · intro m; simp [hmdel, leafGet_leafDelete]
  | some f =>
    simp only [delNode, BlockCache.store, Function.update_same, hb, hpar]
    refine ⟨_, rfl, ?_⟩
    refine ⟨?_, ?_, ?_, ?_, ?_, ?_, ?_, ?_, ?_⟩
    · simp [delChild, BlockCache.store, hmdel]
    · simp [delChild, BlockCache.store, hmdel]
    · simp [delChild, BlockCache.store, hmdel]
    · simp [delChild, BlockCache.store, hmdel]
    · intro m
      by_cases hm : m = n
      · subst hm
        by_cases hf : m = f
        · subst hf; simp [delChild, BlockCache.store, hmdel, hb]
        · simp [delChild, BlockCache.store, hmdel, Function.update_apply, hf, hb]
      · by_cases hf : m = f
        · subst hf; simp [delChild, BlockCache.store, hmdel, Function.update_apply, hm]
        · simp [delChild, BlockCache.store, hmdel, Function.update_apply, hm, hf]
    · intro m
      by_cases hm : m = n
      · subst hm; simp [delChild, BlockCache.store, hmdel]
      · by_cases hf : m = f
        · subst hf; simp [delChild, BlockCache.store, hmdel, Function.update_apply, hm]
        · simp [delChild, BlockCache.store, hmdel, Function.update_apply, hm, hf]
    · intro m
      by_cases hf : f = m
      · subst hf
        by_cases hm : f = n
        · subst hm; simp [delChild, BlockCache.store, hmdel]
        · simp [delChild, BlockCache.store, hmdel, Function.update_apply, hm]
      · have hf2 : m ≠ f := fun e => hf e.symm
        by_cases hm : m = n
        · subst hm; simp [delChild, BlockCache.store, hmdel, Function.update_apply, hf, hf2]
        · simp [delChild, BlockCache.store, hmdel, Function.update_apply, hm, hf, hf2]
    · intro h; simp [delChild, BlockCache.store, hmdel, mapLoad_mapErase]
    · intro m
      by_cases hf : f = m
      · subst hf
        by_cases hm : f = n
        · subst hm
          simp [delChild, BlockCache.store, hmdel, leafGet_leafSet]
        · simp [delChild, BlockCache.store, hmdel, leafGet_leafSet, Function.update_apply, hm]
      · have hf2 : m ≠ f := fun e => hf e.symm
        simp [delChild, BlockCache.store, hmdel, leafGet_leafSet, leafGet_leafDelete, hf, hf2]

theorem NewBlockCache_children (hh : Block → Hash) (lib : Option Block) (p : Ptr) :
    ((NewBlockCache hh lib).heap p).Children = [] ∧
    ((NewBlockCache hh lib).heap p).Parent = none := by
  rw [NewBlockCache_eq]
  simp only [Function.update_apply]
  split_ifs <;> exact ⟨rfl, rfl⟩

theorem blocksOf_snoc (s : BlockCache) (l : List Ptr) (c : Ptr) (cb : Block)
    (h : (s.heap c).Block = some cb) : blocksOf s (l ++ [c]) = blocksOf s l ++ [cb] := by
  simp [blocksOf, List.filterMap_append, h]

theorem mem_blocksOf (s : BlockCache) (l : List Ptr) (b : Block) :
    b ∈ blocksOf s l ↔ ∃ m, m ∈ l ∧ (s.heap m).Block = some b := by
  simp [blocksOf, List.mem_filterMap]

theorem Shrunk_refl (s : BlockCache) : Shrunk s s :=
  ⟨rfl, rfl, fun _ => ⟨rfl, rfl, rfl⟩, fun _ _ h => h, fun _ => Or.inl rfl, fun _ _ h => h⟩

theorem Shrunk_trans (s s1 s2 : BlockCache) (h1 : Shrunk s s1) (h2 : Shrunk s1 s2) :
    Shrunk s s2 := by
  refine ⟨by rw [h2.next_eq, h1.next_eq], by rw [h2.single_eq, h1.single_eq], ?_, ?_, ?_, ?_⟩
  · intro m
    obtain ⟨a1, a2, a3⟩ := h1.fields m
    obtain ⟨b1, b2, b3⟩ := h2.fields m
    exact ⟨by rw [b1, a1], by rw [b2, a2], by rw [b3, a3]⟩
  · intro m c hc; exact h1.children m c (h2.children m c hc)
  · intro m
    rcases h2.parent m with e | e
    · rcases h1.parent m with e1 | e1
      · left; rw [e, e1]
      · right; rw [e, e1]
    · right; exact e
  · intro h p hp; exact h1.index h p (h2.index h p hp)

/-- A cache that differs from a sound one in `Head` and `Leaf` only is sound. -/
theorem Sound_congr (hh : Block → Hash) (s s2 : BlockCache) (hs : Sound hh s)
    (e1 : s2.heap = s.heap) (e2 : s2.next = s.next) (e3 : s2.LinkedTree = s.LinkedTree)
    (e4 : s2.SingleTree = s.SingleTree) (e5 : s2.hash2node = s.hash2node) : Sound hh s2 := by
  constructor
  · rw [e2, e3]; exact hs.linked_lt
  · rw [e2, e4]; exact hs.single_lt
  · rw [e3, e4]; exact hs.roots_ne
  · intro h p hp; rw [e5] at hp; rw [e2]; exact hs.index_lt h p hp
  · intro h p hp; rw [e5] at hp; rw [e1]; exact hs.index_block h p hp
  · intro p c hc; rw [e1] at hc; rw [e2]; exact hs.child_lt p c hc
  · intro p c hc; rw [e1] at hc ⊢; exact hs.child_block p c hc
  · intro c p hp; rw [e1] at hp ⊢; exact hs.parent_child c p hp
  · intro c p hp; rw [e1] at hp; rw [e2]; exact hs.parent_lt c p hp
  · rw [e1, e3]; exact hs.linked_parent
  · rw [e1, e4]; exact hs.single_block
  · rw [e1, e4]; exact hs.single_type
  · intro c hc; rw [e1, e4] at hc ⊢; exact hs.single_child c hc

theorem Sound_single_parent (hh : Block → Hash) (s : BlockCache) (hs : Sound hh s) :
    (s.heap s.SingleTree).Parent = none := by
  cases hp : (s.heap s.SingleTree).Parent with
  | none => rfl
  | some q =>
    obtain ⟨b, hb⟩ := hs.child_block q _ (hs.parent_child _ q hp)
    rw [hs.single_block] at hb; cases hb

theorem Sound_parent_block (hh : Block → Hash) (s : BlockCache) (hs : Sound hh s) (c p : Ptr)
    (hp : (s.heap c).Parent = some p) : ∃ b, (s.heap c).Block = some b :=
  hs.child_block p c (hs.parent_child c p hp)

theorem Layered_shrunk (rank : Hash → Nat) (hh : Block → Hash) (s s2 : BlockCache)
    (hl : Layered rank hh s) (h : Shrunk s s2) : Layered rank hh s2 := by
  constructor
  · intro p c b hc hb
    rw [(h.fields c).1] at hb
    exact hl.child_rank p c b (h.children p c hc) hb
  · intro p c bp bc hc hbp hbc
    rw [(h.fields p).1] at hbp
    rw [(h.fields c).1] at hbc
    exact hl.edge_hash p c bp bc (h.children p c hc) hbp hbc

theorem Height_shrunk (s s2 : BlockCache)
    (hch : ∀ m c, c ∈ (s2.heap m).Children → c ∈ (s.heap m).Children) :
    ∀ k n, Height s k n → Height s2 k n := by
  intro k
  induction k with
  | zero =>
    intro n h
    simp only [Height] at h ⊢
    apply List.eq_nil_iff_forall_not_mem.mpr
    intro c hc
    have := hch n c hc
    rw [h] at this; cases this
  | succ k ih =>
    intro n h c hc
    exact ih c (h c (hch n c hc))

/-! ### `delNode` -/

theorem delNode_some_block (hh : Block → Hash) (s : BlockCache) (n : Ptr) (s2 : BlockCache)
    (h : delNode hh s n = some s2) : ∃ b, (s.heap n).Block = some b := by
  cases hb : (s.heap n).Block with
  | some b => exact ⟨b, rfl⟩
  | none => simp [delNode, BlockCache.store, hb] at h

theorem delNode_shrunk (hh : Block → Hash) (s : BlockCache) (n : Ptr) (s2 : BlockCache)
    (h : delNode hh s n = some s2) : Shrunk s s2 ∧ s2.LinkedTree = s.LinkedTree := by
  obtain ⟨b, hb⟩ := delNode_some_block hh s n s2 h
  obtain ⟨s3, h3, d1, d2, d3, _, d5, d6, d7, d8, _⟩ := delNode_spec hh s n b hb
  rw [h] at h3; cases h3
  refine ⟨⟨d1, d3, d5, ?_, ?_, ?_⟩, d2⟩
  · intro m c hc
    rw [d7 m] at hc
    split_ifs at hc
    · exact (List.mem_filter.mp hc).1
    · exact hc
  · intro m
    rw [d6 m]
    split_ifs
    · right; rfl
    · left; rfl
  · intro k p hp
    rw [d8 k] at hp
    split_ifs at hp
    exact hp

theorem Sound_delNode (hh : Block → Hash) (s : BlockCache) (n : Ptr) (s2 : BlockCache)
    (hs : Sound hh s) (h : delNode hh s n = some s2) : Sound hh s2 := by
  obtain ⟨b, hb⟩ := delNode_some_block hh s n s2 h
  obtain ⟨s3, h3, d1, d2, d3, _, d5, d6, d7, d8, _⟩ := delNode_spec hh s n b hb
  rw [h] at h3; cases h3
  obtain ⟨hsh, _⟩ := delNode_shrunk hh s n s2 h
  constructor
  · rw [d1, d2]; exact hs.linked_lt
  · rw [d1, d3]; exact hs.single_lt
  · rw [d2, d3]; exact hs.roots_ne
  · intro k p hp; rw [d1]; exact hs.index_lt k p (hsh.index k p hp)
  · intro k p hp; rw [(d5 p).1]; exact hs.index_block k p (hsh.index k p hp)
  · intro p c hc; rw [d1]; exact hs.child_lt p c (hsh.children p c hc)
  · intro p c hc; rw [(d5 c).1]; exact hs.child_block p c (hsh.children p c hc)
  · intro c p hp
    rw [d6 c] at hp
    split_ifs at hp with hcn
    have hold := hs.parent_child c p hp
    rw [d7 p]
    split_ifs
    · exact List.mem_filter.mpr ⟨hold, by simpa using hcn⟩
    · exact hold
  · intro c p hp
    rw [d6 c] at hp
    split_ifs at hp
    rw [d1]; exact hs.parent_lt c p hp
  · rw [d2, d6]
    split_ifs
    · rfl
    · exact hs.linked_parent
  · rw [d3, (d5 _).1]; exact hs.single_block
  · rw [d3, (d5 _).2.2]; exact hs.single_type
  · intro c hc
    rw [d3] at hc ⊢
    rw [d7] at hc
    rw [d6 c]
    split_ifs at hc with hnp
    · obtain ⟨hc1, hc2⟩ := List.mem_filter.mp hc
      have hcn : c ≠ n := by simpa using hc2
      rw [if_neg hcn]; exact hs.single_child c hc1
    · have hold := hs.single_child c hc
      have hcn : c ≠ n := by
        intro e; rw [e] at hold; exact hnp hold
      rw [if_neg hcn]; exact hold

/-! ### Loops over children, `Del` -/

/-- A property that the body of a loop over children keeps is kept by the
loop. -/
theorem rangeChildren_keeps (P : BlockCache → Prop)
    (body : BlockCache → Ptr → Option BlockCache) (par : Ptr)
    (hbody : ∀ s ch s2, P s → body s ch = some s2 → P s2) :
    ∀ l s s2, P s → rangeChildren body par l s = some s2 → P s2 := by
  intro l
  induction l with
  | nil => intro s s2 hp h; simp [rangeChildren] at h; rw [← h]; exact hp
  | cons ch rest ih =>
    intro s s2 hp h
    unfold rangeChildren at h
    split_ifs at h with hmem
    · cases hb : body s ch with
      | none => rw [hb] at h; cases h
      | some s1 =>
        rw [hb] at h
        exact ih s1 s2 (hbody s ch s1 hp hb) h
    · exact ih s s2 hp h

/-- A loop over children returns if its body returns on every child of the
list in every state that has the property, and keeps the property. -/
theorem rangeChildren_returns (P : BlockCache → Prop) (Q : Ptr → Prop)
    (body : BlockCache → Ptr → Option BlockCache) (par : Ptr)
    (hbody : ∀ s ch, P s → Q ch → ∃ s2, body s ch = some s2 ∧ P s2) :
    ∀ l s, P s → (∀ ch ∈ l, Q ch) → ∃ s2, rangeChildren body par l s = some s2 ∧ P s2 := by
  intro l
  induction l with
  | nil => intro s hp _; exact ⟨s, rfl, hp⟩
  | cons ch rest ih =>
    intro s hp hq
    unfold rangeChildren
    split_ifs with hmem
    · obtain ⟨s1, h1, hp1⟩ := hbody s ch hp (hq ch (List.mem_cons_self _ _))
      rw [h1]
      exact ih s1 hp1 (fun c hc => hq c (List.mem_cons_of_mem _ hc))
    · exact ih s hp (fun c hc => hq c (List.mem_cons_of_mem _ hc))

theorem updateLongest_shrunk (s : BlockCache) : Shrunk s (updateLongest s) := by
  obtain ⟨e1, e2, _, e4, e5, _⟩ := updateLongest_frame s
  exact ⟨e2, e4, fun m => by rw [e1]; exact ⟨rfl, rfl, rfl⟩, fun m c hc => by rw [e1] at hc; exact hc,
    fun m => by rw [e1]; exact Or.inl rfl, fun h p hp => by rw [e5] at hp; exact hp⟩

theorem Sound_updateLongest (hh : Block → Hash) (s : BlockCache) (hs : Sound hh s) :
    Sound hh (updateLongest s) := by
  obtain ⟨e1, e2, e3, e4, e5, _⟩ := updateLongest_frame s
  exact Sound_congr hh s _ hs e1 e2 e3 e4 e5

/-- `Del` keeps the invariant and only detaches nodes, whatever node it is
given. -/
theorem Del_keeps (hh : Block → Hash) :
    ∀ fuel s n s2, Sound hh s → Del hh fuel s n = some s2 →
      Sound hh s2 ∧ Shrunk s s2 ∧ s2.LinkedTree = s.LinkedTree := by
  intro fuel
  induction fuel with
  | zero =>
    intro s n s2 hs h
    cases n with
    | none => simp [Del] at h; rw [← h]; exact ⟨hs, Shrunk_refl s, rfl⟩
    | some bcn => simp [Del] at h
  | succ fuel ih =>
    intro s n s2 hs h
    cases n with
    | none => simp [Del] at h; rw [← h]; exact ⟨hs, Shrunk_refl s, rfl⟩
    | some bcn =>
      unfold Del at h
      simp only at h
      cases hr : rangeChildren (fun s1 ch => Del hh fuel s1 (some ch)) bcn
          (s.heap bcn).Children s with
      | none => rw [hr] at h; cases h
      | some s1 =>
        rw [hr] at h
        simp only at h
        have h1 : Sound hh s1 ∧ Shrunk s s1 ∧ s1.LinkedTree = s.LinkedTree :=
          rangeChildren_keeps
            (fun x => Sound hh x ∧ Shrunk s x ∧ x.LinkedTree = s.LinkedTree) _ bcn
            (fun x ch x2 hx hb => by
              obtain ⟨a1, a2, a3⟩ := ih x (some ch) x2 hx.1 hb
              exact ⟨a1, Shrunk_trans s x x2 hx.2.1 a2, by rw [a3, hx.2.2]⟩)
            _ s s1 ⟨hs, Shrunk_refl s, rfl⟩ hr
        cases hd : delNode hh s1 bcn with
        | none => rw [hd] at h; cases h
        | some s3 =>
          rw [hd] at h
          simp only at h
          have hs3 := Sound_delNode hh s1 bcn s3 h1.1 hd
          obtain ⟨hsh3, hl3⟩ := delNode_shrunk hh s1 bcn s3 hd
          have h3 : Shrunk s s3 := Shrunk_trans s s1 s3 h1.2.1 hsh3
          split_ifs at h
          · cases h
            exact ⟨Sound_updateLongest hh s3 hs3,
              Shrunk_trans s s3 _ h3 (updateLongest_shrunk s3),
              by rw [(updateLongest_frame s3).2.2.1, hl3, h1.2.2]⟩
          · cases h
            exact ⟨hs3, h3, by rw [hl3, h1.2.2]⟩

/-- `Del` returns on a node that holds a block, with fuel above the height of
the tree below the node. -/
theorem Del_returns (hh : Block → Hash) :
    ∀ k fuel s n, k < fuel → Sound hh s → Height s k n → (∃ b, (s.heap n).Block = some b) →
      ∃ s2, Del hh fuel s (some n) = some s2 := by
  intro k
  induction k with
  | zero =>
    intro fuel s n hk hs hh0 hb
    obtain ⟨b, hb⟩ := hb
    cases fuel with
    | zero => cases hk
    | succ fuel =>
      simp only [Height] at hh0
      obtain ⟨s3, h3, _⟩ := delNode_spec hh s n b hb
      unfold Del
      simp only [hh0, rangeChildren, h3]
      split_ifs <;> exact ⟨_, rfl⟩
  | succ k ih =>
    intro fuel s n hk hs hh0 hb
    obtain ⟨b, hb⟩ := hb
    cases fuel with
    | zero => cases hk
    | succ fuel =>
      have hk2 : k < fuel := Nat.lt_of_succ_lt_succ hk
      obtain ⟨s1, h1, hp1⟩ := rangeChildren_returns
        (fun x => Sound hh x ∧ Shrunk s x) (fun ch => ch ∈ (s.heap n).Children)
        (fun s1 ch => Del hh fuel s1 (some ch)) n
        (fun x ch hx hq => by
          have hhc : Height x k ch := Height_shrunk s x hx.2.children k ch (hh0 ch hq)
          obtain ⟨bc, hbc⟩ := hs.child_block n ch hq
          have hbx : (x.heap ch).Block = some bc := by rw [(hx.2.fields ch).1]; exact hbc
          obtain ⟨x2, hx2⟩ := ih fuel x ch hk2 hx.1 hhc ⟨bc, hbx⟩
          obtain ⟨a1, a2, _⟩ := Del_keeps hh fuel x (some ch) x2 hx.1 hx2
          exact ⟨x2, hx2, a1, Shrunk_trans s x x2 hx.2 a2⟩)
        (s.heap n).Children s ⟨hs, Shrunk_refl s⟩ (fun ch hc => hc)
      have hb1 : (s1.heap n).Block = some b := by rw [(hp1.2.fields n).1]; exact hb
      obtain ⟨s3, h3, _⟩ := delNode_spec hh s1 n b hb1
      unfold Del
      simp only [h1, h3]
      split_ifs <;> exact ⟨_, rfl⟩

/-! ### `flush` and `Flush` keep the invariant -/

theorem flush_nil (hh : Block → Hash) (pushOK : Block → Bool) (flushOK : Hash → Bool)
    (fuel : Nat) (w : BlockCache × Store) (retain : Ptr) :
    flush hh pushOK flushOK fuel w none retain = none := by
  cases fuel <;> simp [flush]

/-- The last step of a successful level of `flush`: the index entry of a hash
is dropped, the node `retain` loses its parent and becomes the linked root. -/
theorem Sound_advance (hh : Block → Hash) (s2 : BlockCache) (retain : Ptr) (h : Hash)
    (b : Block) (hs : Sound hh s2) (hb : (s2.heap retain).Block = some b)
    (hlt : retain < s2.next) (hns : retain ∉ (s2.heap s2.SingleTree).Children) :
    Sound hh { (hmdel s2 h).store retain { (hmdel s2 h).heap retain with Parent := none } with
      LinkedTree := retain } ∧
    Shrunk s2 { (hmdel s2 h).store retain { (hmdel s2 h).heap retain with Parent := none } with
      LinkedTree := retain } := by
  have hheap : ∀ x,
      ((Function.update s2.heap retain { s2.heap retain with Parent := none }) x).Block
        = (s2.heap x).Block ∧
      ((Function.update s2.heap retain { s2.heap retain with Parent := none }) x).Children
        = (s2.heap x).Children ∧
      ((Function.update s2.heap retain { s2.heap retain with Parent := none }) x).Type_
        = (s2.heap x).Type_ ∧
      ((Function.update s2.heap retain { s2.heap retain with Parent := none }) x).Number
        = (s2.heap x).Number ∧
      ((Function.update s2.heap retain { s2.heap retain with Parent := none }) x).Parent
        = if x = retain then none else (s2.heap x).Parent := by
    intro x
    by_cases hx : x = retain
    · subst hx; simp
    · simp [Function.update_apply, hx]
  have hidx : ∀ k p, mapLoad (mapErase s2.hash2node h) k = some p →
      mapLoad s2.hash2node k = some p := by
    intro k p hp
    rw [mapLoad_mapErase] at hp
    split_ifs at hp
    exact hp
  have hrS : retain ≠ s2.SingleTree := by
    intro e; rw [e, hs.single_block] at hb; cases hb
  constructor
  · constructor
    · exact hlt
    · exact hs.single_lt
    · exact hrS
    · intro k p hp; exact hs.index_lt k p (hidx k p hp)
    · intro k p hp
      show ∃ b, ((Function.update s2.heap retain { s2.heap retain with Parent := none }) p).Block
        = some b ∧ hh b = k
      rw [(hheap p).1]; exact hs.index_block k p (hidx k p hp)
    · intro p c hc
      have hc2 : c ∈ ((Function.update s2.heap retain { s2.heap retain with Parent := none })
          p).Children := hc
      rw [(hheap p).2.1] at hc2
      exact hs.child_lt p c hc2
    · intro p c hc
      have hc2 : c ∈ ((Function.update s2.heap retain { s2.heap retain with Parent := none })
          p).Children := hc
      rw [(hheap p).2.1] at hc2
      show ∃ b, ((Function.update s2.heap retain { s2.heap retain with Parent := none }) c).Block
        = some b
      rw [(hheap c).1]; exact hs.child_block p c hc2
    · intro c p hp
      have hp2 : ((Function.update s2.heap retain { s2.heap retain with Parent := none })
          c).Parent = some p := hp
      rw [(hheap c).2.2.2.2] at hp2
      split_ifs at hp2
      show c ∈ ((Function.update s2.heap retain { s2.heap retain with Parent := none })
          p).Children
      rw [(hheap p).2.1]; exact hs.parent_child c p hp2
    · intro c p hp
      have hp2 : ((Function.update s2.heap retain { s2.heap retain with Parent := none })
          c).Parent = some p := hp
      rw [(hheap c).2.2.2.2] at hp2
      split_ifs at hp2
      exact hs.parent_lt c p hp2
    · show ((Function.update s2.heap retain { s2.heap retain with Parent := none })
          retain).Parent = none
      simp
    · show ((Function.update s2.heap retain { s2.heap retain with Parent := none })
          s2.SingleTree).Block = none
      rw [(hheap _).1]; exact hs.single_block
    · show ((Function.update s2.heap retain { s2.heap retain with Parent := none })
          s2.SingleTree).Type_ = BCNType.Single
      rw [(hheap _).2.2.1]; exact hs.single_type
    · intro c hc
      have hc2 : c ∈ ((Function.update s2.heap retain { s2.heap retain with Parent := none })
          s2.SingleTree).Children := hc
      rw [(hheap _).2.1] at hc2
      show ((Function.update s2.heap retain { s2.heap retain with Parent := none })
          c).Parent = some s2.SingleTree
      rw [(hheap c).2.2.2.2]
      have hcr : c ≠ retain := fun e => hns (e ▸ hc2)
      rw [if_neg hcr]; exact hs.single_child c hc2
  · refine ⟨rfl, rfl, ?_, ?_, ?_, ?_⟩
    · intro m; exact ⟨(hheap m).1, (hheap m).2.2.2.1, (hheap m).2.2.1⟩
    · intro m c hc
      have hc2 : c ∈ ((Function.update s2.heap retain { s2.heap retain with Parent := none })
          m).Children := hc
      rw [(hheap m).2.1] at hc2; exact hc2
    · intro m
      show ((Function.update s2.heap retain { s2.heap retain with Parent := none }) m).Parent
          = (s2.heap m).Parent ∨
        ((Function.update s2.heap retain { s2.heap retain with Parent := none }) m).Parent = none
      rw [(hheap m).2.2.2.2]
      split_ifs
      · right; rfl
      · left; rfl
    · intro k p hp; exact hidx k p hp

/-- The loop of `flush` and of `delSingle` over the children of a node keeps
the invariant and only detaches nodes. -/
theorem prune_keeps (hh : Block → Hash) (fuel : Nat) (sel : BlockCache → Ptr → Bool)
    (par : Ptr) (l : List Ptr) (s s2 : BlockCache) (hs : Sound hh s)
    (h : rangeChildren (fun x ch => if sel x ch then Del hh fuel x (some ch) else some x)
      par l s = some s2) :
    Sound hh s2 ∧ Shrunk s s2 ∧ s2.LinkedTree = s.LinkedTree :=
  rangeChildren_keeps (fun x => Sound hh x ∧ Shrunk s x ∧ x.LinkedTree = s.LinkedTree) _ par
    (fun x ch x2 hx hb => by
      have hb2 : (if sel x ch then Del hh fuel x (some ch) else some x) = some x2 := hb
      split_ifs at hb2
      · obtain ⟨a1, a2, a3⟩ := Del_keeps hh fuel x (some ch) x2 hx.1 hb2
        exact ⟨a1, Shrunk_trans s x x2 hx.2.1 a2, by rw [a3, hx.2.2]⟩
      · cases hb2; exact hx)
    l s s2 ⟨hs, Shrunk_refl s, rfl⟩ h

/-- The loop of `flush` and of `delSingle` over the children of a node returns
when the fuel exceeds the height of the trees of the cache. -/
theorem prune_returns (hh : Block → Hash) (fuel B : Nat) (sel : BlockCache → Ptr → Bool)
    (par : Ptr) (s : BlockCache) (hs : Sound hh s) (hB : ∀ n, Height s B n) (hf : B < fuel) :
    ∃ s2, rangeChildren (fun x ch => if sel x ch then Del hh fuel x (some ch) else some x)
      par (s.heap par).Children s = some s2 := by
  obtain ⟨s2, h2, _⟩ := rangeChildren_returns
    (fun x => Sound hh x ∧ Shrunk s x) (fun ch => ch ∈ (s.heap par).Children)
    (fun x ch => if sel x ch then Del hh fuel x (some ch) else some x) par
    (fun x ch hx hq => by
      show ∃ s2, (if sel x ch then Del hh fuel x (some ch) else some x) = some s2 ∧
        (Sound hh s2 ∧ Shrunk s s2)
      split_ifs
      · have hhc : Height x B ch := Height_shrunk s x hx.2.children B ch (hB ch)
        obtain ⟨bc, hbc⟩ := hs.child_block par ch hq
        have hbx : (x.heap ch).Block = some bc := by rw [(hx.2.fields ch).1]; exact hbc
        obtain ⟨x2, hx2⟩ := Del_returns hh B fuel x ch hf hx.1 hhc ⟨bc, hbx⟩
        obtain ⟨a1, a2, _⟩ := Del_keeps hh fuel x (some ch) x2 hx.1 hx2
        exact ⟨x2, hx2, a1, Shrunk_trans s x x2 hx.2 a2⟩
      · exact ⟨x, rfl, hx⟩)
    (s.heap par).Children s ⟨hs, Shrunk_refl s⟩ (fun ch hc => hc)
  exact ⟨s2, h2⟩

theorem flush_loop_eq (hh : Block → Hash) (fuel : Nat) (retain c : Ptr) (l : List Ptr)
    (s : BlockCache) :
    rangeChildren (fun x child => if child = retain then some x else Del hh fuel x (some child))
      c l s =
    rangeChildren (fun x ch => if (fun _ ch => decide (ch ≠ retain)) x ch
      then Del hh fuel x (some ch) else some x) c l s := by
  congr 1
  funext x child
  by_cases h : child = retain <;> simp [h]

/-- The calls of `flush` from a node up to the linked root keep the invariant,
whatever the chain store and the state database answer. -/
theorem flush_keeps (hh : Block → Hash) (pushOK : Block → Bool) (flushOK : Hash → Bool) :
    ∀ fuel (w : BlockCache × Store) (retain : Ptr) r, Sound hh w.1 →
      flush hh pushOK flushOK fuel w (w.1.heap retain).Parent retain = some r →
      Sound hh r.1.1 ∧ Shrunk w.1 r.1.1 ∧
      (r.1.1.LinkedTree = w.1.LinkedTree ∨ ∃ b, (r.1.1.heap r.1.1.LinkedTree).Block = some b) := by
  intro fuel
  induction fuel with
  | zero => intro w retain r _ h; simp [flush] at h
  | succ fuel ih =>
    intro w retain r hs h
    cases hp : (w.1.heap retain).Parent with
    | none => rw [hp, flush_nil] at h; cases h
    | some c =>
      rw [hp] at h
      simp only [flush] at h
      cases hin : (if c ≠ w.1.LinkedTree then
          (flush hh pushOK flushOK fuel w (w.1.heap c).Parent c).map Prod.fst
        else some w) with
      | none => rw [hin] at h; cases h
      | some w1 =>
        rw [hin] at h
        simp only at h
        have hw1 : Sound hh w1.1 ∧ Shrunk w.1 w1.1 ∧
            (w1.1.LinkedTree = w.1.LinkedTree ∨
              ∃ b, (w1.1.heap w1.1.LinkedTree).Block = some b) := by
          by_cases hc : c = w.1.LinkedTree
          · simp only [hc, ne_eq, not_true_eq_false, if_false, Option.some.injEq] at hin
            rw [← hin]; exact ⟨hs, Shrunk_refl _, Or.inl rfl⟩
          · rw [if_pos hc] at hin
            cases hr0 : flush hh pushOK flushOK fuel w (w.1.heap c).Parent c with
            | none => rw [hr0] at hin; cases hin
            | some r0 =>
              rw [hr0] at hin
              simp only [Option.map_some', Option.some.injEq] at hin
              rw [← hin]
              exact ih w c r0 hs hr0
        cases hl : rangeChildren
            (fun s child => if child = retain then some s else Del hh fuel s (some child))
            c (w1.1.heap c).Children w1.1 with
        | none => rw [hl] at h; cases h
        | some s2 =>
          rw [hl] at h
          simp only at h
          rw [flush_loop_eq] at hl
          obtain ⟨hs2, hsh2, hlt2⟩ := prune_keeps hh fuel _ c _ w1.1 s2 hw1.1 hl
          have hsh : Shrunk w.1 s2 := Shrunk_trans _ _ _ hw1.2.1 hsh2
          have hroot : s2.LinkedTree = w.1.LinkedTree ∨
              ∃ b, (s2.heap s2.LinkedTree).Block = some b := by
            rcases hw1.2.2 with e | ⟨b, hb⟩
            · left; rw [hlt2, e]
            · right; exact ⟨b, by rw [hlt2, (hsh2.fields _).1]; exact hb⟩
          cases hb : (s2.heap retain).Block with
          | none =>
            rw [hb] at h
            simp only [Option.some.injEq] at h
            rw [← h]; exact ⟨hs2, hsh, hroot⟩
          | some b =>
            rw [hb] at h
            simp only at h
            split_ifs at h with h1 h2
            · cases hcb : (s2.heap c).Block with
              | none => rw [hcb] at h; cases h
              | some cb =>
                rw [hcb] at h
                simp only [Option.some.injEq] at h
                have hlt : retain < s2.next := by
                  rw [hsh.next_eq]
                  exact hs.child_lt c retain (hs.parent_child retain c hp)
                have hns : retain ∉ (s2.heap s2.SingleTree).Children := by
                  intro hmem
                  rw [hsh.single_eq] at hmem
                  have h0 := hs.single_child retain (hsh.children _ _ hmem)
                  rw [hp] at h0
                  simp only [Option.some.injEq] at h0
                  subst h0
                  rw [if_pos (Ne.symm hs.roots_ne), Sound_single_parent hh w.1 hs,
                    flush_nil] at hin
                  cases hin
                obtain ⟨a1, a2⟩ := Sound_advance hh s2 retain (hh cb) b hs2 hb hlt hns
                rw [← h]
                exact ⟨a1, Shrunk_trans _ _ _ hsh a2, Or.inr ⟨b, by rw [(a2.fields _).1]; exact hb⟩⟩
            · simp only [Option.some.injEq] at h
              rw [← h]; exact ⟨hs2, hsh, hroot⟩
            · simp only [Option.some.injEq] at h
              rw [← h]; exact ⟨hs2, hsh, hroot⟩

theorem delSingle_eq (hh : Block → Hash) (fuel : Nat) (s : BlockCache) :
    delSingle hh fuel s =
      if (s.heap s.LinkedTree).Number % DelSingleBlockTime ≠ 0 then some s
      else rangeChildren
        (fun x ch => if (fun x ch => decide ((x.heap ch).Number ≤ (s.heap s.LinkedTree).Number))
          x ch then Del hh fuel x (some ch) else some x)
        s.SingleTree (s.heap s.SingleTree).Children s := by
  unfold delSingle
  simp only [decide_eq_true_eq]

theorem delSingle_keeps (hh : Block → Hash) (fuel : Nat) (s s2 : BlockCache) (hs : Sound hh s)
    (h : delSingle hh fuel s = some s2) :
    Sound hh s2 ∧ Shrunk s s2 ∧ s2.LinkedTree = s.LinkedTree := by
  rw [delSingle_eq] at h
  split_ifs at h
  · cases h; exact ⟨hs, Shrunk_refl s, rfl⟩
  · exact prune_keeps hh fuel _ _ _ s s2 hs h

theorem delSingle_returns (hh : Block → Hash) (fuel B : Nat) (s : BlockCache) (hs : Sound hh s)
    (hB : ∀ n, Height s B n) (hf : B < fuel) : ∃ s2, delSingle hh fuel s = some s2 := by
  rw [delSingle_eq]
  split_ifs
  · exact ⟨s, rfl⟩
  · exact prune_returns hh fuel B _ _ s hs hB hf

/-- `Flush` keeps the invariant, whatever node it is given and whatever the
chain store and the state database answer. -/
theorem Flush_keeps (hh : Block → Hash) (pushOK : Block → Bool) (flushOK : Hash → Bool)
    (fuel : Nat) (w : BlockCache × Store) (n : Option Ptr) (w2 : BlockCache × Store)
    (hs : Sound hh w.1) (h : Flush hh pushOK flushOK fuel w n = some w2) :
    Sound hh w2.1 ∧ Shrunk w.1 w2.1 ∧
    (w2.1.LinkedTree = w.1.LinkedTree ∨ ∃ b, (w2.1.heap w2.1.LinkedTree).Block = some b) := by
  cases n with
  | none =>
    simp only [Flush, Option.some.injEq] at h; rw [← h]; exact ⟨hs, Shrunk_refl _, Or.inl rfl⟩
  | some t =>
    simp only [Flush] at h
    cases hf : flush hh pushOK flushOK fuel w (w.1.heap t).Parent t with
    | none => rw [hf] at h; cases h
    | some r =>
      rw [hf] at h
      simp only at h
      obtain ⟨a1, a2, a3⟩ := flush_keeps hh pushOK flushOK fuel w t r hs hf
      cases hd : delSingle hh fuel r.1.1 with
      | none => rw [hd] at h; cases h
      | some s2 =>
        rw [hd] at h
        simp only [Option.some.injEq] at h
        obtain ⟨b1, b2, b3⟩ := delSingle_keeps hh fuel r.1.1 s2 a1 hd
        rw [← h]
        refine ⟨b1, Shrunk_trans _ _ _ a2 b2, ?_⟩
        rcases a3 with e | ⟨b, hb⟩
        · left; show s2.LinkedTree = w.1.LinkedTree; rw [b3, e]
        · right; exact ⟨b, by
            show (s2.heap s2.LinkedTree).Block = some b
            rw [b3, (b2.fields _).1]; exact hb⟩

/-! ### The height of the trees of a layered cache -/

/-- The rank of a node: one more than the rank of the head hash of its block,
0 for a node without a block. -/
theorem Height_of_rank (s : BlockCache) (ρ : Ptr → Nat) (M : Nat)
    (hstep : ∀ p c, c ∈ (s.heap p).Children → ρ p < ρ c)
    (hM : ∀ p c, c ∈ (s.heap p).Children → ρ c ≤ M) :
    ∀ n, Height s (M + 1) n := by
  have key : ∀ j n, M ≤ ρ n + j → Height s j n := by
    intro j
    induction j with
    | zero =>
      intro n hn
      simp only [Height]
      apply List.eq_nil_iff_forall_not_mem.mpr
      intro c hc
      have h1 := hstep n c hc
      have h2 := hM n c hc
      omega
    | succ j ih =>
      intro n hn c hc
      have h1 := hstep n c hc
      exact ih c (by omega)
  intro n c hc
  have h2 := hM n c hc
  have h1 := hstep n c hc
  exact key M c (by omega)

theorem sup_bound (f : Nat → Nat) : ∀ N, ∃ M, ∀ n, n < N → f n ≤ M := by
  intro N
  induction N with
  | zero => exact ⟨0, fun n hn => absurd hn (Nat.not_lt_zero n)⟩
  | succ N ih =>
    obtain ⟨M, hM⟩ := ih
    refine ⟨max M (f N), fun n hn => ?_⟩
    rcases Nat.lt_succ_iff_lt_or_eq.mp hn with h | h
    · exact le_trans (hM n h) (le_max_left _ _)
    · subst h; exact le_max_right _ _

/-- The trees of a sound and layered cache have bounded height. -/
theorem Height_of_Layered (rank : Hash → Nat) (hh : Block → Hash) (s : BlockCache)
    (hs : Sound hh s) (hl : Layered rank hh s) : ∃ B, ∀ n, Height s B n := by
  let ρ : Ptr → Nat := fun n =>
    match (s.heap n).Block with
    | some b => rank (hh b) + 1
    | none => 0
  obtain ⟨M, hM⟩ := sup_bound ρ s.next
  refine ⟨M + 1, Height_of_rank s ρ M ?_ ?_⟩
  · intro p c hc
    obtain ⟨bc, hbc⟩ := hs.child_block p c hc
    have hr := hl.child_rank p c bc hc hbc
    show (match (s.heap p).Block with
      | some b => rank (hh b) + 1
      | none => 0) < (match (s.heap c).Block with
      | some b => rank (hh b) + 1
      | none => 0)
    rw [hbc]
    cases hbp : (s.heap p).Block with
    | none => simp
    | some bp =>
      have he := hl.edge_hash p c bp bc hc hbp hbc
      rw [he] at hr
      exact Nat.succ_lt_succ hr
  · intro p c hc
    exact hM c (hs.child_lt p c hc)

/-! ### Paths of parent links -/

theorem Path_nil (s : BlockCache) (a t : Ptr) (l : List Ptr) (h : Path s a t l) :
    l = [] → t = a := by
  cases h with
  | nil => intro _; rfl
  | snoc _ _ => intro e; simp at e

theorem Path_root (hh : Block → Hash) (s : BlockCache) (hs : Sound hh s) (l : List Ptr)
    (h : Path s s.LinkedTree s.LinkedTree l) : l = [] := by
  cases h with
  | nil => rfl
  | snoc _ hp => rw [hs.linked_parent] at hp; cases hp

/-- The nodes of a path of parent links in a sound and layered cache hold
blocks of increasing rank: no node and no block occurs twice. -/
theorem Path_layered (rank : Hash → Nat) (hh : Block → Hash) (s : BlockCache)
    (hs : Sound hh s) (hl : Layered rank hh s) (a t : Ptr) (l : List Ptr)
    (h : Path s a t l) :
    (∀ m, m ∈ l → ∃ b, (s.heap m).Block = some b ∧
      ∀ bt, (s.heap t).Block = some bt → rank (hh b) ≤ rank (hh bt)) ∧
    l.Nodup ∧ (blocksOf s l).Nodup ∧ (blocksOf s l).length = l.length := by
  induction h with
  | nil =>
    exact ⟨fun m hm => (by cases hm), List.nodup_nil, by simp [blocksOf], by simp [blocksOf]⟩
  | @snoc p t l hpath hp ih =>
    obtain ⟨hall, hnd, hbnd, hlen⟩ := ih
    have hc := hs.parent_child t p hp
    obtain ⟨tb, htb⟩ := hs.child_block p t hc
    have hrk := hl.child_rank p t tb hc htb
    have hlt : ∀ m, m ∈ l → ∃ b, (s.heap m).Block = some b ∧ rank (hh b) < rank (hh tb) := by
      intro m hm
      obtain ⟨b, hb, hle⟩ := hall m hm
      refine ⟨b, hb, ?_⟩
      -- the parent `p` is the last node of `l` and holds a block
      have hpb : ∃ pb, (s.heap p).Block = some pb := by
        cases hpath with
        | nil => cases hm
        | snoc _ hp2 => exact Sound_parent_block hh s hs _ _ hp2
      obtain ⟨pb, hpb⟩ := hpb
      have := hle pb hpb
      have he := hl.edge_hash p t pb tb hc hpb htb
      rw [he] at hrk
      omega
    have htl : t ∉ l := by
      intro hmem
      obtain ⟨b, hb, hlt2⟩ := hlt t hmem
      rw [htb] at hb; cases hb
      exact lt_irrefl _ hlt2
    refine ⟨?_, ?_, ?_, ?_⟩
    · intro m hm
      rcases List.mem_append.mp hm with h1 | h1
      · obtain ⟨b, hb, hlt2⟩ := hlt m h1
        refine ⟨b, hb, fun bt hbt => ?_⟩
        rw [htb] at hbt; cases hbt
        exact le_of_lt hlt2
      · simp only [List.mem_singleton] at h1
        subst h1
        exact ⟨tb, htb, fun bt hbt => by rw [htb] at hbt; cases hbt; exact le_refl _⟩
    · exact List.nodup_append.mpr
        ⟨hnd, List.nodup_singleton t, fun x hx hx2 => by
          simp only [List.mem_singleton] at hx2; subst hx2; exact htl hx⟩
    · rw [blocksOf_snoc s l t tb htb]
      refine List.nodup_append.mpr ⟨hbnd, List.nodup_singleton tb, fun x hx hx2 => ?_⟩
      simp only [List.mem_singleton] at hx2
      subst hx2
      obtain ⟨m, hm, hmb⟩ := (mem_blocksOf s l x).mp hx
      obtain ⟨b, hb, hlt2⟩ := hlt m hm
      rw [hmb] at hb; cases hb
      exact lt_irrefl _ hlt2
    · rw [blocksOf_snoc s l t tb htb]
      simp [hlen]

/-! ### `flush` when the chain store and the state database accept everything -/

/-- The calls of `flush` along a path of parent links from the linked root:
with enough fuel they return without error, the end of the path is the linked
root and has no parent, and the chain store and the state database have
received the blocks of the path, in order. -/
theorem flush_succeeds (hh : Block → Hash) (pushOK : Block → Bool) (flushOK : Hash → Bool)
    (hpush : ∀ b, pushOK b = true) (hflush : ∀ h, flushOK h = true)
    (w : BlockCache × Store) (B : Nat) (lb : Block)
    (hs : Sound hh w.1) (hB : ∀ n, Height w.1 B n)
    (hlb : (w.1.heap w.1.LinkedTree).Block = some lb) :
    ∀ t path, Path w.1 w.1.LinkedTree t path → path ≠ [] →
      ∀ fuel, path.length + B + 1 ≤ fuel →
        ∃ r, flush hh pushOK flushOK fuel w (w.1.heap t).Parent t = some (r, none) ∧
          r.1.LinkedTree = t ∧ (r.1.heap t).Parent = none ∧
          r.2.chain = w.2.chain ++ blocksOf w.1 path ∧
          r.2.flushed = w.2.flushed ++ (blocksOf w.1 path).map hh := by
  intro t path hpath
  induction hpath with
  | nil => intro h; exact absurd rfl h
  | @snoc p t l hpl hp ih =>
    intro _ fuel hfuel
    rw [List.length_append, List.length_singleton] at hfuel
    obtain ⟨fuel, rfl⟩ : ∃ f, fuel = f + 1 := ⟨fuel - 1, by omega⟩
    have hfB : B < fuel := by omega
    -- the inner call
    have hinner : ∃ w1, (if p ≠ w.1.LinkedTree then
          (flush hh pushOK flushOK fuel w (w.1.heap p).Parent p).map Prod.fst
        else some w) = some w1 ∧ Sound hh w1.1 ∧ Shrunk w.1 w1.1 ∧
        w1.2.chain = w.2.chain ++ blocksOf w.1 l ∧
        w1.2.flushed = w.2.flushed ++ (blocksOf w.1 l).map hh := by
      by_cases hc : p = w.1.LinkedTree
      · subst hc
        have hl0 := Path_root hh w.1 hs l hpl
        subst hl0
        refine ⟨w, by simp, hs, Shrunk_refl _, by simp [blocksOf], by simp [blocksOf]⟩
      · have hl0 : l ≠ [] := fun e => hc (Path_nil w.1 _ p l hpl e)
        obtain ⟨r0, h0, _, _, h3, h4⟩ := ih hl0 fuel (by omega)
        obtain ⟨a1, a2, _⟩ := flush_keeps hh pushOK flushOK fuel w p _ hs h0
        exact ⟨r0, by rw [if_pos hc, h0]; rfl, a1, a2, h3, h4⟩
    obtain ⟨w1, hin, hs1, hsh1, hch1, hfl1⟩ := hinner
    have hB1 : ∀ n, Height w1.1 B n := fun n => Height_shrunk w.1 w1.1 hsh1.children B n (hB n)
    obtain ⟨s2, hloop⟩ := prune_returns hh fuel B (fun _ ch => decide (ch ≠ t)) p w1.1 hs1 hB1 hfB
    obtain ⟨_, hsh2, _⟩ := prune_keeps hh fuel _ p _ w1.1 s2 hs1 hloop
    rw [← flush_loop_eq] at hloop
    have hsh : Shrunk w.1 s2 := Shrunk_trans _ _ _ hsh1 hsh2
    obtain ⟨tb, htb⟩ := Sound_parent_block hh w.1 hs t p hp
    have htb2 : (s2.heap t).Block = some tb := by rw [(hsh.fields t).1]; exact htb
    have hpb : ∃ pb, (w.1.heap p).Block = some pb := by
      cases hpl with
      | nil => exact ⟨lb, hlb⟩
      | snoc _ hp2 => exact Sound_parent_block hh w.1 hs _ _ hp2
    obtain ⟨pb, hpb⟩ := hpb
    have hpb2 : (s2.heap p).Block = some pb := by rw [(hsh.fields p).1]; exact hpb
    refine ⟨(({ (hmdel s2 (hh pb)).store t { (hmdel s2 (hh pb)).heap t with Parent := none } with
        LinkedTree := t } : BlockCache),
      ({ chain := w1.2.chain ++ [tb], flushed := w1.2.flushed ++ [hh tb] } : Store)),
      ?_, ?_, ?_, ?_, ?_⟩
    · rw [hp]
      simp only [flush]
      rw [hin]
      simp only [hloop, htb2, hpush, hflush, hpb2, if_true]
    · rfl
    · simp [BlockCache.store]
    · simp only [hch1, blocksOf_snoc w.1 l t tb htb, List.append_assoc]
    · simp only [hfl1, blocksOf_snoc w.1 l t tb htb, List.append_assoc, List.map_append,
        List.map_cons, List.map_nil]

/-- `Flush` down a path of parent links from the linked root, when the chain
store and the state database accept everything. -/
theorem Flush_succeeds (hh : Block → Hash) (pushOK : Block → Bool) (flushOK : Hash → Bool)
    (hpush : ∀ b, pushOK b = true) (hflush : ∀ h, flushOK h = true)
    (w : BlockCache × Store) (B : Nat) (lb : Block)
    (hs : Sound hh w.1) (hB : ∀ n, Height w.1 B n)
    (hlb : (w.1.heap w.1.LinkedTree).Block = some lb)
    (t : Ptr) (path : List Ptr) (hpath : Path w.1 w.1.LinkedTree t path) (hne : path ≠ [])
    (fuel : Nat) (hfuel : path.length + B + 1 ≤ fuel) :
    ∃ w2, Flush hh pushOK flushOK fuel w (some t) = some w2 ∧
      w2.1.LinkedTree = t ∧ (w2.1.heap t).Parent = none ∧
      w2.2.chain = w.2.chain ++ blocksOf w.1 path ∧
      w2.2.flushed = w.2.flushed ++ (blocksOf w.1 path).map hh := by
  obtain ⟨r, h1, h2, h3, h4, h5⟩ :=
    flush_succeeds hh pushOK flushOK hpush hflush w B lb hs hB hlb t path hpath hne fuel hfuel
  obtain ⟨a1, a2, _⟩ := flush_keeps hh pushOK flushOK fuel w t _ hs h1
  have hBr : ∀ n, Height r.1 B n := fun n => Height_shrunk w.1 r.1 a2.children B n (hB n)
  obtain ⟨s2, hd⟩ := delSingle_returns hh fuel B r.1 a1 hBr (by omega)
  obtain ⟨_, b2, b3⟩ := delSingle_keeps hh fuel r.1 s2 a1 hd
  refine ⟨(s2, r.2), ?_, by rw [b3]; exact h2, ?_, h4, h5⟩
  · simp only [Flush, h1, hd]
  · rcases b2.parent t with e | e
    · show (s2.heap t).Parent = none
      rw [e]; exact h3
    · exact e

/-! ### `NewBlockCache`, `Link` and `Add` keep the invariant -/

theorem Sound_NewBlockCache (hh : Block → Hash) (lib : Option Block) :
    Sound hh (NewBlockCache hh lib) := by
  rw [NewBlockCache_eq]
  have hch : ∀ p : Ptr, ((Function.update
          (Function.update (Function.update (fun _ => BlockCacheNode.zero) 0 BlockCacheNode.zero) 1
            { BlockCacheNode.zero with Type_ := BCNType.Single })
          0 { BlockCacheNode.zero with Block := lib }) p).Children = [] := by
    intro p
    simp only [Function.update_apply]
    split_ifs <;> rfl
  have hpa : ∀ p : Ptr, ((Function.update
          (Function.update (Function.update (fun _ => BlockCacheNode.zero) 0 BlockCacheNode.zero) 1
            { BlockCacheNode.zero with Type_ := BCNType.Single })
          0 { BlockCacheNode.zero with Block := lib }) p).Parent = none := by
    intro p
    simp only [Function.update_apply]
    split_ifs <;> rfl
  constructor
  · show (0 : Nat) < 2; decide
  · show (1 : Nat) < 2; decide
  · show (0 : Nat) ≠ 1; decide
  · intro h p hp
    cases lib with
    | none => simp [mapLoad] at hp
    | some b =>
      simp only [mapLoad] at hp
      split_ifs at hp
      cases hp; show (0 : Nat) < 2; decide
  · intro h p hp
    cases lib with
    | none => simp [mapLoad] at hp
    | some b =>
      simp only [mapLoad] at hp
      split_ifs at hp with hk
      cases hp; exact ⟨b, by simp, hk⟩
  · intro p c hc; simp only [hch p] at hc; cases hc
  · intro p c hc; simp only [hch p] at hc; cases hc
  · intro c p hp; simp only [hpa c] at hp; cases hp
  · intro c p hp; simp only [hpa c] at hp; cases hp
  · exact hpa _
  · simp [Function.update_apply, BlockCacheNode.zero]
  · simp [Function.update_apply, BlockCacheNode.zero]
  · intro c hc; simp only [hch] at hc; cases hc

theorem Layered_NewBlockCache (rank : Hash → Nat) (hh : Block → Hash) (lib : Option Block) :
    Layered rank hh (NewBlockCache hh lib) := by
  have hch : ∀ p : Ptr, ((NewBlockCache hh lib).heap p).Children = [] :=
    fun p => (NewBlockCache_children hh lib p).1
  constructor
  · intro p c b hc; rw [hch p] at hc; cases hc
  · intro p c bp bc hc; rw [hch p] at hc; cases hc

theorem Sound_Link (hh : Block → Hash) (s : BlockCache) (n : Ptr) (hs : Sound hh s)
    (hn : n ≠ s.SingleTree) : Sound hh (Link s (some n)) := by
  obtain ⟨f1, f2, f3, f5⟩ := Link_frame s n
  have hf := Link_fields s n
  constructor
  · rw [f1, f2]; exact hs.linked_lt
  · rw [f1, f3]; exact hs.single_lt
  · rw [f2, f3]; exact hs.roots_ne
  · intro h p hp; rw [f5] at hp; rw [f1]; exact hs.index_lt h p hp
  · intro h p hp; rw [f5] at hp; rw [(hf p).1]; exact hs.index_block h p hp
  · intro p c hc; rw [f1]; rw [(hf p).2.2.1] at hc; exact hs.child_lt p c hc
  · intro p c hc; rw [(hf p).2.2.1] at hc; rw [(hf c).1]; exact hs.child_block p c hc
  · intro c p hp; rw [(hf c).2.1] at hp; rw [(hf p).2.2.1]; exact hs.parent_child c p hp
  · intro c p hp; rw [(hf c).2.1] at hp; rw [f1]; exact hs.parent_lt c p hp
  · rw [f2, (hf _).2.1]; exact hs.linked_parent
  · rw [f3, (hf _).1]; exact hs.single_block
  · rw [f3, Link_heap]; simp [Ne.symm hn, hs.single_type]
  · intro c hc; rw [f3] at hc ⊢; rw [(hf _).2.2.1] at hc; rw [(hf c).2.1]
    exact hs.single_child c hc

theorem Layered_Link (rank : Hash → Nat) (hh : Block → Hash) (s : BlockCache) (n : Ptr)
    (hl : Layered rank hh s) : Layered rank hh (Link s (some n)) := by
  have hf := Link_fields s n
  constructor
  · intro p c b hc hb
    rw [(hf p).2.2.1] at hc; rw [(hf c).1] at hb
    exact hl.child_rank p c b hc hb
  · intro p c bp bc hc hbp hbc
    rw [(hf p).2.2.1] at hc; rw [(hf c).1] at hbc; rw [(hf p).1] at hbp
    exact hl.edge_hash p c bp bc hc hbp hbc

/-- The cache after `NewBCN` under an allocated parent and `hmset`, in a sound
cache. -/
theorem attached_sound_eq (hh : Block → Hash) (s : BlockCache) (fa : Ptr) (blk : Block)
    (hs : Sound hh s) (hfa : fa < s.next) :
    attached hh s fa blk =
      { s with
          heap := Function.update
            (Function.update s.heap s.next
              { BlockCacheNode.zero with Block := some blk, Parent := some fa,
                                         Type_ := (s.heap fa).Type_ })
            fa { s.heap fa with Children := (s.heap fa).Children ++ [s.next] },
          next := s.next + 1,
          hash2node := mapStore s.hash2node (hh blk) s.next } := by
  have hfresh : s.next ∉ (s.heap fa).Children := fun hc =>
    absurd (hs.child_lt fa s.next hc) (lt_irrefl _)
  have hne : fa ≠ s.next := Nat.ne_of_lt hfa
  simp [attached, NewBCN_some s fa (some blk) BCNType.Linked hfresh hne, hmset]

/-- The nodes of the cache after `NewBCN` and `hmset`, field by field. -/
theorem attached_sound_heap (hh : Block → Hash) (s : BlockCache) (fa : Ptr) (blk : Block)
    (hs : Sound hh s) (hfa : fa < s.next) (x : Ptr) :
    ((attached hh s fa blk).heap x).Block = (if x = s.next then some blk else (s.heap x).Block) ∧
    ((attached hh s fa blk).heap x).Parent =
      (if x = s.next then some fa else (s.heap x).Parent) ∧
    ((attached hh s fa blk).heap x).Type_ =
      (if x = s.next then (s.heap fa).Type_ else (s.heap x).Type_) ∧
    ((attached hh s fa blk).heap x).Children =
      (if x = fa then (s.heap fa).Children ++ [s.next]
       else if x = s.next then [] else (s.heap x).Children) := by
  have hne : s.next ≠ fa := Ne.symm (Nat.ne_of_lt hfa)
  rw [attached_sound_eq hh s fa blk hs hfa]
  by_cases hxf : x = fa
  · subst hxf
    have hxn : x ≠ s.next := Ne.symm hne
    simp [hxn]
  · by_cases hxn : x = s.next
    · subst hxn; simp [Function.update_apply, hxf, BlockCacheNode.zero]
    · simp [Function.update_apply, hxf, hxn]

theorem Sound_attached (hh : Block → Hash) (s : BlockCache) (fa : Ptr) (blk : Block)
    (hs : Sound hh s) (hfa : fa < s.next) : Sound hh (attached hh s fa blk) := by
  obtain ⟨f1, f2, f3, _, f5, _⟩ := attached_frame hh s fa blk
  have hheap := attached_sound_heap hh s fa blk hs hfa
  have hfn : fa ≠ s.next := Nat.ne_of_lt hfa
  have hLn : s.LinkedTree ≠ s.next := Nat.ne_of_lt hs.linked_lt
  have hSn : s.SingleTree ≠ s.next := Nat.ne_of_lt hs.single_lt
  -- the children of the new state
  have hsub : ∀ p c, c ∈ ((attached hh s fa blk).heap p).Children →
      (c ∈ (s.heap p).Children ∧ p ≠ s.next) ∨ (p = fa ∧ c = s.next) := by
    intro p c hc
    rw [(hheap p).2.2.2] at hc
    split_ifs at hc with h1 h2
    · rcases List.mem_append.mp hc with h | h
      · left; subst h1; exact ⟨h, hfn⟩
      · right; exact ⟨h1, by simpa using h⟩
    · cases hc
    · left; exact ⟨hc, h2⟩
  constructor
  · rw [f1, f2]; exact Nat.lt_succ_of_lt hs.linked_lt
  · rw [f1, f3]; exact Nat.lt_succ_of_lt hs.single_lt
  · rw [f2, f3]; exact hs.roots_ne
  · intro h p hp
    rw [f5, mapLoad_mapStore] at hp
    rw [f1]
    split_ifs at hp with hk
    · cases hp; exact Nat.lt_succ_self _
    · exact Nat.lt_succ_of_lt (hs.index_lt h p hp)
  · intro h p hp
    rw [f5, mapLoad_mapStore] at hp
    rw [(hheap p).1]
    split_ifs at hp with hk
    · cases hp; subst hk; exact ⟨blk, by simp, rfl⟩
    · have hpn : p ≠ s.next := Nat.ne_of_lt (hs.index_lt h p hp)
      rw [if_neg hpn]; exact hs.index_block h p hp
  · intro p c hc
    rw [f1]
    rcases hsub p c hc with ⟨h, _⟩ | ⟨_, h⟩
    · exact Nat.lt_succ_of_lt (hs.child_lt p c h)
    · rw [h]; exact Nat.lt_succ_self _
  · intro p c hc
    rw [(hheap c).1]
    rcases hsub p c hc with ⟨h, _⟩ | ⟨_, h⟩
    · have hcn : c ≠ s.next := Nat.ne_of_lt (hs.child_lt p c h)
      rw [if_neg hcn]; exact hs.child_block p c h
    · rw [if_pos h]; exact ⟨blk, rfl⟩
  · intro c p hp
    rw [(hheap c).2.1] at hp
    rw [(hheap p).2.2.2]
    split_ifs at hp with hcn
    · cases hp; simp [hcn]
    · have hold := hs.parent_child c p hp
      have hpn : p ≠ s.next := Nat.ne_of_lt (hs.parent_lt c p hp)
      by_cases hpf : p = fa
      · rw [if_pos hpf]; subst hpf; exact List.mem_append_left _ hold
      · rw [if_neg hpf, if_neg hpn]; exact hold
  · intro c p hp
    rw [(hheap c).2.1] at hp
    rw [f1]
    split_ifs at hp with hcn
    · cases hp; exact Nat.lt_succ_of_lt hfa
    · exact Nat.lt_succ_of_lt (hs.parent_lt c p hp)
  · rw [f2, (hheap _).2.1, if_neg hLn]; exact hs.linked_parent
  · rw [f3, (hheap _).1, if_neg hSn]; exact hs.single_block
  · rw [f3, (hheap _).2.2.1, if_neg hSn]; exact hs.single_type
  · intro c hc
    rw [f3] at hc ⊢
    rw [(hheap c).2.1]
    rcases hsub _ c hc with ⟨h, _⟩ | ⟨h1, h2⟩
    · have hcn : c ≠ s.next := Nat.ne_of_lt (hs.child_lt _ c h)
      rw [if_neg hcn]; exact hs.single_child c h
    · rw [if_pos h2, h1]

theorem Layered_attached (rank : Hash → Nat) (hh : Block → Hash) (s : BlockCache) (fa : Ptr)
    (blk : Block) (hs : Sound hh s) (hl : Layered rank hh s) (hfa : fa < s.next)
    (hrank : rank blk.Head.ParentHash < rank (hh blk))
    (hedge : ∀ bp, (s.heap fa).Block = some bp → blk.Head.ParentHash = hh bp) :
    Layered rank hh (attached hh s fa blk) := by
  have hheap := attached_sound_heap hh s fa blk hs hfa
  have hfn : fa ≠ s.next := Nat.ne_of_lt hfa
  have hsub : ∀ p c, c ∈ ((attached hh s fa blk).heap p).Children →
      (c ∈ (s.heap p).Children ∧ p ≠ s.next) ∨ (p = fa ∧ c = s.next) := by
    intro p c hc
    rw [(hheap p).2.2.2] at hc
    split_ifs at hc with h1 h2
    · rcases List.mem_append.mp hc with h | h
      · left; subst h1; exact ⟨h, hfn⟩
      · right; exact ⟨h1, by simpa using h⟩
    · cases hc
    · left; exact ⟨hc, h2⟩
  constructor
  · intro p c b hc hb
    rw [(hheap c).1] at hb
    rcases hsub p c hc with ⟨h, _⟩ | ⟨_, h⟩
    · have hcn : c ≠ s.next := Nat.ne_of_lt (hs.child_lt p c h)
      rw [if_neg hcn] at hb
      exact hl.child_rank p c b h hb
    · rw [if_pos h] at hb; cases hb; exact hrank
  · intro p c bp bc hc hbp hbc
    rw [(hheap c).1] at hbc
    rw [(hheap p).1] at hbp
    rcases hsub p c hc with ⟨h, hpn⟩ | ⟨h1, h2⟩
    · have hcn : c ≠ s.next := Nat.ne_of_lt (hs.child_lt p c h)
      rw [if_neg hcn] at hbc
      rw [if_neg hpn] at hbp
      exact hl.edge_hash p c bp bc h hbp hbc
    · rw [if_pos h2] at hbc; cases hbc
      subst h1
      rw [if_neg hfn] at hbp
      exact hedge bp hbp

/-- The nodes of the cache after an orphan has been moved, field by field. -/
theorem adopted_sound_heap (hh : Block → Hash) (s : BlockCache) (n c : Ptr) (blk : Block)
    (hs : Sound hh s) (hb : (s.heap n).Block = some blk)
    (hc : c ∈ (s.heap s.SingleTree).Children) (hcn : c ∉ (s.heap n).Children) (x : Ptr) :
    (adopted s n c).heap x =
      { s.heap x with
        Parent := if x = c then some n else (s.heap x).Parent,
        Children :=
          if x = n then (s.heap n).Children ++ [c]
          else if x = s.SingleTree then (s.heap s.SingleTree).Children.filter (fun y => y != c)
          else (s.heap x).Children } := by
  have hnS : n ≠ s.SingleTree := by
    intro e; rw [e, hs.single_block] at hb; exact absurd hb (by simp)
  have hcS : c ≠ s.SingleTree := by
    intro e
    obtain ⟨b, hb2⟩ := hs.child_block _ c hc
    rw [e, hs.single_block] at hb2; exact absurd hb2 (by simp)
  have hSn := Ne.symm hnS
  have hSc := Ne.symm hcS
  by_cases hnc : n = c
  · subst hnc
    by_cases hxn : x = n
    · subst hxn
      simp [adopted, addChild, delChild, BlockCache.store, Function.update_apply, hnS, hcn]
    · by_cases hxS : x = s.SingleTree
      · subst hxS
        simp [adopted, addChild, delChild, BlockCache.store, Function.update_apply, hnS, hcn, hxn]
      · simp [adopted, addChild, delChild, BlockCache.store, Function.update_apply, hnS, hcn, hxn,
          hxS]
  · have hcn2 : c ≠ n := Ne.symm hnc
    by_cases hxn : x = n
    · subst hxn
      simp [adopted, addChild, delChild, BlockCache.store, Function.update_apply, hnS, hcn, hnc,
        hcn2]
    · by_cases hxc : x = c
      · subst hxc
        simp [adopted, addChild, delChild, BlockCache.store, Function.update_apply, hnS, hcn, hnc,
          hcS, hxn]
      · by_cases hxS : x = s.SingleTree
        · subst hxS
          simp [adopted, addChild, delChild, BlockCache.store, Function.update_apply, hnS, hcn,
            hnc, hcn2, hxn, hxc]
        · simp [adopted, addChild, delChild, BlockCache.store, Function.update_apply, hnS, hcn,
            hnc, hcn2, hxn, hxc, hxS]

theorem Sound_adopted (hh : Block → Hash) (s : BlockCache) (n c : Ptr) (blk : Block)
    (hs : Sound hh s) (hn : n < s.next) (hb : (s.heap n).Block = some blk)
    (hc : c ∈ (s.heap s.SingleTree).Children) (hcn : c ∉ (s.heap n).Children) :
    Sound hh (adopted s n c) := by
  have hnS : n ≠ s.SingleTree := by
    intro e; rw [e, hs.single_block] at hb; exact absurd hb (by simp)
  obtain ⟨f1, f2, f3, _, f5, _⟩ := adopted_frame s n c
  have hheap := adopted_sound_heap hh s n c blk hs hb hc hcn
  have hcl := hs.child_lt _ c hc
  have hcp := hs.single_child c hc
  have hcL : c ≠ s.LinkedTree := by
    intro e; rw [e, hs.linked_parent] at hcp; cases hcp
  have hsub : ∀ p y, y ∈ ((adopted s n c).heap p).Children →
      (y ∈ (s.heap p).Children ∧ (p = s.SingleTree → y ≠ c)) ∨ (p = n ∧ y = c) := by
    intro p y hy
    rw [hheap p] at hy
    simp only at hy
    split_ifs at hy with h1 h2
    · rcases List.mem_append.mp hy with hy | hy
      · left; subst h1; exact ⟨hy, fun e => absurd e hnS⟩
      · right; exact ⟨h1, by simpa using hy⟩
    · left
      simp at hy
      subst h2
      exact ⟨hy.1, fun _ => hy.2⟩
    · left; exact ⟨hy, fun e => absurd e h2⟩
  constructor
  · rw [f1, f2]; exact hs.linked_lt
  · rw [f1, f3]; exact hs.single_lt
  · rw [f2, f3]; exact hs.roots_ne
  · intro h p hp; rw [f5] at hp; rw [f1]; exact hs.index_lt h p hp
  · intro h p hp; rw [f5] at hp
    obtain ⟨b, hb1, hb2⟩ := hs.index_block h p hp
    exact ⟨b, by rw [hheap p]; exact hb1, hb2⟩
  · intro p y hy; rw [f1]
    rcases hsub p y hy with ⟨h1, _⟩ | ⟨_, h2⟩
    · exact hs.child_lt p y h1
    · rw [h2]; exact hcl
  · intro p y hy
    rw [hheap y]
    rcases hsub p y hy with ⟨h1, _⟩ | ⟨_, h2⟩
    · exact hs.child_block p y h1
    · rw [h2]; exact hs.child_block _ c hc
  · intro y p hp
    rw [hheap y] at hp
    simp only at hp
    rw [hheap p]
    simp only
    split_ifs at hp with hyc
    · cases hp; simp [hyc]
    · have hold := hs.parent_child y p hp
      split_ifs with h1 h2
      · subst h1; exact List.mem_append_left _ hold
      · subst h2; exact List.mem_filter.mpr ⟨hold, by simpa using hyc⟩
      · exact hold
  · intro y p hp
    rw [hheap y] at hp
    simp only at hp
    rw [f1]
    split_ifs at hp with hyc
    · cases hp; exact hn
    · exact hs.parent_lt y p hp
  · rw [f2, hheap]
    simp only
    rw [if_neg (Ne.symm hcL)]; exact hs.linked_parent
  · rw [f3, hheap]; exact hs.single_block
  · rw [f3, hheap]; exact hs.single_type
  · intro y hy
    rw [f3] at hy ⊢
    rcases hsub _ y hy with ⟨h1, h2⟩ | ⟨h1, _⟩
    · rw [hheap y]
      simp only
      rw [if_neg (h2 rfl)]; exact hs.single_child y h1
    · exact absurd h1.symm hnS

theorem Layered_adopted (rank : Hash → Nat) (hh : Block → Hash) (s : BlockCache) (n c : Ptr)
    (blk cb : Block) (hs : Sound hh s) (hl : Layered rank hh s)
    (hb : (s.heap n).Block = some blk)
    (hc : c ∈ (s.heap s.SingleTree).Children) (hcn : c ∉ (s.heap n).Children)
    (hcb : (s.heap c).Block = some cb) (hedge : cb.Head.ParentHash = hh blk) :
    Layered rank hh (adopted s n c) := by
  have hnS : n ≠ s.SingleTree := by
    intro e; rw [e, hs.single_block] at hb; exact absurd hb (by simp)
  have hheap := adopted_sound_heap hh s n c blk hs hb hc hcn
  have hsub : ∀ p y, y ∈ ((adopted s n c).heap p).Children →
      y ∈ (s.heap p).Children ∨ (p = n ∧ y = c) := by
    intro p y hy
    rw [hheap p] at hy
    simp only at hy
    split_ifs at hy with h1 h2
    · rcases List.mem_append.mp hy with hy | hy
      · left; subst h1; exact hy
      · right; exact ⟨h1, by simpa using hy⟩
    · left
      simp at hy
      subst h2
      exact hy.1
    · left; exact hy
  constructor
  · intro p y b hy hyb
    rw [hheap y] at hyb
    rcases hsub p y hy with h1 | ⟨_, h2⟩
    · exact hl.child_rank p y b h1 hyb
    · subst h2; exact hl.child_rank _ y b hc hyb
  · intro p y bp bc hy hbp hbc
    rw [hheap y] at hbc
    rw [hheap p] at hbp
    rcases hsub p y hy with h1 | ⟨h1, h2⟩
    · exact hl.edge_hash p y bp bc h1 hbp hbc
    · subst h1; subst h2
      have e1 : bc = cb := by
        have : some bc = some cb := by rw [← hbc]; exact hcb
        exact Option.some.inj this
      have e2 : bp = blk := by
        have : some bp = some blk := by rw [← hbp]; exact hb
        exact Option.some.inj this
      rw [e1, e2]; exact hedge

/-- What `mergeSingle` does in a sound cache: nothing if no child of the single
root waits for the block of `n`, and otherwise it moves one such child. -/
theorem mergeSingle_sound (hh : Block → Hash) (s : BlockCache) (n : Ptr) (blk : Block)
    (hs : Sound hh s) (hb : (s.heap n).Block = some blk) :
    (mergeSingle hh s n = some s ∧
      ∀ x ∈ (s.heap s.SingleTree).Children, ∀ b, (s.heap x).Block = some b →
        b.Head.ParentHash ≠ hh blk) ∨
    (∃ c, mergeSingle hh s n = some (adopted s n c) ∧ c ∈ (s.heap s.SingleTree).Children ∧
      ∃ b, (s.heap c).Block = some b ∧ b.Head.ParentHash = hh blk) := by
  have hall : ∀ x ∈ (s.heap s.SingleTree).Children, ∃ b, (s.heap x).Block = some b :=
    fun x hx => hs.child_block _ x hx
  rcases findChild_spec hh s blk _ hall with ⟨h1, h2⟩ | ⟨c, h1, h2, h3⟩
  · left
    exact ⟨by simp [mergeSingle, hb, h1], h2⟩
  · right
    refine ⟨c, ?_, h2, h3⟩
    have hcp := hs.single_child c h2
    simp [mergeSingle, hb, h1, hcp, adopted]

/-- The cache `Add` leaves after `NewBCN`, `hmset` and `mergeSingle`: it is
sound, the new node holds its block and has the type of its parent, the index
has the new entry, and the new node is still a child of its parent with that
parent unless it is itself the orphan that was moved. -/
theorem merged_sound (hh : Block → Hash) (s : BlockCache) (fa : Ptr) (blk : Block)
    (hs : Sound hh s) (hfa : fa < s.next) :
    ∃ s3, mergeSingle hh (attached hh s fa blk) s.next = some s3 ∧ Sound hh s3 ∧
      (s3.heap s.next).Block = some blk ∧ (s3.heap s.next).Type_ = (s.heap fa).Type_ ∧
      (s3.heap fa).Type_ = (s.heap fa).Type_ ∧
      s3.hash2node = mapStore s.hash2node (hh blk) s.next ∧
      s3.SingleTree = s.SingleTree ∧ s3.LinkedTree = s.LinkedTree ∧ s3.next = s.next + 1 ∧
      (∀ x, x ≠ s.next → (s3.heap x).Block = (s.heap x).Block) ∧
      ((fa = s.SingleTree → blk.Head.ParentHash ≠ hh blk) →
        (s3.heap s.next).Parent = some fa ∧ s.next ∈ (s3.heap fa).Children) ∧
      (∀ rank, Layered rank hh s → rank blk.Head.ParentHash < rank (hh blk) →
        (∀ bp, (s.heap fa).Block = some bp → blk.Head.ParentHash = hh bp) →
        Layered rank hh s3) := by
  have hs2 := Sound_attached hh s fa blk hs hfa
  obtain ⟨f1, f2, f3, _, f5, _⟩ := attached_frame hh s fa blk
  have hheap := attached_sound_heap hh s fa blk hs hfa
  have hfn : fa ≠ s.next := Nat.ne_of_lt hfa
  have a2 : ((attached hh s fa blk).heap s.next).Block = some blk := by
    rw [(hheap _).1]; simp
  have a1 : ((attached hh s fa blk).heap s.next).Type_ = (s.heap fa).Type_ := by
    rw [(hheap _).2.2.1]; simp
  have a3 : ((attached hh s fa blk).heap s.next).Parent = some fa := by
    rw [(hheap _).2.1]; simp
  have a4 : ((attached hh s fa blk).heap s.next).Children = [] := by
    rw [(hheap _).2.2.2]; simp [Ne.symm hfn]
  have a5 : ((attached hh s fa blk).heap fa).Children = (s.heap fa).Children ++ [s.next] := by
    rw [(hheap _).2.2.2]; simp
  have a6 : ((attached hh s fa blk).heap fa).Type_ = (s.heap fa).Type_ := by
    rw [(hheap _).2.2.1]; simp [hfn]
  rcases mergeSingle_sound hh (attached hh s fa blk) s.next blk hs2 a2 with
    ⟨h1, _⟩ | ⟨c, h1, h2, b, h3, h4⟩
  · refine ⟨_, h1, hs2, a2, a1, a6, f5, f3, f2, f1,
      fun x hx => by rw [(hheap x).1, if_neg hx], fun _ => ⟨a3, by rw [a5]; simp⟩, ?_⟩
    intro rank hl hrank hedge
    exact Layered_attached rank hh s fa blk hs hl hfa hrank hedge
  · have hlt : s.next < (attached hh s fa blk).next := by rw [f1]; exact Nat.lt_succ_self _
    have hcn0 : c ∉ ((attached hh s fa blk).heap s.next).Children := by rw [a4]; simp
    have hheap2 := adopted_sound_heap hh _ s.next c blk hs2 a2 h2 hcn0
    obtain ⟨g1, g2, g3, _, g5, _⟩ := adopted_frame (attached hh s fa blk) s.next c
    refine ⟨_, h1, Sound_adopted hh _ s.next c blk hs2 hlt a2 h2 hcn0, by rw [hheap2]; exact a2,
      by rw [hheap2]; exact a1, by rw [hheap2]; exact a6, by rw [g5, f5], by rw [g3, f3],
      by rw [g2, f2], by rw [g1, f1],
      fun x hx => by rw [hheap2]; show ((attached hh s fa blk).heap x).Block = _
                     rw [(hheap x).1, if_neg hx], ?_, ?_⟩
    · intro hself
      have hcn : s.next ≠ c := by
        intro e
        subst e
        by_cases hfS : fa = s.SingleTree
        · rw [a2] at h3; cases h3; exact hself hfS h4
        · have := hs2.single_child _ h2
          rw [a3, f3] at this
          simp at this
          exact hfS this
      refine ⟨by rw [hheap2]; simp [hcn, a3], ?_⟩
      rw [hheap2]
      simp only [hfn, if_false, f3]
      split_ifs with hfS
      · rw [← hfS, a5]
        simp [hcn]
      · rw [a5]; simp
    · intro rank hl hrank hedge
      exact Layered_adopted rank hh _ s.next c blk b hs2
        (Layered_attached rank hh s fa blk hs hl hfa hrank hedge) a2 h2 hcn0 h3 h4

/-- `Add` of a block whose parent hash is indexed at `p`, in a sound cache. -/
theorem Add_parent_sound (hh : Block → Hash) (s : BlockCache) (blk : Block) (p : Ptr)
    (s3 : BlockCache) (hs : Sound hh s)
    (hdup : mapLoad s.hash2node (hh blk) = none)
    (hpar : mapLoad s.hash2node blk.Head.ParentHash = some p)
    (hm : mergeSingle hh (attached hh s p blk) s.next = some s3) :
    Add hh s blk = some
      { node := some s.next,
        err := if (s.heap p).Type_ = BCNType.Linked then none else some Err.ErrNotFound,
        code := if (s.heap p).Children = [] then CacheStatus.Extend else CacheStatus.Fork,
        cache := if (s.heap p).Type_ = BCNType.Linked then Link s3 (some s.next) else s3 } := by
  have hp := hs.index_lt _ p hpar
  have hheap := attached_sound_heap hh s p blk hs hp
  have hpn : p ≠ s.next := Nat.ne_of_lt hp
  have a1 : ((attached hh s p blk).heap s.next).Type_ = (s.heap p).Type_ := by
    rw [(hheap _).2.2.1]; simp
  have a5 : ((attached hh s p blk).heap p).Children = (s.heap p).Children ++ [s.next] := by
    rw [(hheap _).2.2.2]; simp
  have hs2 : hmset (NewBCN s (some p) (some blk) BCNType.Linked).1 (hh blk)
      (NewBCN s (some p) (some blk) BCNType.Linked).2 = attached hh s p blk := rfl
  have hlen : ((NewBCN s (some p) (some blk) BCNType.Linked).1.heap p).Children
      = (s.heap p).Children ++ [s.next] := a5
  have h2 : (NewBCN s (some p) (some blk) BCNType.Linked).2 = s.next := rfl
  unfold Add
  simp only [hmget_snd, hmget_fst, hdup, hpar, IF, Iface.asBCNType, Iface.asNode,
    Option.isSome_none, Option.isSome_some, if_true, Bool.false_eq_true, if_false, hs2, hlen]
  by_cases hc : (s.heap p).Children = []
  · by_cases ht : (s.heap p).Type_ = BCNType.Linked
    · simp [hc, ht, Iface.asStatus, h2, a1, addSingle, hm]
    · simp [hc, ht, Iface.asStatus, h2, a1, hm]
  · have hl : 1 < (s.heap p).Children.length + 1 := by
      have : 0 < (s.heap p).Children.length := List.length_pos.mpr hc
      omega
    by_cases ht : (s.heap p).Type_ = BCNType.Linked
    · simp [hc, ht, Iface.asStatus, h2, a1, addSingle, hm, hl]
    · simp [hc, ht, Iface.asStatus, h2, a1, hm, hl]

/-- `Add` returns in every sound cache and leaves a sound cache; it leaves a
layered cache if the block ranks its head hash above its parent hash. -/
theorem Add_keeps (hh : Block → Hash) (s : BlockCache) (blk : Block) (hs : Sound hh s) :
    ∃ r, Add hh s blk = some r ∧ Sound hh r.cache ∧
      (∀ rank, Layered rank hh s → rank blk.Head.ParentHash < rank (hh blk) →
        Layered rank hh r.cache) ∧
      r.cache.LinkedTree = s.LinkedTree ∧
      ∀ x, x < s.next → (r.cache.heap x).Block = (s.heap x).Block := by
  cases hdup : mapLoad s.hash2node (hh blk) with
  | some q =>
    exact ⟨_, Add_dup hh s blk (by simp [hmget_snd, hdup]), hs, fun _ hl _ => hl, rfl,
      fun _ _ => rfl⟩
  | none =>
    cases hpar : mapLoad s.hash2node blk.Head.ParentHash with
    | some p =>
      have hp := hs.index_lt _ p hpar
      obtain ⟨s3, hm, hs3, _, _, _, _, m7, m8, _, mb, _, hlay⟩ := merged_sound hh s p blk hs hp
      have hnS : s.next ≠ s.SingleTree := Ne.symm (Nat.ne_of_lt hs.single_lt)
      have hedge : ∀ bp, (s.heap p).Block = some bp → blk.Head.ParentHash = hh bp := by
        intro bp hbp
        obtain ⟨b, hb, hhb⟩ := hs.index_block _ p hpar
        rw [hb] at hbp; cases hbp; exact hhb.symm
      refine ⟨_, Add_parent_sound hh s blk p s3 hs hdup hpar hm, ?_, ?_, ?_, ?_⟩
      · by_cases ht : (s.heap p).Type_ = BCNType.Linked
        · simp only [ht, if_true]
          exact Sound_Link hh _ s.next hs3 (by rw [m7]; exact hnS)
        · simp only [ht, if_false]; exact hs3
      · intro rank hl hrank
        have hl3 := hlay rank hl hrank hedge
        by_cases ht : (s.heap p).Type_ = BCNType.Linked
        · simp only [ht, if_true]
          exact Layered_Link rank hh _ s.next hl3
        · simp only [ht, if_false]; exact hl3
      · by_cases ht : (s.heap p).Type_ = BCNType.Linked
        · simp only [ht, if_true]
          rw [(Link_frame s3 s.next).2.1]; exact m8
        · simp only [ht, if_false]; exact m8
      · intro x hx
        have hxn : x ≠ s.next := Nat.ne_of_lt hx
        by_cases ht : (s.heap p).Type_ = BCNType.Linked
        · simp only [ht, if_true]
          rw [(Link_fields s3 s.next x).1]; exact mb x hxn
        · simp only [ht, if_false]; exact mb x hxn
    | none =>
      obtain ⟨s3, hm, hs3, _, _, _, _, _, m8, _, mb, _, hlay⟩ :=
        merged_sound hh s s.SingleTree blk hs hs.single_lt
      refine ⟨_, Add_orphan hh s blk s3 hdup hpar hm, hs3, ?_, m8,
        fun x hx => mb x (Nat.ne_of_lt hx)⟩
      intro rank hl hrank
      exact hlay rank hl hrank (fun bp hbp => by rw [hs.single_block] at hbp; cases hbp)

/-- Every cache that the operations build is sound and layered, and its linked
root holds a block if the cache was made on a block. -/
theorem Built_sound (hh : Block → Hash) (rank : Hash → Nat) (lib : Option Block)
    (s : BlockCache) (h : Built hh rank lib s) :
    Sound hh s ∧ Layered rank hh s ∧
    (lib.isSome = true → ∃ lb, (s.heap s.LinkedTree).Block = some lb) := by
  induction h with
  | fresh =>
    refine ⟨Sound_NewBlockCache hh lib, Layered_NewBlockCache rank hh lib, ?_⟩
    intro hl
    cases lib with
    | none => cases hl
    | some b => exact ⟨b, by rw [NewBlockCache_eq]; simp⟩
  | @add s blk r _ hrank hadd ih =>
    obtain ⟨hs, hl, hroot⟩ := ih
    obtain ⟨r2, h2, a1, a2, a3, a4⟩ := Add_keeps hh s blk hs
    rw [hadd] at h2; cases h2
    refine ⟨a1, a2 rank hl hrank, fun hlib => ?_⟩
    obtain ⟨lb, hlb⟩ := hroot hlib
    exact ⟨lb, by rw [a3, a4 _ hs.linked_lt]; exact hlb⟩
  | @link s n _ hn ih =>
    obtain ⟨hs, hl, hroot⟩ := ih
    refine ⟨Sound_Link hh s n hs hn, Layered_Link rank hh s n hl, fun hlib => ?_⟩
    obtain ⟨lb, hlb⟩ := hroot hlib
    exact ⟨lb, by rw [(Link_frame s n).2.1, (Link_fields s n _).1]; exact hlb⟩
  | @del s fuel n s2 _ hdel ih =>
    obtain ⟨hs, hl, hroot⟩ := ih
    obtain ⟨a1, a2, a3⟩ := Del_keeps hh fuel s (some n) s2 hs hdel
    refine ⟨a1, Layered_shrunk rank hh s s2 hl a2, fun hlib => ?_⟩
    obtain ⟨lb, hlb⟩ := hroot hlib
    exact ⟨lb, by rw [a3, (a2.fields _).1]; exact hlb⟩
  | @flush s pushOK flushOK fuel st n w _ hfl ih =>
    obtain ⟨hs, hl, hroot⟩ := ih
    obtain ⟨a1, a2, a3⟩ := Flush_keeps hh pushOK flushOK fuel (s, st) (some n) w hs hfl
    refine ⟨a1, Layered_shrunk rank hh s w.1 hl a2, fun hlib => ?_⟩
    rcases a3 with e | hb
    · obtain ⟨lb, hlb⟩ := hroot hlib
      exact ⟨lb, by rw [e, (a2.fields _).1]; exact hlb⟩
    · exact hb

theorem sampleRank_lt (b : Block) : sampleRank b.Head.ParentHash < sampleRank (sampleHash b) := by
  simp only [sampleRank, sampleHash, List.length_cons]
  omega

/-- A run of `Add` from a cache that the operations build. -/
theorem Built_addAll (hh : Block → Hash) (rank : Hash → Nat) (lib : Option Block)
    (blocks : List Block) :
    (∀ b, b ∈ blocks → rank b.Head.ParentHash < rank (hh b)) →
    ∀ s s2, Built hh rank lib s → addAll hh s blocks = some s2 → Built hh rank lib s2 := by
  induction blocks with
  | nil => intro _ s s2 hb h; simp only [addAll, Option.some.injEq] at h; rw [← h]; exact hb
  | cons b rest ih =>
    intro hrank s s2 hb h
    simp only [addAll] at h
    cases hr : Add hh s b with
    | none => rw [hr] at h; cases h
    | some r =>
      rw [hr] at h
      exact ih (fun x hx => hrank x (List.mem_cons_of_mem _ hx)) r.cache s2
        (Built.add b r hb (hrank b (List.mem_cons_self _ _)) hr) h

theorem Built_flushedCache : Built sampleHash sampleRank (some libBlock) flushedCache :=
  Built.flush (fun _ => true) (fun _ => true) 5 emptyStore 2
    ((Flush sampleHash (fun _ => true) (fun _ => true) 5
      ((addAll sampleHash freshCache [block6, block7]).getD freshCache, emptyStore)
      (some 2)).getD (freshCache, emptyStore))
    (Built_addAll sampleHash sampleRank (some libBlock) [block6, block7]
      (fun b _ => sampleRank_lt b) freshCache _ Built.fresh rfl) rfl

theorem Built_flushedCache8 : Built sampleHash sampleRank (some libBlock) flushedCache8 :=
  Built_addAll sampleHash sampleRank (some libBlock) [block8]
    (fun b _ => sampleRank_lt b) flushedCache _ Built_flushedCache rfl

/-! ## `Add`: duplicates, attachment, status (C1 to C4) -/

/-- The node `Add` creates and its surroundings, after `mergeSingle` has run
on the attached state: the new node keeps its block, and its parent, its
place among the parent's children and its type are those `NewBCN` gave it as
long as the new node is not itself the orphan that was moved. -/
theorem merged_fields (hh : Block → Hash) (s : BlockCache) (fa : Ptr) (blk : Block)
    (s3 : BlockCache) (hwf : WF hh s) (hfa : fa < s.next)
    (hdup : mapLoad s.hash2node (hh blk) = none)
    (hself : fa = s.SingleTree → blk.Head.ParentHash ≠ hh blk)
    (hm : mergeSingle hh (attached hh s fa blk) s.next = some s3) :
    (s3.heap s.next).Block = some blk ∧ (s3.heap s.next).Parent = some fa ∧
    s.next ∈ (s3.heap fa).Children ∧ (s3.heap s.next).Type_ = (s.heap fa).Type_ ∧
    (s3.heap fa).Type_ = (s.heap fa).Type_ ∧
    s3.hash2node = mapStore s.hash2node (hh blk) s.next ∧
    s3.SingleTree = s.SingleTree ∧ s3.LinkedTree = s.LinkedTree := by
  have hwf2 := WF_attached hh s fa blk hwf hfa hdup
  obtain ⟨a1, a2, a3, a4, a5⟩ := attached_type hh s fa blk hwf hfa
  obtain ⟨f1, f2, f3, f4, f5, f6⟩ := attached_frame hh s fa blk
  have hfn : fa ≠ s.next := Nat.ne_of_lt hfa
  have hfaT := (attached_old hh s fa blk hwf hfa fa hfn).2.2.1
  rcases merge_attached hh s fa blk hwf hfa hdup with ⟨h1, _⟩ | ⟨c, h1, h2, b, h3, h4⟩
  · rw [h1] at hm; cases hm
    exact ⟨a2, a3, by rw [a5]; simp, a1, hfaT, f5, f3, f2⟩
  · rw [h1] at hm; cases hm
    have hlt : s.next < (attached hh s fa blk).next := by rw [f1]; exact Nat.lt_succ_self _
    have h2b : c ∈ ((attached hh s fa blk).heap (attached hh s fa blk).SingleTree).Children := by
      rw [f3]; exact h2
    have hheap := adopted_heap hh _ s.next c blk hwf2 hlt a2 h2b
    obtain ⟨g1, g2, g3, g4, g5, g6⟩ := adopted_frame (attached hh s fa blk) s.next c
    have hcn : s.next ≠ c := by
      intro e
      subst e
      by_cases hfS : fa = s.SingleTree
      · rw [a2] at h3; cases h3; exact hself hfS h4
      · have := hwf2.child_parent _ _ (by rw [f1, f3]; exact Nat.lt_succ_of_lt hwf.single_lt) h2b
        rw [a3, f3] at this
        simp at this
        exact hfS this
    refine ⟨by rw [hheap]; exact a2, by rw [hheap]; simp [hcn, a3], ?_, by rw [hheap]; exact a1,
      by rw [hheap]; exact hfaT, by rw [g5, f5], by rw [g3, f3], by rw [g2, f2]⟩
    rw [hheap]
    simp only [hfn, if_false, f3]
    split_ifs with hfS
    · rw [← hfS, a5]
      simp [hcn]
    · rw [a5]; simp

/-- C1: for every cache state and every block whose head hash is already in
the hash index, `Add` returns no node and the duplicate error `ErrDup`, and the
cache it leaves is the cache it was given: both trees, the hash index (so also
its size), the leaf set and `Head` are unchanged. -/
theorem Add_duplicate_leaves_cache_unchanged (hh : Block → Hash) (s : BlockCache) (blk : Block)
    (hidx : (hmget s (hh blk)).2 = true) :
    ∃ r, Add hh s blk = some r ∧ r.node = none ∧ r.err = some Err.ErrDup ∧ r.cache = s ∧
      r.cache.hash2node.length = s.hash2node.length :=
  ⟨_, Add_dup hh s blk hidx, rfl, rfl, rfl, rfl⟩

/-- Witness of C1: adding the last irreversible block again to a fresh cache
that already indexes it. -/
theorem Add_duplicate_leaves_cache_unchanged_witness :
    (hmget (NewBlockCache sampleHash (some libBlock)) (sampleHash libBlock)).2 = true ∧
    ∃ r, Add sampleHash (NewBlockCache sampleHash (some libBlock)) libBlock = some r ∧
      r.node = none ∧ r.err = some Err.ErrDup ∧
      r.cache = NewBlockCache sampleHash (some libBlock) ∧
      r.cache.hash2node.length = (NewBlockCache sampleHash (some libBlock)).hash2node.length :=
  ⟨by decide, Add_duplicate_leaves_cache_unchanged sampleHash _ libBlock (by decide)⟩

/-- C2: in every cache state that satisfies the invariant of the package
(`Sound`, which `NewBlockCache` establishes and `Add`, `Link`, `Del` and
`Flush` keep), for a block `blk` whose head hash is not indexed and whose
parent hash is indexed at node `p`, `Add` returns a node `n` holding `blk`,
with parent `p`, among the children of `p`, indexed under the head hash of
`blk`, and of the type of `p`. -/
theorem Add_attaches_under_indexed_parent (hh : Block → Hash) (s : BlockCache) (blk : Block)
    (p : Ptr) (hs : Sound hh s) (hnew : (hmget s (hh blk)).2 = false)
    (hpar : (hmget s blk.Head.ParentHash).1 = some p) :
    ∃ r n, Add hh s blk = some r ∧ r.node = some n ∧
      (r.cache.heap n).Block = some blk ∧ (r.cache.heap n).Parent = some p ∧
      n ∈ (r.cache.heap p).Children ∧ (hmget r.cache (hh blk)).1 = some n ∧
      (r.cache.heap n).Type_ = (s.heap p).Type_ ∧
      (r.cache.heap n).Type_ = (r.cache.heap p).Type_ := by
  rw [hmget_fst] at hpar
  have hdup := fresh_of_not_indexed s _ hnew
  have hp := hs.index_lt _ p hpar
  have hpS : p ≠ s.SingleTree := by
    intro e
    obtain ⟨b, hb, _⟩ := hs.index_block _ p hpar
    rw [e, hs.single_block] at hb; cases hb
  have hpn : p ≠ s.next := Nat.ne_of_lt hp
  obtain ⟨s3, hm, _, m1, m4, m5, m6, _, _, _, _, hpc, _⟩ := merged_sound hh s p blk hs hp
  obtain ⟨m2, m3⟩ := hpc (fun e => absurd e hpS)
  refine ⟨_, s.next, Add_parent_sound hh s blk p s3 hs hdup hpar hm, rfl, ?_⟩
  by_cases ht : (s.heap p).Type_ = BCNType.Linked
  · simp only [ht, if_true]
    obtain ⟨l1, l2, l3, _⟩ := Link_fields s3 s.next s.next
    obtain ⟨k1, k2, k3, _⟩ := Link_fields s3 s.next p
    refine ⟨by rw [l1]; exact m1, by rw [l2]; exact m2, by rw [k3]; exact m3, ?_, ?_, ?_⟩
    · rw [hmget_fst, (Link_frame s3 s.next).2.2.2, m6, mapLoad_mapStore]; simp
    · rw [Link_heap]; simp
    · rw [Link_heap, Link_heap]; simp [hpn, m5, ht]
  · simp only [ht, if_false]
    refine ⟨m1, m2, m3, ?_, m4, by rw [m4, m5]⟩
    rw [hmget_fst, m6, mapLoad_mapStore]; simp

/-- Witness of C2: block 8 arrives at the sample cache that has been flushed
to block 6; its parent, block 7, is indexed at node 3. -/
theorem Add_attaches_under_indexed_parent_witness :
    ∃ r n, Add sampleHash flushedCache block8 = some r ∧
      r.node = some n ∧
      (r.cache.heap n).Block = some block8 ∧ (r.cache.heap n).Parent = some 3 ∧
      n ∈ (r.cache.heap 3).Children ∧ (hmget r.cache (sampleHash block8)).1 = some n ∧
      (r.cache.heap n).Type_ = (flushedCache.heap 3).Type_ ∧
      (r.cache.heap n).Type_ = (r.cache.heap 3).Type_ :=
  Add_attaches_under_indexed_parent sampleHash flushedCache block8 3
    (Built_sound _ _ _ _ Built_flushedCache).1 (by decide) (by decide)

/-- C3: in every cache state that satisfies the invariant of the package, when
`Add` attaches a block under the node `p` found at its parent hash, the status
it computes is `Extend` if `p` had no children before the call and `Fork` if
`p` had at least one. -/
theorem Add_status_extend_or_fork (hh : Block → Hash) (s : BlockCache) (blk : Block)
    (p : Ptr) (hs : Sound hh s) (hnew : (hmget s (hh blk)).2 = false)
    (hpar : (hmget s blk.Head.ParentHash).1 = some p) :
    ∃ r, Add hh s blk = some r ∧
      ((s.heap p).Children = [] → r.code = CacheStatus.Extend) ∧
      ((s.heap p).Children ≠ [] → r.code = CacheStatus.Fork) := by
  rw [hmget_fst] at hpar
  have hdup := fresh_of_not_indexed s _ hnew
  have hp := hs.index_lt _ p hpar
  obtain ⟨s3, hm, _⟩ := merged_sound hh s p blk hs hp
  refine ⟨_, Add_parent_sound hh s blk p s3 hs hdup hpar hm, ?_, ?_⟩
  · intro h; simp [h]
  · intro h; simp [h]

/-- Witness of C3: in the sample cache that has been flushed to block 6, a
second block 7 arrives when block 6 (node 2, the linked root) has the child
node 3 already. -/
theorem Add_status_extend_or_fork_witness :
    ∃ r, Add sampleHash flushedCache block7b = some r ∧
      ((flushedCache.heap 2).Children = [] → r.code = CacheStatus.Extend) ∧
      ((flushedCache.heap 2).Children ≠ [] → r.code = CacheStatus.Fork) :=
  Add_status_extend_or_fork sampleHash flushedCache block7b 2
    (Built_sound _ _ _ _ Built_flushedCache).1 (by decide) (by decide)

/-- C4: in every cache state that satisfies the invariant of the package, for
a block `blk` (not its own parent) such that neither its head hash nor its
parent hash is indexed, `Add` returns a node `n` and `ErrNotFound`; `n` is a
child of the single root, has type `Single`, holds `blk` and is indexed under
the head hash of `blk`. -/
theorem Add_orphan_under_single_root (hh : Block → Hash) (s : BlockCache) (blk : Block)
    (hs : Sound hh s) (hnew : (hmget s (hh blk)).2 = false)
    (hnopar : (hmget s blk.Head.ParentHash).2 = false)
    (hself : blk.Head.ParentHash ≠ hh blk) :
    ∃ r n, Add hh s blk = some r ∧ r.node = some n ∧ r.err = some Err.ErrNotFound ∧
      n ∈ (r.cache.heap r.cache.SingleTree).Children ∧
      (r.cache.heap n).Parent = some r.cache.SingleTree ∧
      (r.cache.heap n).Type_ = BCNType.Single ∧ (r.cache.heap n).Block = some blk ∧
      (hmget r.cache (hh blk)).1 = some n := by
  have hdup := fresh_of_not_indexed s _ hnew
  have hpar := fresh_of_not_indexed s _ hnopar
  obtain ⟨s3, hm, _, m1, m4, _, m6, m7, _, _, _, hpc, _⟩ :=
    merged_sound hh s s.SingleTree blk hs hs.single_lt
  obtain ⟨m2, m3⟩ := hpc (fun _ => hself)
  refine ⟨_, s.next, Add_orphan hh s blk s3 hdup hpar hm, rfl, rfl, ?_, ?_, ?_, m1, ?_⟩
  · show s.next ∈ (s3.heap s3.SingleTree).Children
    rw [m7]; exact m3
  · show (s3.heap s.next).Parent = some s3.SingleTree
    rw [m7]; exact m2
  · show (s3.heap s.next).Type_ = BCNType.Single
    rw [m4]; exact hs.single_type
  · show (hmget s3 (hh blk)).1 = some s.next
    rw [hmget_fst, m6, mapLoad_mapStore]; simp

/-- Witness of C4: the second block 6 arrives at the sample cache that has
been flushed to block 6; its parent, block 5, has left the index. -/
theorem Add_orphan_under_single_root_witness :
    ∃ r n, Add sampleHash flushedCache block6b = some r ∧
      r.node = some n ∧ r.err = some Err.ErrNotFound ∧
      n ∈ (r.cache.heap r.cache.SingleTree).Children ∧
      (r.cache.heap n).Parent = some r.cache.SingleTree ∧
      (r.cache.heap n).Type_ = BCNType.Single ∧ (r.cache.heap n).Block = some block6b ∧
      (hmget r.cache (sampleHash block6b)).1 = some n :=
  Add_orphan_under_single_root sampleHash flushedCache block6b
    (Built_sound _ _ _ _ Built_flushedCache).1 (by decide) (by decide) (by decide)

/-! ## `mergeSingle` with several waiting orphans (C5) -/

/-- Whatever child the loop of `mergeSingle` meets first, `Add` takes at most
one child away from the single root: of two distinct orphans that wait for the
added block, at least one is still a child of the single root afterwards. -/
theorem Add_leaves_one_of_two_orphans (hh : Block → Hash) (s : BlockCache) (blk : Block)
    (c1 c2 : Ptr) (hwf : WF hh s) (hnew : (hmget s (hh blk)).2 = false)
    (h1 : c1 ∈ (s.heap s.SingleTree).Children) (h2 : c2 ∈ (s.heap s.SingleTree).Children)
    (hne : c1 ≠ c2) :
    ∃ r, Add hh s blk = some r ∧
      (c1 ∈ (r.cache.heap r.cache.SingleTree).Children ∨
       c2 ∈ (r.cache.heap r.cache.SingleTree).Children) := by
  have hdup := fresh_of_not_indexed s _ hnew
  have hS := hwf.single_lt
  have hSn : s.SingleTree ≠ s.next := Nat.ne_of_lt hS
  -- the children of the single root after `mergeSingle`
  have key : ∀ fa s3, fa < s.next →
      mergeSingle hh (attached hh s fa blk) s.next = some s3 →
      s3.SingleTree = s.SingleTree ∧
      ∃ c, ∀ x ∈ (s.heap s.SingleTree).Children, x ≠ c → x ∈ (s3.heap s.SingleTree).Children := by
    intro fa s3 hfa hm
    have hwf2 := WF_attached hh s fa blk hwf hfa hdup
    obtain ⟨f1, f2, f3, f4, f5, f6⟩ := attached_frame hh s fa blk
    have hb := (attached_type hh s fa blk hwf hfa).2.1
    have hold := (attached_old hh s fa blk hwf hfa s.SingleTree hSn).2.2.2.2
    have hsub : ∀ x ∈ (s.heap s.SingleTree).Children,
        x ∈ ((attached hh s fa blk).heap s.SingleTree).Children := by
      intro x hx
      rw [hold]
      split_ifs with hf
      · rw [← hf]; exact List.mem_append_left _ hx
      · exact hx
    rcases merge_attached hh s fa blk hwf hfa hdup with ⟨e, _⟩ | ⟨c, e, hc, _⟩
    · rw [e] at hm; cases hm
      exact ⟨f3, s.next, fun x hx _ => hsub x hx⟩
    · rw [e] at hm; cases hm
      have hlt : s.next < (attached hh s fa blk).next := by rw [f1]; exact Nat.lt_succ_self _
      have hc2 : c ∈ ((attached hh s fa blk).heap (attached hh s fa blk).SingleTree).Children := by
        rw [f3]; exact hc
      have hheap := adopted_heap hh _ s.next c blk hwf2 hlt hb hc2
      refine ⟨by rw [(adopted_frame _ _ _).2.2.1, f3], c, ?_⟩
      intro x hx hxc
      rw [hheap]
      simp only [hSn, if_false, f3, if_true]
      simp [hsub x hx, hxc]
  have pick : ∀ s3 : BlockCache, s3.SingleTree = s.SingleTree →
      (∃ c, ∀ x ∈ (s.heap s.SingleTree).Children, x ≠ c →
        x ∈ (s3.heap s.SingleTree).Children) →
      c1 ∈ (s3.heap s3.SingleTree).Children ∨ c2 ∈ (s3.heap s3.SingleTree).Children := by
    intro s3 hS3 hex
    obtain ⟨c, hc⟩ := hex
    rw [hS3]
    by_cases h : c1 = c
    · exact Or.inr (hc c2 h2 (fun e => hne (h.trans e.symm)))
    · exact Or.inl (hc c1 h1 h)
  cases hpar : mapLoad s.hash2node blk.Head.ParentHash with
  | some p =>
    have hp := hwf.index_lt _ p hpar
    obtain ⟨s3, hm⟩ := merge_attached_some hh s p blk hwf hp hdup
    obtain ⟨k1, k2⟩ := key p s3 hp hm
    refine ⟨_, Add_parent hh s blk p s3 hwf hdup hpar hm, ?_⟩
    by_cases ht : (s.heap p).Type_ = BCNType.Linked
    · simp only [ht, if_true]
      refine pick _ (by rw [(Link_frame _ _).2.2.1]; exact k1) ?_
      obtain ⟨c, hc⟩ := k2
      exact ⟨c, fun x hx hxc => by rw [(Link_fields _ _ _).2.2.1]; exact hc x hx hxc⟩
    · simp only [ht, if_false]
      exact pick s3 k1 k2
  | none =>
    obtain ⟨s3, hm⟩ := merge_attached_some hh s s.SingleTree blk hwf hS hdup
    obtain ⟨k1, k2⟩ := key s.SingleTree s3 hS hm
    exact ⟨_, Add_orphan hh s blk s3 hdup hpar hm, pick s3 k1 k2⟩

/-- C5 (the code at the failing input): blocks 7 and 7b, both children of the
unknown block 6, wait under the single root (nodes 2 and 3); when block 6
arrives (node 4) `mergeSingle` moves node 2 only.  Node 3 still names block 6
as its parent, yet it stays a child of the single root. -/
theorem mergeSingle_moves_one_orphan_only :
    (addAll sampleHash (NewBlockCache sampleHash (some libBlock)) [block7, block7b, block6]).map
      (fun s => (s.SingleTree, (s.heap s.SingleTree).Children, (s.heap 4).Block,
        (s.heap 4).Children, (s.heap 2).Parent, (s.heap 3).Block, (s.heap 3).Parent)) =
    some (1, [3], some block6, [2], some 4, some block7b, some 1) := by
  rfl

/-! ## `FindBlock` (C6, C7) -/

/-- Every call of `FindBlock` stops with a panic: on a missing hash at
`bcn.Block`, on a present one at the assertion `.(error)`. -/
theorem FindBlock_none (s : BlockCache) (h : Hash) : FindBlock s h = none := by
  unfold FindBlock
  rw [hmget_fst, hmget_snd]
  cases mapLoad s.hash2node h <;> simp [IF, Iface.asError]

/-- C6 (the code after a successful `Add`): in a well-formed cache `Add` of a
block that is not indexed returns without the duplicate error and indexes a
node holding the block, but `FindBlock` on the hash of that block then stops
with a panic: `IF(ok, nil, ...)` returns the nil interface, on which the
assertion `.(error)` fails. -/
theorem FindBlock_faults_on_added_block (hh : Block → Hash) (s : BlockCache) (blk : Block)
    (hwf : WF hh s) (hnew : (hmget s (hh blk)).2 = false) :
    ∃ r n, Add hh s blk = some r ∧ r.err ≠ some Err.ErrDup ∧
      hmget r.cache (hh blk) = (some n, true) ∧ (r.cache.heap n).Block = some blk ∧
      FindBlock r.cache (hh blk) = none := by
  have hdup := fresh_of_not_indexed s _ hnew
  have hget : ∀ s3 : BlockCache, s3.hash2node = mapStore s.hash2node (hh blk) s.next →
      hmget s3 (hh blk) = (some s.next, true) := by
    intro s3 h3
    simp [hmget, h3, mapLoad_mapStore]
  cases hpar : mapLoad s.hash2node blk.Head.ParentHash with
  | some p =>
    have hp := hwf.index_lt _ p hpar
    obtain ⟨s3, hm⟩ := merge_attached_some hh s p blk hwf hp hdup
    obtain ⟨m1, m2, m3, _, _, _⟩ := merged_basic hh s p blk s3 hwf hp hdup hm
    refine ⟨_, s.next, Add_parent hh s blk p s3 hwf hdup hpar hm, ?_, ?_, ?_, FindBlock_none _ _⟩
    · by_cases ht : (s.heap p).Type_ = BCNType.Linked <;> simp [ht]
    · by_cases ht : (s.heap p).Type_ = BCNType.Linked
      · simp only [ht, if_true]
        exact hget _ (by rw [(Link_frame s3 s.next).2.2.2, m3])
      · simp only [ht, if_false]; exact hget _ m3
    · by_cases ht : (s.heap p).Type_ = BCNType.Linked
      · simp only [ht, if_true]; rw [(Link_fields s3 s.next s.next).1]; exact m1
      · simp only [ht, if_false]; exact m1
  | none =>
    have hS := hwf.single_lt
    obtain ⟨s3, hm⟩ := merge_attached_some hh s s.SingleTree blk hwf hS hdup
    obtain ⟨m1, m2, m3, _, _, _⟩ := merged_basic hh s s.SingleTree blk s3 hwf hS hdup hm
    exact ⟨_, s.next, Add_orphan hh s blk s3 hdup hpar hm, by simp, hget _ m3, m1,
      FindBlock_none _ _⟩

/-- Witness of C6: block 6 is added to a fresh cache and then looked up. -/
theorem FindBlock_faults_on_added_block_witness :
    ∃ r n, Add sampleHash (NewBlockCache sampleHash (some libBlock)) block6 = some r ∧
      r.err ≠ some Err.ErrDup ∧
      hmget r.cache (sampleHash block6) = (some n, true) ∧
      (r.cache.heap n).Block = some block6 ∧
      FindBlock r.cache (sampleHash block6) = none :=
  FindBlock_faults_on_added_block sampleHash _ block6 (WF_NewBlockCache _ _) (by decide)

/-- C7 (the code on an unknown hash): when the hash is not in the index,
`hmget` returns a nil node and `FindBlock` dereferences it (`bcn.Block`) before
it builds its error, so the call stops with a panic and returns nothing. -/
theorem FindBlock_faults_on_unknown_hash (s : BlockCache) (h : Hash)
    (hno : (hmget s h).2 = false) :
    (hmget s h).1 = none ∧ FindBlock s h = none := by
  have := fresh_of_not_indexed s h hno
  exact ⟨by rw [hmget_fst]; exact this, FindBlock_none s h⟩

/-- Witness of C7: the hash of block 7 in a fresh cache. -/
theorem FindBlock_faults_on_unknown_hash_witness :
    (hmget (NewBlockCache sampleHash (some libBlock)) (sampleHash block7)).2 = false ∧
    (hmget (NewBlockCache sampleHash (some libBlock)) (sampleHash block7)).1 = none ∧
    FindBlock (NewBlockCache sampleHash (some libBlock)) (sampleHash block7) = none :=
  ⟨by decide, FindBlock_faults_on_unknown_hash _ _ (by decide)⟩

/-! ## Uniqueness of head hashes (C8) -/

/-- A node reachable from an allocated root is allocated; it is the root or a
child of an allocated node. -/
theorem reach_alloc (hh : Block → Hash) (s : BlockCache) (root n : Ptr) (hwf : WF hh s)
    (hr : root < s.next) (h : Reach s root n) :
    n < s.next ∧ (n = root ∨ ∃ p, p < s.next ∧ n ∈ (s.heap p).Children) := by
  induction h with
  | here => exact ⟨hr, Or.inl rfl⟩
  | child hp hc ih => exact ⟨hwf.child_lt _ _ ih.1 hc, Or.inr ⟨_, ih.1, hc⟩⟩

/-- In a well-formed cache every node that is reachable from a root and holds
a block is indexed under the head hash of that block. -/
theorem reach_indexed (hh : Block → Hash) (s : BlockCache) (n : Ptr) (b : Block)
    (hwf : WF hh s) (h : Reach s s.LinkedTree n ∨ Reach s s.SingleTree n)
    (hb : (s.heap n).Block = some b) : mapLoad s.hash2node (hh b) = some n := by
  have key : ∀ p, p < s.next → n ∈ (s.heap p).Children →
      mapLoad s.hash2node (hh b) = some n := by
    intro p hp hc
    obtain ⟨b2, h1, h2⟩ := hwf.child_indexed p n hp hc
    rw [hb] at h1; cases h1; exact h2
  rcases h with h | h
  · rcases (reach_alloc hh s _ n hwf hwf.linked_lt h).2 with e | ⟨p, hp, hc⟩
    · subst e; exact hwf.linked_indexed b hb
    · exact key p hp hc
  · rcases (reach_alloc hh s _ n hwf hwf.single_lt h).2 with e | ⟨p, hp, hc⟩
    · subst e; rw [hwf.single_block] at hb; cases hb
    · exact key p hp hc

/-- C8: after every finite sequence of `Add` calls on a freshly created cache
(the calls all return), two nodes reachable from `LinkedTree` or `SingleTree`
that hold blocks with the same head hash are the same node. -/
theorem no_two_reachable_nodes_share_head_hash (hh : Block → Hash) (lib : Option Block)
    (blocks : List Block) :
    ∃ s, addAll hh (NewBlockCache hh lib) blocks = some s ∧
      ∀ n1 n2 b1 b2,
        (Reach s s.LinkedTree n1 ∨ Reach s s.SingleTree n1) →
        (Reach s s.LinkedTree n2 ∨ Reach s s.SingleTree n2) →
        (s.heap n1).Block = some b1 → (s.heap n2).Block = some b2 →
        hh b1 = hh b2 → n1 = n2 := by
  obtain ⟨s, hs, hwf⟩ := WF_addAll hh blocks _ (WF_NewBlockCache hh lib)
  refine ⟨s, hs, ?_⟩
  intro n1 n2 b1 b2 h1 h2 hb1 hb2 he
  have i1 := reach_indexed hh s n1 b1 hwf h1 hb1
  have i2 := reach_indexed hh s n2 b2 hwf h2 hb2
  rw [he, i2] at i1
  cases i1; rfl

/-! ## Types in the linked tree (C10) -/

/-- C10 (the code at the failing input): block 7 arrives before its parent
block 6; when block 6 is added under the linked root, `mergeSingle` moves the
node of block 7 (node 2) under the node of block 6 (node 3), and it keeps type
`Single` although it is now reachable from `LinkedTree`: `addSingle` ends at the
comment `//modify Type from child to end` and changes no type. -/
theorem adopted_orphan_stays_single :
    ∃ s, addAll sampleHash (NewBlockCache sampleHash (some libBlock)) [block7, block6] = some s ∧
      Reach s s.LinkedTree 2 ∧ (s.heap 2).Type_ = BCNType.Single := by
  have hsome : (addAll sampleHash (NewBlockCache sampleHash (some libBlock))
      [block7, block6]).isSome = true := by rfl
  refine ⟨Option.get _ hsome, (Option.some_get hsome).symm, ?_, by rfl⟩
  have r3 : Reach (Option.get _ hsome) (Option.get _ hsome).LinkedTree 3 :=
    Reach.child Reach.here (show (3 : Ptr) ∈ [3] from List.mem_singleton.mpr rfl)
  exact Reach.child r3 (show (2 : Ptr) ∈ [2] from List.mem_singleton.mpr rfl)

theorem orphanWaiting_false (hh : Block → Hash) (s : BlockCache) (blk : Block)
    (h : orphanWaiting hh s blk = false) :
    ∀ c ∈ (s.heap s.SingleTree).Children, ∀ b, (s.heap c).Block = some b →
      b.Head.ParentHash ≠ hh blk := by
  intro c hc b hb he
  have : orphanWaiting hh s blk = true := by
    unfold orphanWaiting
    rw [List.any_eq_true]
    exact ⟨c, hc, by simp [hb, he]⟩
  rw [h] at this; cases this

/-- The invariant of runs without adoption under a linked node. -/
theorem Add_keeps_linked_tree_linked (hh : Block → Hash) (s : BlockCache) (blk : Block)
    (r : AddResult) (hwf : WF hh s)
    (hinv : ∀ n, Reach s s.LinkedTree n → (s.heap n).Type_ = BCNType.Linked)
    (hadd : Add hh s blk = some r) (hno : linkedAdoption hh s blk = false) :
    ∀ n, Reach r.cache r.cache.LinkedTree n → (r.cache.heap n).Type_ = BCNType.Linked := by
  cases hdup : mapLoad s.hash2node (hh blk) with
  | some q =>
    have := Add_dup hh s blk (by simp [hmget_snd, hdup])
    rw [this] at hadd; cases hadd; exact hinv
  | none =>
    have hnS : s.next ≠ s.SingleTree := Ne.symm (Nat.ne_of_lt hwf.single_lt)
    -- the case of a parent node that is not of type Linked (or the single root)
    have single_case : ∀ fa s3, fa < s.next → (s.heap fa).Type_ ≠ BCNType.Linked →
        mergeSingle hh (attached hh s fa blk) s.next = some s3 →
        ∀ n, Reach s3 s3.LinkedTree n → (s3.heap n).Type_ = BCNType.Linked := by
      intro fa s3 hfa hft hm
      have hwf2 := WF_attached hh s fa blk hwf hfa hdup
      obtain ⟨a1, a2, a3, a4, a5⟩ := attached_type hh s fa blk hwf hfa
      obtain ⟨f1, f2, f3, f4, f5, f6⟩ := attached_frame hh s fa blk
      have hstep : s3.LinkedTree = s.LinkedTree ∧ ∀ x, x < s.next → x ≠ fa → x ≠ s.SingleTree →
          (s3.heap x).Children = (s.heap x).Children ∧ (s3.heap x).Type_ = (s.heap x).Type_ := by
        rcases merge_attached hh s fa blk hwf hfa hdup with ⟨h1, _⟩ | ⟨c, h1, h2, _⟩
        · rw [h1] at hm; cases hm
          refine ⟨f2, ?_⟩
          intro x hx hxf _
          have := attached_old hh s fa blk hwf hfa x (Nat.ne_of_lt hx)
          exact ⟨by rw [this.2.2.2.2]; simp [hxf], this.2.2.1⟩
        · rw [h1] at hm; cases hm
          have hlt : s.next < (attached hh s fa blk).next := by
            rw [f1]; exact Nat.lt_succ_self _
          have h2b : c ∈ ((attached hh s fa blk).heap
              (attached hh s fa blk).SingleTree).Children := by rw [f3]; exact h2
          have hheap := adopted_heap hh _ s.next c blk hwf2 hlt a2 h2b
          refine ⟨by rw [(adopted_frame _ _ _).2.1, f2], ?_⟩
          intro x hx hxf hxS
          have := attached_old hh s fa blk hwf hfa x (Nat.ne_of_lt hx)
          rw [hheap x]
          refine ⟨?_, this.2.2.1⟩
          simp only [Nat.ne_of_lt hx, if_false, f3, hxS]
          rw [this.2.2.2.2]; simp [hxf]
      have hold : ∀ n, Reach s3 s3.LinkedTree n → Reach s s.LinkedTree n := by
        intro n hn
        induction hn with
        | here => rw [hstep.1]; exact Reach.here
        | child hp hc ih =>
          rename_i p c
          have hpl := (reach_alloc hh s _ p hwf hwf.linked_lt ih).1
          have hpt := hinv p ih
          have hpf : p ≠ fa := fun e => hft (e ▸ hpt)
          have hpS : p ≠ s.SingleTree := by
            intro e; rw [e, hwf.single_type] at hpt; cases hpt
          rw [(hstep.2 p hpl hpf hpS).1] at hc
          exact Reach.child ih hc
      intro n hn
      have hr := hold n hn
      have hnl := (reach_alloc hh s _ n hwf hwf.linked_lt hr).1
      have hnt := hinv n hr
      have hnf : n ≠ fa := fun e => hft (e ▸ hnt)
      have hnS2 : n ≠ s.SingleTree := by
        intro e; rw [e, hwf.single_type] at hnt; cases hnt
      rw [(hstep.2 n hnl hnf hnS2).2]; exact hnt
    cases hpar : mapLoad s.hash2node blk.Head.ParentHash with
    | some p =>
      have hp := hwf.index_lt _ p hpar
      have hpn : p ≠ s.next := Nat.ne_of_lt hp
      obtain ⟨s3, hm⟩ := merge_attached_some hh s p blk hwf hp hdup
      have hres := Add_parent hh s blk p s3 hwf hdup hpar hm
      rw [hres] at hadd; cases hadd
      by_cases ht : (s.heap p).Type_ = BCNType.Linked
      · simp only [ht, if_true]
        -- no orphan waits, so mergeSingle leaves the attached state
        have hw : orphanWaiting hh s blk = false := by
          simpa [linkedAdoption, hmget_snd, hmget_fst, hdup, hpar, ht] using hno
        have hnone := orphanWaiting_false hh s blk hw
        have hpS : p ≠ s.SingleTree := by
          intro e; rw [e, hwf.single_type] at ht; cases ht
        have hs3 : s3 = attached hh s p blk := by
          rcases merge_attached hh s p blk hwf hp hdup with ⟨h1, _⟩ | ⟨c, h1, h2, b, h3, h4⟩
          · rw [h1] at hm; cases hm; rfl
          · exfalso
            have hSo := attached_old hh s p blk hwf hp s.SingleTree (Ne.symm hnS)
            rw [hSo.2.2.2.2] at h2
            simp only [Ne.symm hpS, if_false] at h2
            have hcl := hwf.child_lt _ c hwf.single_lt h2
            have hco := attached_old hh s p blk hwf hp c (Nat.ne_of_lt hcl)
            rw [hco.1] at h3
            exact hnone c h2 b h3 h4
        subst hs3
        obtain ⟨f1, f2, f3, f4, f5, f6⟩ := attached_frame hh s p blk
        obtain ⟨a1, a2, a3, a4, a5⟩ := attached_type hh s p blk hwf hp
        have hold : ∀ n, Reach (Link (attached hh s p blk) (some s.next))
            (Link (attached hh s p blk) (some s.next)).LinkedTree n →
            n = s.next ∨ Reach s s.LinkedTree n := by
          intro n hn
          induction hn with
          | here => right; rw [(Link_frame _ _).2.1, f2]; exact Reach.here
          | child hq hc ih =>
            rename_i q c
            rw [(Link_fields _ _ _).2.2.1] at hc
            rcases ih with e | ih
            · rw [e, a4] at hc; cases hc
            · have hql := (reach_alloc hh s _ q hwf hwf.linked_lt ih).1
              have := attached_old hh s p blk hwf hp q (Nat.ne_of_lt hql)
              rw [this.2.2.2.2] at hc
              split_ifs at hc with hqp
              · rcases List.mem_append.mp hc with hc | hc
                · right; exact Reach.child ih (hqp ▸ hc)
                · left; simpa using hc
              · right; exact Reach.child ih hc
        intro n hn
        rw [Link_heap]
        rcases hold n hn with e | hr
        · simp [e]
        · have hnl := (reach_alloc hh s _ n hwf hwf.linked_lt hr).1
          have hnn : n ≠ s.next := Nat.ne_of_lt hnl
          simp only [hnn, if_false]
          rw [(attached_old hh s p blk hwf hp n hnn).2.2.1]
          exact hinv n hr
      · simp only [ht, if_false]
        exact single_case p s3 hp ht hm
    | none =>
      obtain ⟨s3, hm⟩ := merge_attached_some hh s s.SingleTree blk hwf hwf.single_lt hdup
      have hres := Add_orphan hh s blk s3 hdup hpar hm
      rw [hres] at hadd; cases hadd
      exact single_case s.SingleTree s3 hwf.single_lt
        (by rw [hwf.single_type]; intro e; cases e) hm

theorem NewBlockCache_reach (hh : Block → Hash) (lib : Option Block) (root n : Ptr)
    (h : Reach (NewBlockCache hh lib) root n) : n = root := by
  induction h with
  | here => rfl
  | child _ hc _ => rw [(NewBlockCache_children hh lib _).1] at hc; cases hc

theorem noLinkedAdoption_run (hh : Block → Hash) (blocks : List Block) :
    ∀ s, WF hh s → (∀ n, Reach s s.LinkedTree n → (s.heap n).Type_ = BCNType.Linked) →
      noLinkedAdoption hh s blocks = true →
      ∃ s2, addAll hh s blocks = some s2 ∧
        ∀ n, Reach s2 s2.LinkedTree n → (s2.heap n).Type_ = BCNType.Linked := by
  induction blocks with
  | nil => intro s _ hinv _; exact ⟨s, rfl, hinv⟩
  | cons b rest ih =>
    intro s hwf hinv hrun
    obtain ⟨r, hr, hwr⟩ := Add_total_WF hh s b hwf
    simp only [noLinkedAdoption, hr, Bool.and_eq_true, Bool.not_eq_true'] at hrun
    have hinv2 := Add_keeps_linked_tree_linked hh s b r hwf hinv hr hrun.1
    obtain ⟨s2, h2, hl2⟩ := ih r.cache hwr hinv2 hrun.2
    exact ⟨s2, by simp [addAll, hr, h2], hl2⟩

/-- After every finite sequence of `Add` calls on a freshly
created cache in which no call moves an orphan into the linked tree (no child
of the single root names a block that is attached under a parent of type
`Linked`), every node reachable from `LinkedTree` via `Children` has type
`Linked`. -/
theorem linked_tree_is_linked_without_adoption (hh : Block → Hash) (lib : Option Block)
    (blocks : List Block)
    (hrun : noLinkedAdoption hh (NewBlockCache hh lib) blocks = true) :
    ∃ s, addAll hh (NewBlockCache hh lib) blocks = some s ∧
      ∀ n, Reach s s.LinkedTree n → (s.heap n).Type_ = BCNType.Linked := by
  refine noLinkedAdoption_run hh blocks _ (WF_NewBlockCache hh lib) ?_ hrun
  intro n hn
  rw [NewBlockCache_reach hh lib _ n hn, NewBlockCache_eq]
  simp [BlockCacheNode.zero]

/-! ## Every indexed node is in exactly one tree (C9) -/

theorem anc_trans (s : BlockCache) (x y z : Ptr) (h1 : Anc s x y) (h2 : Anc s y z) :
    Anc s x z := by
  induction h1 with
  | here => exact h2
  | up hp _ ih => exact Anc.up hp (ih h2)

/-- Ancestry carries over to a cache with the same parents on allocated nodes. -/
theorem anc_congr (hh : Block → Hash) (s s2 : BlockCache) (hr : Rooted hh s)
    (hpar : ∀ x, x < s.next → (s2.heap x).Parent = (s.heap x).Parent)
    (n a : Ptr) (hn : n < s.next) (h : Anc s n a) : Anc s2 n a := by
  induction h with
  | here => exact Anc.here _
  | up hp _ ih =>
    exact Anc.up (by rw [hpar _ hn]; exact hp) (ih (hr.parent_child _ _ hn hp).1)

/-- Ancestry that avoids `c` carries over when only the parent of `c` changes. -/
theorem anc_avoid (s s2 : BlockCache) (c : Ptr)
    (hpar : ∀ x, x ≠ c → (s2.heap x).Parent = (s.heap x).Parent)
    (n a : Ptr) (h : Anc s n a) (hav : ¬ Anc s n c) : Anc s2 n a := by
  induction h with
  | here => exact Anc.here _
  | @up x p a hp _ ih =>
    have hxc : x ≠ c := fun e => hav (e ▸ Anc.here _)
    exact Anc.up (by rw [hpar _ hxc]; exact hp) (ih (fun hpc => hav (Anc.up hp hpc)))

/-- When only the parent of `c` changes, an ancestry survives or meets `c`. -/
theorem anc_or (s s2 : BlockCache) (c : Ptr)
    (hpar : ∀ x, x ≠ c → (s2.heap x).Parent = (s.heap x).Parent)
    (n a : Ptr) (h : Anc s n a) : Anc s2 n a ∨ Anc s2 n c := by
  induction h with
  | here => exact Or.inl (Anc.here _)
  | @up x p a hp _ ih =>
    by_cases hxc : x = c
    · right; rw [hxc]; exact Anc.here _
    · have hp2 : (s2.heap x).Parent = some p := by rw [hpar _ hxc]; exact hp
      rcases ih with h | h
      · exact Or.inl (Anc.up hp2 h)
      · exact Or.inr (Anc.up hp2 h)

theorem anc_of_root (s : BlockCache) (r a : Ptr) (hr : (s.heap r).Parent = none)
    (h : Anc s r a) : a = r := by
  cases h with
  | here => rfl
  | up hp _ => rw [hr] at hp; cases hp

/-- Along an ancestry the rank of the head hash does not grow. -/
theorem anc_rank (hh : Block → Hash) (rank : Hash → Nat)
    (s : BlockCache) (hl : Layered rank hh s) (hr : Rooted hh s) (x a : Ptr) (h : Anc s x a) :
    x < s.next → a ≠ s.SingleTree → ∀ bx ba, (s.heap x).Block = some bx →
      (s.heap a).Block = some ba → rank (hh ba) ≤ rank (hh bx) := by
  induction h with
  | here =>
    intro _ _ bx ba hbx hba
    rw [hbx] at hba; cases hba; exact le_refl _
  | @up x p a hp hpa ih =>
    intro hx ha bx ba hbx hba
    have hpS : p ≠ s.SingleTree := by
      intro e
      rw [e] at hpa
      exact ha (anc_of_root s _ a hr.single_root hpa)
    obtain ⟨bn, bp, h1, h2, h3⟩ := hr.parent_hash x p hx hp hpS
    rw [hbx] at h1; cases h1
    have := ih (hr.parent_child x p hx hp).1 ha bp ba h2 hba
    have hlt := hl.child_rank p x bx (hr.parent_child x p hx hp).2 hbx
    rw [h3] at hlt
    exact le_of_lt (lt_of_le_of_lt this hlt)

theorem reach_anc (hh : Block → Hash) (s : BlockCache) (hwf : WF hh s) (root n : Ptr)
    (hroot : root < s.next) (h : Reach s root n) : Anc s n root := by
  induction h with
  | here => exact Anc.here _
  | child hp hc ih =>
    exact Anc.up (hwf.child_parent _ _ (reach_alloc hh s root _ hwf hroot hp).1 hc) ih

theorem anc_reach (hh : Block → Hash) (s : BlockCache) (hr : Rooted hh s) (root n : Ptr)
    (h : Anc s n root) : n < s.next → Reach s root n := by
  induction h with
  | here => intro _; exact Reach.here
  | up hp _ ih =>
    intro hn
    have := hr.parent_child _ _ hn hp
    exact Reach.child (ih this.1) this.2

theorem anc_one_root (hh : Block → Hash) (s : BlockCache) (hwf : WF hh s) (hr : Rooted hh s)
    (n : Ptr) (h1 : Anc s n s.LinkedTree) (h2 : Anc s n s.SingleTree) : False := by
  generalize hL : s.LinkedTree = l at h1
  induction h1 with
  | here =>
    subst hL
    exact hwf.roots_ne (anc_of_root s _ _ hr.linked_root h2).symm
  | up hp _ ih =>
    cases h2 with
    | here => rw [hr.single_root] at hp; cases hp
    | up hp2 h3 =>
      rw [hp] at hp2; cases hp2
      exact ih h3 hL

theorem Rooted_attached (hh : Block → Hash) (s : BlockCache) (fa : Ptr) (blk : Block)
    (hwf : WF hh s) (hr : Rooted hh s) (hfa : fa < s.next)
    (hfab : fa ≠ s.SingleTree → mapLoad s.hash2node blk.Head.ParentHash = some fa) :
    Rooted hh (attached hh s fa blk) := by
  obtain ⟨a1, a2, a3, a4, a5⟩ := attached_type hh s fa blk hwf hfa
  obtain ⟨f1, f2, f3, f4, f5, f6⟩ := attached_frame hh s fa blk
  have hold := attached_old hh s fa blk hwf hfa
  have hfn : fa ≠ s.next := Nat.ne_of_lt hfa
  have hpar : ∀ x, x < s.next → ((attached hh s fa blk).heap x).Parent = (s.heap x).Parent :=
    fun x hx => (hold x (Nat.ne_of_lt hx)).2.1
  have hanc : ∀ n a, n < s.next → Anc s n a → Anc (attached hh s fa blk) n a :=
    fun n a hn h => anc_congr hh s _ hr hpar n a hn h
  have hsplit : ∀ x, x < (attached hh s fa blk).next → x = s.next ∨ x < s.next := by
    intro x hx
    rw [f1] at hx
    rcases Nat.lt_succ_iff_lt_or_eq.mp hx with h | h
    · exact Or.inr h
    · exact Or.inl h
  constructor
  · intro c p hc hp
    rw [f1]
    rcases hsplit c hc with e | hlt
    · subst e
      rw [a3] at hp; cases hp
      exact ⟨Nat.lt_succ_of_lt hfa, by rw [a5]; simp⟩
    · rw [hpar c hlt] at hp
      have := hr.parent_child c p hlt hp
      refine ⟨Nat.lt_succ_of_lt this.1, ?_⟩
      rw [(hold p (Nat.ne_of_lt this.1)).2.2.2.2]
      split_ifs with hpf
      · rw [← hpf]; exact List.mem_append_left _ this.2
      · exact this.2
  · rw [f2, hpar _ hwf.linked_lt]; exact hr.linked_root
  · rw [f3, hpar _ hwf.single_lt]; exact hr.single_root
  · intro n hn
    rw [f2, f3]
    rcases hsplit n hn with e | hlt
    · subst e
      rcases hr.rooted fa hfa with h | h
      · exact Or.inl (Anc.up a3 (hanc _ _ hfa h))
      · exact Or.inr (Anc.up a3 (hanc _ _ hfa h))
    · rcases hr.rooted n hlt with h | h
      · exact Or.inl (hanc _ _ hlt h)
      · exact Or.inr (hanc _ _ hlt h)
  · intro n p hn hp hpS
    rw [f3] at hpS
    rcases hsplit n hn with e | hlt
    · subst e
      rw [a3] at hp; cases hp
      obtain ⟨bp, hb1, hb2⟩ := hwf.index_block _ _ (hfab hpS)
      exact ⟨blk, bp, a2, by rw [(hold _ hfn).1]; exact hb1, hb2.symm⟩
    · rw [hpar n hlt] at hp
      obtain ⟨bn, bp, h1, h2, h3⟩ := hr.parent_hash n p hlt hp hpS
      have hpl := (hr.parent_child n p hlt hp).1
      exact ⟨bn, bp, by rw [(hold n (Nat.ne_of_lt hlt)).1]; exact h1,
        by rw [(hold p (Nat.ne_of_lt hpl)).1]; exact h2, h3⟩

theorem Rooted_adopted (hh : Block → Hash) (rank : Hash → Nat)
    (s : BlockCache) (n c : Ptr) (blk b : Block) (hl : Layered rank hh s)
    (hwf : WF hh s) (hr : Rooted hh s) (hn : n < s.next) (hb : (s.heap n).Block = some blk)
    (hc : c ∈ (s.heap s.SingleTree).Children) (hcb : (s.heap c).Block = some b)
    (hpb : b.Head.ParentHash = hh blk) : Rooted hh (adopted s n c) := by
  obtain ⟨f1, f2, f3, f4, f5, f6⟩ := adopted_frame s n c
  have hheap := adopted_heap hh s n c blk hwf hn hb hc
  have hS := hwf.single_lt
  have hcl := hwf.child_lt _ c hS hc
  have hcp := hwf.child_parent _ c hS hc
  have hnS : n ≠ s.SingleTree := by
    intro e; rw [e, hwf.single_block] at hb; cases hb
  have hcS : c ≠ s.SingleTree := by
    intro e; rw [e, hr.single_root] at hcp; cases hcp
  have hcL : c ≠ s.LinkedTree := by
    intro e; rw [e, hr.linked_root] at hcp; cases hcp
  have hpar : ∀ x, x ≠ c → ((adopted s n c).heap x).Parent = (s.heap x).Parent := by
    intro x hx; rw [hheap x]; simp [hx]
  have hparc : ((adopted s n c).heap c).Parent = some n := by rw [hheap c]; simp
  have hblock : ∀ x, ((adopted s n c).heap x).Block = (s.heap x).Block := by
    intro x; rw [hheap x]
  -- the new node is not below the orphan
  have hav : ¬ Anc s n c := by
    intro h
    have := anc_rank hh rank s hl hr n c h hn hcS blk b hb hcb
    have hlt := hl.child_rank _ c b hc hcb
    rw [hpb] at hlt
    exact absurd (lt_of_le_of_lt this hlt) (lt_irrefl _)
  have hnroot : Anc (adopted s n c) n s.LinkedTree ∨ Anc (adopted s n c) n s.SingleTree := by
    rcases hr.rooted n hn with h | h
    · exact Or.inl (anc_avoid s _ c hpar n _ h hav)
    · exact Or.inr (anc_avoid s _ c hpar n _ h hav)
  constructor
  · intro x p hx hp
    rw [f1] at hx ⊢
    by_cases hxc : x = c
    · subst hxc
      rw [hparc] at hp; cases hp
      refine ⟨hn, ?_⟩
      rw [hheap]; simp
    · rw [hpar x hxc] at hp
      have := hr.parent_child x p hx hp
      refine ⟨this.1, ?_⟩
      rw [hheap p]
      simp only
      split_ifs with h1 h2
      · rw [← h1]; exact List.mem_append_left _ this.2
      · rw [← h2]; simp [this.2, hxc]
      · exact this.2
  · rw [f2, hpar _ (Ne.symm hcL)]; exact hr.linked_root
  · rw [f3, hpar _ (Ne.symm hcS)]; exact hr.single_root
  · intro x hx
    rw [f1] at hx
    rw [f2, f3]
    have hcroot : Anc (adopted s n c) c s.LinkedTree ∨ Anc (adopted s n c) c s.SingleTree := by
      rcases hnroot with h | h
      · exact Or.inl (Anc.up hparc h)
      · exact Or.inr (Anc.up hparc h)
    have through : Anc (adopted s n c) x c →
        Anc (adopted s n c) x s.LinkedTree ∨ Anc (adopted s n c) x s.SingleTree := by
      intro hxc
      rcases hcroot with h | h
      · exact Or.inl (anc_trans _ _ _ _ hxc h)
      · exact Or.inr (anc_trans _ _ _ _ hxc h)
    rcases hr.rooted x hx with h | h
    · rcases anc_or s _ c hpar x _ h with h2 | h2
      · exact Or.inl h2
      · exact through h2
    · rcases anc_or s _ c hpar x _ h with h2 | h2
      · exact Or.inr h2
      · exact through h2
  · intro x p hx hp hpS
    rw [f1] at hx
    rw [f3] at hpS
    by_cases hxc : x = c
    · subst hxc
      rw [hparc] at hp; cases hp
      exact ⟨b, blk, by rw [hblock]; exact hcb, by rw [hblock]; exact hb, hpb⟩
    · rw [hpar x hxc] at hp
      obtain ⟨bn, bp, h1, h2, h3⟩ := hr.parent_hash x p hx hp hpS
      exact ⟨bn, bp, by rw [hblock]; exact h1, by rw [hblock]; exact h2, h3⟩

theorem Rooted_Link (hh : Block → Hash) (s : BlockCache) (n : Ptr) (hr : Rooted hh s) :
    Rooted hh (Link s (some n)) := by
  obtain ⟨f1, f2, f3, f5⟩ := Link_frame s n
  have hf := Link_fields s n
  have hanc : ∀ x a, x < s.next → Anc s x a → Anc (Link s (some n)) x a :=
    fun x a hx h => anc_congr hh s _ hr (fun y _ => (hf y).2.1) x a hx h
  constructor
  · intro c p hc hp
    rw [f1] at hc ⊢
    rw [(hf c).2.1] at hp
    rw [(hf p).2.2.1]
    exact hr.parent_child c p hc hp
  · rw [f2, (hf _).2.1]; exact hr.linked_root
  · rw [f3, (hf _).2.1]; exact hr.single_root
  · intro x hx
    rw [f1] at hx
    rw [f2, f3]
    rcases hr.rooted x hx with h | h
    · exact Or.inl (hanc _ _ hx h)
    · exact Or.inr (hanc _ _ hx h)
  · intro x p hx hp hpS
    rw [f1] at hx
    rw [f3] at hpS
    rw [(hf x).2.1] at hp
    rw [(hf x).1, (hf p).1]
    exact hr.parent_hash x p hx hp hpS

theorem Rooted_merge_attached (hh : Block → Hash) (rank : Hash → Nat)
    (s : BlockCache) (fa : Ptr) (blk : Block) (s3 : BlockCache)
    (hs : Sound hh s) (hl : Layered rank hh s)
    (hrank : rank blk.Head.ParentHash < rank (hh blk))
    (hwf : WF hh s) (hr : Rooted hh s) (hfa : fa < s.next)
    (hdup : mapLoad s.hash2node (hh blk) = none)
    (hfab : fa ≠ s.SingleTree → mapLoad s.hash2node blk.Head.ParentHash = some fa)
    (hm : mergeSingle hh (attached hh s fa blk) s.next = some s3) : Rooted hh s3 := by
  have hwf2 := WF_attached hh s fa blk hwf hfa hdup
  have hr2 := Rooted_attached hh s fa blk hwf hr hfa hfab
  obtain ⟨f1, f2, f3, f4, f5, f6⟩ := attached_frame hh s fa blk
  have hb := (attached_type hh s fa blk hwf hfa).2.1
  rcases merge_attached hh s fa blk hwf hfa hdup with ⟨h1, _⟩ | ⟨c, h1, h2, b, h3, h4⟩
  · rw [h1] at hm; cases hm; exact hr2
  · rw [h1] at hm; cases hm
    have hlt : s.next < (attached hh s fa blk).next := by rw [f1]; exact Nat.lt_succ_self _
    rw [← f3] at h2
    have hedge : ∀ bp, (s.heap fa).Block = some bp → blk.Head.ParentHash = hh bp := by
      intro bp hbp
      by_cases hfS : fa = s.SingleTree
      · rw [hfS, hs.single_block] at hbp; cases hbp
      · obtain ⟨b2, hb2, hh2⟩ := hs.index_block _ _ (hfab hfS)
        rw [hbp] at hb2; cases hb2; exact hh2.symm
    have hl2 := Layered_attached rank hh s fa blk hs hl hfa hrank hedge
    exact Rooted_adopted hh rank _ s.next c blk b hl2 hwf2 hr2 hlt hb h2 h3 h4

theorem Rooted_Add (hh : Block → Hash) (rank : Hash → Nat)
    (s : BlockCache) (blk : Block) (r : AddResult) (hs : Sound hh s) (hl : Layered rank hh s)
    (hrank : rank blk.Head.ParentHash < rank (hh blk)) (hwf : WF hh s) (hr : Rooted hh s)
    (hadd : Add hh s blk = some r) : Rooted hh r.cache := by
  cases hdup : mapLoad s.hash2node (hh blk) with
  | some q =>
    have := Add_dup hh s blk (by simp [hmget_snd, hdup])
    rw [this] at hadd; cases hadd; exact hr
  | none =>
    cases hpar : mapLoad s.hash2node blk.Head.ParentHash with
    | some p =>
      have hp := hwf.index_lt _ p hpar
      obtain ⟨s3, hm⟩ := merge_attached_some hh s p blk hwf hp hdup
      have hres := Add_parent hh s blk p s3 hwf hdup hpar hm
      rw [hres] at hadd; cases hadd
      have hr3 := Rooted_merge_attached hh rank s p blk s3 hs hl hrank hwf hr hp hdup
        (fun _ => hpar) hm
      by_cases ht : (s.heap p).Type_ = BCNType.Linked
      · simp only [ht, if_true]; exact Rooted_Link hh s3 s.next hr3
      · simp only [ht, if_false]; exact hr3
    | none =>
      obtain ⟨s3, hm⟩ := merge_attached_some hh s s.SingleTree blk hwf hwf.single_lt hdup
      have hres := Add_orphan hh s blk s3 hdup hpar hm
      rw [hres] at hadd; cases hadd
      exact Rooted_merge_attached hh rank s s.SingleTree blk s3 hs hl hrank hwf hr
        hwf.single_lt hdup
        (fun h => absurd rfl h) hm

theorem Rooted_NewBlockCache (hh : Block → Hash) (lib : Option Block) :
    Rooted hh (NewBlockCache hh lib) := by
  have hc := NewBlockCache_children hh lib
  constructor
  · intro c p _ hp; rw [(hc c).2] at hp; cases hp
  · exact (hc _).2
  · exact (hc _).2
  · intro n hn
    have h2 : (NewBlockCache hh lib).next = 2 := by rw [NewBlockCache_eq]
    have hL : (NewBlockCache hh lib).LinkedTree = 0 := by rw [NewBlockCache_eq]
    have hS : (NewBlockCache hh lib).SingleTree = 1 := by rw [NewBlockCache_eq]
    rw [h2] at hn
    rw [hL, hS]
    have : n = 0 ∨ n = 1 := by
      rcases Nat.lt_succ_iff_lt_or_eq.mp hn with h | h
      · left; exact Nat.lt_one_iff.mp h
      · right; exact h
    rcases this with e | e
    · rw [e]; exact Or.inl (Anc.here _)
    · rw [e]; exact Or.inr (Anc.here _)
  · intro n p _ hp; rw [(hc n).2] at hp; cases hp

/-- A run of `Add` on blocks that rank their head hash above their parent
hash keeps the invariants of caches built by `Add` alone. -/
theorem Rooted_addAll_layered (hh : Block → Hash) (rank : Hash → Nat) (blocks : List Block) :
    (∀ b, b ∈ blocks → rank b.Head.ParentHash < rank (hh b)) →
    ∀ s, Sound hh s → Layered rank hh s → WF hh s → Rooted hh s →
      ∃ s2, addAll hh s blocks = some s2 ∧ WF hh s2 ∧ Rooted hh s2 := by
  induction blocks with
  | nil => intro _ s _ _ hwf hr; exact ⟨s, rfl, hwf, hr⟩
  | cons b rest ih =>
    intro hrank s hs hl hwf hr
    have hb := hrank b (List.mem_cons_self _ _)
    obtain ⟨r, hadd, hwr⟩ := Add_total_WF hh s b hwf
    obtain ⟨r2, hadd2, hs2, hl2, _, _⟩ := Add_keeps hh s b hs
    rw [hadd] at hadd2; cases hadd2
    have hrr := Rooted_Add hh rank s b r hs hl hb hwf hr hadd
    obtain ⟨s2, h2, hw2, hr2⟩ := ih (fun x hx => hrank x (List.mem_cons_of_mem _ hx))
      r.cache hs2 (hl2 rank hl hb) hwr hrr
    exact ⟨s2, by simp [addAll, hadd, h2], hw2, hr2⟩

/-- A run of `Add` on a fresh cache, on blocks that rank their head hash above
their parent hash, keeps the invariants of caches built by `Add` alone. -/
theorem Rooted_addAll (hh : Block → Hash) (rank : Hash → Nat) (lib : Option Block)
    (blocks : List Block)
    (hrank : ∀ b, b ∈ blocks → rank b.Head.ParentHash < rank (hh b)) :
    ∃ s2, addAll hh (NewBlockCache hh lib) blocks = some s2 ∧ WF hh s2 ∧ Rooted hh s2 :=
  Rooted_addAll_layered hh rank blocks hrank _ (Sound_NewBlockCache hh lib)
    (Layered_NewBlockCache rank hh lib) (WF_NewBlockCache hh lib) (Rooted_NewBlockCache hh lib)

/-- Runs of `Add` on the fresh sample cache keep the invariants of caches built
by `Add` alone. -/
theorem Rooted_addAll_fresh (blocks : List Block) :
    ∃ s2, addAll sampleHash freshCache blocks = some s2 ∧
      WF sampleHash s2 ∧ Rooted sampleHash s2 :=
  Rooted_addAll sampleHash sampleRank (some libBlock) blocks (fun b _ => sampleRank_lt b)

/-- C9: after every finite sequence of `Add` calls on a freshly created cache
(the calls all return), every node in the hash index is reachable via
`Children` from `LinkedTree` or from `SingleTree`, and never from both.  The
blocks of the sequence contain no cycle of parent hashes: some rank on hashes
puts the head hash of each block of the sequence above its parent hash (blocks
outside the sequence are free). -/
theorem indexed_node_in_exactly_one_tree (hh : Block → Hash) (rank : Hash → Nat)
    (lib : Option Block) (blocks : List Block)
    (hrank : ∀ b, b ∈ blocks → rank b.Head.ParentHash < rank (hh b)) :
    ∃ s, addAll hh (NewBlockCache hh lib) blocks = some s ∧
      ∀ h n, (hmget s h).1 = some n →
        (Reach s s.LinkedTree n ∧ ¬ Reach s s.SingleTree n) ∨
        (Reach s s.SingleTree n ∧ ¬ Reach s s.LinkedTree n) := by
  obtain ⟨s, hs, hwf, hr⟩ := Rooted_addAll hh rank lib blocks hrank
  refine ⟨s, hs, ?_⟩
  intro h n hn
  rw [hmget_fst] at hn
  have hlt := hwf.index_lt h n hn
  rcases hr.rooted n hlt with ha | ha
  · left
    refine ⟨anc_reach hh s hr _ n ha hlt, ?_⟩
    intro hS
    exact anc_one_root hh s hwf hr n ha (reach_anc hh s hwf _ n hwf.single_lt hS)
  · right
    refine ⟨anc_reach hh s hr _ n ha hlt, ?_⟩
    intro hL
    exact anc_one_root hh s hwf hr n (reach_anc hh s hwf _ n hwf.linked_lt hL) ha

/-- Witness of C9: the sample head hash with the length of a hash as rank,
on a run in which block 7 arrives before block 6. -/
theorem indexed_node_in_exactly_one_tree_witness :
    ∃ s, addAll sampleHash (NewBlockCache sampleHash (some libBlock))
        [block7, block7b, block6] = some s ∧
      ∀ h n, (hmget s h).1 = some n →
        (Reach s s.LinkedTree n ∧ ¬ Reach s s.SingleTree n) ∨
        (Reach s s.SingleTree n ∧ ¬ Reach s s.LinkedTree n) :=
  indexed_node_in_exactly_one_tree sampleHash sampleRank (some libBlock)
    [block7, block7b, block6] (fun b _ => sampleRank_lt b)

/-! ## The leaf set, `Number` and `Head` (C11 to C14, C20) -/

theorem leafGet_some_mem (l : List (Ptr × Nat)) (k : Ptr) (v : Nat)
    (h : leafGet l k = some v) : (k, v) ∈ l := by
  induction l with
  | nil => simp [leafGet] at h
  | cons kv rest ih =>
    obtain ⟨k0, v0⟩ := kv
    simp only [leafGet] at h
    split_ifs at h with h0
    · cases h; subst h0; exact List.mem_cons_self _ _
    · exact List.mem_cons_of_mem _ (ih h)

theorem leafGet_none_of_not_mem (l : List (Ptr × Nat)) (k : Ptr)
    (h : ∀ v, (k, v) ∉ l) : leafGet l k = none := by
  cases hg : leafGet l k with
  | none => rfl
  | some v => exact absurd (leafGet_some_mem l k v hg) (h v)

theorem mem_leafGet (l : List (Ptr × Nat)) (k : Ptr) (v : Nat) (h : (k, v) ∈ l) :
    ∃ v2, leafGet l k = some v2 := by
  induction l with
  | nil => cases h
  | cons kv rest ih =>
    obtain ⟨k0, v0⟩ := kv
    by_cases h0 : k0 = k
    · exact ⟨v0, by simp [leafGet, h0]⟩
    · rcases List.mem_cons.mp h with e | e
      · cases e; exact absurd rfl h0
      · obtain ⟨v2, hv⟩ := ih e
        exact ⟨v2, by simp [leafGet, h0, hv]⟩

/-- The leaf map after `Link`. -/
theorem Link_leaf (s : BlockCache) (n : Ptr) :
    (Link s (some n)).Leaf =
      leafSet (leafDelete s.Leaf (s.heap n).Parent) n (s.heap n).Number := by
  simp [Link, updateLongest, BlockCache.store]

/-- C12: for every cache state and every node `n`, after `Link(n)` the node has
type `Linked` and is in the leaf set with its `Number` as value, its parent (a
node other than `n`) is not in the leaf set, and every entry of the leaf set
other than those of `n` and of its parent is as before. -/
theorem Link_updates_leaf_set (s : BlockCache) (n : Ptr) :
    ((Link s (some n)).heap n).Type_ = BCNType.Linked ∧
    leafGet (Link s (some n)).Leaf n = some ((Link s (some n)).heap n).Number ∧
    (∀ p, ((Link s (some n)).heap n).Parent = some p → p ≠ n →
      leafGet (Link s (some n)).Leaf p = none) ∧
    (∀ k, k ≠ n → (s.heap n).Parent ≠ some k →
      leafGet (Link s (some n)).Leaf k = leafGet s.Leaf k) := by
  obtain ⟨_, l2, _, l4⟩ := Link_fields s n n
  refine ⟨by rw [Link_heap]; simp, ?_, ?_, ?_⟩
  · rw [Link_leaf, leafGet_leafSet, l4]; simp
  · intro p hp hpn
    rw [l2] at hp
    rw [Link_leaf, leafGet_leafSet, hp, leafGet_leafDelete]
    simp [hpn]
  · intro k hkn hkp
    rw [Link_leaf, leafGet_leafSet]
    simp only [hkn, if_false]
    cases hpar : (s.heap n).Parent with
    | none => simp [leafDelete]
    | some p =>
      rw [leafGet_leafDelete]
      have : k ≠ p := fun e => hkp (by rw [hpar, e])
      simp [this]

/-- After `mergeSingle` has run on the attached state the new node still has
the zero `Number` of its creation. -/
theorem merged_number (hh : Block → Hash) (s : BlockCache) (fa : Ptr) (blk : Block)
    (s3 : BlockCache) (hwf : WF hh s) (hfa : fa < s.next)
    (hdup : mapLoad s.hash2node (hh blk) = none)
    (hm : mergeSingle hh (attached hh s fa blk) s.next = some s3) :
    (s3.heap s.next).Number = 0 := by
  have hwf2 := WF_attached hh s fa blk hwf hfa hdup
  have hb := (attached_type hh s fa blk hwf hfa).2.1
  obtain ⟨f1, f2, f3, f4, f5, f6⟩ := attached_frame hh s fa blk
  have h0 : ((attached hh s fa blk).heap s.next).Number = 0 := by
    rw [attached_eq hh s fa blk hwf hfa]
    simp [Function.update_apply, Ne.symm (Nat.ne_of_lt hfa), BlockCacheNode.zero]
  rcases merge_attached hh s fa blk hwf hfa hdup with ⟨h1, _⟩ | ⟨c, h1, h2, _⟩
  · rw [h1] at hm; cases hm; exact h0
  · rw [h1] at hm; cases hm
    have hlt : s.next < (attached hh s fa blk).next := by rw [f1]; exact Nat.lt_succ_self _
    rw [← f3] at h2
    rw [adopted_heap hh _ s.next c blk hwf2 hlt hb h2]
    exact h0

/-- C11 (the code on every new block): in a well-formed cache the node that
`Add` creates for a block that is not indexed holds the block, but its `Number`
is the zero value `NewBCN` leaves, whatever the number in the head of the block
is. -/
theorem Add_leaves_Number_zero (hh : Block → Hash) (s : BlockCache) (blk : Block)
    (hwf : WF hh s) (hnew : (hmget s (hh blk)).2 = false) :
    ∃ r n, Add hh s blk = some r ∧ r.node = some n ∧
      (r.cache.heap n).Block = some blk ∧ (r.cache.heap n).Number = 0 := by
  have hdup := fresh_of_not_indexed s _ hnew
  cases hpar : mapLoad s.hash2node blk.Head.ParentHash with
  | some p =>
    have hp := hwf.index_lt _ p hpar
    obtain ⟨s3, hm⟩ := merge_attached_some hh s p blk hwf hp hdup
    have m1 := (merged_basic hh s p blk s3 hwf hp hdup hm).1
    have m2 := merged_number hh s p blk s3 hwf hp hdup hm
    refine ⟨_, s.next, Add_parent hh s blk p s3 hwf hdup hpar hm, rfl, ?_, ?_⟩
    · by_cases ht : (s.heap p).Type_ = BCNType.Linked
      · simp only [ht, if_true]; rw [(Link_fields s3 s.next s.next).1]; exact m1
      · simp only [ht, if_false]; exact m1
    · by_cases ht : (s.heap p).Type_ = BCNType.Linked
      · simp only [ht, if_true]; rw [(Link_fields s3 s.next s.next).2.2.2]; exact m2
      · simp only [ht, if_false]; exact m2
  | none =>
    have hS := hwf.single_lt
    obtain ⟨s3, hm⟩ := merge_attached_some hh s s.SingleTree blk hwf hS hdup
    exact ⟨_, s.next, Add_orphan hh s blk s3 hdup hpar hm, rfl,
      (merged_basic hh s _ blk s3 hwf hS hdup hm).1, merged_number hh s _ blk s3 hwf hS hdup hm⟩

/-- Witness of C11: block 6, whose head carries the number 6, gets a node with
`Number` 0. -/
theorem Add_leaves_Number_zero_witness :
    block6.Head.Number = 6 ∧
    ∃ r n, Add sampleHash freshCache block6 = some r ∧ r.node = some n ∧
      (r.cache.heap n).Block = some block6 ∧ (r.cache.heap n).Number = 0 :=
  ⟨rfl, Add_leaves_Number_zero sampleHash freshCache block6 (WF_NewBlockCache _ _) (by decide)⟩

/-- C13 (the code at the failing inputs): after `Add` of block 6 to the fresh
cache, and also after a further `Link` of its node (node 2), `Head` is still
the linked root (node 0), which is not in the leaf set; and after blocks 6 and
7 are added and the cache is flushed to the node of block 6, `LinkedTree` is
node 2 while `Head` is still node 0, again not in the leaf set. -/
theorem Head_is_not_a_leaf_after_Link_and_Flush :
    (Add sampleHash freshCache block6).map
      (fun r => (r.cache.Head, r.cache.Leaf, (Link r.cache r.node).Head,
        (Link r.cache r.node).Leaf, leafGet (Link r.cache r.node).Leaf (Link r.cache r.node).Head))
      = some (0, [(2, 0)], 0, [(2, 0)], none) ∧
    ((addAll sampleHash freshCache [block6, block7]).bind
        (fun s => Flush sampleHash (fun _ => true) (fun _ => true) 3 (s, emptyStore) (some 2))).map
      (fun w => (w.1.LinkedTree, w.1.Head, w.1.Leaf, leafGet w.1.Leaf w.1.Head))
      = some (2, 0, [(3, 0)], none) := by
  constructor <;> rfl

/-- C20 (the code at the failing input): blocks 6 and 7 are added to the
fresh cache (nodes 2 and 3, node 3 the only leaf) and the cache is flushed to
node 2, the parent of the tip.  Afterwards `LinkedTree` is node 2 but `Head` is
still node 0, the former root, which is not reachable from `LinkedTree`. -/
theorem Head_left_behind_by_Flush :
    (addAll sampleHash freshCache [block6, block7]).map
      (fun s => (s.Leaf, (s.heap 3).Parent, (s.heap 2).Parent, s.LinkedTree))
      = some ([(3, 0)], some 2, some 0, 0) ∧
    ∃ w, (addAll sampleHash freshCache [block6, block7]).bind
        (fun s => Flush sampleHash (fun _ => true) (fun _ => true) 3 (s, emptyStore) (some 2))
        = some w ∧
      w.1.LinkedTree = 2 ∧ w.1.Head = 0 ∧ ¬ Reach w.1 w.1.LinkedTree w.1.Head := by
  refine ⟨by rfl, ?_⟩
  have hsome : ((addAll sampleHash freshCache [block6, block7]).bind
      (fun s => Flush sampleHash (fun _ => true) (fun _ => true) 3 (s, emptyStore)
        (some 2))).isSome = true := by rfl
  refine ⟨Option.get _ hsome, (Option.some_get hsome).symm, by rfl, by rfl, ?_⟩
  have hall : ∀ x, Reach (Option.get _ hsome).1 2 x → x = 2 ∨ x = 3 := by
    intro x hx
    induction hx with
    | here => exact Or.inl rfl
    | @child p c _ hc ih =>
      rcases ih with e | e
      · subst e
        have : c ∈ [(3 : Ptr)] := hc
        exact Or.inr (List.mem_singleton.mp this)
      · subst e
        have : c ∈ ([] : List Ptr) := hc
        cases this
  intro hr
  have h0 : Reach (Option.get _ hsome).1 2 0 := hr
  rcases hall 0 h0 with e | e <;> cases e

/-- The pass of `updateLongest` over the leaf map, started at `(c, h)`: either
no value exceeds `c` and the start is returned, or the result is the first
entry of maximal value. -/
theorem longest_fold (l : List (Ptr × Nat)) :
    ∀ (c : Nat) (h : Ptr),
    (l.foldl (fun (acc : Nat × Ptr) (kv : Ptr × Nat) =>
        if kv.2 > acc.1 then (kv.2, kv.1) else acc) (c, h) = (c, h) ∧
      ∀ kv ∈ l, kv.2 ≤ c) ∨
    (∃ l1 k v l2, l = l1 ++ (k, v) :: l2 ∧ c < v ∧ (∀ kv ∈ l1, kv.2 < v) ∧
      (∀ kv ∈ l2, kv.2 ≤ v) ∧
      l.foldl (fun (acc : Nat × Ptr) (kv : Ptr × Nat) =>
        if kv.2 > acc.1 then (kv.2, kv.1) else acc) (c, h) = (v, k)) := by
  induction l with
  | nil => intro c h; left; simp
  | cons kv rest ih =>
    obtain ⟨k0, v0⟩ := kv
    intro c h
    by_cases hgt : v0 > c
    · rcases ih v0 k0 with ⟨h1, h2⟩ | ⟨l1, k, v, l2, h1, h2, h3, h4, h5⟩
      · right
        exact ⟨[], k0, v0, rest, rfl, hgt, by simp, h2, by simp [List.foldl, hgt, h1]⟩
      · right
        refine ⟨(k0, v0) :: l1, k, v, l2, by simp [h1], lt_trans hgt h2, ?_, h4,
          by simp only [List.foldl, hgt, if_true]; exact h5⟩
        intro kv hkv
        rcases List.mem_cons.mp hkv with e | e
        · rw [e]; exact h2
        · exact h3 kv e
    · have hle : v0 ≤ c := Nat.le_of_not_gt hgt
      rcases ih c h with ⟨h1, h2⟩ | ⟨l1, k, v, l2, h1, h2, h3, h4, h5⟩
      · left
        refine ⟨by simp only [List.foldl, hgt, if_false]; exact h1, ?_⟩
        intro kv hkv
        rcases List.mem_cons.mp hkv with e | e
        · rw [e]; exact hle
        · exact h2 kv e
      · right
        refine ⟨(k0, v0) :: l1, k, v, l2, by simp [h1], h2, ?_, h4,
          by simp only [List.foldl, hgt, if_false]; exact h5⟩
        intro kv hkv
        rcases List.mem_cons.mp hkv with e | e
        · rw [e]; exact lt_of_le_of_lt hle h2
        · exact h3 kv e

/-- C14 (counterexample): nodes 2 and 3 hold blocks 6 and 6b, the head hash of
block 6 being the smaller one; a caller sets both numbers to 6.  After `Link`
of node 3 and then of node 2 both are leaves of maximal number and `Head` is
node 3; after the two calls in the other order the leaf set is the same and
`Head` is node 2. -/
theorem head_tie_not_broken_by_hash :
    sampleHash block6 < sampleHash block6b ∧
    (addAll sampleHash freshCache [block6, block6b]).map (fun s =>
      ((s.heap 2).Block, (s.heap 3).Block,
       (Link (Link (setNumber (setNumber s 2 6) 3 6) (some 3)) (some 2)).Head,
       (Link (Link (setNumber (setNumber s 2 6) 3 6) (some 3)) (some 2)).Leaf,
       (Link (Link (setNumber (setNumber s 2 6) 3 6) (some 2)) (some 3)).Head,
       (Link (Link (setNumber (setNumber s 2 6) 3 6) (some 2)) (some 3)).Leaf))
    = some (some block6, some block6b, 3, [(2, 6), (3, 6)], 2, [(2, 6), (3, 6)]) := by
  constructor
  · decide
  · rfl

/-- C14 (amended): head recomputation keeps `Head` when no value in the leaf
set exceeds `Head.Number`; otherwise the new `Head` is the first entry, in the
order in which the leaf map is ranged over, whose value is the maximum of the
leaf set.  No head hash is compared. -/
theorem updateLongest_keeps_or_takes_first_maximal (s : BlockCache) :
    ((updateLongest s).Head = s.Head ∧ ∀ kv ∈ s.Leaf, kv.2 ≤ (s.heap s.Head).Number) ∨
    (∃ l1 v l2, s.Leaf = l1 ++ ((updateLongest s).Head, v) :: l2 ∧
      (s.heap s.Head).Number < v ∧ (∀ kv ∈ l1, kv.2 < v) ∧ (∀ kv ∈ l2, kv.2 ≤ v)) := by
  rcases longest_fold s.Leaf (s.heap s.Head).Number s.Head with
    ⟨h1, h2⟩ | ⟨l1, k, v, l2, h1, h2, h3, h4, h5⟩
  · left
    exact ⟨by simp [updateLongest, h1], h2⟩
  · right
    have : (updateLongest s).Head = k := by simp [updateLongest, h5]
    exact ⟨l1, v, l2, by rw [this]; exact h1, h2, h3, h4⟩

/-! ## The leaf set along runs of `Add` (C16) -/

theorem mem_leafSet (l : List (Ptr × Nat)) (a : Ptr) (x : Nat) (k : Ptr) (v : Nat)
    (h : (k, v) ∈ leafSet l a x) : k = a ∨ (k, v) ∈ l := by
  induction l with
  | nil =>
    simp only [leafSet, List.mem_singleton, Prod.mk.injEq] at h
    exact Or.inl h.1
  | cons kv rest ih =>
    obtain ⟨k0, v0⟩ := kv
    simp only [leafSet] at h
    split_ifs at h with h0
    · rcases List.mem_cons.mp h with e | e
      · simp only [Prod.mk.injEq] at e
        exact Or.inl (e.1.trans h0)
      · exact Or.inr (List.mem_cons_of_mem _ e)
    · rcases List.mem_cons.mp h with e | e
      · exact Or.inr (by rw [e]; exact List.mem_cons_self _ _)
      · rcases ih e with h1 | h1
        · exact Or.inl h1
        · exact Or.inr (List.mem_cons_of_mem _ h1)

theorem mem_leafDelete (l : List (Ptr × Nat)) (p k : Ptr) (v : Nat)
    (h : (k, v) ∈ leafDelete l (some p)) : (k, v) ∈ l ∧ k ≠ p := by
  simp only [leafDelete, List.mem_filter, bne_iff_ne, ne_eq] at h
  exact h

/-- Old nodes after `mergeSingle` has run on the attached state: block, type
and number are as before, and so are the children of every node other than
the parent of the new node and the single root. -/
theorem merged_old (hh : Block → Hash) (s : BlockCache) (fa : Ptr) (blk : Block)
    (s3 : BlockCache) (hwf : WF hh s) (hfa : fa < s.next)
    (hdup : mapLoad s.hash2node (hh blk) = none)
    (hm : mergeSingle hh (attached hh s fa blk) s.next = some s3) :
    s3.Leaf = s.Leaf ∧
    (∀ x, x ≠ s.next → (s3.heap x).Block = (s.heap x).Block ∧
      (s3.heap x).Type_ = (s.heap x).Type_ ∧ (s3.heap x).Number = (s.heap x).Number) ∧
    (∀ x, x ≠ s.next → x ≠ fa → x ≠ s.SingleTree →
      (s3.heap x).Children = (s.heap x).Children) ∧
    (∀ c ∈ (s3.heap s.SingleTree).Children,
      c ∈ (s.heap s.SingleTree).Children ∨ (c = s.next ∧ fa = s.SingleTree)) ∧
    (∀ c ∈ (s3.heap s.next).Children,
      c ∈ (s.heap s.SingleTree).Children ∨ (c = s.next ∧ fa = s.SingleTree)) := by
  have hwf2 := WF_attached hh s fa blk hwf hfa hdup
  obtain ⟨a1, a2, a3, a4, a5⟩ := attached_type hh s fa blk hwf hfa
  obtain ⟨f1, f2, f3, f4, f5, f6⟩ := attached_frame hh s fa blk
  have hold := attached_old hh s fa blk hwf hfa
  have hSn : s.SingleTree ≠ s.next := Nat.ne_of_lt hwf.single_lt
  have hS2 : ∀ c ∈ ((attached hh s fa blk).heap s.SingleTree).Children,
      c ∈ (s.heap s.SingleTree).Children ∨ (c = s.next ∧ fa = s.SingleTree) := by
    intro c hc
    rw [(hold _ hSn).2.2.2.2] at hc
    split_ifs at hc with hf
    · rcases List.mem_append.mp hc with h | h
      · left; rw [hf]; exact h
      · right; exact ⟨by simpa using h, hf.symm⟩
    · exact Or.inl hc
  rcases merge_attached hh s fa blk hwf hfa hdup with ⟨h1, _⟩ | ⟨c, h1, h2, _⟩
  · rw [h1] at hm; cases hm
    refine ⟨f6, fun x hx => ⟨(hold x hx).1, (hold x hx).2.2.1, (hold x hx).2.2.2.1⟩, ?_, hS2, ?_⟩
    · intro x hx hxf _
      rw [(hold x hx).2.2.2.2]; simp [hxf]
    · intro c hc; rw [a4] at hc; cases hc
  · rw [h1] at hm; cases hm
    have hlt : s.next < (attached hh s fa blk).next := by rw [f1]; exact Nat.lt_succ_self _
    have h2b : c ∈ ((attached hh s fa blk).heap (attached hh s fa blk).SingleTree).Children := by
      rw [f3]; exact h2
    have hheap := adopted_heap hh _ s.next c blk hwf2 hlt a2 h2b
    refine ⟨by rw [(adopted_frame _ _ _).2.2.2.2.2, f6], ?_, ?_, ?_, ?_⟩
    · intro x hx
      rw [hheap x]
      exact ⟨(hold x hx).1, (hold x hx).2.2.1, (hold x hx).2.2.2.1⟩
    · intro x hx hxf hxS
      rw [hheap x]
      simp only [hx, if_false, f3, hxS]
      rw [(hold x hx).2.2.2.2]; simp [hxf]
    · intro c2 hc2
      rw [hheap] at hc2
      simp only [hSn, if_false, f3, if_true] at hc2
      exact hS2 c2 (List.mem_of_mem_filter hc2)
    · intro c2 hc2
      rw [hheap] at hc2
      simp only [if_true, a4, List.nil_append, List.mem_singleton] at hc2
      rw [hc2]; exact hS2 c h2

theorem LeafInv_Add (hh : Block → Hash) (s : BlockCache) (blk : Block) (r : AddResult)
    (hwf : WF hh s) (hinv : LeafInv hh s) (hadd : Add hh s blk = some r) :
    LeafInv hh r.cache := by
  cases hdup : mapLoad s.hash2node (hh blk) with
  | some q =>
    have := Add_dup hh s blk (by simp [hmget_snd, hdup])
    rw [this] at hadd; cases hadd; exact hinv
  | none =>
    -- facts on the entries of the old leaf set
    have hklt : ∀ k v, (k, v) ∈ s.Leaf → k < s.next := by
      intro k v hk
      rcases hinv.leaf_cached k v hk with e | ⟨b, _, hb⟩
      · rw [e]; exact hwf.linked_lt
      · rw [hmget_fst] at hb; exact hwf.index_lt _ k hb
    have hkS : ∀ k v, (k, v) ∈ s.Leaf → k ≠ s.SingleTree := by
      intro k v hk e
      have := hinv.leaf_linked k v hk
      rw [e, hwf.single_type] at this; cases this
    -- the state after mergeSingle, for a parent `fa`
    have core : ∀ fa s3, fa < s.next →
        mergeSingle hh (attached hh s fa blk) s.next = some s3 →
        (∀ k v, (k, v) ∈ s.Leaf → k ≠ fa →
          (s3.heap k).Type_ = BCNType.Linked ∧
          (k = s3.LinkedTree ∨ ∃ b, (s3.heap k).Block = some b ∧
            mapLoad s3.hash2node (hh b) = some k) ∧
          ∀ c ∈ (s3.heap k).Children, c ≠ s.next ∧ (s3.heap c).Type_ = BCNType.Single) ∧
        (∀ c ∈ (s3.heap s.SingleTree).Children,
          (c ≠ s.next ∧ (s3.heap c).Type_ = BCNType.Single) ∨ (c = s.next ∧ fa = s.SingleTree)) ∧
        (∀ c ∈ (s3.heap s.next).Children,
          (c ≠ s.next ∧ (s3.heap c).Type_ = BCNType.Single) ∨ (c = s.next ∧ fa = s.SingleTree)) := by
      intro fa s3 hfa hm
      obtain ⟨o1, o2, o3, o4, o5⟩ := merged_old hh s fa blk s3 hwf hfa hdup hm
      obtain ⟨m1, m2, m3, m4, m5, m6⟩ := merged_basic hh s fa blk s3 hwf hfa hdup hm
      have hsingle : ∀ c, c ∈ (s.heap s.SingleTree).Children →
          c ≠ s.next ∧ (s3.heap c).Type_ = BCNType.Single := by
        intro c hc
        have hcn : c ≠ s.next := Nat.ne_of_lt (hwf.child_lt _ c hwf.single_lt hc)
        exact ⟨hcn, by rw [(o2 c hcn).2.1]; exact hinv.single_children c hc⟩
      refine ⟨?_, ?_, ?_⟩
      · intro k v hk hkf
        have hkl := hklt k v hk
        have hkn : k ≠ s.next := Nat.ne_of_lt hkl
        refine ⟨by rw [(o2 k hkn).2.1]; exact hinv.leaf_linked k v hk, ?_, ?_⟩
        · rcases hinv.leaf_cached k v hk with e | ⟨b, hb1, hb2⟩
          · left; rw [m5]; exact e
          · right
            rw [hmget_fst] at hb2
            refine ⟨b, by rw [(o2 k hkn).1]; exact hb1, ?_⟩
            rw [m3, mapLoad_mapStore]
            have : hh b ≠ hh blk := by
              intro e; rw [e, hdup] at hb2; cases hb2
            simp [this, hb2]
        · intro c hc
          rw [o3 k hkn hkf (hkS k v hk)] at hc
          have hcn : c ≠ s.next := Nat.ne_of_lt (hwf.child_lt k c hkl hc)
          exact ⟨hcn, by rw [(o2 c hcn).2.1]; exact hinv.leaf_children k v hk c hc⟩
      · intro c hc
        rcases o4 c hc with h | h
        · exact Or.inl (hsingle c h)
        · exact Or.inr h
      · intro c hc
        rcases o5 c hc with h | h
        · exact Or.inl (hsingle c h)
        · exact Or.inr h
    cases hpar : mapLoad s.hash2node blk.Head.ParentHash with
    | some p =>
      have hp := hwf.index_lt _ p hpar
      have hpS : p ≠ s.SingleTree := by
        intro e
        obtain ⟨b, hb, _⟩ := hwf.index_block _ p hpar
        rw [e, hwf.single_block] at hb; cases hb
      obtain ⟨s3, hm⟩ := merge_attached_some hh s p blk hwf hp hdup
      have hres := Add_parent hh s blk p s3 hwf hdup hpar hm
      rw [hres] at hadd; cases hadd
      obtain ⟨c1, c2, c3⟩ := core p s3 hp hm
      obtain ⟨m1, m2, m3, m4, m5, m6⟩ := merged_basic hh s p blk s3 hwf hp hdup hm
      obtain ⟨o1, _⟩ := merged_old hh s p blk s3 hwf hp hdup hm
      by_cases ht : (s.heap p).Type_ = BCNType.Linked
      · simp only [ht, if_true]
        have hparent := (merged_fields hh s p blk s3 hwf hp hdup (fun e => absurd e hpS) hm).2.1
        obtain ⟨l1, l2, l3, l5⟩ := Link_frame s3 s.next
        have hf := Link_fields s3 s.next
        have htype : ∀ x, x ≠ s.next → ((Link s3 (some s.next)).heap x).Type_ = (s3.heap x).Type_ := by
          intro x hx; rw [Link_heap]; simp [hx]
        have hleaf : ∀ k v, (k, v) ∈ (Link s3 (some s.next)).Leaf →
            k = s.next ∨ ((k, v) ∈ s.Leaf ∧ k ≠ p) := by
          intro k v hk
          rw [Link_leaf, hparent, o1] at hk
          rcases mem_leafSet _ _ _ _ _ hk with e | e
          · exact Or.inl e
          · exact Or.inr (mem_leafDelete _ _ _ _ e)
        have hnew : ∀ c ∈ (s3.heap s.next).Children,
            c ≠ s.next ∧ (s3.heap c).Type_ = BCNType.Single := by
          intro c hc
          rcases c3 c hc with h | h
          · exact h
          · exact absurd h.2 hpS
        constructor
        · intro k v hk
          rcases hleaf k v hk with e | ⟨h1, h2⟩
          · rw [e, Link_heap]; simp
          · rw [htype k (Nat.ne_of_lt (hklt k v h1))]; exact (c1 k v h1 h2).1
        · intro k v hk
          rcases hleaf k v hk with e | ⟨h1, h2⟩
          · right
            refine ⟨blk, by rw [e, (hf _).1]; exact m1, ?_⟩
            rw [hmget_fst, l5, m3, mapLoad_mapStore, e]; simp
          · rcases (c1 k v h1 h2).2.1 with e | ⟨b, hb1, hb2⟩
            · left; rw [l2]; exact e
            · right; exact ⟨b, by rw [(hf _).1]; exact hb1, by rw [hmget_fst, l5]; exact hb2⟩
        · intro k v hk c hc
          rw [(hf k).2.2.1] at hc
          rcases hleaf k v hk with e | ⟨h1, h2⟩
          · rw [e] at hc
            have := hnew c hc
            rw [htype c this.1]; exact this.2
          · have := (c1 k v h1 h2).2.2 c hc
            rw [htype c this.1]; exact this.2
        · intro c hc
          rw [l3, m4, (hf _).2.2.1] at hc
          rcases c2 c hc with h | h
          · rw [htype c h.1]; exact h.2
          · exact absurd h.2 hpS
      · simp only [ht, if_false]
        constructor
        · intro k v hk
          rw [o1] at hk
          exact (c1 k v hk (fun e => ht (e ▸ hinv.leaf_linked k v hk))).1
        · intro k v hk
          rw [o1] at hk
          rcases (c1 k v hk (fun e => ht (e ▸ hinv.leaf_linked k v hk))).2.1 with e | ⟨b, h1, h2⟩
          · exact Or.inl e
          · exact Or.inr ⟨b, h1, by rw [hmget_fst]; exact h2⟩
        · intro k v hk c hc
          rw [o1] at hk
          exact ((c1 k v hk (fun e => ht (e ▸ hinv.leaf_linked k v hk))).2.2 c hc).2
        · intro c hc
          rw [m4] at hc
          rcases c2 c hc with h | h
          · exact h.2
          · exact absurd h.2 hpS
    | none =>
      have hS := hwf.single_lt
      obtain ⟨s3, hm⟩ := merge_attached_some hh s s.SingleTree blk hwf hS hdup
      have hres := Add_orphan hh s blk s3 hdup hpar hm
      rw [hres] at hadd; cases hadd
      obtain ⟨c1, c2, c3⟩ := core s.SingleTree s3 hS hm
      obtain ⟨m1, m2, m3, m4, m5, m6⟩ := merged_basic hh s _ blk s3 hwf hS hdup hm
      obtain ⟨o1, _⟩ := merged_old hh s _ blk s3 hwf hS hdup hm
      constructor
      · intro k v hk
        rw [o1] at hk
        exact (c1 k v hk (hkS k v hk)).1
      · intro k v hk
        rw [o1] at hk
        rcases (c1 k v hk (hkS k v hk)).2.1 with e | ⟨b, h1, h2⟩
        · exact Or.inl e
        · exact Or.inr ⟨b, h1, by rw [hmget_fst]; exact h2⟩
      · intro k v hk c hc
        rw [o1] at hk
        exact ((c1 k v hk (hkS k v hk)).2.2 c hc).2
      · intro c hc
        rw [m4] at hc
        rcases c2 c hc with h | h
        · exact h.2
        · rw [h.1, m2]; exact hwf.single_type

theorem LeafInv_NewBlockCache (hh : Block → Hash) (lib : Option Block) :
    LeafInv hh (NewBlockCache hh lib) := by
  have hc := NewBlockCache_children hh lib
  have hleaf : ∀ k v, (k, v) ∈ (NewBlockCache hh lib).Leaf → k = 0 := by
    intro k v hk
    rw [NewBlockCache_eq] at hk
    simp only [List.mem_singleton, Prod.mk.injEq] at hk
    exact hk.1
  have hL : (NewBlockCache hh lib).LinkedTree = 0 := by rw [NewBlockCache_eq]
  constructor
  · intro k v hk
    rw [hleaf k v hk, NewBlockCache_eq]
    simp [BlockCacheNode.zero]
  · intro k v hk
    left; rw [hleaf k v hk, hL]
  · intro k v _ c hcc
    rw [(hc k).1] at hcc; cases hcc
  · intro c hcc
    rw [(hc _).1] at hcc; cases hcc

theorem LeafInv_addAll (hh : Block → Hash) (blocks : List Block) :
    ∀ s, WF hh s → LeafInv hh s →
      ∃ s2, addAll hh s blocks = some s2 ∧ LeafInv hh s2 := by
  induction blocks with
  | nil => intro s _ hinv; exact ⟨s, rfl, hinv⟩
  | cons b rest ih =>
    intro s hwf hinv
    obtain ⟨r, hadd, hwr⟩ := Add_total_WF hh s b hwf
    obtain ⟨s2, h2, hl2⟩ := ih r.cache hwr (LeafInv_Add hh s b r hwf hinv hadd)
    exact ⟨s2, by simp [addAll, hadd, h2], hl2⟩

/-- Block 7 arrives before its parent block 6; `Add` of
block 6 records its node (node 3) in the leaf set although `mergeSingle` has
just given it the node of block 7 (node 2, of type `Single`) as a child. -/
theorem leaf_with_adopted_child :
    (addAll sampleHash freshCache [block7, block6]).map
      (fun s => (s.Leaf, (s.heap 3).Children, (s.heap 2).Type_))
    = some ([(3, 0)], [2], BCNType.Single) := by
  rfl

/-- After every finite sequence of `Add` calls on a freshly
created cache (the calls all return), every node recorded in the leaf set has
type `Linked`, is the linked root or is indexed under the head hash of its
block, and has no child of type `Linked`: its children are of type `Single`. -/
theorem leaf_set_after_Add_runs (hh : Block → Hash) (lib : Option Block)
    (blocks : List Block) :
    ∃ s, addAll hh (NewBlockCache hh lib) blocks = some s ∧
      ∀ k v, (k, v) ∈ s.Leaf →
        (s.heap k).Type_ = BCNType.Linked ∧
        (k = s.LinkedTree ∨ ∃ b, (s.heap k).Block = some b ∧ (hmget s (hh b)).1 = some k) ∧
        ∀ c ∈ (s.heap k).Children, (s.heap c).Type_ = BCNType.Single := by
  obtain ⟨s, hs, hinv⟩ := LeafInv_addAll hh blocks _ (WF_NewBlockCache hh lib)
    (LeafInv_NewBlockCache hh lib)
  exact ⟨s, hs, fun k v hk =>
    ⟨hinv.leaf_linked k v hk, hinv.leaf_cached k v hk, hinv.leaf_children k v hk⟩⟩

/-- What `delNode` does to the leaf set: it records the parent of the deleted
node, whatever that parent is.  After blocks 6 and 6b are added and the node of
block 6b is deleted, the linked root (node 0) is in the leaf set while the
node of block 6 is still its child; after an orphan is pruned by `Flush`, the
single root (node 1) is in the leaf set. -/
theorem delNode_records_parent_as_leaf :
    ((addAll sampleHash freshCache [block6, block6b]).bind
        (fun s => Del sampleHash 2 s (some 3))).map
      (fun s => (s.Leaf, (s.heap 0).Children)) = some ([(2, 0), (0, 0)], [2]) ∧
    ((addAll sampleHash freshCache [block6, block8]).bind
        (fun s => Flush sampleHash (fun _ => true) (fun _ => true) 3 (s, emptyStore) (some 2))).map
      (fun w => (w.1.SingleTree, w.1.Leaf)) = some (1, [(2, 0), (1, 0)]) := by
  constructor <;> rfl

/-- C16 (the code at the failing input): blocks 6 and 6b are added to the
fresh cache as children of the linked root (nodes 2 and 3 under node 0), and
node 3 is deleted.  `delNode` records the parent, node 0, in the leaf set
although node 0 still has the child node 2. -/
theorem Del_records_parent_with_child_as_leaf :
    (addAll sampleHash freshCache [block6, block6b]).map
      (fun s => (s.Leaf, (s.heap 0).Children)) = some ([(2, 0), (3, 0)], [2, 3]) ∧
    ((addAll sampleHash freshCache [block6, block6b]).bind
        (fun s => Del sampleHash 2 s (some 3))).map
      (fun s => (s.Leaf, (s.heap 0).Children, (s.heap 2).Parent)) =
      some ([(2, 0), (0, 0)], [2], some 0) := by
  constructor <;> rfl

/-! ## `Del` removes a subtree (C15) -/

theorem reach_trans (s : BlockCache) (a b c : Ptr) (h1 : Reach s a b) (h2 : Reach s b c) :
    Reach s a c := by
  induction h2 with
  | here => exact h1
  | child _ hc ih => exact Reach.child ih hc

/-- The first step of a path: a node reachable from `n` is `n` or is reachable
from a child of `n`. -/
theorem reach_first (s : BlockCache) (n m : Ptr) (h : Reach s n m) :
    m = n ∨ ∃ c, c ∈ (s.heap n).Children ∧ Reach s c m := by
  induction h with
  | here => exact Or.inl rfl
  | @child p c _ hc ih =>
    rcases ih with e | ⟨c0, h0, h1⟩
    · right; subst e; exact ⟨c, hc, Reach.here⟩
    · right; exact ⟨c0, h0, Reach.child h1 hc⟩

/-- The last step of a path. -/
theorem reach_last (s : BlockCache) (n m : Ptr) (h : Reach s n m) :
    m = n ∨ ∃ p, Reach s n p ∧ m ∈ (s.heap p).Children := by
  cases h with
  | here => exact Or.inl rfl
  | child hp hc => exact Or.inr ⟨_, hp, hc⟩

theorem reach_of_child (s : BlockCache) (n c m : Ptr) (hc : c ∈ (s.heap n).Children)
    (h : Reach s c m) : Reach s n m :=
  reach_trans s n c m (Reach.child Reach.here hc) h

/-- Reachability carries over to a cache with the same children below `n`. -/
theorem reach_congr (s s2 : BlockCache) (n : Ptr)
    (hch : ∀ m, Reach s n m → (s2.heap m).Children = (s.heap m).Children) (m : Ptr) :
    Reach s2 n m ↔ Reach s n m := by
  constructor
  · intro h
    induction h with
    | here => exact Reach.here
    | child _ hc ih => exact Reach.child ih (by rw [← hch _ ih]; exact hc)
  · intro h
    induction h with
    | here => exact Reach.here
    | child hp hc ih => exact Reach.child ih (by rw [hch _ hp]; exact hc)

/-- Reachability in a cache whose child lists are sublists of the old ones. -/
theorem reach_shrink (s s2 : BlockCache) (n m : Ptr)
    (hch : ∀ p c, c ∈ (s2.heap p).Children → c ∈ (s.heap p).Children)
    (h : Reach s2 n m) : Reach s n m := by
  induction h with
  | here => exact Reach.here
  | child _ hc ih => exact Reach.child ih (hch _ _ hc)

theorem Height_mono (s : BlockCache) : ∀ k n, Height s k n → Height s (k + 1) n := by
  intro k
  induction k with
  | zero =>
    intro n h c hc
    simp only [Height] at h
    rw [h] at hc; cases hc
  | succ k ih =>
    intro n h c hc
    exact ih c (h c hc)

theorem Height_child (s : BlockCache) (k : Nat) (n c : Ptr) (h : Height s k n)
    (hc : c ∈ (s.heap n).Children) : Height s k c := by
  cases k with
  | zero => simp only [Height] at h; rw [h] at hc; cases hc
  | succ k => exact Height_mono s k c (h c hc)

theorem Height_reach (s : BlockCache) (k : Nat) (n m : Ptr) (h : Height s k n) (hr : Reach s n m) :
    Height s k m := by
  induction hr with
  | here => exact h
  | child _ hc ih => exact Height_child s k _ _ ih hc

/-- A tree of bounded height has no cycle through a child. -/
theorem Height_no_cycle (s : BlockCache) :
    ∀ k n c, Height s k n → c ∈ (s.heap n).Children → ¬ Reach s c n := by
  intro k
  induction k with
  | zero =>
    intro n c h hc
    simp only [Height] at h
    rw [h] at hc; cases hc
  | succ k ih =>
    intro n c h hc hr
    have hkc : Height s k c := h c hc
    have hkn : Height s k n := Height_reach s k c n hkc hr
    exact ih n c hkn hc hr

theorem TreeBelow_reach (s : BlockCache) (n m : Ptr) (h : TreeBelow s n) (hr : Reach s n m) :
    TreeBelow s m :=
  ⟨fun x hx => h.block x (reach_trans s n m x hr hx),
   fun p c hp hc => h.parent p c (reach_trans s n m p hr hp) hc⟩

/-- Two nodes of a tree above a common node lie on one path. -/
theorem reach_common (s : BlockCache) (a b m : Ptr)
    (ha : ∀ p c, Reach s a p → c ∈ (s.heap p).Children → (s.heap c).Parent = some p)
    (hb : ∀ p c, Reach s b p → c ∈ (s.heap p).Children → (s.heap c).Parent = some p)
    (h1 : Reach s a m) (h2 : Reach s b m) : Reach s a b ∨ Reach s b a := by
  induction h1 with
  | here => exact Or.inr h2
  | @child p c hp hc ih =>
    rcases reach_last s b c h2 with e | ⟨p2, hp2, hc2⟩
    · left; rw [← e]; exact Reach.child hp hc
    · have e1 := ha p c hp hc
      have e2 := hb p2 c hp2 hc2
      rw [e1] at e2
      cases e2
      exact ih hp2

/-- The trees below two different children of a node share no node. -/
theorem siblings_disjoint (s : BlockCache) (k : Nat) (r c1 c2 m : Ptr)
    (hr : ∀ p c, Reach s r p → c ∈ (s.heap p).Children → (s.heap c).Parent = some p)
    (hk : Height s k r) (h1 : c1 ∈ (s.heap r).Children) (h2 : c2 ∈ (s.heap r).Children)
    (hne : c1 ≠ c2) (hm1 : Reach s c1 m) (hm2 : Reach s c2 m) : False := by
  have t1 : ∀ p c, Reach s c1 p → c ∈ (s.heap p).Children → (s.heap c).Parent = some p :=
    fun p c hp hc => hr p c (reach_of_child s r c1 p h1 hp) hc
  have t2 : ∀ p c, Reach s c2 p → c ∈ (s.heap p).Children → (s.heap c).Parent = some p :=
    fun p c hp hc => hr p c (reach_of_child s r c2 p h2 hp) hc
  have key : ∀ a b, a ∈ (s.heap r).Children → b ∈ (s.heap r).Children → a ≠ b →
      Reach s a b → False := by
    intro a b ha hb hab hreach
    rcases reach_last s a b hreach with e | ⟨p, hp, hc⟩
    · exact hab e.symm
    · have e1 := hr p b (reach_of_child s r a p ha hp) hc
      have e2 := hr r b Reach.here hb
      rw [e1] at e2
      cases e2
      exact Height_no_cycle s k r a hk ha hp
  rcases reach_common s c1 c2 m t1 t2 hm1 hm2 with h | h
  · exact key c1 c2 h1 h2 hne h
  · exact key c2 c1 h2 h1 (Ne.symm hne) h

theorem Height_congr (s s2 : BlockCache) :
    ∀ k n, (∀ m, Reach s n m → (s2.heap m).Children = (s.heap m).Children) →
      Height s k n → Height s2 k n := by
  intro k
  induction k with
  | zero =>
    intro n hch h
    simp only [Height] at h ⊢
    rw [hch n Reach.here]; exact h
  | succ k ih =>
    intro n hch h c hc
    rw [hch n Reach.here] at hc
    exact ih c (fun m hm => hch m (reach_of_child s n c m hc hm)) (h c hc)

/-- The children of `par` from their parent property, their blocks and the
height of `par`. -/
theorem Kids_of (s : BlockCache) (par : Ptr) (k : Nat)
    (hp : ∀ p c, Reach s par p → c ∈ (s.heap p).Children → (s.heap c).Parent = some p)
    (hb : ∀ c m, c ∈ (s.heap par).Children → Reach s c m → ∃ b, (s.heap m).Block = some b)
    (hk : Height s (k + 1) par) : Kids s par k :=
  ⟨fun c hc => ⟨fun m hm => hb c m hc hm,
      fun p c2 hp2 hc2 => hp p c2 (reach_of_child s par c p hc hp2) hc2⟩,
   fun c hc => hp par c Reach.here hc,
   fun c hc => hk c hc,
   fun c hc => Height_no_cycle s (k + 1) par c hk hc,
   fun c1 c2 m h1 h2 hne hm1 hm2 => siblings_disjoint s (k + 1) par c1 c2 m hp hk h1 h2 hne hm1 hm2⟩

/-- After the child `ch` of `par` has been deleted, the trees below the other
children are as before. -/
theorem Kids_after_Del (hh : Block → Hash) (s s1 : BlockCache) (par ch : Ptr) (k : Nat)
    (hk : Kids s par k) (hch : ch ∈ (s.heap par).Children) (hd : Deleted hh s ch s1) :
    (s1.heap par).Children = (s.heap par).Children.filter (fun x => x != ch) ∧
    (∀ c m, c ∈ (s.heap par).Children → c ≠ ch → Reach s c m →
      (s1.heap m).Parent = (s.heap m).Parent ∧ (s1.heap m).Children = (s.heap m).Children) ∧
    (∀ c m, c ∈ (s.heap par).Children → c ≠ ch → (Reach s1 c m ↔ Reach s c m)) ∧
    Kids s1 par k := by
  have hup := hk.up ch hch
  have hac := hk.acyclic ch hch
  have hpc : (s1.heap par).Children = (s.heap par).Children.filter (fun x => x != ch) :=
    hd.parent par hup hac
  have hsame : ∀ c m, c ∈ (s.heap par).Children → c ≠ ch → Reach s c m →
      (s1.heap m).Parent = (s.heap m).Parent ∧ (s1.heap m).Children = (s.heap m).Children := by
    intro c m hc hne hm
    have hnr : ¬ Reach s ch m := fun h => hk.disjoint c ch m hc hch hne hm h
    have hmp : m ≠ par := fun e => hk.acyclic c hc (e ▸ hm)
    have := hd.outside m hnr
    exact ⟨this.1, this.2 (by rw [hup]; intro e; cases e; exact hmp rfl)⟩
  have hreach : ∀ c m, c ∈ (s.heap par).Children → c ≠ ch → (Reach s1 c m ↔ Reach s c m) :=
    fun c m hc hne => reach_congr s s1 c (fun x hx => (hsame c x hc hne hx).2) m
  have hmem : ∀ c, c ∈ (s1.heap par).Children → c ∈ (s.heap par).Children ∧ c ≠ ch := by
    intro c hc
    rw [hpc] at hc
    simpa using hc
  refine ⟨hpc, hsame, hreach, ?_⟩
  constructor
  · intro c hc
    obtain ⟨h1, h2⟩ := hmem c hc
    constructor
    · intro m hm
      rw [(hd.fields m).1]
      exact (hk.tree c h1).block m ((hreach c m h1 h2).mp hm)
    · intro p c2 hp hc2
      have hp2 := (hreach c p h1 h2).mp hp
      rw [(hsame c p h1 h2 hp2).2] at hc2
      rw [(hsame c c2 h1 h2 (Reach.child hp2 hc2)).1]
      exact (hk.tree c h1).parent p c2 hp2 hc2
  · intro c hc
    obtain ⟨h1, h2⟩ := hmem c hc
    rw [(hsame c c h1 h2 Reach.here).1]
    exact hk.up c h1
  · intro c hc
    obtain ⟨h1, h2⟩ := hmem c hc
    exact Height_congr s s1 k c (fun m hm => (hsame c m h1 h2 hm).2) (hk.height c h1)
  · intro c hc hr
    obtain ⟨h1, h2⟩ := hmem c hc
    exact hk.acyclic c h1 ((hreach c par h1 h2).mp hr)
  · intro c1 c2 m hc1 hc2 hne hm1 hm2
    obtain ⟨h1, h2⟩ := hmem c1 hc1
    obtain ⟨h3, h4⟩ := hmem c2 hc2
    exact hk.disjoint c1 c2 m h1 h3 hne ((hreach c1 m h1 h2).mp hm1) ((hreach c2 m h3 h4).mp hm2)

theorem Pruned_refl (hh : Block → Hash) (s : BlockCache) (par : Ptr) (sel : Ptr → Bool)
    (hsel : ∀ c, c ∈ (s.heap par).Children → sel c = false) : Pruned hh s par sel s := by
  have hno : ∀ c, c ∈ (s.heap par).Children → sel c = true → False := by
    intro c hc h; rw [hsel c hc] at h; cases h
  constructor
  · rfl
  · rfl
  · rfl
  · intro m; exact ⟨rfl, rfl, rfl⟩
  · intro c m hc h; exact absurd h (fun h => hno c hc h)
  · rfl
  · symm
    rw [List.filter_eq_self]
    intro c hc
    simp [hsel c hc]
  · intro m _ _; exact ⟨rfl, rfl⟩
  · intro c m b hc h; exact absurd h (fun h => hno c hc h)
  · intro h _; rfl
  · intro c m hc h; exact absurd h (fun h => hno c hc h)
  · intro m h _; exact h

theorem Pruned_congr (hh : Block → Hash) (s s2 : BlockCache) (par : Ptr) (sel sel2 : Ptr → Bool)
    (hsel : ∀ c, c ∈ (s.heap par).Children → sel2 c = sel c) (h : Pruned hh s par sel s2) :
    Pruned hh s par sel2 s2 := by
  constructor
  · exact h.next_eq
  · exact h.linked_eq
  · exact h.single_eq
  · exact h.fields
  · intro c m hc hs; exact h.inside c m hc (by rw [← hsel c hc]; exact hs)
  · exact h.par_parent
  · rw [h.par_children]
    apply List.filter_congr
    intro c hc
    rw [hsel c hc]
  · intro m hm hall
    exact h.outside m hm (fun c hc hs => hall c hc (by rw [hsel c hc]; exact hs))
  · intro c m b hc hs; exact h.index_gone c m b hc (by rw [← hsel c hc]; exact hs)
  · intro k hall
    exact h.index_kept k (fun c m b hc hs => hall c m b hc (by rw [hsel c hc]; exact hs))
  · intro c m hc hs; exact h.leaf_gone c m hc (by rw [← hsel c hc]; exact hs)
  · exact h.leaf_none

/-- After a deletion an index entry is gone or as before. -/
theorem Pruned_index_sub (hh : Block → Hash) (s s2 : BlockCache) (par : Ptr) (sel : Ptr → Bool)
    (h : Pruned hh s par sel s2) (k : Hash) :
    mapLoad s2.hash2node k = none ∨ mapLoad s2.hash2node k = mapLoad s.hash2node k := by
  by_cases hex : ∃ c m b, c ∈ (s.heap par).Children ∧ sel c = true ∧ Reach s c m ∧
      (s.heap m).Block = some b ∧ hh b = k
  · obtain ⟨c, m, b, h1, h2, h3, h4, h5⟩ := hex
    left; rw [← h5]; exact h.index_gone c m b h1 h2 h3 h4
  · right
    apply h.index_kept
    intro c m b h1 h2 h3 h4 h5
    exact hex ⟨c, m, b, h1, h2, h3, h4, h5⟩

/-- A deletion of the child `ch` followed by a loop over the other children. -/
theorem Pruned_after_Del (hh : Block → Hash) (s s1 s2 : BlockCache) (par ch : Ptr) (k : Nat)
    (sel : Ptr → Bool) (hk : Kids s par k) (hch : ch ∈ (s.heap par).Children)
    (hd : Deleted hh s ch s1) (hp : Pruned hh s1 par sel s2) :
    Pruned hh s par (fun c => c == ch || sel c) s2 := by
  obtain ⟨hpc, hsame, hreach, hk1⟩ := Kids_after_Del hh s s1 par ch k hk hch hd
  have hup := hk.up ch hch
  have hac := hk.acyclic ch hch
  have hmem1 : ∀ c, c ∈ (s.heap par).Children → c ≠ ch → c ∈ (s1.heap par).Children := by
    intro c hc hne; rw [hpc]; simp [hc, hne]
  have hmem : ∀ c, c ∈ (s1.heap par).Children → c ∈ (s.heap par).Children ∧ c ≠ ch := by
    intro c hc; rw [hpc] at hc; simpa using hc
  -- a node below `ch` is not touched by the loop
  have hbelow : ∀ m, Reach s ch m → m ≠ par ∧
      ∀ c, c ∈ (s1.heap par).Children → sel c = true → ¬ Reach s1 c m := by
    intro m hm
    refine ⟨fun e => hac (e ▸ hm), ?_⟩
    intro c hc _ hr
    obtain ⟨h1, h2⟩ := hmem c hc
    exact hk.disjoint c ch m h1 hch h2 ((hreach c m h1 h2).mp hr) hm
  constructor
  · rw [hp.next_eq, hd.next_eq]
  · rw [hp.linked_eq, hd.linked_eq]
  · rw [hp.single_eq, hd.single_eq]
  · intro m
    obtain ⟨a1, a2, a3⟩ := hp.fields m
    obtain ⟨b1, b2, b3⟩ := hd.fields m
    exact ⟨a1.trans b1, a2.trans b2, a3.trans b3⟩
  · intro c m hc hs hm
    by_cases hcc : c = ch
    · subst hcc
      obtain ⟨h1, h2⟩ := hbelow m hm
      have := hp.outside m h1 h2
      rw [this.1, this.2]
      exact hd.inside m hm
    · have hs2 : sel c = true := by simpa [hcc] using hs
      exact hp.inside c m (hmem1 c hc hcc) hs2 ((hreach c m hc hcc).mpr hm)
  · rw [hp.par_parent]; exact (hd.outside par hac).1
  · rw [hp.par_children, hpc, List.filter_filter]
    apply List.filter_congr
    intro c _
    by_cases hcc : c = ch
    · simp [hcc]
    · have h1 : (c != ch) = true := by simpa using hcc
      have h2 : (c == ch) = false := by simpa using hcc
      rw [h1, h2]; simp
  · intro m hm hall
    have hnr : ¬ Reach s ch m := hall ch hch (by simp)
    have h1 := hd.outside m hnr
    have h2 := hp.outside m hm (by
      intro c hc hs hr
      obtain ⟨g1, g2⟩ := hmem c hc
      exact hall c g1 (by simp [hs]) ((hreach c m g1 g2).mp hr))
    exact ⟨h2.1.trans h1.1,
      h2.2.trans (h1.2 (by rw [hup]; intro e; cases e; exact hm rfl))⟩
  · intro c m b hc hs hm hb
    by_cases hcc : c = ch
    · subst hcc
      rcases Pruned_index_sub hh s1 s2 par sel hp (hh b) with h | h
      · exact h
      · rw [h]; exact hd.index_gone m b hm hb
    · have hs2 : sel c = true := by simpa [hcc] using hs
      exact hp.index_gone c m b (hmem1 c hc hcc) hs2 ((hreach c m hc hcc).mpr hm)
        (by rw [(hd.fields m).1]; exact hb)
  · intro h hall
    have h1 := hd.index_kept h (fun m b hm hb => hall ch m b hch (by simp) hm hb)
    have h2 := hp.index_kept h (by
      intro c m b hc hs hm hb
      obtain ⟨g1, g2⟩ := hmem c hc
      rw [(hd.fields m).1] at hb
      exact hall c m b g1 (by simp [hs]) ((hreach c m g1 g2).mp hm) hb)
    exact h2.trans h1
  · intro c m hc hs hm
    by_cases hcc : c = ch
    · subst hcc
      exact hp.leaf_none m (hd.leaf_gone m hm) (hbelow m hm).1
    · have hs2 : sel c = true := by simpa [hcc] using hs
      exact hp.leaf_gone c m (hmem1 c hc hcc) hs2 ((hreach c m hc hcc).mpr hm)
  · intro m hm hmp
    exact hp.leaf_none m (hd.leaf_none m hm (by rw [hup]; intro e; cases e; exact hmp rfl)) hmp

/-- The loop `rangeChildren` with a body that deletes the children `sel`
accepts, given that `Del` with fuel `f` deletes trees of height at most `k`. -/
theorem rangeChildren_prunes (hh : Block → Hash) (f k : Nat) (par : Ptr) (sel : Ptr → Bool)
    (body : BlockCache → Ptr → Option BlockCache)
    (hdel : ∀ s2 c, TreeBelow s2 c → Height s2 k c →
      (∀ p, (s2.heap c).Parent = some p → ¬ Reach s2 c p) →
      ∃ s3, Del hh f s2 (some c) = some s3 ∧ Deleted hh s2 c s3)
    (s0 : BlockCache)
    (hbody : ∀ s2 c, (∀ m, (s2.heap m).Number = (s0.heap m).Number) →
      body s2 c = if sel c = true then Del hh f s2 (some c) else some s2) :
    ∀ l s, (∀ m, (s.heap m).Number = (s0.heap m).Number) → Kids s par k →
      ∃ s2, rangeChildren body par l s = some s2 ∧
        Pruned hh s par (fun c => decide (c ∈ l) && sel c) s2 := by
  intro l
  induction l with
  | nil =>
    intro s _ _
    exact ⟨s, rfl, Pruned_refl hh s par _ (fun c _ => by simp)⟩
  | cons ch rest ih =>
    intro s hnum hk
    by_cases hch : ch ∈ (s.heap par).Children
    · by_cases hs : sel ch = true
      · -- the child is deleted
        obtain ⟨s1, h1, hd⟩ := hdel s ch (hk.tree ch hch) (hk.height ch hch)
          (fun p hp => by
            rw [hk.up ch hch] at hp; cases hp; exact hk.acyclic ch hch)
        obtain ⟨_, _, _, hk1⟩ := Kids_after_Del hh s s1 par ch k hk hch hd
        have hnum1 : ∀ m, (s1.heap m).Number = (s0.heap m).Number :=
          fun m => ((hd.fields m).2.1).trans (hnum m)
        obtain ⟨s2, h2, hp⟩ := ih s1 hnum1 hk1
        refine ⟨s2, ?_, ?_⟩
        · simp only [rangeChildren, hch, if_true, hbody s ch hnum, hs, h1]
          exact h2
        · refine Pruned_congr hh s s2 par _ _ ?_ (Pruned_after_Del hh s s1 s2 par ch k _ hk hch hd hp)
          intro c _
          by_cases hcc : c = ch
          · simp [hcc, hs]
          · simp [hcc]
      · -- the body leaves the child alone
        obtain ⟨s2, h2, hp⟩ := ih s hnum hk
        refine ⟨s2, ?_, ?_⟩
        · simp only [rangeChildren, hch, if_true, hbody s ch hnum, hs]
          exact h2
        · refine Pruned_congr hh s s2 par _ _ ?_ hp
          intro c _
          by_cases hcc : c = ch
          · have : sel ch = false := by simpa using hs
            simp [hcc, this]
          · simp [hcc]
    · -- the key is not in the map any more
      obtain ⟨s2, h2, hp⟩ := ih s hnum hk
      refine ⟨s2, ?_, ?_⟩
      · simp only [rangeChildren, hch, if_false]
        exact h2
      · refine Pruned_congr hh s s2 par _ _ ?_ hp
        intro c hc
        have hcc : c ≠ ch := fun e => hch (e ▸ hc)
        simp [hcc]

/-- `Del` after the loop over the children: `delNode` and `updateLongest`. -/
theorem Deleted_of_Pruned (hh : Block → Hash) (s s1 : BlockCache) (n : Ptr) (b : Block)
    (upd : Bool)
    (hb : (s.heap n).Block = some b)
    (hpar : ∀ p, (s.heap n).Parent = some p → ¬ Reach s n p)
    (hp : Pruned hh s n (fun _ => true) s1) :
    ∃ s2, delNode hh s1 n = some s2 ∧
      Deleted hh s n (if upd = true then updateLongest s2 else s2) := by
  have hb1 : (s1.heap n).Block = some b := by rw [(hp.fields n).1]; exact hb
  obtain ⟨s2, h2, e1, e2, e3, _, e5, e6, e7, e8, e9⟩ := delNode_spec hh s1 n b hb1
  refine ⟨s2, h2, ?_⟩
  have hp1 : (s1.heap n).Parent = (s.heap n).Parent := hp.par_parent
  have hnn : (s.heap n).Parent ≠ some n := fun e => hpar n e Reach.here
  have hc1 : (s1.heap n).Children = [] := by
    rw [hp.par_children]; simp
  -- below `n`: `n` itself or below a child
  have hin : ∀ m, Reach s n m → m ≠ n →
      ∃ c, c ∈ (s.heap n).Children ∧ Reach s c m := by
    intro m hm hne
    rcases reach_first s n m hm with e | h
    · exact absurd e hne
    · exact h
  have hout : ∀ m, ¬ Reach s n m → m ≠ n ∧
      ∀ c, c ∈ (s.heap n).Children → (fun _ : Ptr => true) c = true → ¬ Reach s c m := by
    intro m hm
    exact ⟨fun e => hm (e ▸ Reach.here), fun c hc _ hr => hm (reach_of_child s n c m hc hr)⟩
  have hfr := updateLongest_frame s2
  have key : Deleted hh s n s2 := by
    constructor
    · rw [e1, hp.next_eq]
    · rw [e2, hp.linked_eq]
    · rw [e3, hp.single_eq]
    · intro m
      obtain ⟨a1, a2, a3⟩ := e5 m
      obtain ⟨b1, b2, b3⟩ := hp.fields m
      exact ⟨a1.trans b1, a2.trans b2, a3.trans b3⟩
    · intro m hm
      by_cases hmn : m = n
      · subst hmn
        refine ⟨by rw [e6]; simp, ?_⟩
        rw [e7, hc1]; simp
      · obtain ⟨c, hc, hr⟩ := hin m hm hmn
        have := hp.inside c m hc rfl hr
        refine ⟨by rw [e6]; simp [hmn, this.1], ?_⟩
        rw [e7, this.2]; simp
    · intro m hm
      obtain ⟨g1, g2⟩ := hout m hm
      have := hp.outside m g1 g2
      refine ⟨by rw [e6]; simp [g1, this.1], ?_⟩
      intro hne
      rw [e7, hp1]
      simp [hne, this.2]
    · intro f hf hnr
      obtain ⟨g1, g2⟩ := hout f hnr
      have := hp.outside f g1 g2
      rw [e7, hp1, hf]
      simp [this.2]
    · intro m b2 hm hb2
      rw [e8]
      by_cases hmn : m = n
      · subst hmn
        rw [hb] at hb2; cases hb2; simp
      · obtain ⟨c, hc, hr⟩ := hin m hm hmn
        have := hp.index_gone c m b2 hc rfl hr hb2
        simp [this]
    · intro h hall
      rw [e8]
      have hne : h ≠ hh b := fun e => hall n b Reach.here hb e.symm
      simp only [hne, if_false]
      exact hp.index_kept h (fun c m b2 hc _ hr hb2 => hall m b2 (reach_of_child s n c m hc hr) hb2)
    · intro m hm
      rw [e9, hp1]
      have hnp : (s.heap n).Parent ≠ some m := fun e => hpar m e hm
      simp only [hnp, if_false]
      by_cases hmn : m = n
      · simp [hmn]
      · obtain ⟨c, hc, hr⟩ := hin m hm hmn
        simp [hmn, hp.leaf_gone c m hc rfl hr]
    · intro m hm hnp
      rw [e9, hp1]
      simp only [hnp, if_false]
      by_cases hmn : m = n
      · simp [hmn]
      · simp [hmn, hp.leaf_none m hm hmn]
  cases upd with
  | false => simpa using key
  | true =>
    simp only [if_true]
    obtain ⟨u1, u2, u3, u4, u5, u6⟩ := hfr
    constructor
    · rw [u2]; exact key.next_eq
    · rw [u3]; exact key.linked_eq
    · rw [u4]; exact key.single_eq
    · rw [u1]; exact key.fields
    · rw [u1]; exact key.inside
    · rw [u1]; exact key.outside
    · rw [u1]; exact key.parent
    · rw [u5]; exact key.index_gone
    · rw [u5]; exact key.index_kept
    · rw [u6]; exact key.leaf_gone
    · rw [u6]; exact key.leaf_none

/-- `Del` returns on every tree of blocks of bounded height, given enough
fuel, and detaches exactly the nodes of that tree. -/
theorem Del_spec (hh : Block → Hash) :
    ∀ k f, k < f → ∀ s n, TreeBelow s n → Height s k n →
      (∀ p, (s.heap n).Parent = some p → ¬ Reach s n p) →
      ∃ s2, Del hh f s (some n) = some s2 ∧ Deleted hh s n s2 := by
  intro k
  induction k with
  | zero =>
    intro f hf s n ht hk hpar
    obtain ⟨f1, rfl⟩ : ∃ f1, f = f1 + 1 := ⟨f - 1, by omega⟩
    obtain ⟨b, hb⟩ := ht.block n Reach.here
    have hc : (s.heap n).Children = [] := hk
    have hp : Pruned hh s n (fun _ => true) s :=
      Pruned_congr hh s s n (fun _ => false) _ (fun c hcc => by rw [hc] at hcc; cases hcc)
        (Pruned_refl hh s n _ (fun _ _ => rfl))
    obtain ⟨s2, h2, hd⟩ := Deleted_of_Pruned hh s s n b true hb hpar hp
    refine ⟨updateLongest s2, ?_, by simpa using hd⟩
    simp [Del, hc, rangeChildren, h2]
  | succ k ih =>
    intro f hf s n ht hk hpar
    obtain ⟨f1, rfl⟩ : ∃ f1, f = f1 + 1 := ⟨f - 1, by omega⟩
    have hf1 : k < f1 := by omega
    obtain ⟨b, hb⟩ := ht.block n Reach.here
    have hkids : Kids s n k :=
      Kids_of s n k ht.parent (fun c m hc hm => ht.block m (reach_of_child s n c m hc hm)) hk
    obtain ⟨s1, h1, hp⟩ := rangeChildren_prunes hh f1 k n (fun _ => true)
      (fun s1 ch => Del hh f1 s1 (some ch)) (ih f1 hf1) s (fun _ _ _ => by simp)
      (s.heap n).Children s (fun _ => rfl) hkids
    have hp2 : Pruned hh s n (fun _ => true) s1 :=
      Pruned_congr hh s s1 n _ _ (fun c hc => by simp [hc]) hp
    obtain ⟨s2, h2, hd⟩ := Deleted_of_Pruned hh s s1 n b
      (decide ((s.heap n).Children.length = 0)) hb hpar hp2
    refine ⟨_, ?_, hd⟩
    simp only [Del, h1, h2]
    by_cases hl : (s.heap n).Children.length = 0
    · simp [hl]
    · simp [hl]

theorem ancN_of_Anc (s : BlockCache) (n a : Ptr) (h : Anc s n a) : ∃ j, ancN s j n = some a := by
  induction h with
  | here => exact ⟨0, rfl⟩
  | up hp _ ih =>
    obtain ⟨j, hj⟩ := ih
    exact ⟨j + 1, by simp [ancN, hp, hj]⟩

/-- The number of `Parent` steps from a node to a node without parent is
determined by the node. -/
theorem ancN_unique (s : BlockCache) :
    ∀ j n r j2 r2, ancN s j n = some r → (s.heap r).Parent = none →
      ancN s j2 n = some r2 → (s.heap r2).Parent = none → j = j2 := by
  intro j
  induction j with
  | zero =>
    intro n r j2 r2 h1 hr h2 _
    simp only [ancN, Option.some.injEq] at h1
    subst h1
    cases j2 with
    | zero => rfl
    | succ j2 => simp [ancN, hr] at h2
  | succ j ih =>
    intro n r j2 r2 h1 hr h2 hr2
    cases hp : (s.heap n).Parent with
    | none => simp [ancN, hp] at h1
    | some p =>
      simp only [ancN, hp] at h1
      cases j2 with
      | zero =>
        simp only [ancN, Option.some.injEq] at h2
        subst h2
        rw [hp] at hr2; cases hr2
      | succ j2 =>
        simp only [ancN, hp] at h2
        rw [ih p r j2 r2 h1 hr h2 hr2]

/-- Every allocated node of a rooted cache has a depth. -/
theorem depth_exists (hh : Block → Hash) (s : BlockCache) (hr : Rooted hh s) (n : Ptr)
    (hn : n < s.next) : ∃ j r, ancN s j n = some r ∧ (s.heap r).Parent = none := by
  rcases hr.rooted n hn with h | h
  · obtain ⟨j, hj⟩ := ancN_of_Anc s n _ h
    exact ⟨j, _, hj, hr.linked_root⟩
  · obtain ⟨j, hj⟩ := ancN_of_Anc s n _ h
    exact ⟨j, _, hj, hr.single_root⟩

/-- The depths of the first `N` addresses are bounded. -/
theorem depth_bound (hh : Block → Hash) (s : BlockCache) (hr : Rooted hh s) :
    ∀ N, ∃ B, ∀ n, n < N → n < s.next → ∀ j r, ancN s j n = some r →
      (s.heap r).Parent = none → j ≤ B := by
  intro N
  induction N with
  | zero => exact ⟨0, fun n hn => absurd hn (Nat.not_lt_zero n)⟩
  | succ N ih =>
    obtain ⟨B, hB⟩ := ih
    by_cases hN : N < s.next
    · obtain ⟨j0, r0, h0, hr0⟩ := depth_exists hh s hr N hN
      refine ⟨max B j0, ?_⟩
      intro n hn hnn j r hj hrr
      rcases Nat.lt_succ_iff_lt_or_eq.mp hn with h | h
      · exact le_trans (hB n h hnn j r hj hrr) (le_max_left _ _)
      · subst h
        rw [ancN_unique s j n r j0 r0 hj hrr h0 hr0]
        exact le_max_right _ _
    · refine ⟨B, ?_⟩
      intro n hn hnn j r hj hrr
      rcases Nat.lt_succ_iff_lt_or_eq.mp hn with h | h
      · exact hB n h hnn j r hj hrr
      · subst h; exact absurd hnn hN

/-- In a well-formed rooted cache the trees below the allocated nodes have a
common height bound. -/
theorem Height_of_Rooted (hh : Block → Hash) (s : BlockCache) (hwf : WF hh s)
    (hr : Rooted hh s) : ∃ B, ∀ n, n < s.next → Height s B n := by
  obtain ⟨B, hB⟩ := depth_bound hh s hr s.next
  have hchild : ∀ n c j r, n < s.next → c ∈ (s.heap n).Children → ancN s j n = some r →
      ancN s (j + 1) c = some r := by
    intro n c j r hn hc hj
    simp [ancN, hwf.child_parent n c hn hc, hj]
  have key : ∀ d n j r, n < s.next → ancN s j n = some r → (s.heap r).Parent = none →
      B ≤ j + d → Height s d n := by
    intro d
    induction d with
    | zero =>
      intro n j r hn hj hrr hle
      simp only [Height]
      cases hc : (s.heap n).Children with
      | nil => rfl
      | cons c rest =>
        exfalso
        have hcm : c ∈ (s.heap n).Children := by rw [hc]; exact List.mem_cons_self _ _
        have := hB c (hwf.child_lt n c hn hcm) (hwf.child_lt n c hn hcm) (j + 1) r
          (hchild n c j r hn hcm hj) hrr
        omega
    | succ d ih =>
      intro n j r hn hj hrr hle c hc
      exact ih c (j + 1) r (hwf.child_lt n c hn hc) (hchild n c j r hn hc hj) hrr (by omega)
  refine ⟨B, fun n hn => ?_⟩
  obtain ⟨j, r, hj, hrr⟩ := depth_exists hh s hr n hn
  exact key B n j r hn hj hrr (by omega)

/-- In a well-formed cache the nodes below an allocated node that holds a
block form a tree of blocks. -/
theorem TreeBelow_of_WF (hh : Block → Hash) (s : BlockCache) (hwf : WF hh s) (n : Ptr)
    (hn : n < s.next) (hb : ∃ b, (s.heap n).Block = some b) : TreeBelow s n := by
  constructor
  · intro m hm
    rcases (reach_alloc hh s n m hwf hn hm).2 with e | ⟨p, hp, hc⟩
    · rw [e]; exact hb
    · obtain ⟨b, h1, _⟩ := hwf.child_indexed p m hp hc
      exact ⟨b, h1⟩
  · intro p c hp hc
    exact hwf.child_parent p c (reach_alloc hh s n p hwf hn hp).1 hc

/-- In a well-formed rooted cache the parent of a node is not below it. -/
theorem parent_not_below (hh : Block → Hash) (s : BlockCache) (hwf : WF hh s)
    (hr : Rooted hh s) (n p : Ptr) (hn : n < s.next) (hp : (s.heap n).Parent = some p) :
    ¬ Reach s n p := by
  obtain ⟨B, hB⟩ := Height_of_Rooted hh s hwf hr
  have := hr.parent_child n p hn hp
  exact Height_no_cycle s B p n (hB p this.1) this.2

theorem Deleted_index_sub (hh : Block → Hash) (s s2 : BlockCache) (n : Ptr)
    (h : Deleted hh s n s2) (k : Hash) :
    mapLoad s2.hash2node k = none ∨ mapLoad s2.hash2node k = mapLoad s.hash2node k := by
  by_cases hex : ∃ m b, Reach s n m ∧ (s.heap m).Block = some b ∧ hh b = k
  · obtain ⟨m, b, h1, h2, h3⟩ := hex
    left; rw [← h3]; exact h.index_gone m b h1 h2
  · right
    apply h.index_kept
    intro m b h1 h2 h3
    exact hex ⟨m, b, h1, h2, h3⟩

/-- In a cache that satisfies the representation invariant and the tree
invariant, let `n` be a node that holds a block `b` and is indexed under the
head hash of `b`.  With enough fuel `Del` of `n` returns, and in the cache it
leaves no node that was reachable from `n` (`n` included) is the value of any
index entry or a key of the leaf set, `n` is not among the children of its
former parent, and every index entry whose node was not reachable from `n` is
still there. -/
theorem Del_removes_subtree (hh : Block → Hash) (s : BlockCache) (n : Ptr) (b : Block)
    (hwf : WF hh s) (hr : Rooted hh s) (hb : (s.heap n).Block = some b)
    (hidx : (hmget s (hh b)).1 = some n) :
    ∃ f0, ∀ f, f0 ≤ f → ∃ s2, Del hh f s (some n) = some s2 ∧
      (∀ m, Reach s n m →
        (∀ h, (hmget s2 h).1 ≠ some m) ∧ leafGet s2.Leaf m = none) ∧
      (∀ p, (s.heap n).Parent = some p → n ∉ (s2.heap p).Children) ∧
      (∀ h x, (hmget s h).1 = some x → ¬ Reach s n x → (hmget s2 h).1 = some x) := by
  have hidx2 : mapLoad s.hash2node (hh b) = some n := by rw [← hmget_fst]; exact hidx
  have hn : n < s.next := hwf.index_lt _ _ hidx2
  have htree : TreeBelow s n := TreeBelow_of_WF hh s hwf n hn ⟨b, hb⟩
  obtain ⟨B, hB⟩ := Height_of_Rooted hh s hwf hr
  have hsub : ∀ m bm, Reach s n m → (s.heap m).Block = some bm →
      mapLoad s.hash2node (hh bm) = some m := by
    intro m bm hm hbm
    rcases (reach_alloc hh s n m hwf hn hm).2 with e | ⟨p, hp, hc⟩
    · subst e; rw [hb] at hbm; cases hbm; exact hidx2
    · obtain ⟨b2, h1, h2⟩ := hwf.child_indexed p m hp hc
      rw [hbm] at h1; cases h1; exact h2
  refine ⟨B + 1, fun f hf => ?_⟩
  obtain ⟨s2, hdel, hd⟩ := Del_spec hh B f (by omega) s n htree (hB n hn)
    (fun p hp => parent_not_below hh s hwf hr n p hn hp)
  refine ⟨s2, hdel, ?_, ?_, ?_⟩
  · intro m hm
    refine ⟨?_, hd.leaf_gone m hm⟩
    intro h hget
    have h2 : mapLoad s2.hash2node h = some m := by rw [← hmget_fst]; exact hget
    rcases Deleted_index_sub hh s s2 n hd h with e | e
    · rw [e] at h2; cases h2
    · rw [e] at h2
      obtain ⟨bm, hbm, hh2⟩ := hwf.index_block h m h2
      have := hd.index_gone m bm hm hbm
      rw [hh2, e, h2] at this
      cases this
  · intro p hp hmem
    rw [hd.parent p hp (parent_not_below hh s hwf hr n p hn hp)] at hmem
    simp at hmem
  · intro h x hx hnot
    have h1 : mapLoad s.hash2node h = some x := by rw [← hmget_fst]; exact hx
    rw [hmget_fst, hd.index_kept h ?_]
    · exact h1
    · intro m bm hm hbm e
      have := hsub m bm hm hbm
      rw [e, h1] at this
      cases this
      exact hnot hm

/-- C15 (the code at the failing input): blocks 6, 7 and 8 are added to the
fresh cache (nodes 2, 3 and 4, one below the other) and the cache is flushed to
node 4 while the chain store refuses block 6.  `flush` drops that error and
goes on, so node 4 becomes the linked root while node 0, which holds block 5,
stays indexed, with the retired nodes 2 and 3 still below it.  Block 7 arrives
again: its hash has left the index, so it waits under the single root (node 1)
as node 5, indexed under the head hash of block 7.  Then `Del` of node 0 walks
down to node 3, which holds block 7 too, and drops the index entry of that
hash: node 5, which is not below node 0, is no longer indexed. -/
theorem Del_drops_index_entry_outside_subtree :
    ((addAll sampleHash freshCache [block6, block7, block8]).bind
        (fun s => Flush sampleHash (fun b => b.Head.Number != 6) (fun _ => true) 6
          (s, emptyStore) (some 4))).map
      (fun w => (w.1.LinkedTree, (hmget w.1 (sampleHash libBlock)).1, (w.1.heap 0).Block,
        (w.1.heap 0).Children, (w.1.heap 2).Children, (w.1.heap 3).Children,
        (w.1.heap 3).Block, (hmget w.1 (sampleHash block7)).1)) =
      some (4, some 0, some libBlock, [2], [3], [4], some block7, none) ∧
    (((addAll sampleHash freshCache [block6, block7, block8]).bind
        (fun s => Flush sampleHash (fun b => b.Head.Number != 6) (fun _ => true) 6
          (s, emptyStore) (some 4))).bind
        (fun w => Add sampleHash w.1 block7)).map
      (fun r => (r.node, (r.cache.heap 1).Children, (r.cache.heap 5).Block,
        (hmget r.cache (sampleHash block7)).1)) =
      some (some 5, [5], some block7, some 5) ∧
    ((((addAll sampleHash freshCache [block6, block7, block8]).bind
        (fun s => Flush sampleHash (fun b => b.Head.Number != 6) (fun _ => true) 6
          (s, emptyStore) (some 4))).bind
        (fun w => Add sampleHash w.1 block7)).bind
        (fun r => Del sampleHash 6 r.cache (some 0))).map
      (fun s => ((s.heap 1).Children, (s.heap 5).Parent, (s.heap 5).Block,
        (hmget s (sampleHash block7)).1)) =
      some ([5], some 1, some block7, none) := by
  refine ⟨?_, ?_, ?_⟩ <;> rfl

/-! ## `Flush` moves the linked root (C17 to C19) -/

/-- In a well-formed rooted cache no node is below both roots. -/
theorem roots_disjoint (hh : Block → Hash) (s : BlockCache) (hwf : WF hh s) (hr : Rooted hh s)
    (m : Ptr) (h1 : Reach s s.LinkedTree m) (h2 : Reach s s.SingleTree m) : False :=
  anc_one_root hh s hwf hr m (reach_anc hh s hwf _ m hwf.linked_lt h1)
    (reach_anc hh s hwf _ m hwf.single_lt h2)

/-- In a well-formed cache the children of every node below an allocated node
point back to it. -/
theorem parent_below (hh : Block → Hash) (s : BlockCache) (hwf : WF hh s) (r : Ptr)
    (hr : r < s.next) (q x : Ptr) (hq : Reach s r q) (hx : x ∈ (s.heap q).Children) :
    (s.heap x).Parent = some q :=
  hwf.child_parent q x (reach_alloc hh s r q hwf hr hq).1 hx

/-- One level of `flush`: the loop that deletes the children of `p` other
than `c`, followed by the move of the linked root from `p` to `c`. -/
theorem prune_level (hh : Block → Hash) (s0 s1 : BlockCache) (B f : Nat) (p c : Ptr) (pb : Block)
    (hwf : WF hh s0) (hB : ∀ n, n < s0.next → Height s0 B n) (hf : B < f)
    (hp : Reach s0 s0.LinkedTree p) (hc : c ∈ (s0.heap p).Children)
    (hpb : (s0.heap p).Block = some pb) (h1 : Flushed hh s0 p s1) :
    ∃ s2 cb,
      rangeChildren (fun s child => if child = c then some s else Del hh f s (some child))
        p (s1.heap p).Children s1 = some s2 ∧
      (s2.heap c).Block = some cb ∧ (s0.heap c).Block = some cb ∧
      (s2.heap p).Block = some pb ∧
      Flushed hh s0 c
        { ((hmdel s2 (hh pb)).store c { (hmdel s2 (hh pb)).heap c with Parent := none }) with
          LinkedTree := c } := by
  have hpn : p < s0.next := (reach_alloc hh s0 _ p hwf hwf.linked_lt hp).1
  have hch1 : ∀ m, Reach s0 p m → (s1.heap m).Children = (s0.heap m).Children :=
    fun m hm => (h1.below m hm).1
  have hreach1 : ∀ m, Reach s1 p m ↔ Reach s0 p m := reach_congr s0 s1 p hch1
  have hne_p : ∀ q x, Reach s0 p q → x ∈ (s0.heap q).Children → x ≠ p := by
    intro q x hq hx e
    rw [e] at hx
    exact Height_no_cycle s0 B q p (hB q (reach_alloc hh s0 p q hwf hpn hq).1) hx hq
  have hpar1 : ∀ q x, Reach s1 p q → x ∈ (s1.heap q).Children →
      (s1.heap x).Parent = some q := by
    intro q x hq hx
    have hq0 := (hreach1 q).mp hq
    rw [hch1 q hq0] at hx
    rw [(h1.below x (Reach.child hq0 hx)).2 (hne_p q x hq0 hx)]
    exact parent_below hh s0 hwf p hpn q x hq0 hx
  have hblk0 : ∀ m, Reach s0 p m → ∃ b, (s0.heap m).Block = some b := by
    intro m hm
    rcases (reach_alloc hh s0 p m hwf hpn hm).2 with e | ⟨q, hq, hx⟩
    · rw [e]; exact ⟨pb, hpb⟩
    · obtain ⟨b, hb, _⟩ := hwf.child_indexed q m hq hx
      exact ⟨b, hb⟩
  have hblock1 : ∀ x m, x ∈ (s1.heap p).Children → Reach s1 x m →
      ∃ b, (s1.heap m).Block = some b := by
    intro x m hx hm
    rw [(h1.fields m).1]
    exact hblk0 m ((hreach1 m).mp (reach_of_child s1 p x m hx hm))
  have hH1 : Height s1 (B + 1) p :=
    Height_congr s0 s1 (B + 1) p hch1 (Height_mono s0 B p (hB p hpn))
  have hk1 : Kids s1 p B := Kids_of s1 p B hpar1 hblock1 hH1
  obtain ⟨s2, hrun, hp2⟩ := rangeChildren_prunes hh f B p (fun x => decide (x ≠ c))
    (fun s child => if child = c then some s else Del hh f s (some child))
    (fun s2 x ht hk hpar => Del_spec hh B f hf s2 x ht hk hpar) s1
    (fun s2 x _ => by by_cases hx : x = c <;> simp [hx])
    (s1.heap p).Children s1 (fun _ => rfl) hk1
  have hpr : Pruned hh s1 p (fun x => decide (x ≠ c)) s2 :=
    Pruned_congr hh s1 s2 p _ _ (fun x hx => by simp [hx]) hp2
  have hreachx : ∀ x m, x ∈ (s0.heap p).Children → (Reach s1 x m ↔ Reach s0 x m) :=
    fun x m hx => reach_congr s0 s1 x (fun m2 hm2 => hch1 m2 (reach_of_child s0 p x m2 hx hm2)) m
  have hmem1 : ∀ x, x ∈ (s1.heap p).Children ↔ x ∈ (s0.heap p).Children := by
    intro x; rw [hch1 p Reach.here]
  obtain ⟨cb, hcb, _⟩ := hwf.child_indexed p c hpn hc
  have hcp : ¬ Reach s0 c p := Height_no_cycle s0 B p c (hB p hpn) hc
  have hsib : ∀ x m, x ∈ (s1.heap p).Children → decide (x ≠ c) = true → Reach s1 x m →
      ¬ Reach s0 c m := by
    intro x m hx hs hxm hcm
    have hx0 := (hmem1 x).mp hx
    have hne : c ≠ x := fun e => by simp [e] at hs
    exact siblings_disjoint s0 B p c x m (parent_below hh s0 hwf p hpn) (hB p hpn) hc hx0 hne hcm
      ((hreachx x m hx0).mp hxm)
  have hheap : ∀ m, m ≠ c →
      (({ ((hmdel s2 (hh pb)).store c { (hmdel s2 (hh pb)).heap c with Parent := none }) with
          LinkedTree := c } : BlockCache).heap m) = s2.heap m := by
    intro m hm
    simp [hmdel, BlockCache.store, Function.update, hm]
  have hheapc :
      (({ ((hmdel s2 (hh pb)).store c { (hmdel s2 (hh pb)).heap c with Parent := none }) with
          LinkedTree := c } : BlockCache).heap c) = { s2.heap c with Parent := none } := by
    simp [hmdel, BlockCache.store, Function.update]
  have hidx : ∀ h,
      mapLoad ({ ((hmdel s2 (hh pb)).store c { (hmdel s2 (hh pb)).heap c with Parent := none }) with
          LinkedTree := c } : BlockCache).hash2node h =
        if h = hh pb then none else mapLoad s2.hash2node h := by
    intro h
    simp only [hmdel, BlockCache.store]
    exact mapLoad_mapErase _ _ _
  refine ⟨s2, cb, hrun, by rw [(hpr.fields c).1, (h1.fields c).1]; exact hcb, hcb,
    by rw [(hpr.fields p).1, (h1.fields p).1]; exact hpb, ?_⟩
  constructor
  · show s2.next = s0.next
    rw [hpr.next_eq, h1.next_eq]
  · show s2.SingleTree = s0.SingleTree
    rw [hpr.single_eq, h1.single_eq]
  · rfl
  · intro m
    by_cases hm : m = c
    · subst hm
      rw [hheapc]
      have a := hpr.fields m
      have b := h1.fields m
      exact ⟨a.1.trans b.1, a.2.1.trans b.2.1, a.2.2.trans b.2.2⟩
    · rw [hheap m hm]
      have a := hpr.fields m
      have b := h1.fields m
      exact ⟨a.1.trans b.1, a.2.1.trans b.2.1, a.2.2.trans b.2.2⟩
  · rw [hheapc]
  · intro m hm
    have hm_p : Reach s0 p m := reach_of_child s0 p c m hc hm
    have hmp : m ≠ p := fun e => hcp (e ▸ hm)
    have hout := hpr.outside m hmp (fun x hx hs hxm => hsib x m hx hs hxm hm)
    have hb := h1.below m hm_p
    constructor
    · by_cases hmc : m = c
      · subst hmc
        rw [hheapc]
        show (s2.heap m).Children = _
        rw [hout.2, hb.1]
      · rw [hheap m hmc, hout.2, hb.1]
    · intro hmc
      rw [hheap m hmc, hout.1, hb.2 hmp]
  · intro m hm
    have hmp : m ≠ p := fun e => hm (e ▸ hp)
    have hmc : m ≠ c := fun e => hm (e ▸ Reach.child hp hc)
    have hout := hpr.outside m hmp (fun x hx _ hxm =>
      hm (reach_trans s0 _ p m hp (reach_of_child s0 p x m ((hmem1 x).mp hx)
        ((hreachx x m ((hmem1 x).mp hx)).mp hxm))))
    have ho := h1.outside m hm
    rw [hheap m hmc]
    exact ⟨hout.1.trans ho.1, hout.2.trans ho.2⟩
  · intro m b hm hnc hb
    rw [hidx]
    by_cases he : hh b = hh pb
    · simp [he]
    · simp only [he, if_false]
      by_cases hpm : Reach s0 p m
      · rcases reach_first s0 p m hpm with e | ⟨x, hx, hxm⟩
        · exfalso; subst e; rw [hpb] at hb; cases hb; exact he rfl
        · have hxc : x ≠ c := fun e => hnc (e ▸ hxm)
          exact hpr.index_gone x m b ((hmem1 x).mpr hx) (by simp [hxc])
            ((hreachx x m hx).mpr hxm) (by rw [(h1.fields m).1]; exact hb)
      · have h0 := h1.index_gone m b hm hpm hb
        rcases Pruned_index_sub hh s1 s2 p _ hpr (hh b) with e | e
        · exact e
        · rw [e]; exact h0
  · intro h hh2
    rw [hidx]
    have hne : h ≠ hh pb := fun e => hh2 p pb hp hcp hpb e.symm
    simp only [hne, if_false]
    rw [hpr.index_kept h ?_, h1.index_kept h ?_]
    · intro m b hm hpm hb
      exact hh2 m b hm (fun hcm => hpm (reach_of_child s0 p c m hc hcm)) hb
    · intro x m b hx hs hxm hb
      have hx0 := (hmem1 x).mp hx
      rw [(h1.fields m).1] at hb
      exact hh2 m b (reach_trans s0 _ p m hp (reach_of_child s0 p x m hx0 ((hreachx x m hx0).mp hxm)))
        (hsib x m hx hs hxm) hb

theorem Anc_of_ancN (s : BlockCache) : ∀ j n a, ancN s j n = some a → Anc s n a := by
  intro j
  induction j with
  | zero =>
    intro n a h
    simp only [ancN, Option.some.injEq] at h
    subst h; exact Anc.here _
  | succ j ih =>
    intro n a h
    cases hp : (s.heap n).Parent with
    | none => simp [ancN, hp] at h
    | some p =>
      simp only [ancN, hp] at h
      exact Anc.up hp (ih p a h)

/-- Before `flush` has done anything the cache is flushed up to its linked root. -/
theorem Flushed_refl (hh : Block → Hash) (s : BlockCache)
    (hroot : (s.heap s.LinkedTree).Parent = none) : Flushed hh s s.LinkedTree s :=
  ⟨rfl, rfl, rfl, fun _ => ⟨rfl, rfl, rfl⟩, hroot, fun _ _ => ⟨rfl, fun _ => rfl⟩,
    fun _ _ => ⟨rfl, rfl⟩, fun _ _ h1 h2 _ => absurd h1 h2, fun _ _ => rfl⟩

/-- One call of `flush` whose inner call has returned. -/
theorem flush_level (hh : Block → Hash) (pushOK : Block → Bool) (flushOK : Hash → Bool)
    (hpush : ∀ b, pushOK b = true) (hflush : ∀ h, flushOK h = true)
    (s0 s1 : BlockCache) (st st1 : Store) (B f : Nat) (p c : Ptr) (pb : Block)
    (hwf : WF hh s0) (hB : ∀ n, n < s0.next → Height s0 B n) (hf : B < f)
    (hp : Reach s0 s0.LinkedTree p) (hc : c ∈ (s0.heap p).Children)
    (hpb : (s0.heap p).Block = some pb) (h1 : Flushed hh s0 p s1)
    (hinner : (if p ≠ s0.LinkedTree then
        (flush hh pushOK flushOK f (s0, st) (s0.heap p).Parent p).map Prod.fst
      else some (s0, st)) = some (s1, st1)) :
    ∃ s2 cb, (s0.heap c).Block = some cb ∧
      flush hh pushOK flushOK (f + 1) (s0, st) (some p) c =
        some ((s2, { chain := st1.chain ++ [cb], flushed := st1.flushed ++ [hh cb] }), none) ∧
      Flushed hh s0 c s2 := by
  obtain ⟨s2, cb, hrun, hcb2, hcb, hpb2, hfl⟩ := prune_level hh s0 s1 B f p c pb hwf hB hf hp hc hpb h1
  refine ⟨_, cb, hcb, ?_, hfl⟩
  simp only [flush]
  rw [hinner]
  simp only [hrun, hcb2, hpush, hflush, hpb2, if_true]

theorem flush_spec (hh : Block → Hash) (pushOK : Block → Bool) (flushOK : Hash → Bool)
    (hpush : ∀ b, pushOK b = true) (hflush : ∀ h, flushOK h = true)
    (s0 : BlockCache) (st : Store) (B : Nat) (lb : Block)
    (hwf : WF hh s0) (hr : Rooted hh s0) (hB : ∀ n, n < s0.next → Height s0 B n)
    (hlb : (s0.heap s0.LinkedTree).Block = some lb) :
    ∀ j p c f, ancN s0 j p = some s0.LinkedTree → p < s0.next → c ∈ (s0.heap p).Children →
      j + B + 1 < f →
      ∃ s2 path, flush hh pushOK flushOK f (s0, st) (some p) c =
          some ((s2, { chain := st.chain ++ blocksOf s0 path,
                       flushed := st.flushed ++ (blocksOf s0 path).map hh }), none) ∧
        Flushed hh s0 c s2 ∧ Path s0 s0.LinkedTree c path := by
  intro j
  induction j with
  | zero =>
    intro p c f hj hpn hc hf
    simp only [ancN, Option.some.injEq] at hj
    subst hj
    obtain ⟨f1, rfl⟩ : ∃ f1, f = f1 + 1 := ⟨f - 1, by omega⟩
    obtain ⟨s2, cb, hcb, hrun, hfl⟩ := flush_level hh pushOK flushOK hpush hflush s0 s0 st st B f1
      s0.LinkedTree c lb hwf hB (by omega) Reach.here hc hlb (Flushed_refl hh s0 hr.linked_root)
      (by simp)
    refine ⟨s2, [] ++ [c], ?_, hfl, Path.snoc Path.nil (hwf.child_parent _ c hpn hc)⟩
    rw [hrun, blocksOf_snoc s0 [] c cb hcb]
    simp [blocksOf]
  | succ j ih =>
    intro p c f hj hpn hc hf
    obtain ⟨f1, rfl⟩ : ∃ f1, f = f1 + 1 := ⟨f - 1, by omega⟩
    cases hpp : (s0.heap p).Parent with
    | none => simp [ancN, hpp] at hj
    | some q =>
      have hj2 : ancN s0 j q = some s0.LinkedTree := by simpa [ancN, hpp] using hj
      have hq := hr.parent_child p q hpn hpp
      have hpne : p ≠ s0.LinkedTree := by
        intro e; rw [e, hr.linked_root] at hpp; cases hpp
      obtain ⟨s1, path1, hrun1, hfl1, hpath1⟩ := ih q p f1 hj2 hq.1 hq.2 (by omega)
      obtain ⟨pb, hpb, _⟩ := hwf.child_indexed q p hq.1 hq.2
      have hreach : Reach s0 s0.LinkedTree p :=
        anc_reach hh s0 hr _ p (Anc_of_ancN s0 (j + 1) p _ hj) hpn
      obtain ⟨s2, cb, hcb, hrun, hfl⟩ := flush_level hh pushOK flushOK hpush hflush s0 s1 st
        { chain := st.chain ++ blocksOf s0 path1,
          flushed := st.flushed ++ (blocksOf s0 path1).map hh } B f1
        p c pb hwf hB (by omega) hreach hc hpb hfl1
        (by simp only [hpne, ne_eq, not_false_eq_true, if_true, hpp, hrun1, Option.map_some'])
      refine ⟨s2, path1 ++ [c], ?_, hfl, Path.snoc hpath1 (hwf.child_parent _ c hpn hc)⟩
      rw [hrun, blocksOf_snoc s0 path1 c cb hcb]
      simp

/-- After `flush` the tree below the single root is the one before it. -/
theorem Flushed_single (hh : Block → Hash) (s0 s1 : BlockCache) (t : Ptr)
    (hwf : WF hh s0) (hr : Rooted hh s0) (h1 : Flushed hh s0 t s1) :
    (∀ m, Reach s0 s0.SingleTree m →
      (s1.heap m).Parent = (s0.heap m).Parent ∧ (s1.heap m).Children = (s0.heap m).Children) ∧
    (∀ m, Reach s1 s0.SingleTree m ↔ Reach s0 s0.SingleTree m) := by
  have hout : ∀ m, Reach s0 s0.SingleTree m →
      (s1.heap m).Parent = (s0.heap m).Parent ∧ (s1.heap m).Children = (s0.heap m).Children :=
    fun m hm => h1.outside m (fun hl => roots_disjoint hh s0 hwf hr m hl hm)
  exact ⟨hout, reach_congr s0 s1 _ (fun m hm => (hout m hm).2)⟩

theorem Flushed_index_sub (hh : Block → Hash) (s s2 : BlockCache) (t : Ptr)
    (h : Flushed hh s t s2) (k : Hash) :
    mapLoad s2.hash2node k = none ∨ mapLoad s2.hash2node k = mapLoad s.hash2node k := by
  by_cases hex : ∃ m b, Reach s s.LinkedTree m ∧ ¬ Reach s t m ∧ (s.heap m).Block = some b ∧
      hh b = k
  · obtain ⟨m, b, h1, h2, h3, h4⟩ := hex
    left; rw [← h4]; exact h.index_gone m b h1 h2 h3
  · right
    apply h.index_kept
    intro m b h1 h2 h3 h4
    exact hex ⟨m, b, h1, h2, h3, h4⟩

/-- The method `delSingle` after `flush`: it deletes some of the children of
the single root, with all that is below them. -/
theorem delSingle_spec (hh : Block → Hash) (s0 s1 : BlockCache) (t : Ptr) (B f : Nat)
    (hwf : WF hh s0) (hr : Rooted hh s0) (hB : ∀ n, n < s0.next → Height s0 B n) (hf : B < f)
    (h1 : Flushed hh s0 t s1) :
    ∃ s2 sel, delSingle hh f s1 = some s2 ∧ Pruned hh s1 s0.SingleTree sel s2 := by
  obtain ⟨hout, hreach⟩ := Flushed_single hh s0 s1 t hwf hr h1
  have hst : s1.SingleTree = s0.SingleTree := h1.single_eq
  by_cases hh0 : (s1.heap s1.LinkedTree).Number % DelSingleBlockTime ≠ 0
  · refine ⟨s1, fun _ => false, ?_, Pruned_refl hh s1 _ _ (fun _ _ => rfl)⟩
    simp only [delSingle]
    rw [if_pos hh0]
  · have hch : ∀ m, Reach s0 s0.SingleTree m → (s1.heap m).Children = (s0.heap m).Children :=
      fun m hm => (hout m hm).2
    have hpar1 : ∀ q x, Reach s1 s0.SingleTree q → x ∈ (s1.heap q).Children →
        (s1.heap x).Parent = some q := by
      intro q x hq hx
      have hq0 := (hreach q).mp hq
      rw [hch q hq0] at hx
      rw [(hout x (Reach.child hq0 hx)).1]
      exact parent_below hh s0 hwf _ hwf.single_lt q x hq0 hx
    have hblock1 : ∀ x m, x ∈ (s1.heap s0.SingleTree).Children → Reach s1 x m →
        ∃ b, (s1.heap m).Block = some b := by
      intro x m hx hm
      rw [(h1.fields m).1]
      have hx0 : x ∈ (s0.heap s0.SingleTree).Children := by
        rw [← hch _ Reach.here]; exact hx
      have hm0 : Reach s0 x m :=
        (reach_congr s0 s1 x (fun m2 hm2 => hch m2 (reach_of_child s0 _ x m2 hx0 hm2)) m).mp hm
      have hxn := hwf.child_lt _ x hwf.single_lt hx0
      rcases (reach_alloc hh s0 x m hwf hxn hm0).2 with e | ⟨q, hq, hc⟩
      · rw [e]
        obtain ⟨b, hb, _⟩ := hwf.child_indexed _ x hwf.single_lt hx0
        exact ⟨b, hb⟩
      · obtain ⟨b, hb, _⟩ := hwf.child_indexed q m hq hc
        exact ⟨b, hb⟩
    have hH1 : Height s1 (B + 1) s0.SingleTree :=
      Height_congr s0 s1 (B + 1) _ hch (Height_mono s0 B _ (hB _ hwf.single_lt))
    have hk1 : Kids s1 s0.SingleTree B := Kids_of s1 _ B hpar1 hblock1 hH1
    obtain ⟨s2, hrun, hp2⟩ := rangeChildren_prunes hh f B s0.SingleTree
      (fun x => decide ((s1.heap x).Number ≤ (s1.heap s1.LinkedTree).Number))
      (fun s2 bcn => if (s2.heap bcn).Number ≤ (s1.heap s1.LinkedTree).Number
        then Del hh f s2 (some bcn) else some s2)
      (fun s2 x ht hk hpar => Del_spec hh B f hf s2 x ht hk hpar) s1
      (fun s2 x hnum => by
        show (if (s2.heap x).Number ≤ _ then _ else _) = _
        rw [hnum x]
        by_cases hx : (s1.heap x).Number ≤ (s1.heap s1.LinkedTree).Number <;> simp [hx])
      (s1.heap s0.SingleTree).Children s1 (fun _ => rfl) hk1
    refine ⟨s2, _, ?_, hp2⟩
    simp only [delSingle]
    rw [if_neg hh0, hst]
    exact hrun

/-- What `Flush` of a proper descendant `t` of the linked root does when every
push and every state flush succeeds: `flush` moves the linked root to `t`
and pushes the blocks of the path, then `delSingle` prunes below the single
root. -/
theorem Flush_spec (hh : Block → Hash) (pushOK : Block → Bool) (flushOK : Hash → Bool)
    (hpush : ∀ b, pushOK b = true) (hflush : ∀ h, flushOK h = true)
    (s0 : BlockCache) (st : Store) (lb : Block) (t : Ptr)
    (hwf : WF hh s0) (hr : Rooted hh s0)
    (hlb : (s0.heap s0.LinkedTree).Block = some lb)
    (ht : Reach s0 s0.LinkedTree t) (hne : t ≠ s0.LinkedTree) :
    ∃ f0, ∀ f, f0 ≤ f → ∃ s1 s2 sel path,
      Flush hh pushOK flushOK f (s0, st) (some t) =
        some (s2, { chain := st.chain ++ blocksOf s0 path,
                    flushed := st.flushed ++ (blocksOf s0 path).map hh }) ∧
      Flushed hh s0 t s1 ∧ Pruned hh s1 s0.SingleTree sel s2 ∧
      Path s0 s0.LinkedTree t path := by
  obtain ⟨B, hB⟩ := Height_of_Rooted hh s0 hwf hr
  rcases reach_last s0 _ t ht with e | ⟨p, hp, hc⟩
  · exact absurd e hne
  have hpn : p < s0.next := (reach_alloc hh s0 _ p hwf hwf.linked_lt hp).1
  obtain ⟨j, hj⟩ := ancN_of_Anc s0 p _ (reach_anc hh s0 hwf _ p hwf.linked_lt hp)
  refine ⟨j + B + 2, fun f hf => ?_⟩
  obtain ⟨s1, path, hrun, hfl, hpath⟩ := flush_spec hh pushOK flushOK hpush hflush s0 st B lb
    hwf hr hB hlb j p t f hj hpn hc (by omega)
  obtain ⟨s2, sel, hds, hpr⟩ := delSingle_spec hh s0 s1 t B f hwf hr hB (by omega) hfl
  refine ⟨s1, s2, sel, path, ?_, hfl, hpr, hpath⟩
  simp only [Flush, hwf.child_parent p t hpn hc, hrun, hds]

theorem Path_anc (s : BlockCache) (a t : Ptr) (l : List Ptr) (h : Path s a t l) : Anc s t a := by
  induction h with
  | nil => exact Anc.here _
  | snoc _ hp ih => exact Anc.up hp ih

/-- The path from the linked root of a well-formed rooted cache to an
allocated node: its nodes are allocated nodes of the linked tree above the
end node, no node and no block occurs twice, and every node holds a block. -/
theorem Path_facts (hh : Block → Hash) (s : BlockCache) (hwf : WF hh s) (hr : Rooted hh s)
    (t : Ptr) (l : List Ptr) (h : Path s s.LinkedTree t l) :
    t < s.next →
      (∀ m, m ∈ l → m < s.next ∧ Reach s s.LinkedTree m ∧ Anc s t m ∧
        ∃ b, (s.heap m).Block = some b) ∧
      l.Nodup ∧ (blocksOf s l).Nodup ∧ (blocksOf s l).length = l.length := by
  obtain ⟨B, hB⟩ := Height_of_Rooted hh s hwf hr
  induction h with
  | nil =>
    intro _
    exact ⟨fun m hm => (by cases hm), List.nodup_nil, by simp [blocksOf], by simp [blocksOf]⟩
  | @snoc p t l hpath hp ih =>
    intro ht
    have hpc := hr.parent_child t p ht hp
    obtain ⟨hall, hnd, hbnd, hlen⟩ := ih hpc.1
    obtain ⟨tb, htb, htidx⟩ := hwf.child_indexed p t hpc.1 hpc.2
    have hpr : Reach s s.LinkedTree p := anc_reach hh s hr _ p (Path_anc s _ p l hpath) hpc.1
    have htl : t ∉ l := by
      intro hmem
      obtain ⟨_, _, hanc, _⟩ := hall t hmem
      exact Height_no_cycle s B p t (hB p hpc.1) hpc.2 (anc_reach hh s hr t p hanc hpc.1)
    have hmem : ∀ m, m ∈ l ++ [t] → m < s.next ∧ Reach s s.LinkedTree m ∧ Anc s t m ∧
        ∃ b, (s.heap m).Block = some b := by
      intro m hm
      rcases List.mem_append.mp hm with h1 | h1
      · obtain ⟨a1, a2, a3, a4⟩ := hall m h1
        exact ⟨a1, a2, Anc.up hp a3, a4⟩
      · simp only [List.mem_singleton] at h1
        subst h1
        exact ⟨ht, Reach.child hpr hpc.2, Anc.here _, tb, htb⟩
    refine ⟨hmem, ?_, ?_, ?_⟩
    · exact List.nodup_append.mpr
        ⟨hnd, List.nodup_singleton t, fun x hx hx2 => by
          simp only [List.mem_singleton] at hx2; subst hx2; exact htl hx⟩
    · rw [blocksOf_snoc s l t tb htb]
      refine List.nodup_append.mpr ⟨hbnd, List.nodup_singleton tb, fun x hx hx2 => ?_⟩
      simp only [List.mem_singleton] at hx2
      subst hx2
      obtain ⟨m, hm, hmb⟩ := (mem_blocksOf s l x).mp hx
      obtain ⟨_, a2, _, _⟩ := hall m hm
      have := reach_indexed hh s m x hwf (Or.inl a2) hmb
      rw [htidx] at this
      cases this
      exact htl hm
    · rw [blocksOf_snoc s l t tb htb]
      simp [hlen]

/-- The sample run for the flush claims: blocks 6, 7 and a second block 6 are
added to the fresh cache; the linked root is node 0 and holds `libBlock`, node
3 (block 7) lies below node 2 (block 6) below the root, and node 4 (the second
block 6) is a sibling of node 2. -/
theorem sample_fork (s : BlockCache)
    (hs : addAll sampleHash freshCache [block6, block7, block6b] = some s) :
    s.LinkedTree = 0 ∧ (s.heap 0).Block = some libBlock ∧ (s.heap 0).Children = [2, 4] ∧
      (s.heap 2).Children = [3] := by
  have e : (addAll sampleHash freshCache [block6, block7, block6b]).map
      (fun s => (s.LinkedTree, (s.heap 0).Block, (s.heap 0).Children, (s.heap 2).Children)) =
      some (0, some libBlock, [2, 4], [3]) := by rfl
  rw [hs] at e
  simp only [Option.map_some', Option.some.injEq, Prod.mk.injEq] at e
  exact ⟨e.1, e.2.1, e.2.2.1, e.2.2.2⟩

/-- The sample run for the flush claims satisfies both invariants. -/
theorem sample_fork_inv :
    ∃ s, addAll sampleHash freshCache [block6, block7, block6b] = some s ∧
      WF sampleHash s ∧ Rooted sampleHash s :=
  Rooted_addAll_fresh [block6, block7, block6b]

/-- C17: in every cache state that satisfies the invariants of the package
(`Sound` and `Layered`, which `NewBlockCache` establishes and `Add`, `Link`,
`Del` and `Flush` keep) and whose linked root holds a block, let `t` be a
proper descendant of the linked root: `path` is the path of `Parent` links
from the linked root (exclusive) to `t` (inclusive), and it is not empty.  If
every push to the chain store and every flush of the state database succeeds,
then with enough fuel `Flush` of `t` returns, and afterwards `LinkedTree` is
`t` and the parent of `t` is nil. -/
theorem Flush_moves_linked_root (hh : Block → Hash) (rank : Hash → Nat)
    (pushOK : Block → Bool) (flushOK : Hash → Bool) (s : BlockCache) (st : Store) (lb : Block)
    (t : Ptr) (path : List Ptr)
    (hs : Sound hh s) (hl : Layered rank hh s) (hlb : (s.heap s.LinkedTree).Block = some lb)
    (ht : Path s s.LinkedTree t path) (hne : path ≠ [])
    (hpush : ∀ b, pushOK b = true) (hflush : ∀ h, flushOK h = true) :
    ∃ f0, ∀ f, f0 ≤ f → ∃ w, Flush hh pushOK flushOK f (s, st) (some t) = some w ∧
      w.1.LinkedTree = t ∧ (w.1.heap t).Parent = none := by
  obtain ⟨B, hB⟩ := Height_of_Layered rank hh s hs hl
  refine ⟨path.length + B + 1, fun f hf => ?_⟩
  obtain ⟨w2, h1, h2, h3, _, _⟩ :=
    Flush_succeeds hh pushOK flushOK hpush hflush (s, st) B lb hs hB hlb t path ht hne f hf
  exact ⟨w2, h1, h2, h3⟩

/-- Witness of C17: the sample cache that has been flushed to block 6 and has
received block 8 since is flushed to node 4 (block 8), two levels below its
linked root, node 2. -/
theorem Flush_moves_linked_root_witness :
    ∃ f0, ∀ f, f0 ≤ f → ∃ w,
      Flush sampleHash (fun _ => true) (fun _ => true) f (flushedCache8, emptyStore) (some 4)
        = some w ∧
      w.1.LinkedTree = 4 ∧ (w.1.heap 4).Parent = none :=
  Flush_moves_linked_root sampleHash sampleRank (fun _ => true) (fun _ => true)
    flushedCache8 emptyStore block6 4 [3, 4]
    (Built_sound _ _ _ _ Built_flushedCache8).1 (Built_sound _ _ _ _ Built_flushedCache8).2.1
    rfl (Path.snoc (Path.snoc Path.nil rfl) rfl) (by simp) (fun _ => rfl) (fun _ => rfl)

/-- C18 (counterexample): blocks 6 and 7 are added to the fresh cache (nodes
2 and 3, node 3 below node 2 below the linked root, node 0) and the cache is
flushed to node 3 while the chain store refuses block 7.  The path from the
linked root to node 3 holds block 6 and block 7; the chain store has received
block 6 alone. -/
theorem Flush_with_refused_block_stores_less :
    (addAll sampleHash freshCache [block6, block7]).map
      (fun s => (s.LinkedTree, (s.heap 3).Parent, (s.heap 3).Block,
        (s.heap 2).Parent, (s.heap 2).Block)) =
      some (0, some 2, some block7, some 0, some block6) ∧
    ((addAll sampleHash freshCache [block6, block7]).bind
        (fun s => Flush sampleHash (fun b => b.Head.Number != 7) (fun _ => true) 3
          (s, emptyStore) (some 3))).map
      (fun w => w.2.chain) = some [block6] := by
  constructor <;> rfl

/-- C18 (amended): in every cache state that satisfies the invariants of the
package and whose linked root holds a block, let `t` be a proper descendant of
the linked root and `path` the nonempty path of `Parent` links from the linked
root (exclusive) to `t` (inclusive).  If every push to the chain store and
every flush of the state database succeeds, then with enough fuel `Flush` of
`t` returns, and the chain store has received, after what it held, exactly the
blocks of the nodes of the path, every block after the block of its parent; no
node and no block occurs twice on the path, every node of it holds a block,
and the chain store holds each of these blocks. -/
theorem Flush_pushes_path_blocks (hh : Block → Hash) (rank : Hash → Nat)
    (pushOK : Block → Bool) (flushOK : Hash → Bool) (s : BlockCache) (st : Store) (lb : Block)
    (t : Ptr) (path : List Ptr)
    (hs : Sound hh s) (hl : Layered rank hh s) (hlb : (s.heap s.LinkedTree).Block = some lb)
    (ht : Path s s.LinkedTree t path) (hne : path ≠ [])
    (hpush : ∀ b, pushOK b = true) (hflush : ∀ h, flushOK h = true) :
    ∃ f0, ∀ f, f0 ≤ f → ∃ w, Flush hh pushOK flushOK f (s, st) (some t) = some w ∧
      w.2.chain = st.chain ++ blocksOf s path ∧
      path.Nodup ∧ (blocksOf s path).Nodup ∧ (blocksOf s path).length = path.length ∧
      ∀ m, m ∈ path → ∃ b, (s.heap m).Block = some b ∧ b ∈ w.2.chain := by
  obtain ⟨B, hB⟩ := Height_of_Layered rank hh s hs hl
  obtain ⟨hall, hnd, hbnd, hlen⟩ := Path_layered rank hh s hs hl _ t path ht
  refine ⟨path.length + B + 1, fun f hf => ?_⟩
  obtain ⟨w2, h1, _, _, h4, _⟩ :=
    Flush_succeeds hh pushOK flushOK hpush hflush (s, st) B lb hs hB hlb t path ht hne f hf
  refine ⟨w2, h1, h4, hnd, hbnd, hlen, fun m hm => ?_⟩
  obtain ⟨b, hb, _⟩ := hall m hm
  refine ⟨b, hb, ?_⟩
  rw [h4]
  exact List.mem_append_right _ ((mem_blocksOf s path b).mpr ⟨m, hm, hb⟩)

/-- Witness of C18: the sample cache that has been flushed to block 6 and has
received block 8 since is flushed to node 4; the path is node 3, node 4. -/
theorem Flush_pushes_path_blocks_witness :
    ∃ f0, ∀ f, f0 ≤ f → ∃ w,
      Flush sampleHash (fun _ => true) (fun _ => true) f (flushedCache8, emptyStore) (some 4)
        = some w ∧
      w.2.chain = emptyStore.chain ++ blocksOf flushedCache8 [3, 4] ∧
      [3, 4].Nodup ∧ (blocksOf flushedCache8 [3, 4]).Nodup ∧
      (blocksOf flushedCache8 [3, 4]).length = [3, 4].length ∧
      ∀ m, m ∈ [3, 4] → ∃ b, (flushedCache8.heap m).Block = some b ∧ b ∈ w.2.chain :=
  Flush_pushes_path_blocks sampleHash sampleRank (fun _ => true) (fun _ => true)
    flushedCache8 emptyStore block6 4 [3, 4]
    (Built_sound _ _ _ _ Built_flushedCache8).1 (Built_sound _ _ _ _ Built_flushedCache8).2.1
    rfl (Path.snoc (Path.snoc Path.nil rfl) rfl) (by simp) (fun _ => rfl) (fun _ => rfl)

/-- In a cache that satisfies the representation invariant and the tree
invariant and whose linked root holds a block, let `t` be a node below the
linked root other than the root itself.  If every push to the chain store and
every flush of the state database succeeds, then with enough fuel `Flush` of
`t` returns, and afterwards a node of the old linked tree is the value of an
index entry exactly if it was reachable from `t` before the call; every such
node still holds its block and is indexed under the head hash of that block. -/
theorem Flush_keeps_index_of_subtree (hh : Block → Hash) (pushOK : Block → Bool)
    (flushOK : Hash → Bool) (s : BlockCache) (st : Store) (lb : Block) (t : Ptr)
    (hwf : WF hh s) (hr : Rooted hh s) (hlb : (s.heap s.LinkedTree).Block = some lb)
    (ht : Reach s s.LinkedTree t) (hne : t ≠ s.LinkedTree)
    (hpush : ∀ b, pushOK b = true) (hflush : ∀ h, flushOK h = true) :
    ∃ f0, ∀ f, f0 ≤ f → ∃ w, Flush hh pushOK flushOK f (s, st) (some t) = some w ∧
      (∀ m, Reach s s.LinkedTree m → ((∃ h, (hmget w.1 h).1 = some m) ↔ Reach s t m)) ∧
      (∀ m, Reach s t m → ∃ b, (s.heap m).Block = some b ∧ (w.1.heap m).Block = some b ∧
        (hmget w.1 (hh b)).1 = some m) := by
  obtain ⟨f0, h0⟩ := Flush_spec hh pushOK flushOK hpush hflush s st lb t hwf hr hlb ht hne
  refine ⟨f0, fun f hf => ?_⟩
  obtain ⟨s1, s2, sel, path, hrun, hfl, hpr, _⟩ := h0 f hf
  obtain ⟨hout, hreach⟩ := Flushed_single hh s s1 t hwf hr hfl
  have htn : t < s.next := (reach_alloc hh s _ t hwf hwf.linked_lt ht).1
  have hkeep : ∀ m, Reach s t m → ∃ b, (s.heap m).Block = some b ∧
      (s2.heap m).Block = some b ∧ (hmget s2 (hh b)).1 = some m := by
    intro m hm
    have hml : Reach s s.LinkedTree m := reach_trans s _ t m ht hm
    have hmne : m ≠ s.LinkedTree := by
      intro e
      rcases reach_last s _ t ht with e2 | ⟨p, hp, hc⟩
      · exact hne e2
      · have hpn := (reach_alloc hh s _ p hwf hwf.linked_lt hp).1
        have := hwf.child_parent p t hpn hc
        have ha : Anc s s.LinkedTree t := by
          rw [← e]; exact reach_anc hh s hwf t m htn hm
        have := anc_of_root s _ _ hr.linked_root ha
        exact hne this
    obtain ⟨b, hb, hidx⟩ : ∃ b, (s.heap m).Block = some b ∧
        mapLoad s.hash2node (hh b) = some m := by
      rcases (reach_alloc hh s _ m hwf hwf.linked_lt hml).2 with e | ⟨p, hp, hc⟩
      · exact absurd e hmne
      · exact hwf.child_indexed p m hp hc
    refine ⟨b, hb, by rw [(hpr.fields m).1, (hfl.fields m).1]; exact hb, ?_⟩
    rw [hmget_fst, hpr.index_kept (hh b) ?_, hfl.index_kept (hh b) ?_]
    · exact hidx
    · intro m2 b2 hm2 hnt hb2 e
      have := reach_indexed hh s m2 b2 hwf (Or.inl hm2) hb2
      rw [e, hidx] at this
      cases this
      exact hnt hm
    · intro x m2 b2 hx _ hxm hb2 e
      rw [(hfl.fields m2).1] at hb2
      have hm2 : Reach s s.SingleTree m2 := (hreach m2).mp (reach_of_child s1 _ x m2 hx hxm)
      have := reach_indexed hh s m2 b2 hwf (Or.inr hm2) hb2
      rw [e, hidx] at this
      cases this
      exact roots_disjoint hh s hwf hr m hml hm2
  refine ⟨_, hrun, ?_, hkeep⟩
  intro m hm
  constructor
  · rintro ⟨h, hget⟩
    by_contra hnt
    have h2 : mapLoad s2.hash2node h = some m := by rw [← hmget_fst]; exact hget
    have h1 : mapLoad s1.hash2node h = some m := by
      rcases Pruned_index_sub hh s1 s2 _ sel hpr h with e | e
      · rw [e] at h2; cases h2
      · rw [← e]; exact h2
    have h0 : mapLoad s.hash2node h = some m := by
      rcases Flushed_index_sub hh s s1 t hfl h with e | e
      · rw [e] at h1; cases h1
      · rw [← e]; exact h1
    obtain ⟨b, hb, hhb⟩ := hwf.index_block h m h0
    have := hfl.index_gone m b hm hnt hb
    rw [hhb, h1] at this
    cases this
  · intro hm2
    obtain ⟨b, _, _, hidx⟩ := hkeep m hm2
    exact ⟨hh b, hidx⟩

/-- C19 (the code at the failing input): the sample cache has been flushed to
node 3 while the chain store refused block 6, so node 0, the former linked
root, is still indexed under the head hash of block 5.  Block 8 arrives (node
4 below node 3) and the cache is flushed to node 4, the chain store and the
state database accepting everything.  Afterwards the linked root is node 4,
and the index still holds node 0, of type `Linked`, which is neither node 4 nor
below it. -/
theorem old_root_stays_indexed_after_Flush :
    (gapCache.1.LinkedTree, gapCache.1.hash2node.map Prod.snd, gapCache.2.chain) =
      (3, [0, 3], [block7]) ∧
    ((Add sampleHash gapCache.1 block8).bind
        (fun r => Flush sampleHash (fun _ => true) (fun _ => true) 5 (r.cache, gapCache.2)
          r.node)).map
      (fun w => (w.1.LinkedTree, w.1.hash2node.map Prod.snd,
        (hmget w.1 (sampleHash libBlock)).1, (w.1.heap 0).Type_, (w.1.heap 4).Children,
        w.2.chain)) =
      some (4, [0, 4], some 0, BCNType.Linked, [], [block7, block8]) := by
  constructor <;> rfl

/-! ## `Flush` when a store fails, and `delSingle` (C21, C22) -/

theorem Swept_refl (s : BlockCache) : Swept s s.LinkedTree s :=
  ⟨rfl, fun _ => ⟨rfl, rfl, rfl⟩, fun _ _ => ⟨rfl, fun _ => rfl⟩, fun _ _ => ⟨rfl, rfl⟩⟩

theorem Swept_of_Flushed (hh : Block → Hash) (s s2 : BlockCache) (t : Ptr)
    (h : Flushed hh s t s2) : Swept s t s2 :=
  ⟨h.single_eq, h.fields, h.below, h.outside⟩

/-- One level of `flush` whatever the stores answer: the loop that deletes
the children of `p` other than `c`, and the cache after the move of the linked
root to `c`, which takes place when the block of `c` is stored. -/
theorem sweep_level (hh : Block → Hash) (s0 s1 : BlockCache) (B f : Nat) (p c : Ptr) (pb : Block)
    (hwf : WF hh s0) (hB : ∀ n, n < s0.next → Height s0 B n) (hf : B < f)
    (hp : Reach s0 s0.LinkedTree p) (hc : c ∈ (s0.heap p).Children)
    (hpb : (s0.heap p).Block = some pb) (h1 : Swept s0 p s1) :
    ∃ s2 cb,
      rangeChildren (fun s child => if child = c then some s else Del hh f s (some child))
        p (s1.heap p).Children s1 = some s2 ∧
      (s2.heap c).Block = some cb ∧ (s0.heap c).Block = some cb ∧
      (s2.heap p).Block = some pb ∧ s2.LinkedTree = s1.LinkedTree ∧
      Swept s0 c s2 ∧
      Swept s0 c
        { ((hmdel s2 (hh pb)).store c { (hmdel s2 (hh pb)).heap c with Parent := none }) with
          LinkedTree := c } := by
  have hpn : p < s0.next := (reach_alloc hh s0 _ p hwf hwf.linked_lt hp).1
  have hch1 : ∀ m, Reach s0 p m → (s1.heap m).Children = (s0.heap m).Children :=
    fun m hm => (h1.below m hm).1
  have hreach1 : ∀ m, Reach s1 p m ↔ Reach s0 p m := reach_congr s0 s1 p hch1
  have hne_p : ∀ q x, Reach s0 p q → x ∈ (s0.heap q).Children → x ≠ p := by
    intro q x hq hx e
    rw [e] at hx
    exact Height_no_cycle s0 B q p (hB q (reach_alloc hh s0 p q hwf hpn hq).1) hx hq
  have hpar1 : ∀ q x, Reach s1 p q → x ∈ (s1.heap q).Children →
      (s1.heap x).Parent = some q := by
    intro q x hq hx
    have hq0 := (hreach1 q).mp hq
    rw [hch1 q hq0] at hx
    rw [(h1.below x (Reach.child hq0 hx)).2 (hne_p q x hq0 hx)]
    exact parent_below hh s0 hwf p hpn q x hq0 hx
  have hblk0 : ∀ m, Reach s0 p m → ∃ b, (s0.heap m).Block = some b := by
    intro m hm
    rcases (reach_alloc hh s0 p m hwf hpn hm).2 with e | ⟨q, hq, hx⟩
    · rw [e]; exact ⟨pb, hpb⟩
    · obtain ⟨b, hb, _⟩ := hwf.child_indexed q m hq hx
      exact ⟨b, hb⟩
  have hblock1 : ∀ x m, x ∈ (s1.heap p).Children → Reach s1 x m →
      ∃ b, (s1.heap m).Block = some b := by
    intro x m hx hm
    rw [(h1.fields m).1]
    exact hblk0 m ((hreach1 m).mp (reach_of_child s1 p x m hx hm))
  have hH1 : Height s1 (B + 1) p :=
    Height_congr s0 s1 (B + 1) p hch1 (Height_mono s0 B p (hB p hpn))
  have hk1 : Kids s1 p B := Kids_of s1 p B hpar1 hblock1 hH1
  obtain ⟨s2, hrun, hp2⟩ := rangeChildren_prunes hh f B p (fun x => decide (x ≠ c))
    (fun s child => if child = c then some s else Del hh f s (some child))
    (fun s2 x ht hk hpar => Del_spec hh B f hf s2 x ht hk hpar) s1
    (fun s2 x _ => by by_cases hx : x = c <;> simp [hx])
    (s1.heap p).Children s1 (fun _ => rfl) hk1
  have hpr : Pruned hh s1 p (fun x => decide (x ≠ c)) s2 :=
    Pruned_congr hh s1 s2 p _ _ (fun x hx => by simp [hx]) hp2
  have hreachx : ∀ x m, x ∈ (s0.heap p).Children → (Reach s1 x m ↔ Reach s0 x m) :=
    fun x m hx => reach_congr s0 s1 x (fun m2 hm2 => hch1 m2 (reach_of_child s0 p x m2 hx hm2)) m
  have hmem1 : ∀ x, x ∈ (s1.heap p).Children ↔ x ∈ (s0.heap p).Children := by
    intro x; rw [hch1 p Reach.here]
  obtain ⟨cb, hcb, _⟩ := hwf.child_indexed p c hpn hc
  have hcp : ¬ Reach s0 c p := Height_no_cycle s0 B p c (hB p hpn) hc
  have hsib : ∀ x m, x ∈ (s1.heap p).Children → decide (x ≠ c) = true → Reach s1 x m →
      ¬ Reach s0 c m := by
    intro x m hx hs hxm hcm
    have hx0 := (hmem1 x).mp hx
    have hne : c ≠ x := fun e => by simp [e] at hs
    exact siblings_disjoint s0 B p c x m (parent_below hh s0 hwf p hpn) (hB p hpn) hc hx0 hne hcm
      ((hreachx x m hx0).mp hxm)
  have hheap : ∀ m, m ≠ c →
      (({ ((hmdel s2 (hh pb)).store c { (hmdel s2 (hh pb)).heap c with Parent := none }) with
          LinkedTree := c } : BlockCache).heap m) = s2.heap m := by
    intro m hm
    simp [hmdel, BlockCache.store, Function.update, hm]
  have hheapc :
      (({ ((hmdel s2 (hh pb)).store c { (hmdel s2 (hh pb)).heap c with Parent := none }) with
          LinkedTree := c } : BlockCache).heap c) = { s2.heap c with Parent := none } := by
    simp [hmdel, BlockCache.store, Function.update]
  -- the cache after the loop
  have hbelow2 : ∀ m, Reach s0 c m → (s2.heap m).Children = (s0.heap m).Children ∧
      (s2.heap m).Parent = (s0.heap m).Parent := by
    intro m hm
    have hm_p : Reach s0 p m := reach_of_child s0 p c m hc hm
    have hmp : m ≠ p := fun e => hcp (e ▸ hm)
    have hout := hpr.outside m hmp (fun x hx hs hxm => hsib x m hx hs hxm hm)
    have hb := h1.below m hm_p
    exact ⟨hout.2.trans hb.1, hout.1.trans (hb.2 hmp)⟩
  have hout2 : ∀ m, ¬ Reach s0 s0.LinkedTree m →
      (s2.heap m).Parent = (s0.heap m).Parent ∧ (s2.heap m).Children = (s0.heap m).Children := by
    intro m hm
    have hmp : m ≠ p := fun e => hm (e ▸ hp)
    have hout := hpr.outside m hmp (fun x hx _ hxm =>
      hm (reach_trans s0 _ p m hp (reach_of_child s0 p x m ((hmem1 x).mp hx)
        ((hreachx x m ((hmem1 x).mp hx)).mp hxm))))
    have ho := h1.outside m hm
    exact ⟨hout.1.trans ho.1, hout.2.trans ho.2⟩
  have hfields2 : ∀ m, (s2.heap m).Block = (s0.heap m).Block ∧
      (s2.heap m).Number = (s0.heap m).Number ∧ (s2.heap m).Type_ = (s0.heap m).Type_ := by
    intro m
    have a := hpr.fields m
    have b := h1.fields m
    exact ⟨a.1.trans b.1, a.2.1.trans b.2.1, a.2.2.trans b.2.2⟩
  refine ⟨s2, cb, hrun, by rw [(hfields2 c).1]; exact hcb, hcb,
    by rw [(hfields2 p).1]; exact hpb, hpr.linked_eq, ?_, ?_⟩
  · exact ⟨hpr.single_eq.trans h1.single_eq, hfields2,
      fun m hm => ⟨(hbelow2 m hm).1, fun _ => (hbelow2 m hm).2⟩, hout2⟩
  · constructor
    · show s2.SingleTree = s0.SingleTree
      exact hpr.single_eq.trans h1.single_eq
    · intro m
      by_cases hm : m = c
      · subst hm
        rw [hheapc]
        exact hfields2 m
      · rw [hheap m hm]
        exact hfields2 m
    · intro m hm
      constructor
      · by_cases hmc : m = c
        · subst hmc
          rw [hheapc]
          exact (hbelow2 m hm).1
        · rw [hheap m hmc]; exact (hbelow2 m hm).1
      · intro hmc
        rw [hheap m hmc]; exact (hbelow2 m hm).2
    · intro m hm
      have hmc : m ≠ c := fun e => hm (e ▸ Reach.child hp hc)
      rw [hheap m hmc]
      exact hout2 m hm

theorem lastStored_snoc (hh : Block → Hash) (pushOK : Block → Bool) (flushOK : Hash → Bool)
    (s : BlockCache) (r : Ptr) (path : List Ptr) (c : Ptr) :
    lastStored hh pushOK flushOK s r (path ++ [c]) =
      if stored hh pushOK flushOK s c then c else lastStored hh pushOK flushOK s r path := by
  simp [lastStored, List.foldl_append]

/-- One call of `flush` whose inner call has returned, whatever the stores
answer: the linked root moves to `c` exactly if the block of `c` is stored. -/
theorem flush_level_gen (hh : Block → Hash) (pushOK : Block → Bool) (flushOK : Hash → Bool)
    (s0 s1 : BlockCache) (st st1 : Store) (B f : Nat) (p c : Ptr) (pb : Block)
    (hwf : WF hh s0) (hB : ∀ n, n < s0.next → Height s0 B n) (hf : B < f)
    (hp : Reach s0 s0.LinkedTree p) (hc : c ∈ (s0.heap p).Children)
    (hpb : (s0.heap p).Block = some pb) (h1 : Swept s0 p s1)
    (hinner : (if p ≠ s0.LinkedTree then
        (flush hh pushOK flushOK f (s0, st) (s0.heap p).Parent p).map Prod.fst
      else some (s0, st)) = some (s1, st1)) :
    ∃ s3 st3 e, flush hh pushOK flushOK (f + 1) (s0, st) (some p) c = some ((s3, st3), e) ∧
      Swept s0 c s3 ∧
      s3.LinkedTree = if stored hh pushOK flushOK s0 c then c else s1.LinkedTree := by
  obtain ⟨s2, cb, hrun, hcb2, hcb, hpb2, hlt, hsw, hsw2⟩ :=
    sweep_level hh s0 s1 B f p c pb hwf hB hf hp hc hpb h1
  have hst : stored hh pushOK flushOK s0 c = (pushOK cb && flushOK (hh cb)) := by
    simp [stored, hcb]
  by_cases h1p : pushOK cb = true
  · by_cases h2p : flushOK (hh cb) = true
    · refine ⟨_, { chain := st1.chain ++ [cb], flushed := st1.flushed ++ [hh cb] }, none,
        ?_, hsw2, ?_⟩
      · simp only [flush]
        rw [hinner]
        simp only [hrun, hcb2, h1p, h2p, hpb2, if_true]
      · simp [hst, h1p, h2p]
    · refine ⟨s2, { chain := st1.chain ++ [cb], flushed := st1.flushed },
        some StoreErr.stateFlush, ?_, hsw, ?_⟩
      · simp only [flush]
        rw [hinner]
        simp only [hrun, hcb2, h1p, h2p, if_true]
        rfl
      · simp [hst, h1p, h2p, hlt]
  · refine ⟨s2, st1, some StoreErr.push, ?_, hsw, ?_⟩
    · simp only [flush]
      rw [hinner]
      simp only [hrun, hcb2, h1p]
      rfl
    · simp [hst, h1p, hlt]

/-- The calls of `flush` down to a child `c` of a node `p` of the linked
tree, whatever the stores answer: they return, and the linked root is the last
node of the path whose block was stored. -/
theorem flush_sweeps (hh : Block → Hash) (pushOK : Block → Bool) (flushOK : Hash → Bool)
    (s0 : BlockCache) (st : Store) (B : Nat) (lb : Block)
    (hwf : WF hh s0) (hr : Rooted hh s0) (hB : ∀ n, n < s0.next → Height s0 B n)
    (hlb : (s0.heap s0.LinkedTree).Block = some lb) :
    ∀ j p c f, ancN s0 j p = some s0.LinkedTree → p < s0.next → c ∈ (s0.heap p).Children →
      j + B + 1 < f →
      ∃ s2 st2 e path, flush hh pushOK flushOK f (s0, st) (some p) c = some ((s2, st2), e) ∧
        Swept s0 c s2 ∧ Path s0 s0.LinkedTree c path ∧
        s2.LinkedTree = lastStored hh pushOK flushOK s0 s0.LinkedTree path := by
  intro j
  induction j with
  | zero =>
    intro p c f hj hpn hc hf
    simp only [ancN, Option.some.injEq] at hj
    subst hj
    obtain ⟨f1, rfl⟩ : ∃ f1, f = f1 + 1 := ⟨f - 1, by omega⟩
    obtain ⟨s3, st3, e, hrun, hsw, hlt⟩ := flush_level_gen hh pushOK flushOK s0 s0 st st B f1
      s0.LinkedTree c lb hwf hB (by omega) Reach.here hc hlb (Swept_refl s0) (by simp)
    refine ⟨s3, st3, e, [] ++ [c], hrun, hsw,
      Path.snoc Path.nil (hwf.child_parent _ c hpn hc), ?_⟩
    rw [hlt, lastStored_snoc]
    rfl
  | succ j ih =>
    intro p c f hj hpn hc hf
    obtain ⟨f1, rfl⟩ : ∃ f1, f = f1 + 1 := ⟨f - 1, by omega⟩
    cases hpp : (s0.heap p).Parent with
    | none => simp [ancN, hpp] at hj
    | some q =>
      have hj2 : ancN s0 j q = some s0.LinkedTree := by simpa [ancN, hpp] using hj
      have hq := hr.parent_child p q hpn hpp
      have hpne : p ≠ s0.LinkedTree := by
        intro e; rw [e, hr.linked_root] at hpp; cases hpp
      obtain ⟨s1, st1, e1, path1, hrun1, hsw1, hpath1, hlt1⟩ := ih q p f1 hj2 hq.1 hq.2 (by omega)
      obtain ⟨pb, hpb, _⟩ := hwf.child_indexed q p hq.1 hq.2
      have hreach : Reach s0 s0.LinkedTree p :=
        anc_reach hh s0 hr _ p (Anc_of_ancN s0 (j + 1) p _ hj) hpn
      obtain ⟨s3, st3, e, hrun, hsw, hlt⟩ := flush_level_gen hh pushOK flushOK s0 s1 st st1 B f1
        p c pb hwf hB (by omega) hreach hc hpb hsw1
        (by simp only [hpne, ne_eq, not_false_eq_true, if_true, hpp, hrun1, Option.map_some'])
      refine ⟨s3, st3, e, path1 ++ [c], hrun, hsw,
        Path.snoc hpath1 (hwf.child_parent _ c hpn hc), ?_⟩
      rw [hlt, lastStored_snoc, hlt1]

/-- After the calls of `flush` the tree below the single root is the one
before them. -/
theorem Swept_single (hh : Block → Hash) (s0 s1 : BlockCache) (t : Ptr)
    (hwf : WF hh s0) (hr : Rooted hh s0) (h1 : Swept s0 t s1) :
    (∀ m, Reach s0 s0.SingleTree m →
      (s1.heap m).Parent = (s0.heap m).Parent ∧ (s1.heap m).Children = (s0.heap m).Children) ∧
    (∀ m, Reach s1 s0.SingleTree m ↔ Reach s0 s0.SingleTree m) := by
  have hout : ∀ m, Reach s0 s0.SingleTree m →
      (s1.heap m).Parent = (s0.heap m).Parent ∧ (s1.heap m).Children = (s0.heap m).Children :=
    fun m hm => h1.outside m (fun hl => roots_disjoint hh s0 hwf hr m hl hm)
  exact ⟨hout, reach_congr s0 s1 _ (fun m hm => (hout m hm).2)⟩

/-- The method `delSingle` after `flush`: when the number of the linked root
is a multiple of `DelSingleBlockTime` it deletes the children of the single
root whose number is at most that number, with all that is below them, and
otherwise it deletes nothing. -/
theorem delSingle_prunes (hh : Block → Hash) (s0 s1 : BlockCache) (t : Ptr) (B f : Nat)
    (hwf : WF hh s0) (hr : Rooted hh s0) (hB : ∀ n, n < s0.next → Height s0 B n) (hf : B < f)
    (h1 : Swept s0 t s1) :
    ∃ s2, delSingle hh f s1 = some s2 ∧
      Pruned hh s1 s0.SingleTree
        (fun x => decide ((s1.heap s1.LinkedTree).Number % DelSingleBlockTime = 0) &&
          decide ((s1.heap x).Number ≤ (s1.heap s1.LinkedTree).Number)) s2 := by
  obtain ⟨hout, hreach⟩ := Swept_single hh s0 s1 t hwf hr h1
  have hst : s1.SingleTree = s0.SingleTree := h1.single_eq
  by_cases hh0 : (s1.heap s1.LinkedTree).Number % DelSingleBlockTime ≠ 0
  · refine ⟨s1, ?_, Pruned_refl hh s1 _ _ (fun _ _ => by simp [hh0])⟩
    simp only [delSingle]
    rw [if_pos hh0]
  · have hz : (s1.heap s1.LinkedTree).Number % DelSingleBlockTime = 0 := by
      by_contra h; exact hh0 h
    have hch : ∀ m, Reach s0 s0.SingleTree m → (s1.heap m).Children = (s0.heap m).Children :=
      fun m hm => (hout m hm).2
    have hpar1 : ∀ q x, Reach s1 s0.SingleTree q → x ∈ (s1.heap q).Children →
        (s1.heap x).Parent = some q := by
      intro q x hq hx
      have hq0 := (hreach q).mp hq
      rw [hch q hq0] at hx
      rw [(hout x (Reach.child hq0 hx)).1]
      exact parent_below hh s0 hwf _ hwf.single_lt q x hq0 hx
    have hblock1 : ∀ x m, x ∈ (s1.heap s0.SingleTree).Children → Reach s1 x m →
        ∃ b, (s1.heap m).Block = some b := by
      intro x m hx hm
      rw [(h1.fields m).1]
      have hx0 : x ∈ (s0.heap s0.SingleTree).Children := by
        rw [← hch _ Reach.here]; exact hx
      have hm0 : Reach s0 x m :=
        (reach_congr s0 s1 x (fun m2 hm2 => hch m2 (reach_of_child s0 _ x m2 hx0 hm2)) m).mp hm
      have hxn := hwf.child_lt _ x hwf.single_lt hx0
      rcases (reach_alloc hh s0 x m hwf hxn hm0).2 with e | ⟨q, hq, hc⟩
      · rw [e]
        obtain ⟨b, hb, _⟩ := hwf.child_indexed _ x hwf.single_lt hx0
        exact ⟨b, hb⟩
      · obtain ⟨b, hb, _⟩ := hwf.child_indexed q m hq hc
        exact ⟨b, hb⟩
    have hH1 : Height s1 (B + 1) s0.SingleTree :=
      Height_congr s0 s1 (B + 1) _ hch (Height_mono s0 B _ (hB _ hwf.single_lt))
    have hk1 : Kids s1 s0.SingleTree B := Kids_of s1 _ B hpar1 hblock1 hH1
    obtain ⟨s2, hrun, hp2⟩ := rangeChildren_prunes hh f B s0.SingleTree
      (fun x => decide ((s1.heap x).Number ≤ (s1.heap s1.LinkedTree).Number))
      (fun s2 bcn => if (s2.heap bcn).Number ≤ (s1.heap s1.LinkedTree).Number
        then Del hh f s2 (some bcn) else some s2)
      (fun s2 x ht hk hpar => Del_spec hh B f hf s2 x ht hk hpar) s1
      (fun s2 x hnum => by
        show (if (s2.heap x).Number ≤ _ then _ else _) = _
        rw [hnum x]
        by_cases hx : (s1.heap x).Number ≤ (s1.heap s1.LinkedTree).Number <;> simp [hx])
      (s1.heap s0.SingleTree).Children s1 (fun _ => rfl) hk1
    refine ⟨s2, ?_, Pruned_congr hh s1 s2 _ _ _ (fun x hx => by simp [hx, hz]) hp2⟩
    simp only [delSingle]
    rw [if_neg hh0, hst]
    exact hrun

/-- The method `Flush` of a proper descendant `t` of the linked root, whatever
the stores answer: it returns; `flush` leaves the linked root at the last
node of the path whose block was stored, then `delSingle` prunes below the
single root. -/
theorem Flush_sweeps (hh : Block → Hash) (pushOK : Block → Bool) (flushOK : Hash → Bool)
    (s0 : BlockCache) (st : Store) (lb : Block) (t : Ptr)
    (hwf : WF hh s0) (hr : Rooted hh s0)
    (hlb : (s0.heap s0.LinkedTree).Block = some lb)
    (ht : Reach s0 s0.LinkedTree t) (hne : t ≠ s0.LinkedTree) :
    ∃ f0, ∀ f, f0 ≤ f → ∃ s1 s2 st2 path,
      Flush hh pushOK flushOK f (s0, st) (some t) = some (s2, st2) ∧
      Swept s0 t s1 ∧
      s1.LinkedTree = lastStored hh pushOK flushOK s0 s0.LinkedTree path ∧
      Pruned hh s1 s0.SingleTree
        (fun x => decide ((s1.heap s1.LinkedTree).Number % DelSingleBlockTime = 0) &&
          decide ((s1.heap x).Number ≤ (s1.heap s1.LinkedTree).Number)) s2 ∧
      Path s0 s0.LinkedTree t path := by
  obtain ⟨B, hB⟩ := Height_of_Rooted hh s0 hwf hr
  rcases reach_last s0 _ t ht with e | ⟨p, hp, hc⟩
  · exact absurd e hne
  have hpn : p < s0.next := (reach_alloc hh s0 _ p hwf hwf.linked_lt hp).1
  obtain ⟨j, hj⟩ := ancN_of_Anc s0 p _ (reach_anc hh s0 hwf _ p hwf.linked_lt hp)
  refine ⟨j + B + 2, fun f hf => ?_⟩
  obtain ⟨s1, st1, e, path, hrun, hsw, hpath, hlt⟩ := flush_sweeps hh pushOK flushOK s0 st B lb
    hwf hr hB hlb j p t f hj hpn hc (by omega)
  obtain ⟨s2, hds, hpr⟩ := delSingle_prunes hh s0 s1 t B f hwf hr hB (by omega) hsw
  refine ⟨s1, s2, st1, path, ?_, hsw, hlt, hpr, hpath⟩
  simp only [Flush, hwf.child_parent p t hpn hc, hrun, hds]

theorem lastStored_all (hh : Block → Hash) (pushOK : Block → Bool) (flushOK : Hash → Bool)
    (s : BlockCache) :
    ∀ (pre : List Ptr) (r : Ptr), (∀ m, m ∈ pre → stored hh pushOK flushOK s m = true) →
      lastStored hh pushOK flushOK s r pre = (pre.getLast?).getD r := by
  intro pre
  induction pre with
  | nil => intro r _; rfl
  | cons a l ih =>
    intro r h
    have ha : stored hh pushOK flushOK s a = true := h a (List.mem_cons_self _ _)
    have hl := ih a (fun m hm => h m (List.mem_cons_of_mem _ hm))
    simp only [lastStored, List.foldl_cons, ha, if_true] at hl ⊢
    rw [hl]
    cases l with
    | nil => rfl
    | cons b l2 =>
      rw [List.getLast?_cons_cons]
      cases hg : (b :: l2).getLast? with
      | none => simp at hg
      | some x => rfl

theorem lastStored_none (hh : Block → Hash) (pushOK : Block → Bool) (flushOK : Hash → Bool)
    (s : BlockCache) :
    ∀ (suf : List Ptr) (r : Ptr), (∀ m, m ∈ suf → stored hh pushOK flushOK s m = false) →
      lastStored hh pushOK flushOK s r suf = r := by
  intro suf
  induction suf with
  | nil => intro r _; rfl
  | cons a l ih =>
    intro r h
    have ha : stored hh pushOK flushOK s a = false := h a (List.mem_cons_self _ _)
    have hl := ih r (fun m hm => h m (List.mem_cons_of_mem _ hm))
    simp only [lastStored, List.foldl_cons, ha] at hl ⊢
    exact hl

theorem lastStored_append (hh : Block → Hash) (pushOK : Block → Bool) (flushOK : Hash → Bool)
    (s : BlockCache) (r : Ptr) (pre suf : List Ptr) :
    lastStored hh pushOK flushOK s r (pre ++ suf) =
      lastStored hh pushOK flushOK s (lastStored hh pushOK flushOK s r pre) suf := by
  simp [lastStored, List.foldl_append]

/-- C21 (the code at the failing input): blocks 6 and 7 are added to the fresh
cache (nodes 2 and 3; the path from the linked root, node 0, to node 3 is node
2, node 3) and the cache is flushed to node 3.  When the state database
refuses the tag of block 6 and accepts everything else, or when the chain
store refuses block 6 and accepts block 7, the inner call of `flush` returns
the error, the outer call drops it and goes on: `LinkedTree` ends at node 3,
past the failure. -/
theorem Flush_moves_root_despite_failure :
    (addAll sampleHash freshCache [block6, block7]).map
      (fun s => (s.LinkedTree, (s.heap 3).Parent, (s.heap 3).Block,
        (s.heap 2).Parent, (s.heap 2).Block)) =
      some (0, some 2, some block7, some 0, some block6) ∧
    ((addAll sampleHash freshCache [block6, block7]).bind
        (fun s => Flush sampleHash (fun _ => true) (fun h => h != sampleHash block6) 3
          (s, emptyStore) (some 3))).map
      (fun w => (w.1.LinkedTree, w.2.chain, w.2.flushed)) =
      some (3, [block6, block7], [sampleHash block7]) ∧
    ((addAll sampleHash freshCache [block6, block7]).bind
        (fun s => Flush sampleHash (fun b => b.Head.Number != 6) (fun _ => true) 3
          (s, emptyStore) (some 3))).map
      (fun w => (w.1.LinkedTree, w.2.chain, w.2.flushed)) =
      some (3, [block7], [sampleHash block7]) := by
  refine ⟨rfl, rfl, rfl⟩

/-- In a cache that satisfies the representation invariant and
the tree invariant and whose linked root holds a block, let `t` be a node below
the linked root other than the root itself, and let the chain store and the
state database answer as they like.  With enough fuel `Flush` of `t` returns.
If the blocks of the nodes `pre` at the start of the path from the old linked
root to `t` are all stored, and for every node of the rest `suf` of the path
the push or the state flush fails, then afterwards `LinkedTree` is the last
node of `pre`, and the old linked root if `pre` is empty. -/
theorem Flush_stops_before_failing_rest (hh : Block → Hash) (pushOK : Block → Bool)
    (flushOK : Hash → Bool) (s : BlockCache) (st : Store) (lb : Block) (t : Ptr)
    (hwf : WF hh s) (hr : Rooted hh s) (hlb : (s.heap s.LinkedTree).Block = some lb)
    (ht : Reach s s.LinkedTree t) (hne : t ≠ s.LinkedTree) :
    ∃ f0, ∀ f, f0 ≤ f → ∃ w path, Flush hh pushOK flushOK f (s, st) (some t) = some w ∧
      Path s s.LinkedTree t path ∧
      ∀ pre suf, path = pre ++ suf →
        (∀ m, m ∈ pre → stored hh pushOK flushOK s m = true) →
        (∀ m, m ∈ suf → stored hh pushOK flushOK s m = false) →
        w.1.LinkedTree = (pre.getLast?).getD s.LinkedTree := by
  obtain ⟨f0, h0⟩ := Flush_sweeps hh pushOK flushOK s st lb t hwf hr hlb ht hne
  refine ⟨f0, fun f hf => ?_⟩
  obtain ⟨s1, s2, st2, path, hrun, _, hlt, hpr, hpath⟩ := h0 f hf
  refine ⟨_, path, hrun, hpath, ?_⟩
  intro pre suf hsplit hpre hsuf
  show s2.LinkedTree = _
  rw [hpr.linked_eq, hlt, hsplit, lastStored_append,
    lastStored_none hh pushOK flushOK s suf _ hsuf,
    lastStored_all hh pushOK flushOK s pre _ hpre]

/-- What `Flush` of a proper descendant `t` of the linked root does when every
push and every state flush succeeds, with the selection `delSingle` makes
below the single root. -/
theorem Flush_spec_single (hh : Block → Hash) (pushOK : Block → Bool) (flushOK : Hash → Bool)
    (hpush : ∀ b, pushOK b = true) (hflush : ∀ h, flushOK h = true)
    (s0 : BlockCache) (st : Store) (lb : Block) (t : Ptr)
    (hwf : WF hh s0) (hr : Rooted hh s0)
    (hlb : (s0.heap s0.LinkedTree).Block = some lb)
    (ht : Reach s0 s0.LinkedTree t) (hne : t ≠ s0.LinkedTree) :
    ∃ f0, ∀ f, f0 ≤ f → ∃ s1 s2 st2,
      Flush hh pushOK flushOK f (s0, st) (some t) = some (s2, st2) ∧
      Flushed hh s0 t s1 ∧
      Pruned hh s1 s0.SingleTree
        (fun x => decide ((s0.heap t).Number % DelSingleBlockTime = 0) &&
          decide ((s0.heap x).Number ≤ (s0.heap t).Number)) s2 := by
  obtain ⟨B, hB⟩ := Height_of_Rooted hh s0 hwf hr
  rcases reach_last s0 _ t ht with e | ⟨p, hp, hc⟩
  · exact absurd e hne
  have hpn : p < s0.next := (reach_alloc hh s0 _ p hwf hwf.linked_lt hp).1
  obtain ⟨j, hj⟩ := ancN_of_Anc s0 p _ (reach_anc hh s0 hwf _ p hwf.linked_lt hp)
  refine ⟨j + B + 2, fun f hf => ?_⟩
  obtain ⟨s1, path, hrun, hfl, _⟩ := flush_spec hh pushOK flushOK hpush hflush s0 st B lb
    hwf hr hB hlb j p t f hj hpn hc (by omega)
  obtain ⟨s2, hds, hpr⟩ := delSingle_prunes hh s0 s1 t B f hwf hr hB (by omega)
    (Swept_of_Flushed hh s0 s1 t hfl)
  refine ⟨s1, s2, Store.mk (st.chain ++ blocksOf s0 path)
      (st.flushed ++ (blocksOf s0 path).map hh), ?_, hfl, ?_⟩
  · simp only [Flush, hwf.child_parent p t hpn hc, hrun, hds]
  · refine Pruned_congr hh s1 s2 _ _ _ (fun x _ => ?_) hpr
    rw [hfl.linked, (hfl.fields t).2.1, (hfl.fields x).2.1]

/-- C22 (the code at the failing input): block 6 and block 8, whose parent
block 7 is unknown, are added to the fresh cache: node 2 holds block 6 under
the linked root, node 3 holds block 8 under the single root (node 1) and is
indexed.  The first `Flush` ever, to node 2, deletes node 3: the single root
has no child left and the index holds node 2 alone.  The numbers of all nodes
are 0, since `NewBCN` never sets `Number`, so `delSingle` passes its test of
`LinkedTree.Number` on every `Flush` and deletes every child of the single
root. -/
theorem first_Flush_prunes_single_tree :
    (addAll sampleHash freshCache [block6, block8]).map
      (fun s => (s.LinkedTree, s.SingleTree, (s.heap 1).Children, s.hash2node.map Prod.snd,
        (s.heap 2).Number, (s.heap 3).Number)) =
      some (0, 1, [3], [0, 2, 3], 0, 0) ∧
    ((addAll sampleHash freshCache [block6, block8]).bind
        (fun s => Flush sampleHash (fun _ => true) (fun _ => true) 3 (s, emptyStore) (some 2))).map
      (fun w => (w.1.LinkedTree, (w.1.heap 1).Children, w.1.hash2node.map Prod.snd)) =
      some (2, [], [2]) := by
  constructor <;> rfl

/-- In a cache that satisfies the representation invariant and
the tree invariant and whose linked root holds a block, let `t` be a node below
the linked root other than the root itself, and let every push and every state
flush succeed.  With enough fuel `Flush` of `t` returns with `t` as linked
root.  If the number of `t` is not a multiple of `DelSingleBlockTime`, every
node below the single root keeps its parent and its children and is indexed as
before.  If it is a multiple, the single root keeps exactly its children of
greater number than `t`; every node below a child of number at most that of
`t` is detached and is the value of no index entry; every node below a child of
greater number keeps its children and its index entry. -/
theorem Flush_prunes_single_by_root_number (hh : Block → Hash) (pushOK : Block → Bool)
    (flushOK : Hash → Bool) (s : BlockCache) (st : Store) (lb : Block) (t : Ptr)
    (hwf : WF hh s) (hr : Rooted hh s) (hlb : (s.heap s.LinkedTree).Block = some lb)
    (ht : Reach s s.LinkedTree t) (hne : t ≠ s.LinkedTree)
    (hpush : ∀ b, pushOK b = true) (hflush : ∀ h, flushOK h = true) :
    ∃ f0, ∀ f, f0 ≤ f → ∃ w, Flush hh pushOK flushOK f (s, st) (some t) = some w ∧
      w.1.LinkedTree = t ∧
      ((s.heap t).Number % DelSingleBlockTime ≠ 0 →
        ∀ m, Reach s s.SingleTree m →
          (w.1.heap m).Parent = (s.heap m).Parent ∧
          (w.1.heap m).Children = (s.heap m).Children ∧
          ∀ b, (s.heap m).Block = some b → (hmget w.1 (hh b)).1 = some m) ∧
      ((s.heap t).Number % DelSingleBlockTime = 0 →
        (w.1.heap s.SingleTree).Children =
          (s.heap s.SingleTree).Children.filter
            (fun c => decide ((s.heap t).Number < (s.heap c).Number)) ∧
        ∀ c m, c ∈ (s.heap s.SingleTree).Children → Reach s c m →
          ((s.heap c).Number ≤ (s.heap t).Number →
            (∀ h, (hmget w.1 h).1 ≠ some m) ∧
            (w.1.heap m).Parent = none ∧ (w.1.heap m).Children = []) ∧
          ((s.heap t).Number < (s.heap c).Number →
            (w.1.heap m).Children = (s.heap m).Children ∧
            ∀ b, (s.heap m).Block = some b → (hmget w.1 (hh b)).1 = some m)) := by
  obtain ⟨B, hB⟩ := Height_of_Rooted hh s hwf hr
  obtain ⟨f0, h0⟩ := Flush_spec_single hh pushOK flushOK hpush hflush s st lb t hwf hr hlb ht hne
  refine ⟨f0, fun f hf => ?_⟩
  obtain ⟨s1, s2, st2, hrun, hfl, hpr⟩ := h0 f hf
  obtain ⟨hout, hreach⟩ := Flushed_single hh s s1 t hwf hr hfl
  have hch1 : (s1.heap s.SingleTree).Children = (s.heap s.SingleTree).Children :=
    (hout _ Reach.here).2
  have hreachx : ∀ x m, x ∈ (s.heap s.SingleTree).Children → (Reach s1 x m ↔ Reach s x m) :=
    fun x m hx => reach_congr s s1 x
      (fun m2 hm2 => (hout m2 (reach_of_child s _ x m2 hx hm2)).2) m
  -- an index entry of a node below the single root survives `flush`
  have hidx1 : ∀ m b, Reach s s.SingleTree m → (s.heap m).Block = some b →
      mapLoad s1.hash2node (hh b) = some m := by
    intro m b hm hb
    have h0 := reach_indexed hh s m b hwf (Or.inr hm) hb
    rw [hfl.index_kept (hh b) ?_]
    · exact h0
    · intro m2 b2 hm2 _ hb2 e
      have := reach_indexed hh s m2 b2 hwf (Or.inl hm2) hb2
      rw [e, h0] at this
      cases this
      exact roots_disjoint hh s hwf hr m hm2 hm
  refine ⟨_, hrun, hpr.linked_eq.trans hfl.linked, ?_, ?_⟩
  · -- nothing is selected
    intro hmod m hm
    have hsel : ∀ x, (decide ((s.heap t).Number % DelSingleBlockTime = 0) &&
        decide ((s.heap x).Number ≤ (s.heap t).Number)) = false := by
      intro x; simp [hmod]
    have hidx : ∀ b, (s.heap m).Block = some b → (hmget s2 (hh b)).1 = some m := by
      intro b hb
      rw [hmget_fst, hpr.index_kept (hh b) ?_]
      · exact hidx1 m b hm hb
      · intro c m2 b2 _ hs
        rw [hsel c] at hs; cases hs
    by_cases hms : m = s.SingleTree
    · subst hms
      refine ⟨hpr.par_parent.trans (hout _ Reach.here).1, ?_, hidx⟩
      show (s2.heap s.SingleTree).Children = _
      rw [hpr.par_children, hch1]
      simp [hmod]
    · have h2 := hpr.outside m hms (fun c _ hs => by rw [hsel c] at hs; cases hs)
      exact ⟨h2.1.trans (hout m hm).1, h2.2.trans (hout m hm).2, hidx⟩
  · intro hmod
    constructor
    · show (s2.heap s.SingleTree).Children = _
      rw [hpr.par_children, hch1]
      apply List.filter_congr
      intro c _
      by_cases hc : (s.heap c).Number ≤ (s.heap t).Number
      · simp [hmod, hc]
      · have : (s.heap t).Number < (s.heap c).Number := Nat.lt_of_not_le hc
        simp [hmod, this]
    · intro c m hc hcm
      have hc1 : c ∈ (s1.heap s.SingleTree).Children := by rw [hch1]; exact hc
      have hcm1 : Reach s1 c m := (hreachx c m hc).mpr hcm
      have hms : Reach s s.SingleTree m := reach_of_child s _ c m hc hcm
      constructor
      · intro hle
        have hs : (decide ((s.heap t).Number % DelSingleBlockTime = 0) &&
            decide ((s.heap c).Number ≤ (s.heap t).Number)) = true := by simp [hmod, hle]
        have hin := hpr.inside c m hc1 hs hcm1
        refine ⟨?_, hin.1, hin.2⟩
        intro h hget
        have h2 : mapLoad s2.hash2node h = some m := by rw [← hmget_fst]; exact hget
        have h1 : mapLoad s1.hash2node h = some m := by
          rcases Pruned_index_sub hh s1 s2 _ _ hpr h with e | e
          · rw [e] at h2; cases h2
          · rw [← e]; exact h2
        have h0 : mapLoad s.hash2node h = some m := by
          rcases Flushed_index_sub hh s s1 t hfl h with e | e
          · rw [e] at h1; cases h1
          · rw [← e]; exact h1
        obtain ⟨b, hb, hhb⟩ := hwf.index_block h m h0
        have := hpr.index_gone c m b hc1 hs hcm1 (by rw [(hfl.fields m).1]; exact hb)
        rw [hhb, h2] at this
        cases this
      · intro hlt
        have hnsel : ∀ x, x ∈ (s1.heap s.SingleTree).Children →
            (decide ((s.heap t).Number % DelSingleBlockTime = 0) &&
              decide ((s.heap x).Number ≤ (s.heap t).Number)) = true → ¬ Reach s1 x m := by
          intro x hx hs hxm
          have hx0 : x ∈ (s.heap s.SingleTree).Children := by rw [← hch1]; exact hx
          have hxle : (s.heap x).Number ≤ (s.heap t).Number := by
            simp only [Bool.and_eq_true, decide_eq_true_eq] at hs
            exact hs.2
          have hne2 : c ≠ x := by
            intro e; rw [e] at hlt; exact absurd hxle (Nat.not_le_of_lt hlt)
          exact siblings_disjoint s B s.SingleTree c x m
            (parent_below hh s hwf _ hwf.single_lt) (hB _ hwf.single_lt) hc hx0 hne2 hcm
            ((hreachx x m hx0).mp hxm)
        have hmne : m ≠ s.SingleTree := by
          intro e
          exact Height_no_cycle s B s.SingleTree c (hB _ hwf.single_lt) hc (e ▸ hcm)
        have h2 := hpr.outside m hmne hnsel
        refine ⟨h2.2.trans (hout m hms).2, ?_⟩
        intro b hb
        rw [hmget_fst, hpr.index_kept (hh b) ?_]
        · exact hidx1 m b hms hb
        · intro x m2 b2 hx hs hxm2 hb2 e
          have hx0 : x ∈ (s.heap s.SingleTree).Children := by rw [← hch1]; exact hx
          rw [(hfl.fields m2).1] at hb2
          have hm2 : Reach s s.SingleTree m2 :=
            reach_of_child s _ x m2 hx0 ((hreachx x m2 hx0).mp hxm2)
          have i2 := reach_indexed hh s m2 b2 hwf (Or.inr hm2) hb2
          have i1 := reach_indexed hh s m b hwf (Or.inr hms) hb
          rw [e, i1] at i2
          cases i2
          exact hnsel x hx hs hxm2

/-! ## The consensus loops (C23 to C30) -/

theorem Find_eq (s : BlockCache) (h : Hash) : Find s h = mapLoad s.hash2node h :=
  hmget_fst s h

/-- C24: for every block that is not in the cache yet and that `verifyBasics`
rejects with an error `e`, `handleRecvBlock` returns `e` and leaves the state
as it was: the cache is the same and no call of `Add`, `Link` or `Del` has been
made. -/
theorem handleRecvBlock_rejects_bad_basics (o : Outside) (fuel : Nat) (p : PoB) (blk : Block)
    (e : PobErr) (hnew : Find p.blockCache (o.hh blk) = none)
    (hbad : o.verifyBasics blk = some e) :
    handleRecvBlock o fuel p blk = some (p, some e) ∧
    ∀ r, handleRecvBlock o fuel p blk = some r →
      r.2 = some e ∧ r.1.blockCache = p.blockCache ∧ r.1.calls = p.calls := by
  have h : handleRecvBlock o fuel p blk = some (p, some e) := by
    simp only [handleRecvBlock, hnew, hbad]
  refine ⟨h, fun r hr => ?_⟩
  rw [h] at hr
  cases hr
  exact ⟨rfl, rfl, rfl⟩

/-- Witness of C24: block 6 arrives at a fresh cache while `verifyBasics`
rejects every block. -/
theorem handleRecvBlock_rejects_bad_basics_witness :
    handleRecvBlock { sampleOutside with verifyBasics := fun _ => some (PobErr.other 1) } 5
        (newPoB freshCache) block6 = some (newPoB freshCache, some (PobErr.other 1)) ∧
    ∀ r, handleRecvBlock { sampleOutside with verifyBasics := fun _ => some (PobErr.other 1) } 5
        (newPoB freshCache) block6 = some r →
      r.2 = some (PobErr.other 1) ∧ r.1.blockCache = (newPoB freshCache).blockCache ∧
      r.1.calls = (newPoB freshCache).calls :=
  handleRecvBlock_rejects_bad_basics
    { sampleOutside with verifyBasics := fun _ => some (PobErr.other 1) } 5 (newPoB freshCache)
    block6 (PobErr.other 1) (by decide) rfl

/-! ### The cache interface modelled from the spec -/

theorem mapLoad_mem (l : List (Hash × Ptr)) (h : Hash) (p : Ptr) (hl : mapLoad l h = some p) :
    (h, p) ∈ l := by
  induction l with
  | nil => simp [mapLoad] at hl
  | cons kv rest ih =>
    obtain ⟨k, v⟩ := kv
    simp only [mapLoad] at hl
    by_cases hk : k = h
    · rw [if_pos hk] at hl
      cases hl
      rw [hk]
      exact List.mem_cons_self _ _
    · rw [if_neg hk] at hl
      exact List.mem_cons_of_mem _ (ih hl)

theorem Unindexed_find (s : BlockCache) (x : Ptr) (hx : Unindexed s x) (h : Hash) :
    Find s h ≠ some x := by
  intro e
  rw [Find_eq] at e
  exact hx h (mapLoad_mem _ _ _ e)

/-- The nodes of the cache after `cacheDrop`, field by field. -/
theorem cacheDrop_heap (s : BlockCache) (n m : Ptr) :
    (cacheDrop s n).heap m =
      { s.heap m with
        Parent := if m = n then none else (s.heap m).Parent,
        Children :=
          if (s.heap n).Parent = some m then (s.heap m).Children.filter (fun x => x != n)
          else (s.heap m).Children } := by
  cases hp : (s.heap n).Parent with
  | none =>
    by_cases hm : m = n
    · subst hm; simp [cacheDrop, hp, BlockCache.store]
    · simp [cacheDrop, hp, BlockCache.store, Function.update_apply, hm]
  | some q =>
    by_cases hm : m = n
    · subst hm
      by_cases hq : m = q
      · subst hq; simp [cacheDrop, hp, BlockCache.store]
      · have hq2 : ¬ q = m := fun e => hq e.symm
        simp [cacheDrop, hp, BlockCache.store, Function.update_apply, hq, hq2]
    · by_cases hq : m = q
      · subst hq; simp [cacheDrop, hp, BlockCache.store, Function.update_apply, hm]
      · have hq2 : ¬ q = m := fun e => hq e.symm
        simp [cacheDrop, hp, BlockCache.store, Function.update_apply, hm, hq, hq2]

theorem cacheDrop_frame (s : BlockCache) (n : Ptr) :
    (cacheDrop s n).next = s.next ∧ (cacheDrop s n).LinkedTree = s.LinkedTree ∧
    (cacheDrop s n).SingleTree = s.SingleTree ∧ (cacheDrop s n).Head = s.Head ∧
    (cacheDrop s n).hash2node = s.hash2node.filter (fun kv => kv.2 != n) ∧
    (cacheDrop s n).Leaf = leafDelete s.Leaf (some n) := by
  cases hp : (s.heap n).Parent <;> simp [cacheDrop, hp, BlockCache.store]

theorem cacheDrop_children_sub (s : BlockCache) (n u c : Ptr)
    (h : c ∈ ((cacheDrop s n).heap u).Children) : c ∈ (s.heap u).Children ∧ c ≠ n ∨
      (c ∈ (s.heap u).Children ∧ (s.heap n).Parent ≠ some u) := by
  rw [cacheDrop_heap] at h
  simp only at h
  by_cases hp : (s.heap n).Parent = some u
  · rw [if_pos hp] at h
    have := List.mem_filter.mp h
    left
    exact ⟨this.1, by simpa using this.2⟩
  · rw [if_neg hp] at h
    exact Or.inr ⟨h, hp⟩

theorem cacheDrop_children_mono (s : BlockCache) (n u c : Ptr)
    (h : c ∈ ((cacheDrop s n).heap u).Children) : c ∈ (s.heap u).Children := by
  rcases cacheDrop_children_sub s n u c h with h | h <;> exact h.1

theorem cacheDrop_children_keep (s : BlockCache) (n u c : Ptr)
    (h : c ∈ (s.heap u).Children) (hc : c ≠ n) : c ∈ ((cacheDrop s n).heap u).Children := by
  rw [cacheDrop_heap]
  simp only
  split_ifs
  · exact List.mem_filter.mpr ⟨h, by simpa using hc⟩
  · exact h

theorem cacheDrop_index (s : BlockCache) (n : Ptr) (e : Hash × Ptr) :
    e ∈ (cacheDrop s n).hash2node ↔ e ∈ s.hash2node ∧ e.2 ≠ n := by
  rw [(cacheDrop_frame s n).2.2.2.2.1, List.mem_filter]
  simp

/-- What a run of `cacheDel` that returns leaves: no entry of the index points
to a node that was reachable from the deleted node; child lists and the index
lose entries only, a child list the nodes that were reachable from the deleted
node only, and the index the entries of those nodes only; the blocks, the
types, the roots and the allocation stay. -/
theorem cacheDel_closed :
    ∀ fuel s n s2, cacheDel fuel s (some n) = some s2 →
      (∀ x, Reach s n x → Unindexed s2 x) ∧
      (∀ u c, c ∈ (s.heap u).Children → c ∈ (s2.heap u).Children ∨ Reach s n c) ∧
      (∀ u c, c ∈ (s2.heap u).Children → c ∈ (s.heap u).Children) ∧
      (∀ e, e ∈ s2.hash2node → e ∈ s.hash2node) ∧
      (∀ e, e ∈ s.hash2node → ¬ Reach s n e.2 → e ∈ s2.hash2node) ∧
      (∀ m, (s2.heap m).Block = (s.heap m).Block ∧ (s2.heap m).Type_ = (s.heap m).Type_ ∧
        ((s2.heap m).Parent = (s.heap m).Parent ∨ Reach s n m)) ∧
      s2.next = s.next ∧ s2.LinkedTree = s.LinkedTree ∧ s2.SingleTree = s.SingleTree := by
  intro fuel
  induction fuel with
  | zero => intro s n s2 h; simp [cacheDel] at h
  | succ fuel ih =>
    intro s n s2 h
    simp only [cacheDel] at h
    cases hl : cacheDelEach (fun x c => cacheDel fuel x (some c)) (s.heap n).Children s with
    | none => rw [hl] at h; cases h
    | some s1 =>
      rw [hl] at h
      simp only [Option.some.injEq] at h
      -- the loop over the children
      have loop : ∀ (l : List Ptr) (t t2 : BlockCache),
          cacheDelEach (fun x c => cacheDel fuel x (some c)) l t = some t2 →
          (∀ c, c ∈ l → c ∈ (s.heap n).Children) →
          (∀ u c, c ∈ (t.heap u).Children → c ∈ (s.heap u).Children) →
          (∀ e, e ∈ t.hash2node → e ∈ s.hash2node) →
          (∀ e, e ∈ s.hash2node → ¬ Reach s n e.2 → e ∈ t.hash2node) →
          (∀ u c, c ∈ (s.heap u).Children → c ∈ (t.heap u).Children ∨
            (Reach s n c ∧ ∀ x, Reach s c x → Unindexed t x)) →
          (∀ m, (t.heap m).Block = (s.heap m).Block ∧ (t.heap m).Type_ = (s.heap m).Type_ ∧
            ((t.heap m).Parent = (s.heap m).Parent ∨ Reach s n m)) →
          (t.next = s.next ∧ t.LinkedTree = s.LinkedTree ∧ t.SingleTree = s.SingleTree) →
          (∀ u c, c ∈ (t2.heap u).Children → c ∈ (s.heap u).Children) ∧
          (∀ e, e ∈ t2.hash2node → e ∈ s.hash2node) ∧
          (∀ e, e ∈ s.hash2node → ¬ Reach s n e.2 → e ∈ t2.hash2node) ∧
          (∀ u c, c ∈ (s.heap u).Children → c ∈ (t2.heap u).Children ∨
            (Reach s n c ∧ ∀ x, Reach s c x → Unindexed t2 x)) ∧
          (∀ m, (t2.heap m).Block = (s.heap m).Block ∧ (t2.heap m).Type_ = (s.heap m).Type_ ∧
            ((t2.heap m).Parent = (s.heap m).Parent ∨ Reach s n m)) ∧
          (t2.next = s.next ∧ t2.LinkedTree = s.LinkedTree ∧ t2.SingleTree = s.SingleTree) ∧
          (∀ e, e ∈ t2.hash2node → e ∈ t.hash2node) ∧
          (∀ c, c ∈ l → ∀ x, Reach s c x → Unindexed t2 x) := by
        intro l
        induction l with
        | nil =>
          intro t t2 hrun _ j1 j2 j3 j4 j5 j6
          simp only [cacheDelEach, Option.some.injEq] at hrun
          subst hrun
          exact ⟨j1, j2, j3, j4, j5, j6, fun e he => he, fun c hc => by cases hc⟩
        | cons c rest ihl =>
          intro t t2 hrun hsub j1 j2 j3 j4 j5 j6
          simp only [cacheDelEach] at hrun
          cases hd : cacheDel fuel t (some c) with
          | none => rw [hd] at hrun; cases hrun
          | some t1 =>
            rw [hd] at hrun
            simp only at hrun
            obtain ⟨a1, a2, a3, a4, a5, a6, a7, a8, a9⟩ := ih t c t1 hd
            have hcn : c ∈ (s.heap n).Children := hsub c (List.mem_cons_self _ _)
            have hrc : Reach s n c := Reach.child Reach.here hcn
            -- what was reachable from `y` in `s` is still reachable in `t`,
            -- or lies below a node of which nothing is indexed any more
            have split : ∀ y x, Reach s y x → Reach t y x ∨
                ∃ v, (Reach s n v ∧ ∀ z, Reach s v z → Unindexed t z) ∧ Reach s v x := by
              intro y x hx
              induction hx with
              | here => exact Or.inl Reach.here
              | @child p c2 _ hc2 ihx =>
                rcases ihx with h1 | ⟨v, hv, h2⟩
                · rcases j4 p c2 hc2 with h3 | h3
                  · exact Or.inl (Reach.child h1 h3)
                  · exact Or.inr ⟨c2, h3, Reach.here⟩
                · exact Or.inr ⟨v, hv, Reach.child h2 hc2⟩
            have mono1 : ∀ x, Unindexed t x → Unindexed t1 x :=
              fun x hx hh he => hx hh (a4 _ he)
            have below : ∀ y, Reach t c y → ∀ x, Reach s y x → Unindexed t1 x := by
              intro y hy x hx
              rcases split y x hx with h1 | ⟨v, hv, h2⟩
              · exact a1 x (reach_trans t c y x hy h1)
              · exact mono1 x (hv.2 x h2)
            have k1 : ∀ u c2, c2 ∈ (t1.heap u).Children → c2 ∈ (s.heap u).Children :=
              fun u c2 h => j1 u c2 (a3 u c2 h)
            have k2 : ∀ e, e ∈ t1.hash2node → e ∈ s.hash2node := fun e h => j2 e (a4 e h)
            have rts : ∀ x, Reach t c x → Reach s n x := fun x hx =>
              reach_trans s n c x hrc (reach_shrink s t c x j1 hx)
            have k3 : ∀ e, e ∈ s.hash2node → ¬ Reach s n e.2 → e ∈ t1.hash2node := by
              intro e he hne
              exact a5 e (j3 e he hne) (fun hr => hne (rts _ hr))
            have k4 : ∀ u c2, c2 ∈ (s.heap u).Children → c2 ∈ (t1.heap u).Children ∨
                (Reach s n c2 ∧ ∀ x, Reach s c2 x → Unindexed t1 x) := by
              intro u c2 hc2
              rcases j4 u c2 hc2 with h1 | h1
              · rcases a2 u c2 h1 with h2 | h2
                · exact Or.inl h2
                · exact Or.inr ⟨rts _ h2, below c2 h2⟩
              · exact Or.inr ⟨h1.1, fun x hx => mono1 x (h1.2 x hx)⟩
            have k5 : ∀ m, (t1.heap m).Block = (s.heap m).Block ∧
                (t1.heap m).Type_ = (s.heap m).Type_ ∧
                ((t1.heap m).Parent = (s.heap m).Parent ∨ Reach s n m) := by
              intro m
              refine ⟨by rw [(a6 m).1, (j5 m).1], by rw [(a6 m).2.1, (j5 m).2.1], ?_⟩
              rcases (a6 m).2.2 with h1 | h1
              · rcases (j5 m).2.2 with h2 | h2
                · left; rw [h1, h2]
                · exact Or.inr h2
              · exact Or.inr (rts _ h1)
            have k6 : t1.next = s.next ∧ t1.LinkedTree = s.LinkedTree ∧
                t1.SingleTree = s.SingleTree :=
              ⟨by rw [a7, j6.1], by rw [a8, j6.2.1], by rw [a9, j6.2.2]⟩
            obtain ⟨r1, r2, r3, r4, r5, r6, r7, r8⟩ := ihl t1 t2 hrun
              (fun c2 h => hsub c2 (List.mem_cons_of_mem _ h)) k1 k2 k3 k4 k5 k6
            refine ⟨r1, r2, r3, r4, r5, r6, fun e he => a4 e (r7 e he), ?_⟩
            intro c2 hc2 x hx
            rcases List.mem_cons.mp hc2 with e | hin
            · subst e
              intro hh he
              exact below c2 Reach.here x hx hh (r7 _ he)
            · exact r8 c2 hin x hx
      obtain ⟨r1, r2, r3, r4, r5, r6, _, r8⟩ := loop (s.heap n).Children s s1 hl
        (fun c hc => hc) (fun u c hc => hc) (fun e he => he) (fun e he _ => he)
        (fun u c hc => Or.inl hc) (fun m => ⟨rfl, rfl, Or.inl rfl⟩) ⟨rfl, rfl, rfl⟩
      subst h
      obtain ⟨f1, f2, f3, _, _, _⟩ := cacheDrop_frame s1 n
      refine ⟨?_, ?_, ?_, ?_, ?_, ?_, by rw [f1, r6.1], by rw [f2, r6.2.1], by rw [f3, r6.2.2]⟩
      · intro x hx hh he
        have he2 := (cacheDrop_index s1 n _).mp he
        rcases reach_first s n x hx with e | ⟨c, hc, hcx⟩
        · exact he2.2 e
        · exact r8 c hc x hcx hh he2.1
      · intro u c hc
        rcases r4 u c hc with h1 | h1
        · by_cases hcn : c = n
          · right; rw [hcn]; exact Reach.here
          · exact Or.inl (cacheDrop_children_keep s1 n u c h1 hcn)
        · exact Or.inr h1.1
      · intro u c hc
        exact r1 u c (cacheDrop_children_mono s1 n u c hc)
      · intro e he
        exact r2 e ((cacheDrop_index s1 n e).mp he).1
      · intro e he hne
        refine (cacheDrop_index s1 n e).mpr ⟨r3 e he hne, ?_⟩
        intro e2
        exact hne (e2 ▸ Reach.here)
      · intro m
        rw [cacheDrop_heap]
        simp only
        refine ⟨(r5 m).1, (r5 m).2.1, ?_⟩
        by_cases hm : m = n
        · right; rw [hm]; exact Reach.here
        · rw [if_neg hm]; exact (r5 m).2.2

/-- With fuel above the height of the tree below the node, `cacheDel`
returns. -/
theorem cacheDel_returns :
    ∀ k fuel s n, k < fuel → Height s k n → ∃ s2, cacheDel fuel s (some n) = some s2 := by
  intro k
  induction k with
  | zero =>
    intro fuel s n hf hk
    obtain ⟨f, rfl⟩ : ∃ f, fuel = f + 1 := ⟨fuel - 1, by omega⟩
    simp only [Height] at hk
    simp [cacheDel, hk, cacheDelEach]
  | succ k ih =>
    intro fuel s n hf hk
    obtain ⟨f, rfl⟩ : ∃ f, fuel = f + 1 := ⟨fuel - 1, by omega⟩
    have loop : ∀ (l : List Ptr) (t : BlockCache),
        (∀ c, c ∈ l → Height t k c) →
        ∃ t2, cacheDelEach (fun x c => cacheDel f x (some c)) l t = some t2 := by
      intro l
      induction l with
      | nil => intro t _; exact ⟨t, rfl⟩
      | cons c rest ihl =>
        intro t hl
        obtain ⟨t1, h1⟩ := ih f t c (by omega) (hl c (List.mem_cons_self _ _))
        have hmono := (cacheDel_closed f t c t1 h1).2.2.1
        obtain ⟨t2, h2⟩ := ihl t1 (fun c2 hc2 =>
          Height_shrunk t t1 hmono k c2 (hl c2 (List.mem_cons_of_mem _ hc2)))
        exact ⟨t2, by simp only [cacheDelEach, h1, h2]⟩
    obtain ⟨t2, h2⟩ := loop (s.heap n).Children s (fun c hc => hk c hc)
    exact ⟨cacheDrop t2 n, by simp only [cacheDel, h2]⟩

/-- Soundness reads the blocks, the parents and the child lists of the nodes,
the type of the single root, the index, the roots and the allocation only. -/
theorem Sound_of_fields (hh : Block → Hash) (s s2 : BlockCache) (hs : Sound hh s)
    (e2 : s2.next = s.next) (e3 : s2.LinkedTree = s.LinkedTree)
    (e4 : s2.SingleTree = s.SingleTree) (e5 : s2.hash2node = s.hash2node)
    (hb : ∀ x, (s2.heap x).Block = (s.heap x).Block)
    (hp : ∀ x, (s2.heap x).Parent = (s.heap x).Parent)
    (hc : ∀ x, (s2.heap x).Children = (s.heap x).Children)
    (ht : (s2.heap s.SingleTree).Type_ = (s.heap s.SingleTree).Type_) : Sound hh s2 := by
  constructor
  · rw [e2, e3]; exact hs.linked_lt
  · rw [e2, e4]; exact hs.single_lt
  · rw [e3, e4]; exact hs.roots_ne
  · intro h p h1; rw [e5] at h1; rw [e2]; exact hs.index_lt h p h1
  · intro h p h1; rw [e5] at h1; rw [hb]; exact hs.index_block h p h1
  · intro p c h1; rw [hc] at h1; rw [e2]; exact hs.child_lt p c h1
  · intro p c h1; rw [hc] at h1; rw [hb]; exact hs.child_block p c h1
  · intro c p h1; rw [hp] at h1; rw [hc]; exact hs.parent_child c p h1
  · intro c p h1; rw [hp] at h1; rw [e2]; exact hs.parent_lt c p h1
  · rw [e3, hp]; exact hs.linked_parent
  · rw [e4, hb]; exact hs.single_block
  · rw [e4, ht]; exact hs.single_type
  · intro c h1; rw [e4, hc] at h1; rw [e4, hp]; exact hs.single_child c h1

theorem Tidy_of_fields (hh : Block → Hash) (s s2 : BlockCache) (hs : Tidy hh s)
    (e2 : s2.next = s.next) (e3 : s2.LinkedTree = s.LinkedTree)
    (e4 : s2.SingleTree = s.SingleTree) (e5 : s2.hash2node = s.hash2node)
    (hb : ∀ x, (s2.heap x).Block = (s.heap x).Block)
    (hp : ∀ x, (s2.heap x).Parent = (s.heap x).Parent)
    (hc : ∀ x, (s2.heap x).Children = (s.heap x).Children)
    (ht : (s2.heap s.SingleTree).Type_ = (s.heap s.SingleTree).Type_) : Tidy hh s2 := by
  refine Tidy.mk (Sound_of_fields hh s s2 hs.toSound e2 e3 e4 e5 hb hp hc ht) ?_ ?_ ?_ ?_ ?_
  · intro p c h1; rw [hc] at h1; rw [hp]; exact hs.child_parent p c h1
  · intro p c b h1 h2; rw [hc] at h1; rw [hb] at h2; rw [e5]; exact hs.child_indexed p c b h1 h2
  · intro p; rw [hc]; exact hs.children_nodup p
  · rw [e5]; exact hs.index_nodup
  · rw [e3, hb]; exact hs.linked_block

theorem Tidy_NewBlockCache (hh : Block → Hash) (lib : Block) :
    Tidy hh (NewBlockCache hh (some lib)) := by
  have hch := fun p => (NewBlockCache_children hh (some lib) p).1
  refine Tidy.mk (Sound_NewBlockCache hh (some lib)) ?_ ?_ ?_ ?_ ?_
  · intro p c h1; rw [hch p] at h1; cases h1
  · intro p c b h1; rw [hch p] at h1; cases h1
  · intro p; rw [hch p]; exact List.nodup_nil
  · rw [NewBlockCache_eq]; simp
  · rw [NewBlockCache_eq]; exact ⟨lib, by simp⟩

/-- In a cache whose index has no key twice, the entries of the index are what
the lookup finds. -/
theorem mem_iff_mapLoad (l : List (Hash × Ptr)) (hl : (l.map Prod.fst).Nodup) (h : Hash)
    (p : Ptr) : (h, p) ∈ l ↔ mapLoad l h = some p := by
  induction l with
  | nil => simp [mapLoad]
  | cons kv rest ih =>
    obtain ⟨k, v⟩ := kv
    simp only [List.map_cons, List.nodup_cons, List.mem_map, not_exists, not_and] at hl
    simp only [mapLoad, List.mem_cons, Prod.mk.injEq]
    by_cases hk : k = h
    · subst hk
      rw [if_pos rfl]
      constructor
      · rintro (⟨_, e⟩ | h1)
        · rw [e]
        · exact absurd rfl (hl.1 (k, p) h1)
      · intro e; cases e; exact Or.inl ⟨rfl, rfl⟩
    · rw [if_neg hk]
      rw [← ih hl.2]
      constructor
      · rintro (⟨e, _⟩ | h1)
        · exact absurd e.symm hk
        · exact h1
      · intro h1; exact Or.inr h1

theorem keys_mapStore (l : List (Hash × Ptr)) (h : Hash) (p : Ptr)
    (hn : mapLoad l h = none) :
    (mapStore l h p).map Prod.fst = l.map Prod.fst ++ [h] := by
  induction l with
  | nil => simp [mapStore]
  | cons kv rest ih =>
    obtain ⟨k, v⟩ := kv
    simp only [mapLoad] at hn
    by_cases hk : k = h
    · rw [if_pos hk] at hn; cases hn
    · rw [if_neg hk] at hn
      simp [mapStore, hk, ih hn]

theorem mapLoad_none_not_key (l : List (Hash × Ptr)) (h : Hash) (hn : mapLoad l h = none) :
    h ∉ l.map Prod.fst := by
  induction l with
  | nil => simp
  | cons kv rest ih =>
    obtain ⟨k, v⟩ := kv
    simp only [mapLoad] at hn
    by_cases hk : k = h
    · rw [if_pos hk] at hn; cases hn
    · rw [if_neg hk] at hn
      simp only [List.map_cons, List.mem_cons, not_or]
      exact ⟨fun e => hk e.symm, ih hn⟩

/-- The cache after `cacheAttach` under an allocated parent. -/
theorem cacheAttach_heap (hh : Block → Hash) (s : BlockCache) (fa : Ptr) (typ : BCNType)
    (blk : Block) (hfa : fa < s.next) (x : Ptr) :
    ((cacheAttach hh s fa typ blk).heap x).Block =
      (if x = s.next then some blk else (s.heap x).Block) ∧
    ((cacheAttach hh s fa typ blk).heap x).Parent =
      (if x = s.next then some fa else (s.heap x).Parent) ∧
    ((cacheAttach hh s fa typ blk).heap x).Type_ =
      (if x = s.next then typ else (s.heap x).Type_) ∧
    ((cacheAttach hh s fa typ blk).heap x).Children =
      (if x = fa then (s.heap fa).Children ++ [s.next]
       else if x = s.next then [] else (s.heap x).Children) ∧
    ((cacheAttach hh s fa typ blk).heap x).Number =
      (if x = s.next then blk.Head.Number else (s.heap x).Number) := by
  have hne : s.next ≠ fa := Ne.symm (Nat.ne_of_lt hfa)
  have hne2 : fa ≠ s.next := Nat.ne_of_lt hfa
  by_cases hxf : x = fa
  · subst hxf
    simp [cacheAttach, hmset, BlockCache.store, Function.update_apply, hne, hne2]
  · by_cases hxn : x = s.next
    · subst hxn
      simp [cacheAttach, hmset, BlockCache.store, Function.update_apply, hxf, BlockCacheNode.zero]
    · simp [cacheAttach, hmset, BlockCache.store, Function.update_apply, hxf, hxn]

theorem cacheAttach_frame (hh : Block → Hash) (s : BlockCache) (fa : Ptr) (typ : BCNType)
    (blk : Block) :
    (cacheAttach hh s fa typ blk).next = s.next + 1 ∧
    (cacheAttach hh s fa typ blk).LinkedTree = s.LinkedTree ∧
    (cacheAttach hh s fa typ blk).SingleTree = s.SingleTree ∧
    (cacheAttach hh s fa typ blk).hash2node = mapStore s.hash2node (hh blk) s.next ∧
    (cacheAttach hh s fa typ blk).Leaf = s.Leaf ∧
    (cacheAttach hh s fa typ blk).Head = s.Head := by
  simp [cacheAttach, hmset, BlockCache.store]

/-- Attaching a block that is not indexed yet under an allocated node of a
tidy cache leaves a tidy cache. -/
theorem Tidy_cacheAttach (hh : Block → Hash) (s : BlockCache) (fa : Ptr) (typ : BCNType)
    (blk : Block) (hs : Tidy hh s) (hfa : fa < s.next)
    (hdup : mapLoad s.hash2node (hh blk) = none) :
    Tidy hh (cacheAttach hh s fa typ blk) := by
  obtain ⟨f1, f2, f3, f4, _, _⟩ := cacheAttach_frame hh s fa typ blk
  have hheap := cacheAttach_heap hh s fa typ blk hfa
  have hold := attached_sound_heap hh s fa blk hs.toSound hfa
  obtain ⟨g1, g2, g3, _, g5, _⟩ := attached_frame hh s fa blk
  have hsound : Sound hh (cacheAttach hh s fa typ blk) := by
    apply Sound_of_fields hh (attached hh s fa blk) _ (Sound_attached hh s fa blk hs.toSound hfa)
    · rw [f1, g1]
    · rw [f2, g2]
    · rw [f3, g3]
    · rw [f4, g5]
    · intro x; rw [(hheap x).1, (hold x).1]
    · intro x; rw [(hheap x).2.1, (hold x).2.1]
    · intro x; rw [(hheap x).2.2.2.1, (hold x).2.2.2]
    · have hSn : s.SingleTree ≠ s.next := Nat.ne_of_lt hs.single_lt
      rw [g3, (hheap _).2.2.1, (hold _).2.2.1, if_neg hSn, if_neg hSn]
  have hfn : fa ≠ s.next := Nat.ne_of_lt hfa
  have hfresh : ∀ p, s.next ∉ (s.heap p).Children := fun p hc =>
    absurd (hs.child_lt p s.next hc) (lt_irrefl _)
  have hsub : ∀ p c, c ∈ ((cacheAttach hh s fa typ blk).heap p).Children →
      (c ∈ (s.heap p).Children ∧ c ≠ s.next) ∨ (p = fa ∧ c = s.next) := by
    intro p c hc
    rw [(hheap p).2.2.2.1] at hc
    by_cases hpf : p = fa
    · rw [if_pos hpf] at hc
      rcases List.mem_append.mp hc with h | h
      · left; rw [hpf]; exact ⟨h, fun e => hfresh fa (e ▸ h)⟩
      · right; exact ⟨hpf, by simpa using h⟩
    · rw [if_neg hpf] at hc
      by_cases hpn : p = s.next
      · rw [if_pos hpn] at hc; cases hc
      · rw [if_neg hpn] at hc
        exact Or.inl ⟨hc, fun e => hfresh p (e ▸ hc)⟩
  refine Tidy.mk hsound ?_ ?_ ?_ ?_ ?_
  · intro p c hc
    rcases hsub p c hc with ⟨h1, h2⟩ | ⟨h1, h2⟩
    · rw [(hheap c).2.1, if_neg h2]; exact hs.child_parent p c h1
    · rw [(hheap c).2.1, if_pos h2, h1]
  · intro p c b hc hb
    rw [f4, mapLoad_mapStore]
    rcases hsub p c hc with ⟨h1, h2⟩ | ⟨h1, h2⟩
    · rw [(hheap c).1, if_neg h2] at hb
      have := hs.child_indexed p c b h1 hb
      have hk : hh b ≠ hh blk := by
        intro e; rw [e, hdup] at this; cases this
      rw [if_neg hk]; exact this
    · rw [(hheap c).1, if_pos h2] at hb
      cases hb
      rw [if_pos rfl, h2]
  · intro p
    rw [(hheap p).2.2.2.1]
    by_cases hpf : p = fa
    · rw [if_pos hpf]
      refine List.Nodup.append (hs.children_nodup fa) (List.nodup_singleton _) ?_
      intro a ha hb
      rw [List.mem_singleton] at hb
      exact hfresh fa (hb ▸ ha)
    · rw [if_neg hpf]
      by_cases hpn : p = s.next
      · rw [if_pos hpn]; exact List.nodup_nil
      · rw [if_neg hpn]; exact hs.children_nodup p
  · rw [f4, keys_mapStore _ _ _ hdup]
    refine List.Nodup.append hs.index_nodup (List.nodup_singleton _) ?_
    intro a ha hb
    rw [List.mem_singleton] at hb
    exact mapLoad_none_not_key _ _ hdup (hb ▸ ha)
  · obtain ⟨b, hb⟩ := hs.linked_block
    have hLn : s.LinkedTree ≠ s.next := Nat.ne_of_lt hs.linked_lt
    exact ⟨b, by rw [f2, (hheap _).1, if_neg hLn]; exact hb⟩

/-- Moving an orphan from the single root under a node that holds a block
leaves a tidy cache. -/
theorem Tidy_adopted (hh : Block → Hash) (s : BlockCache) (n c : Ptr) (blk : Block)
    (hs : Tidy hh s) (hn : n < s.next) (hb : (s.heap n).Block = some blk)
    (hc : c ∈ (s.heap s.SingleTree).Children) :
    Tidy hh (adopted s n c) ∧
    ∀ x, (adopted s n c).heap x =
      { s.heap x with
        Parent := if x = c then some n else (s.heap x).Parent,
        Children :=
          if x = n then (s.heap n).Children ++ [c]
          else if x = s.SingleTree then (s.heap s.SingleTree).Children.filter (fun y => y != c)
          else (s.heap x).Children } := by
  have hnS : n ≠ s.SingleTree := by
    intro e; rw [e, hs.single_block] at hb; cases hb
  have hcS : (s.heap c).Parent = some s.SingleTree := hs.child_parent _ c hc
  have hcn : c ∉ (s.heap n).Children := by
    intro h
    have := hs.child_parent n c h
    rw [hcS] at this
    cases this
    exact hnS rfl
  have hheap := adopted_sound_heap hh s n c blk hs.toSound hb hc hcn
  obtain ⟨f1, f2, f3, _, f5, _⟩ := adopted_frame s n c
  refine ⟨?_, hheap⟩
  have hsub : ∀ p c2, c2 ∈ ((adopted s n c).heap p).Children →
      (p = n ∧ c2 = c) ∨ (c2 ≠ c ∧ c2 ∈ (s.heap p).Children) := by
    intro p c2 h
    rw [hheap p] at h
    simp only at h
    by_cases hpn : p = n
    · rw [if_pos hpn] at h
      rcases List.mem_append.mp h with h1 | h1
      · right; rw [hpn]; exact ⟨fun e => hcn (e ▸ h1), h1⟩
      · left; exact ⟨hpn, by simpa using h1⟩
    · rw [if_neg hpn] at h
      by_cases hpS : p = s.SingleTree
      · rw [if_pos hpS] at h
        have := List.mem_filter.mp h
        right; rw [hpS]; exact ⟨by simpa using this.2, this.1⟩
      · rw [if_neg hpS] at h
        right
        refine ⟨?_, h⟩
        intro e
        have := hs.child_parent p c2 h
        rw [e, hcS] at this
        cases this
        exact hpS rfl
  refine Tidy.mk (Sound_adopted hh s n c blk hs.toSound hn hb hc hcn) ?_ ?_ ?_ ?_ ?_
  · intro p c2 h
    rw [hheap c2]
    simp only
    rcases hsub p c2 h with ⟨h1, h2⟩ | ⟨h1, h2⟩
    · rw [if_pos h2, h1]
    · rw [if_neg h1]; exact hs.child_parent p c2 h2
  · intro p c2 b h h2
    rw [hheap c2] at h2
    simp only at h2
    rw [f5]
    rcases hsub p c2 h with ⟨_, h4⟩ | ⟨_, h4⟩
    · rw [h4] at h2 ⊢
      exact hs.child_indexed _ c b hc h2
    · exact hs.child_indexed p c2 b h4 h2
  · intro p
    rw [hheap p]
    simp only
    by_cases hpn : p = n
    · rw [if_pos hpn]
      refine List.Nodup.append (hs.children_nodup n) (List.nodup_singleton _) ?_
      intro a ha hb2
      rw [List.mem_singleton] at hb2
      exact hcn (hb2 ▸ ha)
    · rw [if_neg hpn]
      by_cases hpS : p = s.SingleTree
      · rw [if_pos hpS]; exact List.Nodup.filter _ (hs.children_nodup _)
      · rw [if_neg hpS]; exact hs.children_nodup p
  · rw [f5]; exact hs.index_nodup
  · obtain ⟨b, hb2⟩ := hs.linked_block
    exact ⟨b, by rw [f2, hheap]; exact hb2⟩

theorem filter_not_mem_cons (l rest : List Ptr) (c : Ptr) :
    (l.filter (fun y => y != c)).filter (fun y => decide (y ∉ rest)) =
      l.filter (fun y => decide ¬(y = c ∨ y ∈ rest)) := by
  rw [List.filter_filter]
  apply List.filter_congr
  intro y _
  by_cases hyc : y = c <;> by_cases hyr : y ∈ rest <;> simp [hyc, hyr]

/-- What `cacheMerge` leaves when it moves orphans of a tidy cache under a node
that holds a block: a tidy cache in which the orphans are the last children of
the node, in the order of the list, and point to it, and nothing else has
changed but the child list of the single root, which has lost them. -/
theorem cacheMerge_spec (hh : Block → Hash) (n : Ptr) (blk : Block) :
    ∀ (l : List Ptr) (s : BlockCache), Tidy hh s → n < s.next →
      (s.heap n).Block = some blk → l.Nodup → n ∉ l →
      (∀ c, c ∈ l → c ∈ (s.heap s.SingleTree).Children) →
      Tidy hh (cacheMerge s n l) ∧
      (cacheMerge s n l).next = s.next ∧ (cacheMerge s n l).LinkedTree = s.LinkedTree ∧
      (cacheMerge s n l).SingleTree = s.SingleTree ∧
      (cacheMerge s n l).hash2node = s.hash2node ∧
      (cacheMerge s n l).Leaf = s.Leaf ∧ (cacheMerge s n l).Head = s.Head ∧
      ∀ x, (cacheMerge s n l).heap x =
        { s.heap x with
          Parent := if x ∈ l then some n else (s.heap x).Parent,
          Children :=
            if x = n then (s.heap n).Children ++ l
            else if x = s.SingleTree then
              (s.heap s.SingleTree).Children.filter (fun y => decide (y ∉ l))
            else (s.heap x).Children } := by
  intro l
  induction l with
  | nil =>
    intro s hs hn hb _ _ _
    refine ⟨hs, rfl, rfl, rfl, rfl, rfl, rfl, ?_⟩
    intro x
    simp only [cacheMerge, List.not_mem_nil, if_false, List.append_nil, not_false_eq_true,
      decide_True, List.filter_true]
    split_ifs with h1 h2
    · rw [h1]
    · rw [h2]
    · rfl
  | cons c rest ih =>
    intro s hs hn hb hnd hnl hsub
    have hnS : n ≠ s.SingleTree := by
      intro e; rw [e, hs.single_block] at hb; cases hb
    have hc := hsub c (List.mem_cons_self _ _)
    obtain ⟨ht1, hheap⟩ := Tidy_adopted hh s n c blk hs hn hb hc
    obtain ⟨f1, f2, f3, f4, f5, f6⟩ := adopted_frame s n c
    have hnd2 := (List.nodup_cons.mp hnd)
    have hb1 : ((adopted s n c).heap n).Block = some blk := by rw [hheap]; exact hb
    have hsub1 : ∀ c2, c2 ∈ rest → c2 ∈ ((adopted s n c).heap (adopted s n c).SingleTree).Children := by
      intro c2 hc2
      have e : ((adopted s n c).heap s.SingleTree).Children =
          (s.heap s.SingleTree).Children.filter (fun y => y != c) := by
        rw [hheap]; simp [Ne.symm hnS]
      rw [f3, e]
      refine List.mem_filter.mpr ⟨hsub c2 (List.mem_cons_of_mem _ hc2), ?_⟩
      have : c2 ≠ c := fun e => hnd2.1 (e ▸ hc2)
      simpa using this
    obtain ⟨r0, r1, r2, r3, r4, r5, r6, r7⟩ :=
      ih (adopted s n c) ht1 (by rw [f1]; exact hn) hb1 hnd2.2
        (fun h => hnl (List.mem_cons_of_mem _ h)) hsub1
    refine ⟨r0, by rw [cacheMerge, r1, f1], by rw [cacheMerge, r2, f2],
      by rw [cacheMerge, r3, f3], by rw [cacheMerge, r4, f5], by rw [cacheMerge, r5, f6],
      by rw [cacheMerge, r6, f4], ?_⟩
    intro x
    rw [cacheMerge, r7 x, f3]
    rw [hheap x, hheap n, hheap s.SingleTree]
    simp only [if_pos rfl, if_neg (Ne.symm hnS), List.append_assoc, List.singleton_append,
      List.mem_cons]
    have hcr : c ∉ rest := hnd2.1
    by_cases hxn : x = n
    · subst hxn
      have hxc : x ≠ c := fun e => hnl (e ▸ List.mem_cons_self _ _)
      have hxr : x ∉ rest := fun h => hnl (List.mem_cons_of_mem _ h)
      simp [hxr, hxc]
    · by_cases hxS : x = s.SingleTree
      · subst hxS
        have hxc : s.SingleTree ≠ c := by
          intro e
          have := hs.toSound.single_child c hc
          rw [← e, Sound_single_parent hh s hs.toSound] at this
          cases this
        have hxr : s.SingleTree ∉ rest := by
          intro h
          have h2 := hsub _ (List.mem_cons_of_mem _ h)
          have := hs.toSound.single_child _ h2
          rw [Sound_single_parent hh s hs.toSound] at this
          cases this
        simp only [if_neg hxn, if_pos rfl, if_neg hxc, hxr, or_false, if_false]
        congr 1
        simp only [if_true]
        exact filter_not_mem_cons _ _ _
      · simp only [if_neg hxn, if_neg hxS]
        by_cases hxc : x = c
        · simp [hxc]
        · simp [hxc]

/-- What `cacheAdd` leaves for a block that is not indexed yet, in a tidy
cache: `fa` is the node under which the block is attached, `typ` the type of
the new node, and the orphans that waited for the block are the children of
the new node. -/
theorem cacheAdd_new (hh : Block → Hash) (s : BlockCache) (blk : Block) (fa : Ptr)
    (typ : BCNType) (hs : Tidy hh s) (hdup : mapLoad s.hash2node (hh blk) = none)
    (hfa : (mapLoad s.hash2node blk.Head.ParentHash = some fa ∧ typ = (s.heap fa).Type_) ∨
      (mapLoad s.hash2node blk.Head.ParentHash = none ∧ fa = s.SingleTree ∧
        typ = BCNType.Single)) :
    (cacheAdd hh s blk).node = some s.next ∧
    Tidy hh (cacheAdd hh s blk).cache ∧
    (cacheAdd hh s blk).cache.next = s.next + 1 ∧
    (cacheAdd hh s blk).cache.LinkedTree = s.LinkedTree ∧
    (cacheAdd hh s blk).cache.SingleTree = s.SingleTree ∧
    (cacheAdd hh s blk).cache.hash2node = mapStore s.hash2node (hh blk) s.next ∧
    (cacheAdd hh s blk).cache.Leaf = s.Leaf ∧
    ∀ x,
      ((cacheAdd hh s blk).cache.heap x).Block =
        (if x = s.next then some blk else (s.heap x).Block) ∧
      ((cacheAdd hh s blk).cache.heap x).Type_ =
        (if x = s.next then typ else (s.heap x).Type_) ∧
      ((cacheAdd hh s blk).cache.heap x).Parent =
        (if x ∈ (s.heap s.SingleTree).Children.filter (waitsFor s (hh blk)) then some s.next
         else if x = s.next then some fa else (s.heap x).Parent) ∧
      ((cacheAdd hh s blk).cache.heap x).Children =
        (if x = s.next then (s.heap s.SingleTree).Children.filter (waitsFor s (hh blk))
         else if x = s.SingleTree then
           (if s.SingleTree = fa then (s.heap fa).Children ++ [s.next]
            else (s.heap s.SingleTree).Children).filter
             (fun y => decide (y ∉ (s.heap s.SingleTree).Children.filter (waitsFor s (hh blk))))
         else if x = fa then (s.heap fa).Children ++ [s.next]
         else (s.heap x).Children) := by
  have hfl : fa < s.next := by
    rcases hfa with ⟨h, _⟩ | ⟨_, h, _⟩
    · exact hs.index_lt _ _ h
    · rw [h]; exact hs.single_lt
  have hfn : fa ≠ s.next := Nat.ne_of_lt hfl
  have hSn : s.SingleTree ≠ s.next := Nat.ne_of_lt hs.single_lt
  have hcache : (cacheAdd hh s blk).cache =
      cacheMerge (cacheAttach hh s fa typ blk) s.next
        ((s.heap s.SingleTree).Children.filter (waitsFor s (hh blk))) ∧
      (cacheAdd hh s blk).node = some s.next := by
    rcases hfa with ⟨h, ht⟩ | ⟨h, hf, ht⟩
    · constructor <;> simp only [cacheAdd, hdup, h, ht]
    · subst hf
      constructor <;> simp only [cacheAdd, hdup, h, ht]
  obtain ⟨f1, f2, f3, f4, f5, f6⟩ := cacheAttach_frame hh s fa typ blk
  have hheap := cacheAttach_heap hh s fa typ blk hfl
  have ht := Tidy_cacheAttach hh s fa typ blk hs hfl hdup
  have hw : ∀ c, c ∈ (s.heap s.SingleTree).Children.filter (waitsFor s (hh blk)) →
      c ∈ (s.heap s.SingleTree).Children := fun c hc => (List.mem_filter.mp hc).1
  have hwn : s.next ∉ (s.heap s.SingleTree).Children.filter (waitsFor s (hh blk)) :=
    fun h => absurd (hs.child_lt _ _ (hw _ h)) (lt_irrefl _)
  obtain ⟨r0, r1, r2, r3, r4, r5, _, r7⟩ :=
    cacheMerge_spec hh s.next blk
      ((s.heap s.SingleTree).Children.filter (waitsFor s (hh blk)))
      (cacheAttach hh s fa typ blk) ht (by rw [f1]; exact Nat.lt_succ_self _)
      (by rw [(hheap _).1, if_pos rfl]) (List.Nodup.filter _ (hs.children_nodup _)) hwn
      (by
        intro c hc
        rw [f3, (hheap _).2.2.2.1]
        by_cases hSf : s.SingleTree = fa
        · rw [if_pos hSf, ← hSf]; exact List.mem_append_left _ (hw c hc)
        · rw [if_neg hSf, if_neg hSn]; exact hw c hc)
  rw [hcache.1]
  refine ⟨hcache.2, r0, by rw [r1, f1], by rw [r2, f2], by rw [r3, f3], by rw [r4, f4],
    by rw [r5, f5], ?_⟩
  intro x
  rw [r7 x, f3]
  simp only
  refine ⟨(hheap x).1, (hheap x).2.2.1, ?_, ?_⟩
  · rw [(hheap x).2.1]
  · rw [(hheap x).2.2.2.1, (hheap s.next).2.2.2.1, (hheap s.SingleTree).2.2.2.1]
    rw [if_neg (Ne.symm hfn), if_pos rfl, List.nil_append]
    by_cases hxn : x = s.next
    · simp only [if_pos hxn]
    · simp only [if_neg hxn]
      by_cases hxS : x = s.SingleTree
      · simp only [if_pos hxS, if_neg hSn]
      · simp only [if_neg hxS]

theorem cacheLink_heap (hh : Block → Hash) (s : BlockCache) (n x : Ptr) :
    (cacheLink hh s (some n)).heap x =
      if x = n then { s.heap n with Type_ := BCNType.Linked } else s.heap x := by
  by_cases hx : x = n
  · subst hx; simp [cacheLink, BlockCache.store]
  · simp [cacheLink, BlockCache.store, Function.update_apply, hx]

theorem cacheLink_frame (hh : Block → Hash) (s : BlockCache) (n : Ptr) :
    (cacheLink hh s (some n)).next = s.next ∧
    (cacheLink hh s (some n)).LinkedTree = s.LinkedTree ∧
    (cacheLink hh s (some n)).SingleTree = s.SingleTree ∧
    (cacheLink hh s (some n)).hash2node = s.hash2node := by
  simp [cacheLink, BlockCache.store]

theorem cacheLink_fields (hh : Block → Hash) (s : BlockCache) (n x : Ptr) :
    ((cacheLink hh s (some n)).heap x).Block = (s.heap x).Block ∧
    ((cacheLink hh s (some n)).heap x).Parent = (s.heap x).Parent ∧
    ((cacheLink hh s (some n)).heap x).Children = (s.heap x).Children ∧
    ((cacheLink hh s (some n)).heap x).Type_ =
      (if x = n then BCNType.Linked else (s.heap x).Type_) := by
  rw [cacheLink_heap]
  by_cases hx : x = n
  · subst hx; simp
  · simp [hx]

/-- Linking a node other than the single root leaves a tidy cache. -/
theorem Tidy_cacheLink (hh : Block → Hash) (s : BlockCache) (n : Ptr) (hs : Tidy hh s)
    (hn : n ≠ s.SingleTree) : Tidy hh (cacheLink hh s (some n)) := by
  obtain ⟨f1, f2, f3, f4⟩ := cacheLink_frame hh s n
  have hf := cacheLink_fields hh s n
  exact Tidy_of_fields hh s _ hs f1 f2 f3 f4 (fun x => (hf x).1) (fun x => (hf x).2.1)
    (fun x => (hf x).2.2.1) (by rw [(hf _).2.2.2, if_neg (Ne.symm hn)])

theorem mapLoad_filter (l : List (Hash × Ptr)) (hl : (l.map Prod.fst).Nodup)
    (P : Hash × Ptr → Bool) (h : Hash) (p : Ptr) :
    mapLoad (l.filter P) h = some p ↔ mapLoad l h = some p ∧ P (h, p) = true := by
  have hsub : ((l.filter P).map Prod.fst).Nodup :=
    List.Nodup.sublist (List.Sublist.map _ (List.filter_sublist _)) hl
  rw [← mem_iff_mapLoad _ hsub, ← mem_iff_mapLoad _ hl, List.mem_filter]

/-- Dropping a node leaves a tidy cache. -/
theorem Tidy_cacheDrop (hh : Block → Hash) (s : BlockCache) (n : Ptr) (hs : Tidy hh s) :
    Tidy hh (cacheDrop s n) := by
  obtain ⟨f1, f2, f3, _, f5, _⟩ := cacheDrop_frame s n
  have hheap := cacheDrop_heap s n
  have hidx : ∀ h p, mapLoad (cacheDrop s n).hash2node h = some p →
      mapLoad s.hash2node h = some p ∧ p ≠ n := by
    intro h p hp
    rw [f5] at hp
    have := (mapLoad_filter _ hs.index_nodup _ h p).mp hp
    exact ⟨this.1, by simpa using this.2⟩
  have hsub : ∀ u c, c ∈ ((cacheDrop s n).heap u).Children →
      c ∈ (s.heap u).Children ∧ c ≠ n := by
    intro u c hc
    rcases cacheDrop_children_sub s n u c hc with h | h
    · exact h
    · refine ⟨h.1, ?_⟩
      intro e
      apply h.2
      rw [← e]
      exact hs.child_parent u c h.1
  have hsound : Sound hh (cacheDrop s n) := by
    constructor
    · rw [f1, f2]; exact hs.linked_lt
    · rw [f1, f3]; exact hs.single_lt
    · rw [f2, f3]; exact hs.roots_ne
    · intro h p hp; rw [f1]; exact hs.index_lt h p (hidx h p hp).1
    · intro h p hp
      rw [hheap]
      exact hs.index_block h p (hidx h p hp).1
    · intro p c hc; rw [f1]; exact hs.child_lt p c (hsub p c hc).1
    · intro p c hc; rw [hheap]; exact hs.child_block p c (hsub p c hc).1
    · intro c p hp
      rw [hheap] at hp
      simp only at hp
      by_cases hcn : c = n
      · rw [if_pos hcn] at hp; cases hp
      · rw [if_neg hcn] at hp
        exact cacheDrop_children_keep s n p c (hs.parent_child c p hp) hcn
    · intro c p hp
      rw [hheap] at hp
      simp only at hp
      by_cases hcn : c = n
      · rw [if_pos hcn] at hp; cases hp
      · rw [if_neg hcn] at hp
        rw [f1]; exact hs.parent_lt c p hp
    · rw [f2, hheap]
      simp only
      split_ifs
      · rfl
      · exact hs.linked_parent
    · rw [f3, hheap]; exact hs.single_block
    · rw [f3, hheap]; exact hs.single_type
    · intro c hc
      rw [f3] at hc ⊢
      have := hsub _ c hc
      rw [hheap]
      simp only
      rw [if_neg this.2]
      exact hs.single_child c this.1
  refine Tidy.mk hsound ?_ ?_ ?_ ?_ ?_
  · intro p c hc
    have := hsub p c hc
    rw [hheap]
    simp only
    rw [if_neg this.2]
    exact hs.child_parent p c this.1
  · intro p c b hc hb
    have := hsub p c hc
    rw [hheap] at hb
    rw [f5]
    exact (mapLoad_filter _ hs.index_nodup _ _ _).mpr
      ⟨hs.child_indexed p c b this.1 hb, by simpa using this.2⟩
  · intro p
    rw [hheap]
    simp only
    split_ifs
    · exact List.Nodup.filter _ (hs.children_nodup p)
    · exact hs.children_nodup p
  · rw [f5]
    exact List.Nodup.sublist (List.Sublist.map _ (List.filter_sublist _)) hs.index_nodup
  · obtain ⟨b, hb⟩ := hs.linked_block
    exact ⟨b, by rw [f2, hheap]; exact hb⟩

/-- A run of `cacheDel` that returns leaves a tidy cache. -/
theorem Tidy_cacheDel (hh : Block → Hash) :
    ∀ fuel s n s2, Tidy hh s → cacheDel fuel s n = some s2 → Tidy hh s2 := by
  intro fuel
  induction fuel with
  | zero => intro s n s2 _ h; simp [cacheDel] at h
  | succ fuel ih =>
    intro s n s2 hs h
    cases n with
    | none => simp only [cacheDel, Option.some.injEq] at h; rw [← h]; exact hs
    | some n =>
      simp only [cacheDel] at h
      have loop : ∀ (l : List Ptr) (t t2 : BlockCache), Tidy hh t →
          cacheDelEach (fun x c => cacheDel fuel x (some c)) l t = some t2 → Tidy hh t2 := by
        intro l
        induction l with
        | nil => intro t t2 ht hr; simp only [cacheDelEach, Option.some.injEq] at hr; rw [← hr]; exact ht
        | cons c rest ihl =>
          intro t t2 ht hr
          simp only [cacheDelEach] at hr
          cases hd : cacheDel fuel t (some c) with
          | none => rw [hd] at hr; cases hr
          | some t1 =>
            rw [hd] at hr
            exact ihl t1 t2 (ih t (some c) t1 ht hd) hr
      cases hl : cacheDelEach (fun x c => cacheDel fuel x (some c)) (s.heap n).Children s with
      | none => rw [hl] at h; cases h
      | some s1 =>
        rw [hl] at h
        simp only [Option.some.injEq] at h
        rw [← h]
        exact Tidy_cacheDrop hh s1 n (loop _ s s1 hs hl)

/-- C25 (counterexample): block 7, whose parent block 6 is unknown, arrives at
a fresh cache and passes `verifyBasics`.  `handleRecvBlock` puts it under the
single root (node 1) as node 2 of type `Single`, and what it returns is not nil
but `errSingle`. -/
theorem handleRecvBlock_single_returns_errSingle :
    Find freshCache block7.Head.ParentHash = none ∧
    sampleOutside.verifyBasics block7 = none ∧
    (handleRecvBlock sampleOutside 5 (newPoB freshCache) block7).map
      (fun r => (r.2, Find r.1.blockCache (sampleHash block7),
        (r.1.blockCache.heap 2).Parent, (r.1.blockCache.heap 2).Type_,
        r.1.blockCache.SingleTree)) =
      some (some PobErr.errSingle, some 2, some 1, BCNType.Single, 1) := by
  refine ⟨by decide, rfl, by rfl⟩

/-- C25 (amended): in every cache state (tidy, as the cache is after `New` and
stays under `Add`, `Link` and `Del`), for every block that is not in the cache,
passes `verifyBasics` and whose parent hash is not in the cache,
`handleRecvBlock` calls `Add` and nothing else on the cache and returns
`errSingle`, not nil; afterwards the block is held by a node of type `Single`
that is a child of the single root and is found under the head hash of the
block. -/
theorem handleRecvBlock_keeps_orphan_as_single (o : Outside) (fuel : Nat) (p : PoB)
    (blk : Block) (ht : Tidy o.hh p.blockCache)
    (hnew : Find p.blockCache (o.hh blk) = none)
    (hok : o.verifyBasics blk = none)
    (hnopar : Find p.blockCache blk.Head.ParentHash = none) :
    ∃ r n, handleRecvBlock o fuel p blk = some (r, some PobErr.errSingle) ∧
      r.calls = p.calls ++ [CacheCall.add blk] ∧
      Find r.blockCache (o.hh blk) = some n ∧
      (r.blockCache.heap n).Block = some blk ∧
      (r.blockCache.heap n).Type_ = BCNType.Single ∧
      (r.blockCache.heap n).Parent = some r.blockCache.SingleTree ∧
      n ∈ (r.blockCache.heap r.blockCache.SingleTree).Children := by
  have hdup : mapLoad p.blockCache.hash2node (o.hh blk) = none := by
    rw [← Find_eq]; exact hnew
  have hpar : mapLoad p.blockCache.hash2node blk.Head.ParentHash = none := by
    rw [← Find_eq]; exact hnopar
  obtain ⟨_, _, _, _, a5, a6, _, a8⟩ :=
    cacheAdd_new o.hh p.blockCache blk p.blockCache.SingleTree BCNType.Single ht hdup
      (Or.inr ⟨hpar, rfl, rfl⟩)
  have hSn : p.blockCache.SingleTree ≠ p.blockCache.next := Nat.ne_of_lt ht.single_lt
  have hw : p.blockCache.next ∉
      (p.blockCache.heap p.blockCache.SingleTree).Children.filter
        (waitsFor p.blockCache (o.hh blk)) :=
    fun h => absurd (ht.child_lt _ _ (List.mem_filter.mp h).1) (lt_irrefl _)
  refine ⟨{ p with blockCache := (cacheAdd o.hh p.blockCache blk).cache,
                   calls := p.calls ++ [CacheCall.add blk] },
    p.blockCache.next, ?_, rfl, ?_, ?_, ?_, ?_, ?_⟩
  · simp only [handleRecvBlock, hnew, hok, hnopar]
  · show Find (cacheAdd o.hh p.blockCache blk).cache (o.hh blk) = some p.blockCache.next
    rw [Find_eq, a6, mapLoad_mapStore, if_pos rfl]
  · show ((cacheAdd o.hh p.blockCache blk).cache.heap p.blockCache.next).Block = some blk
    rw [(a8 _).1, if_pos rfl]
  · show ((cacheAdd o.hh p.blockCache blk).cache.heap p.blockCache.next).Type_ = BCNType.Single
    rw [(a8 _).2.1, if_pos rfl]
  · show ((cacheAdd o.hh p.blockCache blk).cache.heap p.blockCache.next).Parent =
      some (cacheAdd o.hh p.blockCache blk).cache.SingleTree
    rw [(a8 _).2.2.1, if_neg hw, if_pos rfl, a5]
  · show p.blockCache.next ∈
      ((cacheAdd o.hh p.blockCache blk).cache.heap
        (cacheAdd o.hh p.blockCache blk).cache.SingleTree).Children
    rw [a5, (a8 _).2.2.2, if_neg hSn, if_pos rfl, if_pos rfl]
    refine List.mem_filter.mpr ⟨List.mem_append_right _ (List.mem_singleton_self _), ?_⟩
    exact decide_eq_true hw

/-- Witness of C25 (amended): block 7 arrives at a fresh cache that has not
seen block 6. -/
theorem handleRecvBlock_keeps_orphan_as_single_witness :
    ∃ r n, handleRecvBlock sampleOutside 5 (newPoB freshCache) block7 =
        some (r, some PobErr.errSingle) ∧
      r.calls = (newPoB freshCache).calls ++ [CacheCall.add block7] ∧
      Find r.blockCache (sampleOutside.hh block7) = some n ∧
      (r.blockCache.heap n).Block = some block7 ∧
      (r.blockCache.heap n).Type_ = BCNType.Single ∧
      (r.blockCache.heap n).Parent = some r.blockCache.SingleTree ∧
      n ∈ (r.blockCache.heap r.blockCache.SingleTree).Children :=
  handleRecvBlock_keeps_orphan_as_single sampleOutside 5 (newPoB freshCache) block7
    (Tidy_NewBlockCache sampleHash libBlock) (by decide) rfl (by decide)

theorem reqLoad_reqStore (m : List (Hash × Bool)) (h k : Hash) (v : Bool) :
    reqLoad (reqStore m h v) k = if k = h then some v else reqLoad m k := by
  induction m with
  | nil =>
    by_cases hk : k = h
    · simp [reqStore, reqLoad, hk]
    · have : ¬ h = k := fun e => hk e.symm
      simp [reqStore, reqLoad, hk, this]
  | cons kv rest ih =>
    obtain ⟨k0, v0⟩ := kv
    by_cases h0 : k0 = h
    · subst h0
      by_cases hk : k = k0
      · simp [reqStore, reqLoad, hk]
      · have : ¬ k0 = k := fun e => hk e.symm
        simp [reqStore, reqLoad, hk, this]
    · by_cases h1 : k0 = k
      · subst h1
        simp [reqStore, reqLoad, h0]
      · simp [reqStore, reqLoad, h0, h1, ih]

/-- C28: for an announced block info with hash `h` that can be encoded and a
peer `q`: if `h` is neither a key of the request map nor found in the cache,
`handleRecvBlockHash` sends one `NewBlockRequest` to `q`, records `h` in the
request map with a timer, and changes neither the other keys nor the cache; if
`h` is a key of the request map or is found in the cache, it changes nothing;
and a second announcement of the same info right after the first changes
nothing more, whoever sends it. -/
theorem handleRecvBlockHash_requests_once (o : Outside) (p : PoB) (blkInfo : BlockInfo)
    (q : Nat) (bytes : List Nat) (hm : o.marshal blkInfo = some bytes) :
    (reqLoad p.blockReqMap blkInfo.Hash = none → Find p.blockCache blkInfo.Hash = none →
      (handleRecvBlockHash o p blkInfo q).sent =
        p.sent ++ [Sent.toPeer q bytes MessageType.NewBlockRequest] ∧
      reqLoad (handleRecvBlockHash o p blkInfo q).blockReqMap blkInfo.Hash = some true ∧
      (∀ k, k ≠ blkInfo.Hash →
        reqLoad (handleRecvBlockHash o p blkInfo q).blockReqMap k = reqLoad p.blockReqMap k) ∧
      (handleRecvBlockHash o p blkInfo q).blockCache = p.blockCache) ∧
    (reqLoad p.blockReqMap blkInfo.Hash ≠ none ∨ Find p.blockCache blkInfo.Hash ≠ none →
      handleRecvBlockHash o p blkInfo q = p) ∧
    (∀ q2, handleRecvBlockHash o (handleRecvBlockHash o p blkInfo q) blkInfo q2 =
      handleRecvBlockHash o p blkInfo q) := by
  have hknown : ∀ (p0 : PoB) (q0 : Nat),
      reqLoad p0.blockReqMap blkInfo.Hash ≠ none ∨ Find p0.blockCache blkInfo.Hash ≠ none →
      handleRecvBlockHash o p0 blkInfo q0 = p0 := by
    intro p0 q0 h
    cases h1 : reqLoad p0.blockReqMap blkInfo.Hash with
    | some v => simp [handleRecvBlockHash, h1]
    | none =>
      cases h2 : Find p0.blockCache blkInfo.Hash with
      | some n => simp [handleRecvBlockHash, h1, h2]
      | none => rcases h with h | h <;> contradiction
  have hnewc : ∀ q0, reqLoad p.blockReqMap blkInfo.Hash = none →
      Find p.blockCache blkInfo.Hash = none →
      handleRecvBlockHash o p blkInfo q0 =
        { p with blockReqMap := reqStore p.blockReqMap blkInfo.Hash true,
                 sent := p.sent ++ [Sent.toPeer q0 bytes MessageType.NewBlockRequest] } := by
    intro q0 h1 h2
    simp [handleRecvBlockHash, h1, h2, hm]
  refine ⟨?_, hknown p q, ?_⟩
  · intro h1 h2
    rw [hnewc q h1 h2]
    refine ⟨rfl, ?_, ?_, rfl⟩
    · show reqLoad (reqStore p.blockReqMap blkInfo.Hash true) blkInfo.Hash = some true
      rw [reqLoad_reqStore]; simp
    · intro k hk
      show reqLoad (reqStore p.blockReqMap blkInfo.Hash true) k = _
      rw [reqLoad_reqStore]; simp [hk]
  · intro q2
    by_cases hk : reqLoad p.blockReqMap blkInfo.Hash ≠ none ∨
        Find p.blockCache blkInfo.Hash ≠ none
    · rw [hknown p q hk, hknown p q2 hk]
    · have h1 : reqLoad p.blockReqMap blkInfo.Hash = none := by
        by_contra h; exact hk (Or.inl h)
      have h2 : Find p.blockCache blkInfo.Hash = none := by
        by_contra h; exact hk (Or.inr h)
      apply hknown
      left
      rw [hnewc q h1 h2]
      show reqLoad (reqStore p.blockReqMap blkInfo.Hash true) blkInfo.Hash ≠ none
      rw [reqLoad_reqStore]; simp

/-- Witness of C28: the hash of block 6 is announced by peer 7 to a node with
a fresh cache and an empty request map. -/
theorem handleRecvBlockHash_requests_once_witness :
    (reqLoad (newPoB freshCache).blockReqMap (sampleHash block6) = none →
      Find (newPoB freshCache).blockCache (sampleHash block6) = none →
      (handleRecvBlockHash sampleOutside (newPoB freshCache)
          { Number := 6, Hash := sampleHash block6 } 7).sent =
        (newPoB freshCache).sent ++
          [Sent.toPeer 7 (6 :: sampleHash block6) MessageType.NewBlockRequest] ∧
      reqLoad (handleRecvBlockHash sampleOutside (newPoB freshCache)
          { Number := 6, Hash := sampleHash block6 } 7).blockReqMap (sampleHash block6) =
        some true ∧
      (∀ k, k ≠ sampleHash block6 →
        reqLoad (handleRecvBlockHash sampleOutside (newPoB freshCache)
          { Number := 6, Hash := sampleHash block6 } 7).blockReqMap k =
          reqLoad (newPoB freshCache).blockReqMap k) ∧
      (handleRecvBlockHash sampleOutside (newPoB freshCache)
          { Number := 6, Hash := sampleHash block6 } 7).blockCache =
        (newPoB freshCache).blockCache) ∧
    (reqLoad (newPoB freshCache).blockReqMap (sampleHash block6) ≠ none ∨
        Find (newPoB freshCache).blockCache (sampleHash block6) ≠ none →
      handleRecvBlockHash sampleOutside (newPoB freshCache)
          { Number := 6, Hash := sampleHash block6 } 7 = newPoB freshCache) ∧
    (∀ q2, handleRecvBlockHash sampleOutside
        (handleRecvBlockHash sampleOutside (newPoB freshCache)
          { Number := 6, Hash := sampleHash block6 } 7)
        { Number := 6, Hash := sampleHash block6 } q2 =
      handleRecvBlockHash sampleOutside (newPoB freshCache)
          { Number := 6, Hash := sampleHash block6 } 7) :=
  handleRecvBlockHash_requests_once sampleOutside (newPoB freshCache)
    { Number := 6, Hash := sampleHash block6 } 7 (6 :: sampleHash block6) rfl

theorem rangePob_sent (body : PoB → Ptr → Option PoB) (par : Ptr)
    (hbody : ∀ q c q2, body q c = some q2 → q2.sent = q.sent) :
    ∀ l p p2, rangePob body par l p = some p2 → p2.sent = p.sent := by
  intro l
  induction l with
  | nil =>
    intro p p2 h
    simp only [rangePob, Option.some.injEq] at h
    rw [← h]
  | cons ch rest ih =>
    intro p p2 h
    simp only [rangePob] at h
    by_cases hc : ch ∈ (p.blockCache.heap par).Children
    · rw [if_pos hc] at h
      cases hb : body p ch with
      | none => rw [hb] at h; cases h
      | some p1 =>
        rw [hb] at h
        rw [ih p1 p2 h, hbody p ch p1 hb]
    · rw [if_neg hc] at h
      exact ih p p2 h

/-- The method `addExistingBlock` calls the p2p service neither to broadcast
nor to send to a peer. -/
theorem addExistingBlock_sent (o : Outside) :
    ∀ fuel p blk parentBlock replay r,
      addExistingBlock o fuel p blk parentBlock replay = some r → r.1.sent = p.sent := by
  intro fuel
  induction fuel with
  | zero =>
    intro p blk parentBlock replay r h
    simp [addExistingBlock] at h
  | succ fuel ih =>
    intro p blk parentBlock replay r h
    have hbody : ∀ (n : Ptr) (q : PoB) (c : Ptr) (q2 : PoB),
        (match (q.blockCache.heap c).Block with
          | none => none
          | some cb =>
            (addExistingBlock o fuel q cb (q.blockCache.heap n).Block replay).map Prod.fst)
          = some q2 → q2.sent = q.sent := by
      intro n q c q2 hq
      cases hb : (q.blockCache.heap c).Block with
      | none => simp [hb] at hq
      | some cb =>
        simp only [hb] at hq
        cases hr : addExistingBlock o fuel q cb (q.blockCache.heap n).Block replay with
        | none => rw [hr] at hq; cases hq
        | some r2 =>
          rw [hr] at hq
          simp only [Option.map_some', Option.some.injEq] at hq
          rw [← hq]
          exact ih q cb _ replay r2 hr
    unfold addExistingBlock at h
    simp only at h
    by_cases hok : o.checkout p.tags (o.hh blk) = true
    all_goals simp only [hok, if_true, if_false] at h
    all_goals repeat' (first | (cases h; done) | split at h)
    all_goals first
      | (cases h; rfl)
      | (cases h
         have hrun := ‹rangePob _ _ _ _ = some _›
         have hs := rangePob_sent _ _ (hbody _) _ _ _ hrun
         exact hs)

theorem handleRecvBlock_sent (o : Outside) (fuel : Nat) (p : PoB) (blk : Block)
    (r : PoB × Option PobErr) (h : handleRecvBlock o fuel p blk = some r) :
    r.1.sent = p.sent := by
  unfold handleRecvBlock at h
  simp only at h
  repeat' (first | (cases h; done) | split at h)
  all_goals first
    | (cases h; rfl)
    | (have hs := addExistingBlock_sent o fuel _ blk _ false r h
       exact hs)

/-- C23 (counterexample): in `ModeNormal`, (a) block 6 is received, then
arrives once more as a `NewBlock` message: `handleRecvBlock` returns
`errDuplicate`, and still `doVerifyBlock` starts `broadcastBlockHash`, which
broadcasts the hash; (b) block 6 arrives at a fresh cache while `verifyBasics`
rejects it: `handleRecvBlock` returns that error, the cache index is as
before, and the hash is broadcast all the same. -/
theorem doVerifyBlock_broadcasts_after_error :
    ((recvAll sampleOutside 5 (newPoB freshCache) [peer6]).bind
      (fun p => handleRecvBlock sampleOutside 5
        { p with blockReqMap := reqStore p.blockReqMap (sampleHash peer6) false } peer6)).map
      Prod.snd = some (some PobErr.errDuplicate) ∧
    ((recvAll sampleOutside 5 (newPoB freshCache) [peer6]).bind
      (fun p => doVerifyBlock sampleOutside 5 TMode.ModeNormal p peer6 MessageType.NewBlock)).map
      (fun p => (p.spawned, (broadcastBlockHash sampleOutside TMode.ModeNormal p peer6).sent)) =
      some ([peer6], [Sent.broadcast (6 :: sampleHash peer6) MessageType.NewBlockHash]) ∧
    (handleRecvBlock { sampleOutside with verifyBasics := fun _ => some (PobErr.other 1) } 5
        { newPoB freshCache with blockReqMap := [(sampleHash peer6, false)] } peer6).map
      (fun r => (r.2, r.1.blockCache.hash2node.length)) =
      some (some (PobErr.other 1), freshCache.hash2node.length) ∧
    (doVerifyBlock { sampleOutside with verifyBasics := fun _ => some (PobErr.other 1) } 5
        TMode.ModeNormal (newPoB freshCache) peer6 MessageType.NewBlock).map
      (fun p => (p.spawned,
        (broadcastBlockHash { sampleOutside with verifyBasics := fun _ => some (PobErr.other 1) }
          TMode.ModeNormal p peer6).sent)) =
      some ([peer6], [Sent.broadcast (6 :: sampleHash peer6) MessageType.NewBlockHash]) := by
  refine ⟨?_, ?_, ?_, ?_⟩ <;> rfl

/-- C23 (amended): when `doVerifyBlock` handles a `NewBlock` message outside
`ModeInit` and `handleRecvBlock` returns, `broadcastBlockHash` is started for
the block once, whatever error `handleRecvBlock` has returned, and nothing is
sent before it runs; for a `SyncBlockResponse` message it is not started.  When
it runs, `broadcastBlockHash` broadcasts one `NewBlockHash` message if the mode
it reads is `ModeNormal` and the block info can be encoded, and nothing
otherwise. -/
theorem doVerifyBlock_starts_broadcast_always (o : Outside) (fuel : Nat) (mode : TMode)
    (p : PoB) (blk : Block) (hmode : mode ≠ TMode.ModeInit) :
    (∀ r, handleRecvBlock o fuel
        (if (reqLoad p.blockReqMap (o.hh blk)).isSome then p
          else { p with blockReqMap := reqStore p.blockReqMap (o.hh blk) false }) blk
        = some r →
      ∃ p2, doVerifyBlock o fuel mode p blk MessageType.NewBlock = some p2 ∧
        p2.spawned = r.1.spawned ++ [blk] ∧ p2.blockCache = r.1.blockCache ∧
        p2.sent = p.sent) ∧
    (∀ r, handleRecvBlock o fuel p blk = some r →
      doVerifyBlock o fuel mode p blk MessageType.SyncBlockResponse = some r.1 ∧
      r.1.sent = p.sent) ∧
    (∀ (mode2 : TMode) (q : PoB),
      (broadcastBlockHash o mode2 q blk).sent =
        match o.marshal { Number := blk.Head.Number, Hash := o.hh blk } with
        | none => q.sent
        | some b =>
          if mode2 = TMode.ModeNormal then
            q.sent ++ [Sent.broadcast b MessageType.NewBlockHash]
          else q.sent) := by
  refine ⟨?_, ?_, ?_⟩
  · intro r hr
    have hs := handleRecvBlock_sent o fuel _ blk r hr
    refine ⟨{ r.1 with spawned := r.1.spawned ++ [blk],
                       blockReqMap := reqDelete r.1.blockReqMap (o.hh blk) },
      by simp only [doVerifyBlock, hmode, if_false, hr], rfl, rfl, ?_⟩
    show r.1.sent = p.sent
    rw [hs]
    split <;> rfl
  · intro r hr
    exact ⟨by simp only [doVerifyBlock, hmode, if_false, hr],
      handleRecvBlock_sent o fuel p blk r hr⟩
  · intro mode2 q
    unfold broadcastBlockHash
    cases o.marshal { Number := blk.Head.Number, Hash := o.hh blk } with
    | none => rfl
    | some b =>
      by_cases hm : mode2 = TMode.ModeNormal
      · simp [hm]
      · simp [hm]

/-- Witness of C23 (amended): block 6 arrives at a fresh cache in
`ModeSync`. -/
theorem doVerifyBlock_starts_broadcast_always_witness :
    (∀ r, handleRecvBlock sampleOutside 5
        (if (reqLoad (newPoB freshCache).blockReqMap (sampleOutside.hh peer6)).isSome then
            newPoB freshCache
          else { newPoB freshCache with
              blockReqMap := reqStore (newPoB freshCache).blockReqMap (sampleOutside.hh peer6)
                false }) peer6
        = some r →
      ∃ p2, doVerifyBlock sampleOutside 5 TMode.ModeSync (newPoB freshCache) peer6
          MessageType.NewBlock = some p2 ∧
        p2.spawned = r.1.spawned ++ [peer6] ∧ p2.blockCache = r.1.blockCache ∧
        p2.sent = (newPoB freshCache).sent) ∧
    (∀ r, handleRecvBlock sampleOutside 5 (newPoB freshCache) peer6 = some r →
      doVerifyBlock sampleOutside 5 TMode.ModeSync (newPoB freshCache) peer6
        MessageType.SyncBlockResponse = some r.1 ∧
      r.1.sent = (newPoB freshCache).sent) ∧
    (∀ (mode2 : TMode) (q : PoB),
      (broadcastBlockHash sampleOutside mode2 q peer6).sent =
        match sampleOutside.marshal { Number := peer6.Head.Number, Hash := sampleOutside.hh peer6 } with
        | none => q.sent
        | some b =>
          if mode2 = TMode.ModeNormal then
            q.sent ++ [Sent.broadcast b MessageType.NewBlockHash]
          else q.sent) :=
  doVerifyBlock_starts_broadcast_always sampleOutside 5 TMode.ModeSync (newPoB freshCache) peer6
    (by decide)

/-- C29: a round of one of the loops that reads a mode other than
`ModeNormal` sends nothing: `messageLoop` drops the message (no
`NewBlockRequest`, no `NewBlock` reply), `broadcastBlockHash` broadcasts no
hash, `scheduleLoop` starts no burst and leaves the state as it is, and
`doVerifyBlock` calls the p2p service neither to broadcast nor to send. -/
theorem nothing_sent_outside_ModeNormal (o : Outside) (fuel : Nat) (continuousNum : Int)
    (mode : TMode) (p : PoB) (hmode : mode ≠ TMode.ModeNormal) :
    (∀ msg, messageLoop o mode p msg = p) ∧
    (∀ blk, broadcastBlockHash o mode p blk = p) ∧
    (∀ t, scheduleLoop o fuel continuousNum mode t p = some p) ∧
    (∀ blk typ p2, doVerifyBlock o fuel mode p blk typ = some p2 → p2.sent = p.sent) := by
  refine ⟨?_, ?_, ?_, ?_⟩
  · intro msg
    cases msg <;> simp [messageLoop, hmode]
  · intro blk
    unfold broadcastBlockHash
    cases o.marshal { Number := blk.Head.Number, Hash := o.hh blk } with
    | none => rfl
    | some b => simp [hmode]
  · intro t
    simp [scheduleLoop, hmode]
  · intro blk typ p2 h
    unfold doVerifyBlock at h
    by_cases hi : mode = TMode.ModeInit
    · simp only [hi, if_true, Option.some.injEq] at h
      rw [← h]
    · simp only [hi, if_false] at h
      cases typ with
      | NewBlock =>
        simp only at h
        cases hr : handleRecvBlock o fuel
            (if (reqLoad p.blockReqMap (o.hh blk)).isSome then p
              else { p with blockReqMap := reqStore p.blockReqMap (o.hh blk) false }) blk with
        | none => rw [hr] at h; cases h
        | some r =>
          rw [hr] at h
          simp only [Option.some.injEq] at h
          rw [← h]
          show r.1.sent = p.sent
          rw [handleRecvBlock_sent o fuel _ blk r hr]
          split <;> rfl
      | SyncBlockResponse =>
        simp only at h
        cases hr : handleRecvBlock o fuel p blk with
        | none => rw [hr] at h; cases h
        | some r =>
          rw [hr] at h
          simp only [Option.some.injEq] at h
          rw [← h]
          exact handleRecvBlock_sent o fuel p blk r hr
      | NewBlockHash => simp only [Option.some.injEq] at h; rw [← h]
      | NewBlockRequest => simp only [Option.some.injEq] at h; rw [← h]

/-- Witness of C29: the loops in `ModeSync` around a fresh cache. -/
theorem nothing_sent_outside_ModeNormal_witness :
    (∀ msg, messageLoop sampleOutside TMode.ModeSync (newPoB freshCache) msg =
      newPoB freshCache) ∧
    (∀ blk, broadcastBlockHash sampleOutside TMode.ModeSync (newPoB freshCache) blk =
      newPoB freshCache) ∧
    (∀ t, scheduleLoop sampleOutside 5 10 TMode.ModeSync t (newPoB freshCache) =
      some (newPoB freshCache)) ∧
    (∀ blk typ p2, doVerifyBlock sampleOutside 5 TMode.ModeSync (newPoB freshCache) blk typ =
      some p2 → p2.sent = (newPoB freshCache).sent) :=
  nothing_sent_outside_ModeNormal sampleOutside 5 10 TMode.ModeSync (newPoB freshCache)
    (by decide)

/-- C26: in every cache state, let the block `blk` be found at the node `n`,
below which the tree is at most `k` levels deep, let the state of `blk` not be
checked out from a tag, and let `verifyBlock` fail with the error `e`.  With
enough fuel `addExistingBlock` returns `e`; the one call it makes on the cache
is `Del` of `n`, so `Link` is not called; afterwards no node that was below `n`
(`n` included) is found under any hash; and no tag has been added to the state
database. -/
theorem addExistingBlock_deletes_failed_block (o : Outside) (p : PoB) (blk : Block)
    (parentBlock : Option Block) (replay : Bool) (n : Ptr) (e : PobErr) (k : Nat)
    (hnode : Find p.blockCache (o.hh blk) = some n)
    (hk : Height p.blockCache k n)
    (hck : o.checkout p.tags (o.hh blk) = false)
    (hv : o.verifyBlock p.tags blk parentBlock
      (p.blockCache.heap (LinkedRoot p.blockCache)).Block replay = some e) :
    ∃ f0, ∀ f, f0 ≤ f → ∃ p2,
      addExistingBlock o f p blk parentBlock replay = some (p2, some e) ∧
      p2.calls = p.calls ++ [CacheCall.del (some n)] ∧
      p2.tags = p.tags ∧
      ∀ m, Reach p.blockCache n m → ∀ h, Find p2.blockCache h ≠ some m := by
  refine ⟨k + 2, fun f hf => ?_⟩
  obtain ⟨f1, rfl⟩ : ∃ f1, f = f1 + 1 := ⟨f - 1, by omega⟩
  obtain ⟨s2, hdel⟩ := cacheDel_returns k f1 p.blockCache n (by omega) hk
  have hgone := (cacheDel_closed f1 p.blockCache n s2 hdel).1
  refine ⟨{ p with blockCache := s2, calls := p.calls ++ [CacheCall.del (some n)] }, ?_, rfl, rfl,
    ?_⟩
  · unfold addExistingBlock
    simp only [hck, hv, hnode, hdel, Bool.false_eq_true, if_false]
  · intro m hm h
    exact Unindexed_find s2 m (hgone m hm) h

/-- Witness of C26: blocks 6 and 7 are in the cache and `verifyBlock` fails
for block 6, whose node is node 2, above node 3. -/
theorem addExistingBlock_deletes_failed_block_witness :
    ∃ f0, ∀ f, f0 ≤ f → ∃ p2,
      addExistingBlock
          { sampleOutside with verifyBlock := fun _ _ _ _ _ => some (PobErr.other 2) } f
          (newPoB cachedTwo) block6 (some libBlock) false = some (p2, some (PobErr.other 2)) ∧
      p2.calls = (newPoB cachedTwo).calls ++ [CacheCall.del (some 2)] ∧
      p2.tags = (newPoB cachedTwo).tags ∧
      ∀ m, Reach (newPoB cachedTwo).blockCache 2 m → ∀ h, Find p2.blockCache h ≠ some m :=
  addExistingBlock_deletes_failed_block
    { sampleOutside with verifyBlock := fun _ _ _ _ _ => some (PobErr.other 2) }
    (newPoB cachedTwo) block6 (some libBlock) false 2 (PobErr.other 2) 1 (by rfl)
    (by
      intro c hc
      have e : ((newPoB cachedTwo).blockCache.heap 2).Children = [3] := by rfl
      rw [e] at hc
      rw [List.mem_singleton] at hc
      subst hc
      rfl)
    rfl rfl

/-! ### Linking the orphans that waited for a block (C27) -/

theorem Later_refl (s : BlockCache) : Later s s :=
  ⟨rfl, rfl, rfl, fun _ => rfl, fun _ h => h, fun _ _ h => h⟩

theorem Later_trans (s s1 s2 : BlockCache) (h1 : Later s s1) (h2 : Later s1 s2) : Later s s2 :=
  ⟨by rw [h2.next_eq, h1.next_eq], by rw [h2.linked_eq, h1.linked_eq],
   by rw [h2.single_eq, h1.single_eq], fun m => by rw [h2.block, h1.block],
   fun m h => h2.linked m (h1.linked m h), fun u c h => h1.children u c (h2.children u c h)⟩

theorem Later_reach (s s2 : BlockCache) (h : Later s s2) (a m : Ptr) (hr : Reach s2 a m) :
    Reach s a m :=
  reach_shrink s s2 a m h.children hr

theorem Later_height (s s2 : BlockCache) (h : Later s s2) (k : Nat) (n : Ptr)
    (hk : Height s k n) : Height s2 k n :=
  Height_shrunk s s2 h.children k n hk

theorem Tidy_steady (hh : Block → Hash) (s s2 : BlockCache) (hs : Tidy hh s)
    (h : Steady s s2) : Tidy hh s2 :=
  Tidy_of_fields hh s s2 hs h.next_eq h.linked_eq h.single_eq h.index_eq h.block h.parent
    h.children (h.type _)

theorem Later_steady (s s2 : BlockCache) (h : Steady s s2) : Later s s2 :=
  ⟨h.next_eq, h.linked_eq, h.single_eq, h.block, fun m hm => by rw [h.type]; exact hm,
   fun u c hc => by rw [h.children] at hc; exact hc⟩

theorem Later_cacheLink (hh : Block → Hash) (s : BlockCache) (n : Ptr) :
    Later s (cacheLink hh s (some n)) := by
  obtain ⟨f1, f2, f3, _⟩ := cacheLink_frame hh s n
  have hf := cacheLink_fields hh s n
  refine ⟨f1, f2, f3, fun m => (hf m).1, ?_, fun u c hc => by rw [(hf u).2.2.1] at hc; exact hc⟩
  intro m hm
  rw [(hf m).2.2.2]
  split_ifs
  · rfl
  · exact hm

theorem Later_cacheDel (fuel : Nat) (s : BlockCache) (n : Ptr) (s2 : BlockCache)
    (h : cacheDel fuel s (some n) = some s2) : Later s s2 := by
  obtain ⟨_, _, a3, _, _, a6, a7, a8, a9⟩ := cacheDel_closed fuel s n s2 h
  exact ⟨a7, a8, a9, fun m => (a6 m).1, fun m hm => by rw [(a6 m).2.1]; exact hm, a3⟩

theorem match_eq_map (x : Option PoB) :
    (match x with
      | none => none
      | some p4 => some (p4, (none : Option PobErr))) = x.map (fun p4 => (p4, none)) := by
  cases x <;> rfl

/-- The call of `addExistingBlock` for a block that fails the execution
check. -/
theorem addExistingBlock_fails (o : Outside) (fuel : Nat) (p : PoB) (blk : Block)
    (parentBlock : Option Block) (replay : Bool) (e : PobErr)
    (hck : o.checkout p.tags (o.hh blk) = false)
    (hv : o.verifyBlock p.tags blk parentBlock
      (p.blockCache.heap (LinkedRoot p.blockCache)).Block replay = some e) :
    addExistingBlock o (fuel + 1) p blk parentBlock replay =
      (cacheDel fuel p.blockCache (Find p.blockCache (o.hh blk))).map
        (fun c => ({ p with blockCache := c,
                            calls := p.calls ++ [CacheCall.del (Find p.blockCache (o.hh blk))] },
          some e)) := by
  unfold addExistingBlock
  simp only [hck, hv, Bool.false_eq_true, if_false]
  cases cacheDel fuel p.blockCache (Find p.blockCache (o.hh blk)) <;> rfl

/-- The call of `addExistingBlock` for a block that passes the execution
check, is found at the node `n`, and for which the log line can be written. -/
theorem addExistingBlock_passes (o : Outside) (fuel : Nat) (p : PoB) (blk : Block)
    (parentBlock : Option Block) (replay : Bool) (n : Ptr) (nb lb : Block)
    (hpass : o.checkout p.tags (o.hh blk) = true ∨ o.verifyBlock p.tags blk parentBlock
      (p.blockCache.heap (LinkedRoot p.blockCache)).Block replay = none)
    (hnode : Find p.blockCache (o.hh blk) = some n)
    (hnb : ((afterLink o p blk n).blockCache.heap n).Block = some nb)
    (hlog : logOK o nb)
    (hroot : ((afterLink o p blk n).blockCache.heap
      (LinkedRoot (afterLink o p blk n).blockCache)).Block = some lb) :
    addExistingBlock o (fuel + 1) p blk parentBlock replay =
      (rangePob
        (fun q child =>
          match (q.blockCache.heap child).Block with
          | none => none
          | some cb =>
            (addExistingBlock o fuel q cb (q.blockCache.heap n).Block replay).map Prod.fst)
        n ((afterLink o p blk n).blockCache.heap n).Children (afterLink o p blk n)).map
        (fun p4 => (p4, none)) := by
  have hcond : ¬ (nb.Head.Witness ≠ o.accountID ∧
      (nb.Head.Witness.utf8ByteSize < 10 ∨
        ((afterLink o p blk n).blockCache.heap
          (LinkedRoot (afterLink o p blk n).blockCache)).Block = none)) := by
    rintro ⟨h1, h2⟩
    rcases hlog with h | h
    · exact h1 h
    · rcases h2 with h2 | h2
      · omega
      · rw [hroot] at h2; cases h2
  rw [addExistingBlock]
  by_cases hok : o.checkout p.tags (o.hh blk) = true
  · simp only [afterLink, hok, if_true] at hnb hcond ⊢
    simp only [hnode, hnb, hcond, if_false]
    exact match_eq_map _
  · have hv : o.verifyBlock p.tags blk parentBlock
        (p.blockCache.heap (LinkedRoot p.blockCache)).Block replay = none := by
      rcases hpass with h | h
      · exact absurd h hok
      · exact h
    simp only [afterLink, hok, if_false] at hnb hcond ⊢
    simp only [hv, hnode, hnb, hcond, if_false]
    exact match_eq_map _

theorem afterLink_cache (o : Outside) (p : PoB) (blk : Block) (n : Ptr) :
    (afterLink o p blk n).blockCache = updateInfo o (cacheLink o.hh p.blockCache (some n)) n := by
  unfold afterLink
  by_cases h : o.checkout p.tags (o.hh blk) = true
  · simp [h]
  · simp [h]

/-- The loop of `addExistingBlock` over the children of the node `n`, when the
call for each child does what `Outcome` says. -/
theorem rangePob_links (o : Outside) (replay : Bool) (fuel : Nat) (n : Ptr) (s3 : BlockCache) :
    ∀ (l : List Ptr) (q : PoB),
      (∀ (q1 : PoB) (c : Ptr) (cb : Block), c ∈ l → Tidy o.hh q1.blockCache →
        Later s3 q1.blockCache → c ∈ (q1.blockCache.heap n).Children →
        (q1.blockCache.heap c).Block = some cb →
        ∃ r, addExistingBlock o fuel q1 cb (q1.blockCache.heap n).Block replay = some r ∧
          Outcome o q1.blockCache r.1.blockCache c r.2 ∧ (passes o cb → r.2 = none)) →
      Tidy o.hh q.blockCache → Later s3 q.blockCache →
      ∃ q2, rangePob
          (fun q child =>
            match (q.blockCache.heap child).Block with
            | none => none
            | some cb =>
              (addExistingBlock o fuel q cb (q.blockCache.heap n).Block replay).map Prod.fst)
          n l q = some q2 ∧
        Tidy o.hh q2.blockCache ∧ Later q.blockCache q2.blockCache ∧
        Apart q.blockCache q2.blockCache (fun m => ∃ c, c ∈ l ∧ Reach q.blockCache c m) ∧
        (∀ c, c ∈ l → c ∈ (q2.blockCache.heap n).Children →
          ∀ m, Reach q2.blockCache c m → (q2.blockCache.heap m).Type_ = BCNType.Linked) ∧
        (∀ c cb, c ∈ (q.blockCache.heap n).Children → (q.blockCache.heap c).Block = some cb →
          passes o cb → (∀ c2, c2 ∈ l → c2 ≠ c → ¬ Reach q.blockCache c2 c) →
          c ∈ (q2.blockCache.heap n).Children ∧
          (q2.blockCache.heap c).Parent = (q.blockCache.heap c).Parent ∧
          (c ∈ l → (q2.blockCache.heap c).Type_ = BCNType.Linked)) := by
  intro l
  induction l with
  | nil =>
    intro q _ hq _
    refine ⟨q, rfl, hq, Later_refl _, ⟨fun m _ => ⟨rfl, rfl⟩, fun u c hc _ => hc⟩, ?_, ?_⟩
    · intro c hc; cases hc
    · intro c cb hc _ _ _
      exact ⟨hc, rfl, fun h => by cases h⟩
  | cons ch rest ih =>
    intro q hchild hq hl
    have hchild2 : ∀ (q1 : PoB) (c : Ptr) (cb : Block), c ∈ rest → Tidy o.hh q1.blockCache →
        Later s3 q1.blockCache → c ∈ (q1.blockCache.heap n).Children →
        (q1.blockCache.heap c).Block = some cb →
        ∃ r, addExistingBlock o fuel q1 cb (q1.blockCache.heap n).Block replay = some r ∧
          Outcome o q1.blockCache r.1.blockCache c r.2 ∧ (passes o cb → r.2 = none) :=
      fun q1 c cb hc => hchild q1 c cb (List.mem_cons_of_mem _ hc)
    by_cases hin : ch ∈ (q.blockCache.heap n).Children
    · obtain ⟨cb, hcb⟩ := hq.child_block n ch hin
      obtain ⟨r, hr, hout, hpass⟩ := hchild q ch cb (List.mem_cons_self _ _) hq hl hin hcb
      obtain ⟨q2, h2, t2, l2, a2, rl2, rp2⟩ :=
        ih r.1 hchild2 hout.tidy (Later_trans _ _ _ hl hout.later)
      refine ⟨q2, ?_, t2, Later_trans _ _ _ hout.later l2, ?_, ?_, ?_⟩
      · simp only [rangePob, if_pos hin, hcb, hr, Option.map_some']
        exact h2
      · constructor
        · intro m hm
          have h1 := hout.apart.fields m (fun h => hm ⟨ch, List.mem_cons_self _ _, h⟩)
          have h3 := a2.fields m (by
            rintro ⟨c, hc, hcm⟩
            exact hm ⟨c, List.mem_cons_of_mem _ hc, Later_reach _ _ hout.later c m hcm⟩)
          exact ⟨by rw [h3.1, h1.1], by rw [h3.2, h1.2]⟩
        · intro u c hc hm
          have h1 := hout.apart.kept u c hc (fun h => hm ⟨ch, List.mem_cons_self _ _, h⟩)
          exact a2.kept u c h1 (by
            rintro ⟨c2, hc2, hcm⟩
            exact hm ⟨c2, List.mem_cons_of_mem _ hc2, Later_reach _ _ hout.later c2 c hcm⟩)
      · intro c hc hc2 m hm
        by_cases hcr : c ∈ rest
        · exact rl2 c hcr hc2 m hm
        · have hce : c = ch := by
            rcases List.mem_cons.mp hc with h | h
            · exact h
            · exact absurd h hcr
          subst hce
          have hc1 : c ∈ (r.1.blockCache.heap n).Children := l2.children n c hc2
          have herr : r.2 = none := by
            by_contra hne
            exact hout.gone hne n hc1
          exact l2.linked m (hout.linked herr m (Later_reach _ _ l2 c m hm))
      · intro c cb2 hc hcb2 hp htree
        by_cases hce : c = ch
        · subst hce
          rw [hcb] at hcb2
          cases hcb2
          have herr := hpass hp
          have hk := hout.kept herr
          have hty := hout.linked herr c Reach.here
          obtain ⟨x1, x2, _⟩ := rp2 c cb (hk.2 n hin) (by rw [hout.later.block]; exact hcb) hp
            (fun c2 hc2 hne hr2 =>
              htree c2 (List.mem_cons_of_mem _ hc2) hne (Later_reach _ _ hout.later c2 c hr2))
          exact ⟨x1, by rw [x2, hk.1], fun _ => l2.linked c hty⟩
        · have hnr : ¬ Reach q.blockCache ch c :=
            htree ch (List.mem_cons_self _ _) (fun e => hce e.symm)
          have h1 := hout.apart.fields c hnr
          have h3 := hout.apart.kept n c hc hnr
          obtain ⟨x1, x2, x3⟩ := rp2 c cb2 h3 (by rw [hout.later.block]; exact hcb2) hp
            (fun c2 hc2 hne hr2 =>
              htree c2 (List.mem_cons_of_mem _ hc2) hne (Later_reach _ _ hout.later c2 c hr2))
          refine ⟨x1, by rw [x2, h1.1], fun hcl => x3 ?_⟩
          rcases List.mem_cons.mp hcl with h | h
          · exact absurd h hce
          · exact h
    · obtain ⟨q2, h2, t2, l2, a2, rl2, rp2⟩ := ih q hchild2 hq hl
      refine ⟨q2, ?_, t2, l2, ?_, ?_, ?_⟩
      · simp only [rangePob, if_neg hin]
        exact h2
      · constructor
        · intro m hm
          exact a2.fields m (by
            rintro ⟨c, hc, hcm⟩
            exact hm ⟨c, List.mem_cons_of_mem _ hc, hcm⟩)
        · intro u c hc hm
          exact a2.kept u c hc (by
            rintro ⟨c2, hc2, hcm⟩
            exact hm ⟨c2, List.mem_cons_of_mem _ hc2, hcm⟩)
      · intro c hc hc2 m hm
        rcases List.mem_cons.mp hc with h | h
        · rw [h] at hc2
          exact absurd (l2.children n ch hc2) hin
        · exact rl2 c h hc2 m hm
      · intro c cb2 hc hcb2 hp htree
        have hce : c ≠ ch := fun e => hin (e ▸ hc)
        obtain ⟨x1, x2, x3⟩ := rp2 c cb2 hc hcb2 hp
          (fun c2 hc2 hne => htree c2 (List.mem_cons_of_mem _ hc2) hne)
        refine ⟨x1, x2, fun hcl => x3 ?_⟩
        rcases List.mem_cons.mp hcl with h | h
        · exact absurd h hce
        · exact h

/-- With enough fuel, a call of `addExistingBlock` for the block of an indexed
node of a tidy cache returns and does what `Outcome` says, while `updateInfo`
leaves the trees and the index alone; it returns nil if the block passes the
execution check. -/
theorem addExistingBlock_links (o : Outside) (replay : Bool)
    (hupd : ∀ s x, Steady s (updateInfo o s x)) :
    ∀ (k fuel : Nat) (p : PoB) (x : Ptr) (bx : Block) (pb : Option Block),
      k + 2 ≤ fuel → Tidy o.hh p.blockCache → (p.blockCache.heap x).Block = some bx →
      Find p.blockCache (o.hh bx) = some x → Height p.blockCache k x →
      (∀ m b, Reach p.blockCache x m → (p.blockCache.heap m).Block = some b → logOK o b) →
      ∃ r, addExistingBlock o fuel p bx pb replay = some r ∧
        Outcome o p.blockCache r.1.blockCache x r.2 ∧
        ((o.checkout p.tags (o.hh bx) = true ∨ o.verifyBlock p.tags bx pb
            (p.blockCache.heap (LinkedRoot p.blockCache)).Block replay = none) → r.2 = none) := by
  intro k
  induction k with
  | zero =>
    intro fuel p x bx pb hf ht hbx hfind hk hlog
    obtain ⟨f, rfl⟩ : ∃ f, fuel = f + 1 := ⟨fuel - 1, by omega⟩
    by_cases hpass : o.checkout p.tags (o.hh bx) = true ∨ o.verifyBlock p.tags bx pb
        (p.blockCache.heap (LinkedRoot p.blockCache)).Block replay = none
    · -- the block passes: the node is linked; it has no children
      have hxS : x ≠ p.blockCache.SingleTree := by
        intro e; rw [e, ht.single_block] at hbx; cases hbx
      have hst := hupd (cacheLink o.hh p.blockCache (some x)) x
      have hf1 := cacheLink_fields o.hh p.blockCache x
      have ht3 : Tidy o.hh (afterLink o p bx x).blockCache := by
        rw [afterLink_cache]
        exact Tidy_steady _ _ _ (Tidy_cacheLink o.hh _ x ht hxS) hst
      have hl3 : Later p.blockCache (afterLink o p bx x).blockCache := by
        rw [afterLink_cache]
        exact Later_trans _ _ _ (Later_cacheLink o.hh _ x) (Later_steady _ _ hst)
      have hch3 : ∀ u, ((afterLink o p bx x).blockCache.heap u).Children =
          (p.blockCache.heap u).Children := by
        intro u; rw [afterLink_cache, hst.children, (hf1 u).2.2.1]
      have hpa3 : ∀ u, ((afterLink o p bx x).blockCache.heap u).Parent =
          (p.blockCache.heap u).Parent := by
        intro u; rw [afterLink_cache, hst.parent, (hf1 u).2.1]
      have hty3 : ∀ u, ((afterLink o p bx x).blockCache.heap u).Type_ =
          (if u = x then BCNType.Linked else (p.blockCache.heap u).Type_) := by
        intro u; rw [afterLink_cache, hst.type, (hf1 u).2.2.2]
      obtain ⟨lb, hlb⟩ := ht3.linked_block
      have hnil : (p.blockCache.heap x).Children = [] := hk
      have heq := addExistingBlock_passes o f p bx pb replay x bx lb hpass hfind
        (by rw [hl3.block]; exact hbx) (hlog x bx Reach.here hbx) hlb
      rw [hch3 x, hnil] at heq
      simp only [rangePob, Option.map_some'] at heq
      refine ⟨_, heq, ?_, fun _ => rfl⟩
      refine ⟨ht3, hl3, ⟨?_, ?_⟩, ?_, ?_, ?_, ?_⟩
      · intro m hm
        have hmx : m ≠ x := fun e => hm (e ▸ Reach.here)
        exact ⟨hpa3 m, by rw [hty3 m, if_neg hmx]⟩
      · intro u c hc _
        show c ∈ ((afterLink o p bx x).blockCache.heap u).Children
        rw [hch3 u]; exact hc
      · intro _ m hm
        show ((afterLink o p bx x).blockCache.heap m).Type_ = BCNType.Linked
        have hm2 : Reach p.blockCache x m := Later_reach _ _ hl3 x m hm
        rcases reach_first _ x m hm2 with e | ⟨c, hc, _⟩
        · rw [hty3 m, if_pos e]
        · rw [hnil] at hc; cases hc
      · intro _
        refine ⟨hpa3 x, ?_⟩
        intro u hu
        show x ∈ ((afterLink o p bx x).blockCache.heap u).Children
        rw [hch3 u]; exact hu
      · intro _ c cb hc
        rw [hnil] at hc; cases hc
      · intro hne; exact absurd rfl hne
    · -- the block fails: the node is deleted
      have hck : o.checkout p.tags (o.hh bx) = false := by
        cases h : o.checkout p.tags (o.hh bx) with
        | true => exact absurd (Or.inl h) hpass
        | false => rfl
      obtain ⟨e, hv⟩ : ∃ e, o.verifyBlock p.tags bx pb
          (p.blockCache.heap (LinkedRoot p.blockCache)).Block replay = some e := by
        cases h : o.verifyBlock p.tags bx pb
            (p.blockCache.heap (LinkedRoot p.blockCache)).Block replay with
        | none => exact absurd (Or.inr h) hpass
        | some e => exact ⟨e, rfl⟩
      obtain ⟨s2, hdel⟩ := cacheDel_returns 0 f p.blockCache x (by omega) hk
      have heq := addExistingBlock_fails o f p bx pb replay e hck hv
      rw [hfind, hdel] at heq
      simp only [Option.map_some'] at heq
      obtain ⟨a1, a2, _, _, _, a6, _, _, _⟩ := cacheDel_closed f p.blockCache x s2 hdel
      have ht2 := Tidy_cacheDel o.hh f p.blockCache (some x) s2 ht hdel
      refine ⟨_, heq, ?_, fun h => absurd h hpass⟩
      refine ⟨ht2, Later_cacheDel f _ x s2 hdel, ⟨?_, ?_⟩, ?_, ?_, ?_, ?_⟩
      · intro m hm
        refine ⟨?_, (a6 m).2.1⟩
        rcases (a6 m).2.2 with h | h
        · exact h
        · exact absurd h hm
      · intro u c hc hm
        rcases a2 u c hc with h | h
        · exact h
        · exact absurd h hm
      · intro h; cases h
      · intro h; cases h
      · intro h; cases h
      · intro _ u hu
        obtain ⟨b, hb⟩ := ht2.child_block u x hu
        have := ht2.child_indexed u x b hu hb
        exact a1 x Reach.here _ (mapLoad_mem _ _ _ this)
  | succ k ih =>
    intro fuel p x bx pb hf ht hbx hfind hk hlog
    obtain ⟨f, rfl⟩ : ∃ f, fuel = f + 1 := ⟨fuel - 1, by omega⟩
    by_cases hpass : o.checkout p.tags (o.hh bx) = true ∨ o.verifyBlock p.tags bx pb
        (p.blockCache.heap (LinkedRoot p.blockCache)).Block replay = none
    · have hxS : x ≠ p.blockCache.SingleTree := by
        intro e; rw [e, ht.single_block] at hbx; cases hbx
      have hst := hupd (cacheLink o.hh p.blockCache (some x)) x
      have hf1 := cacheLink_fields o.hh p.blockCache x
      have ht3 : Tidy o.hh (afterLink o p bx x).blockCache := by
        rw [afterLink_cache]
        exact Tidy_steady _ _ _ (Tidy_cacheLink o.hh _ x ht hxS) hst
      have hl3 : Later p.blockCache (afterLink o p bx x).blockCache := by
        rw [afterLink_cache]
        exact Later_trans _ _ _ (Later_cacheLink o.hh _ x) (Later_steady _ _ hst)
      have hch3 : ∀ u, ((afterLink o p bx x).blockCache.heap u).Children =
          (p.blockCache.heap u).Children := by
        intro u; rw [afterLink_cache, hst.children, (hf1 u).2.2.1]
      have hpa3 : ∀ u, ((afterLink o p bx x).blockCache.heap u).Parent =
          (p.blockCache.heap u).Parent := by
        intro u; rw [afterLink_cache, hst.parent, (hf1 u).2.1]
      have hty3 : ∀ u, ((afterLink o p bx x).blockCache.heap u).Type_ =
          (if u = x then BCNType.Linked else (p.blockCache.heap u).Type_) := by
        intro u; rw [afterLink_cache, hst.type, (hf1 u).2.2.2]
      obtain ⟨lb, hlb⟩ := ht3.linked_block
      have heq := addExistingBlock_passes o f p bx pb replay x bx lb hpass hfind
        (by rw [hl3.block]; exact hbx) (hlog x bx Reach.here hbx) hlb
      have hk3 : Height (afterLink o p bx x).blockCache (k + 1) x := Later_height _ _ hl3 _ _ hk
      -- the call for a child does what `Outcome` says
      have hchild : ∀ (q1 : PoB) (c : Ptr) (cb : Block),
          c ∈ ((afterLink o p bx x).blockCache.heap x).Children → Tidy o.hh q1.blockCache →
          Later (afterLink o p bx x).blockCache q1.blockCache →
          c ∈ (q1.blockCache.heap x).Children →
          (q1.blockCache.heap c).Block = some cb →
          ∃ r, addExistingBlock o f q1 cb (q1.blockCache.heap x).Block replay = some r ∧
            Outcome o q1.blockCache r.1.blockCache c r.2 ∧ (passes o cb → r.2 = none) := by
        intro q1 c cb hc3 hq1 hl1 hc1 hcb
        have hlq : Later p.blockCache q1.blockCache := Later_trans _ _ _ hl3 hl1
        have hcx : c ∈ (p.blockCache.heap x).Children := by rw [← hch3 x]; exact hc3
        obtain ⟨r, hr, hout, hp⟩ := ih f q1 c cb (q1.blockCache.heap x).Block (by omega) hq1 hcb
          (by rw [Find_eq]; exact hq1.child_indexed x c cb hc1 hcb)
          (Later_height _ _ hlq k c (hk c hcx))
          (by
            intro m b hm hb
            rw [hlq.block] at hb
            exact hlog m b (reach_of_child _ x c m hcx (Later_reach _ _ hlq c m hm)) hb)
        exact ⟨r, hr, hout, fun hps => hp (hps _ _ _ _)⟩
      obtain ⟨q2, h2, t2, l2, a2, rl2, rp2⟩ :=
        rangePob_links o replay f x (afterLink o p bx x).blockCache
          ((afterLink o p bx x).blockCache.heap x).Children (afterLink o p bx x) hchild ht3
          (Later_refl _)
      replace heq : addExistingBlock o (f + 1) p bx pb replay = some (q2, none) :=
        heq.trans (congrArg (Option.map (fun p4 => (p4, (none : Option PobErr)))) h2)
      have hnocycle : ∀ c, c ∈ ((afterLink o p bx x).blockCache.heap x).Children →
          ¬ Reach (afterLink o p bx x).blockCache c x :=
        fun c hc => Height_no_cycle _ _ x c hk3 hc
      refine ⟨_, heq, ?_, fun _ => rfl⟩
      refine ⟨t2, Later_trans _ _ _ hl3 l2, ⟨?_, ?_⟩, ?_, ?_, ?_, ?_⟩
      · intro m hm
        have hmx : m ≠ x := fun e => hm (e ▸ Reach.here)
        have h3 := a2.fields m (by
          rintro ⟨c, hc, hcm⟩
          rw [hch3 x] at hc
          exact hm (reach_of_child _ x c m hc (Later_reach _ _ hl3 c m hcm)))
        exact ⟨by rw [h3.1, hpa3 m], by rw [h3.2, hty3 m, if_neg hmx]⟩
      · intro u c hc hm
        refine a2.kept u c (by rw [hch3 u]; exact hc) ?_
        rintro ⟨c2, hc2, hcm⟩
        rw [hch3 x] at hc2
        exact hm (reach_of_child _ x c2 c hc2 (Later_reach _ _ hl3 c2 c hcm))
      · intro _ m hm
        rcases reach_first _ x m hm with e | ⟨c, hc, hcm⟩
        · rw [e]
          exact l2.linked x (by rw [hty3 x, if_pos rfl])
        · exact rl2 c (l2.children x c hc) hc m hcm
      · intro _
        have h3 := a2.fields x (by
          rintro ⟨c, hc, hcx⟩
          exact hnocycle c hc hcx)
        refine ⟨by rw [h3.1, hpa3 x], ?_⟩
        intro u hu
        refine a2.kept u x (by rw [hch3 u]; exact hu) ?_
        rintro ⟨c, hc, hcx⟩
        exact hnocycle c hc hcx
      · intro _ c cb hc hcb hp
        have hc3 : c ∈ ((afterLink o p bx x).blockCache.heap x).Children := by
          rw [hch3 x]; exact hc
        obtain ⟨x1, x2, x3⟩ := rp2 c cb hc3 (by rw [hl3.block]; exact hcb) hp (by
          intro c2 hc2 hne hr
          rcases reach_last _ c2 c hr with e | ⟨u, hu, hcu⟩
          · exact hne e.symm
          · have h1 := ht3.child_parent u c hcu
            have h2 := ht3.child_parent x c hc3
            rw [h1] at h2
            cases h2
            exact hnocycle c2 hc2 hu)
        refine ⟨x1, ?_, x3 hc3⟩
        rw [x2]
        exact ht3.child_parent x c hc3
      · intro hne; exact absurd rfl hne
    · have hck : o.checkout p.tags (o.hh bx) = false := by
        cases h : o.checkout p.tags (o.hh bx) with
        | true => exact absurd (Or.inl h) hpass
        | false => rfl
      obtain ⟨e, hv⟩ : ∃ e, o.verifyBlock p.tags bx pb
          (p.blockCache.heap (LinkedRoot p.blockCache)).Block replay = some e := by
        cases h : o.verifyBlock p.tags bx pb
            (p.blockCache.heap (LinkedRoot p.blockCache)).Block replay with
        | none => exact absurd (Or.inr h) hpass
        | some e => exact ⟨e, rfl⟩
      obtain ⟨s2, hdel⟩ := cacheDel_returns (k + 1) f p.blockCache x (by omega) hk
      have heq := addExistingBlock_fails o f p bx pb replay e hck hv
      rw [hfind, hdel] at heq
      simp only [Option.map_some'] at heq
      obtain ⟨a1, a2, _, _, _, a6, _, _, _⟩ := cacheDel_closed f p.blockCache x s2 hdel
      have ht2 := Tidy_cacheDel o.hh f p.blockCache (some x) s2 ht hdel
      refine ⟨_, heq, ?_, fun h => absurd h hpass⟩
      refine ⟨ht2, Later_cacheDel f _ x s2 hdel, ⟨?_, ?_⟩, ?_, ?_, ?_, ?_⟩
      · intro m hm
        refine ⟨?_, (a6 m).2.1⟩
        rcases (a6 m).2.2 with h | h
        · exact h
        · exact absurd h hm
      · intro u c hc hm
        rcases a2 u c hc with h | h
        · exact h
        · exact absurd h hm
      · intro h; cases h
      · intro h; cases h
      · intro h; cases h
      · intro _ u hu
        obtain ⟨b, hb⟩ := ht2.child_block u x hu
        have := ht2.child_indexed u x b hu hb
        exact a1 x Reach.here _ (mapLoad_mem _ _ _ this)

theorem reach_lt (hh : Block → Hash) (s : BlockCache) (hs : Sound hh s) (c m : Ptr)
    (hc : c < s.next) (h : Reach s c m) : m < s.next := by
  induction h with
  | here => exact hc
  | child _ hch _ => exact hs.child_lt _ _ hch

/-- The single root is below no child of a node. -/
theorem reach_not_single (hh : Block → Hash) (s : BlockCache) (hs : Sound hh s) (u c m : Ptr)
    (hc : c ∈ (s.heap u).Children) (h : Reach s c m) : m ≠ s.SingleTree := by
  intro e
  have hps := Sound_single_parent hh s hs
  have hchild : ∀ v, s.SingleTree ∉ (s.heap v).Children := by
    intro v hv
    obtain ⟨b, hb⟩ := hs.child_block v _ hv
    rw [hs.single_block] at hb
    cases hb
  rcases reach_last s c m h with h1 | ⟨v, _, hv⟩
  · rw [h1] at e
    rw [e] at hc
    exact hchild u hc
  · rw [e] at hv
    exact hchild v hv

/-- C27: in every cache state (tidy, as the cache is after `New` and stays
under `Add`, `Link` and `Del`), let the block `blk` be new to the cache, pass
`verifyBasics` and the execution check, and have its parent hash indexed at a
node `par` of type `Linked`, while orphans wait for it under the single root:
children of the single root whose blocks name the head hash of `blk` as their
parent hash.  The trees below these orphans are at most `k` levels deep and do
not hold `par` (no cycle of parent hashes), the log lines for `blk` and for the
blocks below the orphans can be written, and `updateInfo` leaves the trees and
the index alone (the last irreversible block does not advance during the call).
Then with enough fuel `handleRecvBlock` returns nil; afterwards the node of
`blk` is found under the head hash of `blk` and has type `Linked`; every node
below it has type `Linked` (a descendant is linked, or it has been deleted
because its block failed the execution check); and every waiting orphan whose
block passes the execution check is a child of the node of `blk`, points to it
as its parent, and has type `Linked`. -/
theorem handleRecvBlock_links_waiting_orphans (o : Outside) (p : PoB) (blk : Block) (par : Ptr)
    (k : Nat) (ht : Tidy o.hh p.blockCache)
    (hupd : ∀ s x, Steady s (updateInfo o s x))
    (hnew : Find p.blockCache (o.hh blk) = none)
    (hok : o.verifyBasics blk = none)
    (hpar : Find p.blockCache blk.Head.ParentHash = some par)
    (hlinked : (p.blockCache.heap par).Type_ = BCNType.Linked)
    (hpass : passes o blk) (hlogb : logOK o blk)
    (horph : ∀ c, c ∈ (p.blockCache.heap p.blockCache.SingleTree).Children →
      waitsFor p.blockCache (o.hh blk) c = true →
      Height p.blockCache k c ∧ ¬ Reach p.blockCache c par ∧
      ∀ m b, Reach p.blockCache c m → (p.blockCache.heap m).Block = some b → logOK o b) :
    ∃ f0, ∀ f, f0 ≤ f → ∃ r,
      handleRecvBlock o f p blk = some (r, none) ∧
      Find r.blockCache (o.hh blk) = some p.blockCache.next ∧
      (r.blockCache.heap p.blockCache.next).Block = some blk ∧
      (r.blockCache.heap p.blockCache.next).Type_ = BCNType.Linked ∧
      (∀ m, Reach r.blockCache p.blockCache.next m →
        (r.blockCache.heap m).Type_ = BCNType.Linked) ∧
      (∀ c cb, c ∈ (p.blockCache.heap p.blockCache.SingleTree).Children →
        (p.blockCache.heap c).Block = some cb → cb.Head.ParentHash = o.hh blk → passes o cb →
        c ∈ (r.blockCache.heap p.blockCache.next).Children ∧
        (r.blockCache.heap c).Parent = some p.blockCache.next ∧
        (r.blockCache.heap c).Type_ = BCNType.Linked) := by
  have hdup : mapLoad p.blockCache.hash2node (o.hh blk) = none := by
    rw [← Find_eq]; exact hnew
  have hparl : mapLoad p.blockCache.hash2node blk.Head.ParentHash = some par := by
    rw [← Find_eq]; exact hpar
  obtain ⟨_, t1, a3, _, a5, a6, _, a8⟩ :=
    cacheAdd_new o.hh p.blockCache blk par (p.blockCache.heap par).Type_ ht hdup
      (Or.inl ⟨hparl, rfl⟩)
  have hparlt : par < p.blockCache.next := ht.index_lt _ _ hparl
  have hparn : par ≠ p.blockCache.next := Nat.ne_of_lt hparlt
  have hparS : par ≠ p.blockCache.SingleTree := by
    intro e
    rw [e, ht.single_type] at hlinked
    cases hlinked
  have hSn : p.blockCache.SingleTree ≠ p.blockCache.next := Nat.ne_of_lt ht.single_lt
  -- the children of the new node are the orphans that waited for the block
  have hchn : ((cacheAdd o.hh p.blockCache blk).cache.heap p.blockCache.next).Children =
      (p.blockCache.heap p.blockCache.SingleTree).Children.filter
        (waitsFor p.blockCache (o.hh blk)) := by
    rw [(a8 _).2.2.2, if_pos rfl]
  -- below a waiting orphan nothing has changed
  have hbelow : ∀ c, c ∈ (p.blockCache.heap p.blockCache.SingleTree).Children →
      waitsFor p.blockCache (o.hh blk) c = true → ∀ m, Reach p.blockCache c m →
      ((cacheAdd o.hh p.blockCache blk).cache.heap m).Children = (p.blockCache.heap m).Children ∧
      ((cacheAdd o.hh p.blockCache blk).cache.heap m).Block = (p.blockCache.heap m).Block := by
    intro c hc hw m hm
    have hmlt := reach_lt o.hh _ ht.toSound c m (ht.child_lt _ _ hc) hm
    have hmn : m ≠ p.blockCache.next := Nat.ne_of_lt hmlt
    have hmS : m ≠ p.blockCache.SingleTree := reach_not_single o.hh _ ht.toSound _ c m hc hm
    have hmp : m ≠ par := fun e => (horph c hc hw).2.1 (e ▸ hm)
    refine ⟨?_, ?_⟩
    · rw [(a8 m).2.2.2, if_neg hmn, if_neg hmS, if_neg hmp]
    · rw [(a8 m).1, if_neg hmn]
  refine ⟨k + 3, fun f hf => ?_⟩
  have hk1 : Height (cacheAdd o.hh p.blockCache blk).cache (k + 1) p.blockCache.next := by
    intro c hc
    rw [hchn] at hc
    have hc2 := List.mem_filter.mp hc
    exact Height_congr _ _ k c (fun m hm => (hbelow c hc2.1 hc2.2 m hm).1)
      (horph c hc2.1 hc2.2).1
  have hlog1 : ∀ m b, Reach (cacheAdd o.hh p.blockCache blk).cache p.blockCache.next m →
      ((cacheAdd o.hh p.blockCache blk).cache.heap m).Block = some b → logOK o b := by
    intro m b hm hb
    rcases reach_first _ _ m hm with e | ⟨c, hc, hcm⟩
    · rw [e, (a8 _).1, if_pos rfl] at hb
      cases hb
      exact hlogb
    · rw [hchn] at hc
      have hc2 := List.mem_filter.mp hc
      have hcm2 : Reach p.blockCache c m :=
        (reach_congr p.blockCache _ c (fun m hm => (hbelow c hc2.1 hc2.2 m hm).1) m).mp hcm
      rw [(hbelow c hc2.1 hc2.2 m hcm2).2] at hb
      exact (horph c hc2.1 hc2.2).2.2 m b hcm2 hb
  obtain ⟨r, hr, hout, hnil⟩ := addExistingBlock_links o false hupd (k + 1) f
    { p with blockCache := (cacheAdd o.hh p.blockCache blk).cache,
             calls := p.calls ++ [CacheCall.add blk] }
    p.blockCache.next blk ((cacheAdd o.hh p.blockCache blk).cache.heap par).Block (by omega) t1
    (by show ((cacheAdd o.hh p.blockCache blk).cache.heap p.blockCache.next).Block = some blk
        rw [(a8 _).1, if_pos rfl])
    (by show Find (cacheAdd o.hh p.blockCache blk).cache (o.hh blk) = some p.blockCache.next
        rw [Find_eq, a6, mapLoad_mapStore, if_pos rfl])
    hk1 hlog1
  have herr : r.2 = none := hnil (hpass _ _ _ _)
  have hty : ((cacheAdd o.hh p.blockCache blk).cache.heap par).Type_ = BCNType.Linked := by
    rw [(a8 par).2.1, if_neg hparn]; exact hlinked
  have hrun : handleRecvBlock o f p blk = some (r.1, none) := by
    simp only [handleRecvBlock, hnew, hok, hpar, hty, if_true]
    rw [hr, ← herr]
  have hnpar : p.blockCache.next ∈ ((cacheAdd o.hh p.blockCache blk).cache.heap par).Children := by
    rw [(a8 par).2.2.2, if_neg hparn, if_neg hparS, if_pos rfl]
    exact List.mem_append_right _ (List.mem_singleton_self _)
  have hblock : (r.1.blockCache.heap p.blockCache.next).Block = some blk := by
    rw [hout.later.block, (a8 _).1, if_pos rfl]
  refine ⟨r.1, hrun, ?_, hblock, hout.linked herr _ Reach.here, hout.linked herr, ?_⟩
  · rw [Find_eq]
    exact hout.tidy.child_indexed par _ blk ((hout.kept herr).2 par hnpar) hblock
  · intro c cb hc hcb hph hp
    have hw : waitsFor p.blockCache (o.hh blk) c = true := by
      simp [waitsFor, hcb, hph]
    have hcn : c ≠ p.blockCache.next := Nat.ne_of_lt (ht.child_lt _ _ hc)
    exact hout.promoted herr c cb (by rw [hchn]; exact List.mem_filter.mpr ⟨hc, hw⟩)
      (by rw [(a8 c).1, if_neg hcn]; exact hcb) hp

theorem rangePob_tidy (hh : Block → Hash) (body : PoB → Ptr → Option PoB) (par : Ptr)
    (hbody : ∀ q c q2, Tidy hh q.blockCache → body q c = some q2 → Tidy hh q2.blockCache) :
    ∀ l p p2, Tidy hh p.blockCache → rangePob body par l p = some p2 →
      Tidy hh p2.blockCache := by
  intro l
  induction l with
  | nil =>
    intro p p2 ht h
    simp only [rangePob, Option.some.injEq] at h
    rw [← h]; exact ht
  | cons ch rest ih =>
    intro p p2 ht h
    simp only [rangePob] at h
    by_cases hc : ch ∈ (p.blockCache.heap par).Children
    · rw [if_pos hc] at h
      cases hb : body p ch with
      | none => rw [hb] at h; cases h
      | some p1 =>
        rw [hb] at h
        exact ih p1 p2 (hbody p ch p1 ht hb) h
    · rw [if_neg hc] at h
      exact ih p p2 ht h

/-- A call of `addExistingBlock` that returns leaves a tidy cache tidy, if
`updateInfo` does. -/
theorem Tidy_addExistingBlock (o : Outside)
    (hupd : ∀ s x, Tidy o.hh s → Tidy o.hh (updateInfo o s x)) :
    ∀ fuel p blk parentBlock replay r, Tidy o.hh p.blockCache →
      addExistingBlock o fuel p blk parentBlock replay = some r → Tidy o.hh r.1.blockCache := by
  intro fuel
  induction fuel with
  | zero =>
    intro p blk parentBlock replay r _ h
    simp [addExistingBlock] at h
  | succ fuel ih =>
    intro p blk parentBlock replay r ht h
    have hbody : ∀ (n : Ptr) (q : PoB) (c : Ptr) (q2 : PoB), Tidy o.hh q.blockCache →
        (match (q.blockCache.heap c).Block with
          | none => none
          | some cb =>
            (addExistingBlock o fuel q cb (q.blockCache.heap n).Block replay).map Prod.fst)
          = some q2 → Tidy o.hh q2.blockCache := by
      intro n q c q2 hq hres
      cases hb : (q.blockCache.heap c).Block with
      | none => simp [hb] at hres
      | some cb =>
        simp only [hb] at hres
        cases hr : addExistingBlock o fuel q cb (q.blockCache.heap n).Block replay with
        | none => rw [hr] at hres; cases hres
        | some r2 =>
          rw [hr] at hres
          simp only [Option.map_some', Option.some.injEq] at hres
          rw [← hres]
          exact ih q cb _ replay r2 hq hr
    have hlink : ∀ n, Find p.blockCache (o.hh blk) = some n →
        Tidy o.hh (updateInfo o (cacheLink o.hh p.blockCache (some n)) n) := by
      intro n hn
      rw [Find_eq] at hn
      obtain ⟨b, hb, _⟩ := ht.index_block _ n hn
      have hnS : n ≠ p.blockCache.SingleTree := by
        intro e; rw [e, ht.single_block] at hb; cases hb
      exact hupd _ n (Tidy_cacheLink o.hh _ n ht hnS)
    rw [addExistingBlock] at h
    simp only at h
    by_cases hok : o.checkout p.tags (o.hh blk) = true
    all_goals simp only [hok, if_true, if_false] at h
    all_goals repeat' (first | (cases h; done) | split at h)
    all_goals first
      | (cases h
         have hd := ‹cacheDel _ _ _ = some _›
         exact Tidy_cacheDel o.hh _ _ _ _ ht hd)
      | (cases h
         have hrun := ‹rangePob _ _ _ _ = some _›
         have hf := ‹Find p.blockCache (o.hh blk) = some _›
         refine rangePob_tidy o.hh _ _ (hbody _) _ _ _ ?_ hrun
         simp only [hf]
         exact hlink _ hf)

/-- A call of `handleRecvBlock` that returns leaves a tidy cache tidy, if
`updateInfo` does: the cache that `pob.go` works on is tidy in every state. -/
theorem Tidy_handleRecvBlock (o : Outside)
    (hupd : ∀ s x, Tidy o.hh s → Tidy o.hh (updateInfo o s x))
    (fuel : Nat) (p : PoB) (blk : Block) (r : PoB × Option PobErr)
    (ht : Tidy o.hh p.blockCache) (h : handleRecvBlock o fuel p blk = some r) :
    Tidy o.hh r.1.blockCache := by
  unfold handleRecvBlock at h
  cases hf : Find p.blockCache (o.hh blk) with
  | some n => simp only [hf, Option.some.injEq] at h; rw [← h]; exact ht
  | none =>
    simp only [hf] at h
    cases hv : o.verifyBasics blk with
    | some e => simp only [hv, Option.some.injEq] at h; rw [← h]; exact ht
    | none =>
      simp only [hv] at h
      have hdup : mapLoad p.blockCache.hash2node (o.hh blk) = none := by
        rw [← Find_eq]; exact hf
      have ht1 : Tidy o.hh (cacheAdd o.hh p.blockCache blk).cache := by
        cases hp : mapLoad p.blockCache.hash2node blk.Head.ParentHash with
        | none =>
          exact (cacheAdd_new o.hh p.blockCache blk p.blockCache.SingleTree BCNType.Single ht hdup
            (Or.inr ⟨hp, rfl, rfl⟩)).2.1
        | some fa =>
          exact (cacheAdd_new o.hh p.blockCache blk fa (p.blockCache.heap fa).Type_ ht hdup
            (Or.inl ⟨hp, rfl⟩)).2.1
      cases hp : Find p.blockCache blk.Head.ParentHash with
      | none => simp only [hp, Option.some.injEq] at h; rw [← h]; exact ht1
      | some par =>
        simp only [hp] at h
        split_ifs at h
        · exact Tidy_addExistingBlock o hupd fuel _ blk _ false r ht1 h
        · simp only [Option.some.injEq] at h; rw [← h]; exact ht1

theorem Tidy_waitingCache : Tidy sampleHash waitingCache := by
  have h1 := (cacheAdd_new sampleHash freshCache peer7 freshCache.SingleTree BCNType.Single
    (Tidy_NewBlockCache sampleHash libBlock) (by rfl) (Or.inr ⟨by rfl, rfl, rfl⟩)).2.1
  exact (cacheAdd_new sampleHash (cacheAdd sampleHash freshCache peer7).cache peer7b
    (cacheAdd sampleHash freshCache peer7).cache.SingleTree BCNType.Single h1 (by rfl)
    (Or.inr ⟨by rfl, rfl, rfl⟩)).2.1

theorem Steady_refl (s : BlockCache) : Steady s s :=
  ⟨rfl, rfl, rfl, rfl, fun _ => rfl, fun _ => rfl, fun _ => rfl, fun _ => rfl⟩

theorem reach_leaf (s : BlockCache) (c m : Ptr) (hc : (s.heap c).Children = [])
    (h : Reach s c m) : m = c := by
  rcases reach_first s c m h with e | ⟨c2, h2, _⟩
  · exact e
  · rw [hc] at h2; cases h2

/-- Witness of C27: blocks 7 and 7b, both on top of the unknown block 6, wait
under the single root as nodes 2 and 3 when block 6 arrives, its parent being
the linked root. -/
theorem handleRecvBlock_links_waiting_orphans_witness :
    ∃ f0, ∀ f, f0 ≤ f → ∃ r,
      handleRecvBlock sampleOutside f (newPoB waitingCache) peer6 = some (r, none) ∧
      Find r.blockCache (sampleOutside.hh peer6) = some (newPoB waitingCache).blockCache.next ∧
      (r.blockCache.heap (newPoB waitingCache).blockCache.next).Block = some peer6 ∧
      (r.blockCache.heap (newPoB waitingCache).blockCache.next).Type_ = BCNType.Linked ∧
      (∀ m, Reach r.blockCache (newPoB waitingCache).blockCache.next m →
        (r.blockCache.heap m).Type_ = BCNType.Linked) ∧
      (∀ c cb, c ∈ ((newPoB waitingCache).blockCache.heap
          (newPoB waitingCache).blockCache.SingleTree).Children →
        ((newPoB waitingCache).blockCache.heap c).Block = some cb →
        cb.Head.ParentHash = sampleOutside.hh peer6 → passes sampleOutside cb →
        c ∈ (r.blockCache.heap (newPoB waitingCache).blockCache.next).Children ∧
        (r.blockCache.heap c).Parent = some (newPoB waitingCache).blockCache.next ∧
        (r.blockCache.heap c).Type_ = BCNType.Linked) :=
  handleRecvBlock_links_waiting_orphans sampleOutside (newPoB waitingCache) peer6 0 0
    Tidy_waitingCache (fun s _ => Steady_refl s) (by rfl) rfl (by rfl) (by rfl)
    (fun _ _ _ _ => Or.inr rfl) (Or.inr (by decide))
    (by
      intro c hc _
      have e : ((newPoB waitingCache).blockCache.heap
          (newPoB waitingCache).blockCache.SingleTree).Children = [2, 3] := by rfl
      rw [e] at hc
      have hcases : c = 2 ∨ c = 3 := by simpa using hc
      rcases hcases with h | h
      · subst h
        have hnil : ((newPoB waitingCache).blockCache.heap 2).Children = [] := by rfl
        refine ⟨hnil, fun hr => ?_, fun m b hm hb => ?_⟩
        · have := reach_leaf _ 2 0 hnil hr
          exact absurd this (by decide)
        · have hm2 := reach_leaf _ 2 m hnil hm
          subst hm2
          have hb2 : ((newPoB waitingCache).blockCache.heap 2).Block = some peer7 := by rfl
          rw [hb2] at hb
          cases hb
          exact Or.inr (by decide)
      · subst h
        have hnil : ((newPoB waitingCache).blockCache.heap 3).Children = [] := by rfl
        refine ⟨hnil, fun hr => ?_, fun m b hm hb => ?_⟩
        · have := reach_leaf _ 3 0 hnil hr
          exact absurd this (by decide)
        · have hm2 := reach_leaf _ 3 m hnil hm
          subst hm2
          have hb2 : ((newPoB waitingCache).blockCache.heap 3).Block = some peer7b := by rfl
          rw [hb2] at hb
          cases hb
          exact Or.inr (by decide))

/-! ### The time limit of `gen` (C30) -/

theorem rangePob_budgets (body : PoB → Ptr → Option PoB) (par : Ptr)
    (hbody : ∀ q c q2, body q c = some q2 → q2.budgets = q.budgets) :
    ∀ l p p2, rangePob body par l p = some p2 → p2.budgets = p.budgets := by
  intro l
  induction l with
  | nil =>
    intro p p2 h
    simp only [rangePob, Option.some.injEq] at h
    rw [← h]
  | cons ch rest ih =>
    intro p p2 h
    simp only [rangePob] at h
    by_cases hc : ch ∈ (p.blockCache.heap par).Children
    · rw [if_pos hc] at h
      cases hb : body p ch with
      | none => rw [hb] at h; cases h
      | some p1 =>
        rw [hb] at h
        rw [ih p1 p2 h, hbody p ch p1 hb]
    · rw [if_neg hc] at h
      exact ih p p2 h

/-- The method `addExistingBlock` does not call `generateBlock`. -/
theorem addExistingBlock_budgets (o : Outside) :
    ∀ fuel p blk parentBlock replay r,
      addExistingBlock o fuel p blk parentBlock replay = some r → r.1.budgets = p.budgets := by
  intro fuel
  induction fuel with
  | zero =>
    intro p blk parentBlock replay r h
    simp [addExistingBlock] at h
  | succ fuel ih =>
    intro p blk parentBlock replay r h
    have hbody : ∀ (n : Ptr) (q : PoB) (c : Ptr) (q2 : PoB),
        (match (q.blockCache.heap c).Block with
          | none => none
          | some cb =>
            (addExistingBlock o fuel q cb (q.blockCache.heap n).Block replay).map Prod.fst)
          = some q2 → q2.budgets = q.budgets := by
      intro n q c q2 hq
      cases hb : (q.blockCache.heap c).Block with
      | none => simp [hb] at hq
      | some cb =>
        simp only [hb] at hq
        cases hr : addExistingBlock o fuel q cb (q.blockCache.heap n).Block replay with
        | none => rw [hr] at hq; cases hq
        | some r2 =>
          rw [hr] at hq
          simp only [Option.map_some', Option.some.injEq] at hq
          rw [← hq]
          exact ih q cb _ replay r2 hr
    unfold addExistingBlock at h
    simp only at h
    by_cases hok : o.checkout p.tags (o.hh blk) = true
    all_goals simp only [hok, if_true, if_false] at h
    all_goals repeat' (first | (cases h; done) | split at h)
    all_goals first
      | (cases h; rfl)
      | (cases h
         have hrun := ‹rangePob _ _ _ _ = some _›
         have hs := rangePob_budgets _ _ (hbody _) _ _ _ hrun
         exact hs)

theorem handleRecvBlock_budgets (o : Outside) (fuel : Nat) (p : PoB) (blk : Block)
    (r : PoB × Option PobErr) (h : handleRecvBlock o fuel p blk = some r) :
    r.1.budgets = p.budgets := by
  unfold handleRecvBlock at h
  simp only at h
  repeat' (first | (cases h; done) | split at h)
  all_goals first
    | (cases h; rfl)
    | (have hs := addExistingBlock_budgets o fuel _ blk _ false r h
       exact hs)

/-- C30: for every `continuousNum ≥ 2` and every sub-slot index `num` with
`0 ≤ num < continuousNum`, the one time limit that a call of `gen` hands to
`generateBlock` is 30 ms (`last2GenBlockTime`) if `num ≥ continuousNum - 2`
and 250 ms (`genBlockTime`) otherwise: whenever `gen` returns, it has recorded
one more limit, that one; when `generateBlock` fails under that limit, `gen`
returns without touching anything else; and when `generateBlock` makes a block
under that limit and `gen` returns, the block that `gen` has broadcast is that
block. -/
theorem gen_limit_last_two_subslots (o : Outside) (fuel : Nat) (continuousNum num : Int)
    (p : PoB) (_hc : 2 ≤ continuousNum) (_h0 : 0 ≤ num) (_h1 : num < continuousNum) :
    (∀ p2, gen o fuel continuousNum p num = some p2 →
      p2.budgets = p.budgets ++
        [if continuousNum - 2 ≤ num then 30 * 1000000 else 250 * 1000000]) ∧
    (o.generateBlock p (if continuousNum - 2 ≤ num then 30 * 1000000 else 250 * 1000000) = none →
      gen o fuel continuousNum p num = some { p with budgets := p.budgets ++
        [if continuousNum - 2 ≤ num then 30 * 1000000 else 250 * 1000000] }) ∧
    (∀ blk bytes p2,
      o.generateBlock p (if continuousNum - 2 ≤ num then 30 * 1000000 else 250 * 1000000)
        = some blk →
      o.encode blk = some bytes → gen o fuel continuousNum p num = some p2 →
      p2.sent = p.sent ++ [Sent.broadcast bytes MessageType.NewBlock]) ∧
    last2GenBlockTime = 30 * 1000000 ∧ genBlockTime = 250 * 1000000 := by
  have hlim : (if num ≥ continuousNum - 2 then last2GenBlockTime else genBlockTime) =
      (if continuousNum - 2 ≤ num then 30 * 1000000 else 250 * 1000000) := by
    by_cases h : continuousNum - 2 ≤ num
    · simp [h, last2GenBlockTime]
    · simp [h, genBlockTime]
  refine ⟨?_, ?_, ?_, rfl, rfl⟩
  · intro p2 h
    unfold gen at h
    simp only [hlim] at h
    generalize (if continuousNum - 2 ≤ num then (30 * 1000000 : Int) else 250 * 1000000) = B
      at h ⊢
    repeat' (first | (cases h; done) | split at h)
    all_goals first
      | (cases h; rfl)
      | (cases h
         have hr := ‹handleRecvBlock _ _ _ _ = some _›
         have hs := handleRecvBlock_budgets _ _ _ _ _ hr
         exact hs)
  · intro hg
    unfold gen
    simp only [hlim, hg]
  · intro blk bytes p2 hg he h
    unfold gen at h
    simp only [hlim, hg, he] at h
    generalize (if continuousNum - 2 ≤ num then (30 * 1000000 : Int) else 250 * 1000000) = B
      at h
    repeat' (first | (cases h; done) | split at h)
    all_goals
      (cases h
       have hr := ‹handleRecvBlock _ _ _ _ = some _›
       have hs := handleRecvBlock_sent _ _ _ _ _ hr
       exact hs)

/-- Witness of C30: ten sub-slots, the ninth one (index 8), on the sample
producing node, whose `generateBlock` makes a block on top of block 5. -/
theorem gen_limit_last_two_subslots_witness :
    (∀ p2, gen producerOutside 5 10 (newPoB freshCache) 8 = some p2 →
      p2.budgets = (newPoB freshCache).budgets ++
        [if (10 : Int) - 2 ≤ 8 then 30 * 1000000 else 250 * 1000000]) ∧
    (producerOutside.generateBlock (newPoB freshCache)
        (if (10 : Int) - 2 ≤ 8 then 30 * 1000000 else 250 * 1000000) = none →
      gen producerOutside 5 10 (newPoB freshCache) 8 =
        some { newPoB freshCache with budgets := (newPoB freshCache).budgets ++
          [if (10 : Int) - 2 ≤ 8 then 30 * 1000000 else 250 * 1000000] }) ∧
    (∀ blk bytes p2,
      producerOutside.generateBlock (newPoB freshCache)
        (if (10 : Int) - 2 ≤ 8 then 30 * 1000000 else 250 * 1000000) = some blk →
      producerOutside.encode blk = some bytes →
      gen producerOutside 5 10 (newPoB freshCache) 8 = some p2 →
      p2.sent = (newPoB freshCache).sent ++ [Sent.broadcast bytes MessageType.NewBlock]) ∧
    last2GenBlockTime = 30 * 1000000 ∧ genBlockTime = 250 * 1000000 :=
  gen_limit_last_two_subslots producerOutside 5 10 8 (newPoB freshCache)
    (by decide) (by decide) (by decide)

/-! ## The producer burst and the verify loop (C31, C32) -/

theorem run_append (o : Outside) (fuel : Nat) (continuousNum : Int) (evs1 : List Event) :
    ∀ (evs2 : List Event) (a b : Node), run o fuel continuousNum a evs1 = some b →
      run o fuel continuousNum a (evs1 ++ evs2) = run o fuel continuousNum b evs2 := by
  induction evs1 with
  | nil => intro evs2 a b h1; cases h1; rfl
  | cons ev rest ih2 =>
    intro evs2 a b h1
    rw [List.cons_append]
    rw [run] at h1 ⊢
    cases hst : step o fuel continuousNum a ev with
    | none => rw [hst] at h1; cases h1
    | some a1 =>
      rw [hst] at h1
      exact ih2 evs2 a1 b h1

/-- The rounds of a burst, taken one step at a time without steps of the
other loops in between, leave what the loop of `scheduleLoop` leaves. -/
theorem burst_as_steps (o : Outside) (fuel : Nat) (continuousNum t : Int) :
    ∀ (k : Nat) (num : Int) (s : Node) (p2 : PoB), num + k = continuousNum →
      s.schedule = ScheduleAt.round t num →
      burst o fuel continuousNum t k num s.pob = some p2 →
      ∃ j, run o fuel continuousNum s (List.replicate j Event.gen) =
        some { s with pob := p2, schedule := ScheduleAt.closing } := by
  intro k
  induction k with
  | zero =>
    intro num s p2 hk hs hb
    simp only [burst] at hb
    cases hb
    refine ⟨1, ?_⟩
    have hnum : ¬ num < continuousNum := by
      simp only [Nat.cast_zero, add_zero] at hk
      omega
    simp only [List.replicate, run, step, hs, if_neg hnum]
  | succ k ih =>
    intro num s p2 hk hs hb
    have hnum : num < continuousNum := by
      simp only [Nat.cast_succ] at hk
      omega
    simp only [burst, if_pos hnum] at hb
    cases hg : gen o fuel continuousNum s.pob num with
    | none => rw [hg] at hb; cases hb
    | some p1 =>
      rw [hg] at hb
      simp only at hb
      by_cases h1 : num = continuousNum - 1
      · rw [if_pos h1] at hb
        cases hb
        refine ⟨1, ?_⟩
        simp only [List.replicate, run, step, hs, if_pos hnum, hg, if_pos h1]
      · rw [if_neg h1] at hb
        by_cases h2 : o.witnessOfNanoSec p1.blockCache t ≠ o.accountID
        · rw [if_pos h2] at hb
          cases hb
          refine ⟨1, ?_⟩
          simp only [List.replicate, run, step, hs, if_pos hnum, hg, if_neg h1, if_pos h2]
        · rw [if_neg h2] at hb
          obtain ⟨j, hj⟩ := ih (num + 1)
            { s with pob := p1, schedule := ScheduleAt.round t (num + 1) } p2
            (by simp only [Nat.cast_succ] at hk; omega) rfl hb
          refine ⟨j + 1, ?_⟩
          simp only [List.replicate, run, step, hs, if_pos hnum, hg, if_neg h1, if_neg h2]
          exact hj

/-- The round of `scheduleLoop` in which the timer fires is a `start` step,
some `gen` steps and, if a burst was started, a `close` step of the node. -/
theorem scheduleLoop_as_steps (o : Outside) (fuel : Nat) (continuousNum : Int) (mode : TMode)
    (t : Int) (s : Node) (p2 : PoB) (hc : 0 ≤ continuousNum) (hs : s.schedule = ScheduleAt.idle)
    (h : scheduleLoop o fuel continuousNum mode t s.pob = some p2) :
    (p2 = s.pob ∧ run o fuel continuousNum s [Event.start mode t] = some s) ∨
    ∃ j, run o fuel continuousNum s
        (Event.start mode t :: (List.replicate j Event.gen ++ [Event.close])) =
      some { s with pob := p2, gateClosed := true, schedule := ScheduleAt.idle } := by
  unfold scheduleLoop at h
  by_cases hcond : (t / 1000000000) ∉ s.pob.slotUsed ∧ mode = TMode.ModeNormal ∧
      o.witnessOfNanoSec s.pob.blockCache t = o.accountID
  · right
    rw [if_pos hcond] at h
    obtain ⟨j, hj⟩ := burst_as_steps o fuel continuousNum t continuousNum.toNat 0
      { s with pob := { s.pob with slotUsed := (t / 1000000000) :: s.pob.slotUsed }
               gateClosed := false
               schedule := ScheduleAt.round t 0 } p2
      (by simp only [zero_add]; exact Int.toNat_of_nonneg hc) rfl h
    refine ⟨j, ?_⟩
    simp only [run, step, hs, if_pos hcond]
    rw [run_append o fuel continuousNum _ [Event.close] _ _ hj]
    simp only [run, step]
  · left
    rw [if_neg hcond] at h
    cases h
    refine ⟨rfl, ?_⟩
    simp only [run, step, hs, if_neg hcond]

theorem applied_cons_verify (mode : TMode) (rest : List Event) :
    applied (Event.verify mode :: rest) = applied rest + 1 := by
  simp [applied]

theorem applied_cons_other (ev : Event) (rest : List Event)
    (h : ∀ mode, ev ≠ Event.verify mode) : applied (ev :: rest) = applied rest := by
  cases ev with
  | verify mode => exact absurd rfl (h mode)
  | _ => simp [applied]

/-- What the verify loop can still apply while the gate stays open: one
message if it is past the gate, none otherwise. -/
theorem applied_le_of_open (o : Outside) (fuel : Nat) (continuousNum : Int) (evs : List Event) :
    ∀ (s s2 : Node), s.gateClosed = false → (∀ ev ∈ evs, ev ≠ Event.close) →
      run o fuel continuousNum s evs = some s2 →
      s2.gateClosed = false ∧ applied evs ≤ pastGate s.verify := by
  induction evs with
  | nil =>
    intro s s2 hopen _ hrun
    cases hrun
    exact ⟨hopen, Nat.zero_le _⟩
  | cons ev rest ih =>
    intro s s2 hopen hne hrun
    have hne2 : ∀ ev2 ∈ rest, ev2 ≠ Event.close :=
      fun ev2 h => hne ev2 (List.mem_cons_of_mem _ h)
    have hev : ev ≠ Event.close := hne ev (List.mem_cons_self _ _)
    unfold run at hrun
    cases hstep : step o fuel continuousNum s ev with
    | none => rw [hstep] at hrun; cases hrun
    | some s1 =>
      rw [hstep] at hrun
      simp only at hrun
      cases ev with
      | close => exact absurd rfl hev
      | recv blk typ =>
        rw [applied_cons_other _ _ (fun _ h => by cases h)]
        simp only [step] at hstep
        split at hstep
        · cases hstep
          have := ih _ s2 (by exact hopen) hne2 hrun
          exact this
        · cases hstep
      | take =>
        rw [applied_cons_other _ _ (fun _ h => by cases h)]
        simp only [step] at hstep
        split at hstep
        · cases hstep
          have := ih _ s2 (by exact hopen) hne2 hrun
          simp only [pastGate] at this
          exact ⟨this.1, by omega⟩
        · cases hstep
      | pass =>
        simp only [step] at hstep
        split at hstep
        · rw [hopen] at hstep
          cases hstep
        · cases hstep
      | verify mode =>
        rw [applied_cons_verify]
        simp only [step] at hstep
        split at hstep
        · rename_i blk typ hv
          split at hstep
          · cases hstep
          · cases hstep
            have := ih _ s2 (by exact hopen) hne2 hrun
            simp only [pastGate] at this
            rw [hv]
            simp only [pastGate]
            exact ⟨this.1, by omega⟩
        · cases hstep
      | start mode t =>
        rw [applied_cons_other _ _ (fun _ h => by cases h)]
        simp only [step] at hstep
        split at hstep
        · split at hstep
          · cases hstep
            have := ih _ s2 (by rfl) hne2 hrun
            exact this
          · cases hstep
            exact ih _ s2 hopen hne2 hrun
        · cases hstep
      | gen =>
        rw [applied_cons_other _ _ (fun _ h => by cases h)]
        simp only [step] at hstep
        repeat' (first | (cases hstep; done) | split at hstep)
        all_goals (cases hstep; have := ih _ s2 (by exact hopen) hne2 hrun; exact this)

/-- While the channel in `quitGenerateMode` is open,
from any state of the node and along any steps of the loops before the channel
is closed, `verifyLoop` calls `doVerifyBlock` at most once, and not at all
unless it was past the inner `select` already; a message that it takes from
the queue, or holds at the inner `select`, is not applied before the channel
is closed. -/
theorem verifyLoop_applies_at_most_one_block_in_burst (o : Outside) (fuel : Nat)
    (continuousNum : Int) (s s2 : Node) (evs : List Event) (hopen : s.gateClosed = false)
    (hne : ∀ ev ∈ evs, ev ≠ Event.close) (hrun : run o fuel continuousNum s evs = some s2) :
    s2.gateClosed = false ∧ applied evs ≤ 1 ∧
    ((∀ blk typ, s.verify ≠ VerifyAt.passed blk typ) → applied evs = 0) := by
  have h := applied_le_of_open o fuel continuousNum evs s s2 hopen hne hrun
  refine ⟨h.1, ?_, ?_⟩
  · have h2 := h.2
    cases hv : s.verify <;> rw [hv] at h2 <;> simp only [pastGate] at h2 <;> omega
  · intro hnp
    have h2 := h.2
    cases hv : s.verify with
    | idle => rw [hv] at h2; simp only [pastGate] at h2; omega
    | gate blk typ => rw [hv] at h2; simp only [pastGate] at h2; omega
    | passed blk typ => exact absurd hv (hnp blk typ)

/-- C32 (the code at the failing input): block 6 comes from a peer and
`verifyLoop` receives from `quitGenerateMode` while the channel is still
closed; then `scheduleLoop` starts a burst and opens a new channel; then
`verifyLoop` calls `doVerifyBlock`, which adds block 6 to the cache and links
it, while the channel is open. -/
theorem verifyLoop_applies_block_during_burst :
    (run producerOutside 10 3 (newNode (newPoB freshCache))
        [Event.recv peer6 MessageType.NewBlock, Event.take, Event.pass,
         Event.start TMode.ModeNormal 1000000]).map
      (fun s => (s.gateClosed, s.schedule, s.pob.calls)) =
      some (false, ScheduleAt.round 1000000 0, []) ∧
    (run producerOutside 10 3 (newNode (newPoB freshCache))
        [Event.recv peer6 MessageType.NewBlock, Event.take, Event.pass,
         Event.start TMode.ModeNormal 1000000, Event.verify TMode.ModeNormal]).map
      (fun s => (s.gateClosed, s.schedule, s.pob.calls)) =
      some (false, ScheduleAt.round 1000000 0,
        [CacheCall.add peer6, CacheCall.link (some 2)]) := by
  refine ⟨by rfl, by rfl⟩

/-- C31: a burst starts at one millisecond, in a slot of three seconds that
belongs to the local account, with four rounds to run, each of which takes one
second.  The tick after round 2 is received at 3.001 seconds, in the slot of
another witness; a loop that compares the witness of the time of the tick
stops after three blocks, but `scheduleLoop` compares the witness of the
starting time again and broadcasts four blocks. -/
theorem scheduleLoop_checks_start_time_at_tick :
    producerOutside.witnessOfNanoSec freshCache 1000000 = producerOutside.accountID ∧
    producerOutside.witnessOfNanoSec freshCache (slowTicks 1) = producerOutside.accountID ∧
    producerOutside.witnessOfNanoSec freshCache (slowTicks 2) ≠ producerOutside.accountID ∧
    (scheduleLoop producerOutside 10 4 TMode.ModeNormal 1000000 (newPoB freshCache)).map
      (fun p => (blocksSent p, p.calls.length)) = some (4, 8) ∧
    (burstWallClock producerOutside 10 4 slowTicks 4 0
      { newPoB freshCache with slotUsed := [0] }).map
      (fun p => (blocksSent p, p.calls.length)) = some (3, 6) := by
  refine ⟨by decide, by decide, by decide, by rfl, by rfl⟩

end blockcache

namespace native

open golang

/-! ## The token contract: names, balances and supply (C33 to C37) -/

theorem wrap64_eq (x : Int) (h1 : - 2 ^ 63 ≤ x) (h2 : x ≤ MaxInt64) : wrap64 x = x := by
  unfold wrap64
  unfold MaxInt64 at h2
  omega

theorem wrap64_range (x : Int) : - 2 ^ 63 ≤ wrap64 x ∧ wrap64 x ≤ MaxInt64 := by
  unfold wrap64 MaxInt64
  omega

theorem decodeRune_ascii (b : Nat) (rest : List Nat) (h : b < 128) :
    decodeRune (b :: rest) = (b, 1) := by
  simp only [decodeRune]
  rw [if_pos h]

theorem decodeRune_high (b : Nat) (rest : List Nat) (h : ¬ b < 128) :
    128 ≤ (decodeRune (b :: rest)).1 := by
  simp only [decodeRune]
  rw [if_neg h]
  unfold RuneError
  repeat' split
  all_goals (try simp only)
  all_goals (try omega)

theorem validChar_lt (ch : Nat) (h : validChar ch = true) : ch < 128 := by
  unfold validChar at h
  simp only [decide_eq_true_eq] at h
  omega

theorem runes_valid_iff (s : List Nat) :
    (∀ ch ∈ runesFrom s 0, validChar ch = true) ↔ ∀ b ∈ s, validChar b = true := by
  induction s with
  | nil => simp [runesFrom]
  | cons b rest ih =>
    unfold runesFrom
    by_cases hb : b < 128
    · rw [decodeRune_ascii b rest hb]
      simp only [List.mem_cons, forall_eq_or_imp, Nat.sub_self]
      rw [ih]
    · constructor
      · intro h
        have h1 := h _ (List.mem_cons_self _ _)
        have h2 := validChar_lt _ h1
        have h3 := decodeRune_high b rest hb
        omega
      · intro h
        have h1 := h b (List.mem_cons_self _ _)
        have h2 := validChar_lt _ h1
        omega

theorem find_none_iff (l : List Nat) :
    l.find? (fun ch => !validChar ch) = none ↔ ∀ ch ∈ l, validChar ch = true := by
  rw [List.find?_eq_none]
  simp

theorem validChar_iff (ch : Nat) :
    validChar ch = true ↔ (97 ≤ ch ∧ ch ≤ 122 ∨ 48 ≤ ch ∧ ch ≤ 57 ∨ ch = 95) := by
  unfold validChar
  simp only [decide_eq_true_eq]

theorem checkTokenNameValid_none_iff (name : GoString) :
    checkTokenNameValid name = none ↔
      (1 ≤ name.length ∧ name.length ≤ 32 ∧ ∀ ch ∈ runes name, validChar ch = true) := by
  unfold checkTokenNameValid
  by_cases hl : name.length ≤ 0 ∨ name.length > 32
  · rw [if_pos hl]
    constructor
    · intro h; cases h
    · intro h; omega
  · rw [if_neg hl]
    rw [← find_none_iff]
    constructor
    · intro h
      refine ⟨by omega, by omega, ?_⟩
      cases hf : (runes name).find? (fun ch => !validChar ch) with
      | none => rfl
      | some ch => rw [hf] at h; cases h
    · intro h
      rw [h.2.2]

/-- C33: `checkTokenNameValid` returns no error exactly when the name has
between 1 and 32 bytes and every character that the loop over the name sees
is a lower-case letter, a digit or the underscore; the same holds with the
bytes of the name in the place of its characters. -/
theorem checkTokenNameValid_accepts_iff (name : GoString) :
    (checkTokenNameValid name = none ↔
      (1 ≤ name.length ∧ name.length ≤ 32 ∧
        ∀ ch ∈ runes name, 97 ≤ ch ∧ ch ≤ 122 ∨ 48 ≤ ch ∧ ch ≤ 57 ∨ ch = 95)) ∧
    (checkTokenNameValid name = none ↔
      (1 ≤ name.length ∧ name.length ≤ 32 ∧
        ∀ b ∈ name, 97 ≤ b ∧ b ≤ 122 ∨ 48 ≤ b ∧ b ≤ 57 ∨ b = 95)) := by
  have key := checkTokenNameValid_none_iff name
  have hb : (∀ ch ∈ runes name, validChar ch = true) ↔ ∀ b ∈ name, validChar b = true := by
    unfold runes
    exact runes_valid_iff name
  refine ⟨?_, ?_⟩
  · rw [key]
    simp only [validChar_iff]
  · rw [key, hb]
    simp only [validChar_iff]

theorem thawLoop_fst (ntime : Int) (l : List FreezeItem) :
    ∀ (i : Nat) (acc : Int), (thawLoop ntime l i acc).1 = i + (thawed ntime l).length := by
  induction l with
  | nil => intro i acc; simp [thawLoop, thawed]
  | cons x rest ih =>
    intro i acc
    unfold thawLoop thawed
    by_cases hx : x.Ftime > ntime
    · rw [if_pos hx]
      have : ¬ x.Ftime ≤ ntime := by omega
      simp [List.takeWhile, this]
    · rw [if_neg hx]
      have : x.Ftime ≤ ntime := by omega
      rw [ih]
      simp [List.takeWhile, this, thawed]
      omega

theorem frozenSum_cons (x : FreezeItem) (l : List FreezeItem) :
    frozenSum (x :: l) = x.Amount + frozenSum l := by
  simp [frozenSum]

theorem frozenSum_append (l1 l2 : List FreezeItem) :
    frozenSum (l1 ++ l2) = frozenSum l1 + frozenSum l2 := by
  simp [frozenSum]

theorem frozenSum_nonneg (l : List FreezeItem) (h : ∀ x ∈ l, 0 < x.Amount) :
    0 ≤ frozenSum l := by
  induction l with
  | nil => simp [frozenSum]
  | cons x rest ih =>
    rw [frozenSum_cons]
    have h1 := h x (List.mem_cons_self _ _)
    have h2 := ih (fun y hy => h y (List.mem_cons_of_mem _ hy))
    omega

theorem frozenSum_pos (l : List FreezeItem) (h : ∀ x ∈ l, 0 < x.Amount) (hne : l ≠ []) :
    0 < frozenSum l := by
  cases l with
  | nil => exact absurd rfl hne
  | cons x rest =>
    rw [frozenSum_cons]
    have h1 := h x (List.mem_cons_self _ _)
    have h2 := frozenSum_nonneg rest (fun y hy => h y (List.mem_cons_of_mem _ hy))
    omega

theorem thawLoop_snd (ntime : Int) (l : List FreezeItem) :
    ∀ (i : Nat) (acc : Int), 0 ≤ acc → (∀ x ∈ thawed ntime l, 0 < x.Amount) →
      acc + frozenSum (thawed ntime l) ≤ MaxInt64 →
      (thawLoop ntime l i acc).2 = acc + frozenSum (thawed ntime l) := by
  induction l with
  | nil => intro i acc _ _ _; simp [thawLoop, thawed, frozenSum]
  | cons x rest ih =>
    intro i acc hacc hpos hfit
    unfold thawLoop
    by_cases hx : x.Ftime > ntime
    · rw [if_pos hx]
      have : ¬ x.Ftime ≤ ntime := by omega
      simp [thawed, List.takeWhile, this, frozenSum]
    · rw [if_neg hx]
      have hle : x.Ftime ≤ ntime := by omega
      have ht : thawed ntime (x :: rest) = x :: thawed ntime rest := by
        simp [thawed, List.takeWhile, hle]
      rw [ht] at hpos hfit ⊢
      rw [frozenSum_cons] at hfit ⊢
      have hxpos := hpos x (List.mem_cons_self _ _)
      have hrest : ∀ y ∈ thawed ntime rest, 0 < y.Amount :=
        fun y hy => hpos y (List.mem_cons_of_mem _ hy)
      have hnn := frozenSum_nonneg _ hrest
      have hw : wrap64 (acc + x.Amount) = acc + x.Amount :=
        wrap64_eq _ (by omega) (by omega)
      rw [hw, ih (i + 1) (acc + x.Amount) (by omega) hrest (by omega)]
      omega

theorem thawed_append_drop (ntime : Int) (l : List FreezeItem) :
    thawed ntime l ++ l.drop (thawed ntime l).length = l := by
  induction l with
  | nil => simp [thawed]
  | cons x rest ih =>
    by_cases hx : x.Ftime ≤ ntime
    · have ht : thawed ntime (x :: rest) = x :: thawed ntime rest := by
        simp [thawed, List.takeWhile, hx]
      rw [ht]
      simp only [List.length_cons, List.drop_succ_cons, List.cons_append]
      rw [ih]
    · have ht : thawed ntime (x :: rest) = [] := by
        simp [thawed, List.takeWhile, hx]
      rw [ht]
      simp

theorem getBalance_none (e : Env) (db : DB) (tok a : GoString)
    (h : db.freeze (a, tok) = none) :
    getBalance e db tok a = ((db.balance (a, tok)).getD 0, db) := by
  unfold getBalance
  rw [h]

theorem getBalance_idle (e : Env) (db : DB) (tok a : GoString) (l : List FreezeItem)
    (h : db.freeze (a, tok) = some l) (ht : thawed e.BlockTime l = []) :
    getBalance e db tok a = ((db.balance (a, tok)).getD 0, db) := by
  have h1 : (thawLoop e.BlockTime l 0 0).1 = 0 := by rw [thawLoop_fst, ht]; rfl
  have h2 : (thawLoop e.BlockTime l 0 0).2 = 0 := by
    rw [thawLoop_snd _ _ _ _ (le_refl _) (by rw [ht]; intro x hx; cases hx)
      (by rw [ht]; unfold MaxInt64; simp [frozenSum])]
    rw [ht]; simp [frozenSum]
  unfold getBalance
  rw [h]
  simp only [h1, h2, gt_iff_lt, lt_self_iff_false, if_false]

theorem getBalance_thaw (e : Env) (db : DB) (tok a : GoString) (l : List FreezeItem)
    (h : db.freeze (a, tok) = some l) (ht : thawed e.BlockTime l ≠ [])
    (hpos : ∀ x ∈ thawed e.BlockTime l, 0 < x.Amount)
    (hlo : - 2 ^ 63 ≤ (db.balance (a, tok)).getD 0 + frozenSum (thawed e.BlockTime l))
    (hfit : (db.balance (a, tok)).getD 0 + frozenSum (thawed e.BlockTime l) ≤ MaxInt64)
    (hfit2 : frozenSum (thawed e.BlockTime l) ≤ MaxInt64) :
    getBalance e db tok a =
      ((db.balance (a, tok)).getD 0 + frozenSum (thawed e.BlockTime l),
        { db with
          balance := Function.update db.balance (a, tok)
            (some ((db.balance (a, tok)).getD 0 + frozenSum (thawed e.BlockTime l)))
          freeze := Function.update db.freeze (a, tok)
            (some (l.drop (thawed e.BlockTime l).length)) }) := by
  have h1 : (thawLoop e.BlockTime l 0 0).1 = (thawed e.BlockTime l).length := by
    rw [thawLoop_fst]; simp
  have h2 : (thawLoop e.BlockTime l 0 0).2 = frozenSum (thawed e.BlockTime l) := by
    rw [thawLoop_snd _ _ _ _ (le_refl _) hpos (by simpa using hfit2)]
    simp
  have h3 : 0 < frozenSum (thawed e.BlockTime l) := frozenSum_pos _ hpos ht
  have h4 : 0 < (thawed e.BlockTime l).length := List.length_pos.mpr ht
  unfold getBalance
  rw [h]
  simp only [h1, h2, gt_iff_lt, h3, h4, if_true]
  rw [wrap64_eq _ hlo hfit]
  rfl

theorem getBalance_info (e : Env) (db : DB) (tok a : GoString) :
    (getBalance e db tok a).2.issuer = db.issuer ∧
    (getBalance e db tok a).2.supply = db.supply ∧
    (getBalance e db tok a).2.totalSupply = db.totalSupply ∧
    (getBalance e db tok a).2.canTransfer = db.canTransfer ∧
    (getBalance e db tok a).2.defaultRate = db.defaultRate ∧
    (getBalance e db tok a).2.decimal = db.decimal := by
  unfold getBalance setBalance
  cases db.freeze (a, tok) with
  | none => simp
  | some l =>
    simp only
    split <;> split <;> simp

theorem getBalance_other (e : Env) (db : DB) (tok a : GoString) (k : GoString × GoString)
    (hk : k ≠ (a, tok)) :
    (getBalance e db tok a).2.balance k = db.balance k ∧
    (getBalance e db tok a).2.freeze k = db.freeze k := by
  unfold getBalance setBalance
  cases db.freeze (a, tok) with
  | none => simp
  | some l =>
    simp only
    split <;> split <;> simp [Function.update_noteq hk]

theorem holdings_congr (db db2 : DB) (tok x : GoString)
    (hb : db2.balance (x, tok) = db.balance (x, tok))
    (hf : db2.freeze (x, tok) = db.freeze (x, tok)) :
    holdings db2 tok x = holdings db tok x := by
  unfold holdings
  rw [hb, hf]

theorem Ledger_same (db db2 : DB) (tok : GoString) (A : Finset GoString) (s : Int)
    (hb : ∀ x, db2.balance (x, tok) = db.balance (x, tok))
    (hf : ∀ x, db2.freeze (x, tok) = db.freeze (x, tok))
    (hl : Ledger db tok A s) : Ledger db2 tok A s := by
  have hh : holdings db2 tok = holdings db tok :=
    funext (fun x => holdings_congr db db2 tok x (hb x) (hf x))
  refine ⟨?_, ?_, ?_, ?_⟩
  · intro a b h; rw [hb] at h; exact hl.balance_nonneg a b h
  · intro a l h; rw [hf] at h; exact hl.frozen_pos a l h
  · intro a ha; rw [hh]; exact hl.outside a ha
  · rw [hh]; exact hl.total

theorem holdings_nonneg (db : DB) (tok : GoString) (A : Finset GoString) (s : Int)
    (hl : Ledger db tok A s) (x : GoString) : 0 ≤ holdings db tok x := by
  unfold holdings
  have h1 : 0 ≤ (db.balance (x, tok)).getD 0 := by
    cases hb : db.balance (x, tok) with
    | none => simp
    | some b => simpa using hl.balance_nonneg x b hb
  have h2 : 0 ≤ frozenSum ((db.freeze (x, tok)).getD []) := by
    cases hf : db.freeze (x, tok) with
    | none => simp [frozenSum]
    | some l => simpa using frozenSum_nonneg l (hl.frozen_pos x l hf)
  omega

theorem holdings_le (db : DB) (tok : GoString) (A : Finset GoString) (s : Int)
    (hl : Ledger db tok A s) (x : GoString) : holdings db tok x ≤ s := by
  by_cases hx : x ∈ A
  · rw [← hl.total]
    exact Finset.single_le_sum (fun i _ => holdings_nonneg db tok A s hl i) hx
  · rw [hl.outside x hx, ← hl.total]
    exact Finset.sum_nonneg (fun i _ => holdings_nonneg db tok A s hl i)

theorem Ledger_nonneg (db : DB) (tok : GoString) (A : Finset GoString) (s : Int)
    (hl : Ledger db tok A s) : 0 ≤ s := by
  rw [← hl.total]
  exact Finset.sum_nonneg (fun i _ => holdings_nonneg db tok A s hl i)

theorem Ledger_mono (db : DB) (tok : GoString) (A B : Finset GoString) (s : Int)
    (hl : Ledger db tok A s) (hAB : A ⊆ B) : Ledger db tok B s := by
  refine ⟨hl.balance_nonneg, hl.frozen_pos, ?_, ?_⟩
  · intro a ha
    exact hl.outside a (fun h => ha (hAB h))
  · rw [← hl.total]
    symm
    exact Finset.sum_subset hAB (fun x _ hx => hl.outside x hx)

theorem sum_change (A : Finset GoString) (f g : GoString → Int) (a : GoString) (ha : a ∈ A)
    (hfg : ∀ x, x ≠ a → g x = f x) :
    Finset.sum A g = Finset.sum A f + (g a - f a) := by
  rw [← Finset.add_sum_erase A f ha, ← Finset.add_sum_erase A g ha]
  have : Finset.sum (A.erase a) g = Finset.sum (A.erase a) f :=
    Finset.sum_congr rfl (fun x hx => hfg x (Finset.ne_of_mem_erase hx))
  rw [this]
  ring

/-- What `getBalance` leaves and returns in a ledger whose sum fits an
`int64`. -/
theorem Ledger_getBalance (e : Env) (db : DB) (tok a : GoString) (A : Finset GoString)
    (s : Int) (hl : Ledger db tok A s) (hs : s ≤ MaxInt64) :
    Ledger (getBalance e db tok a).2 tok A s ∧
    ((getBalance e db tok a).2.balance (a, tok)).getD 0 = (getBalance e db tok a).1 ∧
    0 ≤ (getBalance e db tok a).1 ∧
    (∀ x, holdings (getBalance e db tok a).2 tok x = holdings db tok x) := by
  have hb0 : 0 ≤ (db.balance (a, tok)).getD 0 := by
    cases hb : db.balance (a, tok) with
    | none => simp
    | some b => simpa using hl.balance_nonneg a b hb
  cases hf : db.freeze (a, tok) with
  | none =>
    rw [getBalance_none e db tok a hf]
    exact ⟨hl, rfl, hb0, fun _ => rfl⟩
  | some l =>
    by_cases ht : thawed e.BlockTime l = []
    · rw [getBalance_idle e db tok a l hf ht]
      exact ⟨hl, rfl, hb0, fun _ => rfl⟩
    · have hpos := hl.frozen_pos a l hf
      have hsplit := thawed_append_drop e.BlockTime l
      have hpos1 : ∀ x ∈ thawed e.BlockTime l, 0 < x.Amount := by
        intro x hx
        apply hpos x
        rw [← hsplit]
        exact List.mem_append_left _ hx
      have hpos2 : ∀ x ∈ l.drop (thawed e.BlockTime l).length, 0 < x.Amount := by
        intro x hx
        exact hpos x (List.mem_of_mem_drop hx)
      have hsum : frozenSum l = frozenSum (thawed e.BlockTime l) +
          frozenSum (l.drop (thawed e.BlockTime l).length) := by
        rw [← frozenSum_append, hsplit]
      have hn1 := frozenSum_nonneg _ hpos1
      have hn2 := frozenSum_nonneg _ hpos2
      have hle := holdings_le db tok A s hl a
      have hh : holdings db tok a = (db.balance (a, tok)).getD 0 + frozenSum l := by
        unfold holdings; rw [hf]; rfl
      rw [hh] at hle
      have hM : (0 : Int) ≤ MaxInt64 := by unfold MaxInt64; norm_num
      rw [getBalance_thaw e db tok a l hf ht hpos1 (by omega) (by omega) (by omega)]
      have hhold : ∀ x, holdings
          { db with
            balance := Function.update db.balance (a, tok)
              (some ((db.balance (a, tok)).getD 0 + frozenSum (thawed e.BlockTime l)))
            freeze := Function.update db.freeze (a, tok)
              (some (l.drop (thawed e.BlockTime l).length)) } tok x = holdings db tok x := by
        intro x
        by_cases hx : x = a
        · subst hx
          rw [hh]
          unfold holdings
          simp only [Function.update_same, Option.getD_some]
          omega
        · have hk : (x, tok) ≠ (a, tok) := by
            intro h; exact hx (Prod.mk.inj h).1
          unfold holdings
          simp only [Function.update_noteq hk]
      refine ⟨⟨?_, ?_, ?_, ?_⟩, ?_, ?_, hhold⟩
      · intro x b hxb
        by_cases hx : x = a
        · subst hx
          simp only [Function.update_same, Option.some.injEq] at hxb
          omega
        · have hk : (x, tok) ≠ (a, tok) := by
            intro h; exact hx (Prod.mk.inj h).1
          simp only [Function.update_noteq hk] at hxb
          exact hl.balance_nonneg x b hxb
      · intro x l2 hxl
        by_cases hx : x = a
        · subst hx
          simp only [Function.update_same, Option.some.injEq] at hxl
          subst hxl
          exact hpos2
        · have hk : (x, tok) ≠ (a, tok) := by
            intro h; exact hx (Prod.mk.inj h).1
          simp only [Function.update_noteq hk] at hxl
          exact hl.frozen_pos x l2 hxl
      · intro x hx
        rw [hhold]
        exact hl.outside x hx
      · rw [funext hhold]
        exact hl.total
      · simp only [Function.update_same, Option.getD_some]
      · simp only
        omega

theorem Ledger_setBalance (db : DB) (tok a : GoString) (A : Finset GoString) (s v : Int)
    (hl : Ledger db tok A s) (ha : a ∈ A) (hv : 0 ≤ v) :
    Ledger (setBalance db tok a v) tok A (s + v - (db.balance (a, tok)).getD 0) := by
  have hhold : ∀ x, x ≠ a → holdings (setBalance db tok a v) tok x = holdings db tok x := by
    intro x hx
    have hk : (x, tok) ≠ (a, tok) := by
      intro h; exact hx (Prod.mk.inj h).1
    unfold holdings setBalance
    simp only [Function.update_noteq hk]
  have hholda : holdings (setBalance db tok a v) tok a =
      holdings db tok a + (v - (db.balance (a, tok)).getD 0) := by
    unfold holdings setBalance
    simp only [Function.update_same, Option.getD_some]
    omega
  refine ⟨?_, ?_, ?_, ?_⟩
  · intro x b hxb
    by_cases hx : x = a
    · subst hx
      simp only [setBalance, Function.update_same, Option.some.injEq] at hxb
      omega
    · have hk : (x, tok) ≠ (a, tok) := by
        intro h; exact hx (Prod.mk.inj h).1
      simp only [setBalance, Function.update_noteq hk] at hxb
      exact hl.balance_nonneg x b hxb
  · intro x l hxl
    exact hl.frozen_pos x l hxl
  · intro x hx
    have hxa : x ≠ a := fun h => hx (h ▸ ha)
    rw [hhold x hxa]
    exact hl.outside x hx
  · rw [sum_change A (holdings db tok) (holdings (setBalance db tok a v) tok) a ha hhold,
      hholda, hl.total]
    omega

theorem frozenSum_sortSlice (l : List FreezeItem) : frozenSum (sortSlice l) = frozenSum l := by
  unfold frozenSum sortSlice
  exact List.Perm.sum_eq (List.Perm.map _ (List.perm_insertionSort _ l))

theorem Ledger_freezeBalance (db : DB) (tok a : GoString) (A : Finset GoString)
    (s amt ft : Int) (hl : Ledger db tok A s) (ha : a ∈ A) (hamt : 0 < amt) :
    Ledger (freezeBalance db tok a amt ft) tok A (s + amt) := by
  have hhold : ∀ x, x ≠ a →
      holdings (freezeBalance db tok a amt ft) tok x = holdings db tok x := by
    intro x hx
    have hk : (x, tok) ≠ (a, tok) := by
      intro h; exact hx (Prod.mk.inj h).1
    unfold holdings freezeBalance
    simp only [Function.update_noteq hk]
  have hholda : holdings (freezeBalance db tok a amt ft) tok a =
      holdings db tok a + amt := by
    unfold holdings freezeBalance
    simp only [Function.update_same, Option.getD_some]
    rw [frozenSum_sortSlice, frozenSum_append]
    simp [frozenSum]
    omega
  refine ⟨?_, ?_, ?_, ?_⟩
  · intro x b hxb
    exact hl.balance_nonneg x b hxb
  · intro x l hxl
    by_cases hx : x = a
    · subst hx
      simp only [freezeBalance, Function.update_same, Option.some.injEq] at hxl
      subst hxl
      intro y hy
      have hy2 : y ∈ (db.freeze (x, tok)).getD [] ++ [{ Amount := amt, Ftime := ft }] :=
        (List.perm_insertionSort _ _).mem_iff.mp hy
      rcases List.mem_append.mp hy2 with h | h
      · cases hf : db.freeze (x, tok) with
        | none => rw [hf] at h; cases h
        | some l0 => rw [hf] at h; exact hl.frozen_pos x l0 hf y h
      · simp only [List.mem_singleton] at h
        subst h
        exact hamt
    · have hk : (x, tok) ≠ (a, tok) := by
        intro h; exact hx (Prod.mk.inj h).1
      simp only [freezeBalance, Function.update_noteq hk] at hxl
      exact hl.frozen_pos x l hxl
  · intro x hx
    have hxa : x ≠ a := fun h => hx (h ▸ ha)
    rw [hhold x hxa]
    exact hl.outside x hx
  · rw [sum_change A (holdings db tok) (holdings (freezeBalance db tok a amt ft) tok) a ha
      hhold, hholda, hl.total]
    omega

theorem balance_le (db : DB) (tok : GoString) (A : Finset GoString) (s : Int)
    (hl : Ledger db tok A s) (a : GoString) : (db.balance (a, tok)).getD 0 ≤ s := by
  have h1 := holdings_le db tok A s hl a
  have h2 : 0 ≤ frozenSum ((db.freeze (a, tok)).getD []) := by
    cases hf : db.freeze (a, tok) with
    | none => simp [frozenSum]
    | some l => simpa using frozenSum_nonneg l (hl.frozen_pos a l hf)
  unfold holdings at h1
  omega

theorem SameToken_refl (db : DB) (tok : GoString) : SameToken db db tok :=
  ⟨rfl, rfl, rfl, fun _ => rfl, fun _ => rfl⟩

theorem SameToken_trans (db1 db2 db3 : DB) (tok : GoString) (h1 : SameToken db1 db2 tok)
    (h2 : SameToken db2 db3 tok) : SameToken db1 db3 tok :=
  ⟨h2.issuer.trans h1.issuer, h2.supply.trans h1.supply, h2.totalSupply.trans h1.totalSupply,
    fun a => (h2.balance a).trans (h1.balance a), fun a => (h2.freeze a).trans (h1.freeze a)⟩

theorem SameToken_setBalance (db : DB) (tokenName a tok : GoString) (v : Int)
    (h : tok ≠ tokenName) : SameToken db (setBalance db tokenName a v) tok := by
  refine ⟨rfl, rfl, rfl, ?_, fun _ => rfl⟩
  intro x
  have hk : (x, tok) ≠ (a, tokenName) := by
    intro h2; exact h (Prod.mk.inj h2).2
  simp only [setBalance, Function.update_noteq hk]

theorem SameToken_freezeBalance (db : DB) (tokenName a tok : GoString) (v ft : Int)
    (h : tok ≠ tokenName) : SameToken db (freezeBalance db tokenName a v ft) tok := by
  refine ⟨rfl, rfl, rfl, fun _ => rfl, ?_⟩
  intro x
  have hk : (x, tok) ≠ (a, tokenName) := by
    intro h2; exact h (Prod.mk.inj h2).2
  simp only [freezeBalance, Function.update_noteq hk]

theorem SameToken_getBalance (e : Env) (db : DB) (tokenName a tok : GoString)
    (h : tok ≠ tokenName) : SameToken db (getBalance e db tokenName a).2 tok := by
  have hi := getBalance_info e db tokenName a
  refine ⟨by rw [hi.1], by rw [hi.2.1], by rw [hi.2.2.1], ?_, ?_⟩
  · intro x
    have hk : (x, tok) ≠ (a, tokenName) := by
      intro h2; exact h (Prod.mk.inj h2).2
    exact (getBalance_other e db tokenName a _ hk).1
  · intro x
    have hk : (x, tok) ≠ (a, tokenName) := by
      intro h2; exact h (Prod.mk.inj h2).2
    exact (getBalance_other e db tokenName a _ hk).2

theorem SameToken_supply (db : DB) (tokenName tok : GoString) (v : Option Int)
    (h : tok ≠ tokenName) :
    SameToken db { db with supply := Function.update db.supply tokenName v } tok := by
  refine ⟨rfl, ?_, rfl, fun _ => rfl, fun _ => rfl⟩
  simp only [Function.update_noteq h]

theorem Conserved_same (db db2 : DB) (tok : GoString) (A : Finset GoString)
    (h : SameToken db db2 tok) (hc : Conserved db tok A) : Conserved db2 tok A := by
  obtain ⟨s, hl, hs, hfit, hts⟩ := hc
  refine ⟨s, Ledger_same db db2 tok A s h.balance h.freeze hl, by rw [h.supply]; exact hs,
    hfit, ?_⟩
  intro ts hts2
  rw [h.totalSupply] at hts2
  exact hts ts hts2

/-- A step that leaves every other token alone keeps `AllConserved` if it
keeps it for the one token it works on. -/
theorem AllConserved_step (db db2 : DB) (tokenName : GoString) (hall : AllConserved db)
    (hframe : ∀ tok, tok ≠ tokenName → SameToken db db2 tok)
    (hmain : (checkTokenExists db2 tokenName = true → ∃ A, Conserved db2 tokenName A) ∧
      (checkTokenExists db2 tokenName = false →
        ∀ a, db2.balance (a, tokenName) = none ∧ db2.freeze (a, tokenName) = none)) :
    AllConserved db2 := by
  intro tok
  by_cases htok : tok = tokenName
  · subst htok; exact hmain
  · have hs := hframe tok htok
    have hex : checkTokenExists db2 tok = checkTokenExists db tok := by
      unfold checkTokenExists; rw [hs.issuer]
    refine ⟨?_, ?_⟩
    · intro h
      rw [hex] at h
      obtain ⟨A, hA⟩ := (hall tok).1 h
      exact ⟨A, Conserved_same db db2 tok A hs hA⟩
    · intro h a
      rw [hex] at h
      rw [hs.balance, hs.freeze]
      exact (hall tok).2 h a

theorem issue_outcome (e : Env) (db : DB) (tokenName dst amountStr : GoString) (r : Result)
    (h : issueTokenABI e db tokenName dst amountStr = some r) (herr : r.err = none) :
    ∃ issuer amount ts s, db.issuer tokenName = some issuer ∧
      parseAmount e db tokenName amountStr = some (Except.ok amount) ∧ 0 < amount ∧
      db.totalSupply tokenName = some ts ∧ db.supply tokenName = some s ∧
      ¬ wrap64 (ts - s) < amount ∧
      r.db = setBalance
        (getBalance e { db with
          supply := Function.update db.supply tokenName (some (wrap64 (s + amount))) }
          tokenName dst).2 tokenName dst
        (wrap64 ((getBalance e { db with
          supply := Function.update db.supply tokenName (some (wrap64 (s + amount))) }
          tokenName dst).1 + amount)) := by
  unfold issueTokenABI at h
  simp only [Result.fail, Result.done] at h
  repeat' (first | (cases h; done) | split at h)
  all_goals first
    | (cases h; cases herr; done)
    | (cases h
       exact ⟨_, _, _, _, ‹db.issuer tokenName = some _›,
         ‹parseAmount _ _ _ _ = some (Except.ok _)›, by omega,
         ‹db.totalSupply tokenName = some _›, ‹db.supply tokenName = some _›,
         ‹¬ wrap64 _ < _›, rfl⟩)

theorem exists_of_issuer (db : DB) (tok : GoString) (i : GoString)
    (h : db.issuer tok = some i) : checkTokenExists db tok = true := by
  unfold checkTokenExists; rw [h]; rfl

theorem issue_conserved (e : Env) (db : DB) (tokenName dst amountStr : GoString) (r : Result)
    (h : issueTokenABI e db tokenName dst amountStr = some r) (herr : r.err = none)
    (hall : AllConserved db) : AllConserved r.db := by
  obtain ⟨issuer, amount, ts, s, hi, _, hpos, hts, hs, hchk, hdb⟩ :=
    issue_outcome e db tokenName dst amountStr r h herr
  obtain ⟨A, s', hl, hs', hfit, htot⟩ := (hall tokenName).1 (exists_of_issuer db _ _ hi)
  rw [hs] at hs'
  cases hs'
  obtain ⟨hts1, hts2, hts3⟩ := htot ts hts
  have hs0 := Ledger_nonneg db tokenName A s hl
  have hw1 : wrap64 (ts - s) = ts - s := by
    apply wrap64_eq
    · rcases hts3 with h0 | h0 <;> omega
    · omega
  rw [hw1] at hchk
  have hw2 : wrap64 (s + amount) = s + amount := wrap64_eq _ (by omega) (by omega)
  rw [hw2] at hdb
  have hl1 : Ledger { db with supply := Function.update db.supply tokenName (some (s + amount)) }
      tokenName (insert dst A) s :=
    Ledger_same db _ tokenName _ s (fun _ => rfl) (fun _ => rfl)
      (Ledger_mono db tokenName A _ s hl (Finset.subset_insert _ _))
  obtain ⟨hl2, hb, hb0, _⟩ := Ledger_getBalance e _ tokenName dst _ s hl1 hfit
  have hble := balance_le _ tokenName _ s hl2 dst
  rw [hb] at hble
  have hw3 : wrap64 ((getBalance e
      { db with supply := Function.update db.supply tokenName (some (s + amount)) }
      tokenName dst).1 + amount) = (getBalance e
      { db with supply := Function.update db.supply tokenName (some (s + amount)) }
      tokenName dst).1 + amount := wrap64_eq _ (by omega) (by omega)
  rw [hw3] at hdb
  have hl3 := Ledger_setBalance _ tokenName dst _ s _ hl2 (Finset.mem_insert_self _ _)
    (show 0 ≤ (getBalance e
      { db with supply := Function.update db.supply tokenName (some (s + amount)) }
      tokenName dst).1 + amount by omega)
  rw [hb] at hl3
  rw [← hdb] at hl3
  have hinfo := getBalance_info e
    { db with supply := Function.update db.supply tokenName (some (s + amount)) } tokenName dst
  have hsup : r.db.supply tokenName = some (s + amount) := by
    rw [hdb]; simp only [setBalance]; rw [hinfo.2.1]; simp
  have htsup : r.db.totalSupply tokenName = some ts := by
    rw [hdb]; simp only [setBalance]; rw [hinfo.2.2.1]; exact hts
  have hiss : r.db.issuer tokenName = some issuer := by
    rw [hdb]; simp only [setBalance]; rw [hinfo.1]; exact hi
  apply AllConserved_step db r.db tokenName hall
  · intro tok htok
    rw [hdb]
    exact SameToken_trans _ _ _ tok (SameToken_trans _ _ _ tok
      (SameToken_supply db tokenName tok _ htok)
      (SameToken_getBalance e _ tokenName dst tok htok))
      (SameToken_setBalance _ tokenName dst tok _ htok)
  · refine ⟨fun _ => ⟨insert dst A, s + amount, ?_, hsup, by omega, ?_⟩, ?_⟩
    · have : s + ((getBalance e
          { db with supply := Function.update db.supply tokenName (some (s + amount)) }
          tokenName dst).1 + amount) - (getBalance e
          { db with supply := Function.update db.supply tokenName (some (s + amount)) }
          tokenName dst).1 = s + amount := by omega
      rw [this] at hl3
      exact hl3
    · intro ts2 h2
      rw [htsup] at h2
      cases h2
      exact ⟨hts1, hts2, Or.inr (by omega)⟩
    · intro hne
      rw [exists_of_issuer _ _ _ hiss] at hne
      cases hne

theorem transfer_outcome (e : Env) (db : DB) (tokenName frm dst amountStr memo : GoString)
    (r : Result) (h : transferTokenABI e db tokenName frm dst amountStr memo = some r)
    (herr : r.err = none) :
    (frm = dst ∧ r.db = db) ∨
    (frm ≠ dst ∧ checkTokenExists db tokenName = true ∧
      ∃ amount, parseAmount e db tokenName amountStr = some (Except.ok amount) ∧ 0 < amount ∧
        ¬ (getBalance e db tokenName frm).1 < amount ∧
        r.db = setBalance
          (setBalance (getBalance e (getBalance e db tokenName frm).2 tokenName dst).2 tokenName
            dst (wrap64 ((getBalance e (getBalance e db tokenName frm).2 tokenName dst).1 +
              amount)))
          tokenName frm (wrap64 ((getBalance e db tokenName frm).1 - amount))) := by
  unfold transferTokenABI at h
  by_cases h1 : memo.length > 512
  · rw [if_pos h1] at h; cases h; cases herr
  rw [if_neg h1] at h
  by_cases h2 : ¬ e.IsValidAccount frm = true
  · rw [if_pos h2] at h; cases h; cases herr
  rw [if_neg h2] at h
  by_cases h3 : ¬ e.IsValidAccount dst = true
  · rw [if_pos h3] at h; cases h; cases herr
  rw [if_neg h3] at h
  by_cases h4 : frm = dst
  · rw [if_pos h4] at h; cases h; left; exact ⟨h4, rfl⟩
  rw [if_neg h4] at h
  by_cases h5 : ¬ checkTokenExists db tokenName = true
  · rw [if_pos h5] at h; cases h; cases herr
  rw [if_neg h5] at h
  cases h6 : db.canTransfer tokenName with
  | none => rw [h6] at h; cases h
  | some ct =>
    rw [h6] at h
    simp only at h
    repeat' (first | (cases h; done) | split at h)
    all_goals first
      | (cases h; cases herr; done)
      | (cases h; right
         refine ⟨h4, by simpa using h5, _, ‹parseAmount _ _ _ _ = some (Except.ok _)›, by omega,
           ‹¬ (getBalance e db tokenName frm).1 < _›, rfl⟩)

theorem transferFreeze_outcome (e : Env) (db : DB) (tokenName frm dst amountStr : GoString)
    (ftime : Int) (memo : GoString) (r : Result)
    (h : transferFreezeTokenABI e db tokenName frm dst amountStr ftime memo = some r)
    (herr : r.err = none) :
    checkTokenExists db tokenName = true ∧
      ∃ amount, parseAmount e db tokenName amountStr = some (Except.ok amount) ∧ 0 < amount ∧
        ¬ (getBalance e db tokenName frm).1 < amount ∧
        r.db = freezeBalance
          (setBalance (getBalance e db tokenName frm).2 tokenName frm
            (wrap64 ((getBalance e db tokenName frm).1 - amount)))
          tokenName dst amount ftime := by
  unfold transferFreezeTokenABI at h
  by_cases h1 : memo.length > 512
  · rw [if_pos h1] at h; cases h; cases herr
  rw [if_neg h1] at h
  by_cases h5 : ¬ checkTokenExists db tokenName = true
  · rw [if_pos h5] at h; cases h; cases herr
  rw [if_neg h5] at h
  cases h6 : db.canTransfer tokenName with
  | none => rw [h6] at h; cases h
  | some ct =>
    rw [h6] at h
    simp only at h
    repeat' (first | (cases h; done) | split at h)
    all_goals first
      | (cases h; cases herr; done)
      | (cases h
         refine ⟨by simpa using h5, _, ‹parseAmount _ _ _ _ = some (Except.ok _)›, by omega,
           ‹¬ (getBalance e db tokenName frm).1 < _›, rfl⟩)

theorem destroy_outcome (e : Env) (db : DB) (tokenName frm amountStr : GoString) (r : Result)
    (h : destroyTokenABI e db tokenName frm amountStr = some r) (herr : r.err = none) :
    checkTokenExists db tokenName = true ∧
      ∃ amount supply, parseAmount e db tokenName amountStr = some (Except.ok amount) ∧
        0 < amount ∧ ¬ (getBalance e db tokenName frm).1 < amount ∧
        (setBalance (getBalance e db tokenName frm).2 tokenName frm
            (wrap64 ((getBalance e db tokenName frm).1 - amount))).supply tokenName =
          some supply ∧
        r.db =
          { setBalance (getBalance e db tokenName frm).2 tokenName frm
              (wrap64 ((getBalance e db tokenName frm).1 - amount)) with
            supply := Function.update
              (setBalance (getBalance e db tokenName frm).2 tokenName frm
                (wrap64 ((getBalance e db tokenName frm).1 - amount))).supply tokenName
              (some (wrap64 (supply - amount))) } := by
  unfold destroyTokenABI at h
  simp only [Result.fail, Result.done] at h
  repeat' (first | (cases h; done) | split at h)
  all_goals first
    | (cases h; cases herr; done)
    | (cases h
       refine ⟨?_, _, _, ‹parseAmount _ _ _ _ = some (Except.ok _)›, by omega,
         ‹¬ (getBalance e db tokenName frm).1 < _›, ‹_ = some _›, rfl⟩
       have := ‹¬ ¬ checkTokenExists db tokenName = true›
       simpa using this)

theorem balanceOf_outcome (e : Env) (db : DB) (tokenName dst : GoString) (r : Result)
    (h : balanceOfTokenABI e db tokenName dst = some r) (herr : r.err = none) :
    checkTokenExists db tokenName = true ∧ r.db = (getBalance e db tokenName dst).2 ∧
      r.rtn = some (getBalance e db tokenName dst).1 := by
  unfold balanceOfTokenABI at h
  simp only [Result.fail, Result.done] at h
  repeat' (first | (cases h; done) | split at h)
  all_goals first
    | (cases h; cases herr; done)
    | (cases h
       refine ⟨?_, rfl, rfl⟩
       have := ‹¬ ¬ checkTokenExists db tokenName = true›
       simpa using this)

theorem supply_outcome (e : Env) (db : DB) (tokenName : GoString) (r : Result)
    (h : supplyTokenABI e db tokenName = some r) : r.db = db := by
  unfold supplyTokenABI at h
  simp only [Result.fail, Result.done] at h
  repeat' (first | (cases h; done) | split at h)
  all_goals (cases h; rfl)

theorem totalSupply_outcome (db : DB) (tokenName : GoString) (r : Result)
    (h : totalSupplyTokenABI db tokenName = some r) : r.db = db := by
  unfold totalSupplyTokenABI at h
  simp only [Result.fail, Result.done] at h
  repeat' (first | (cases h; done) | split at h)
  all_goals (cases h; rfl)

theorem create_outcome (e : Env) (db : DB) (tokenName issuer : GoString) (totalSupply : Int)
    (configJSON : Option Config) (r : Result)
    (h : createTokenABI e db tokenName issuer totalSupply configJSON = some r)
    (herr : r.err = none) :
    checkTokenExists db tokenName = false ∧
      ∃ decimal canTransfer defaultRate, 0 ≤ decimal ∧ decimal < 19 ∧
        ¬ totalSupply > Int.tdiv MaxInt64 (10 ^ decimal.toNat) ∧
        r.db =
          { db with
            issuer := Function.update db.issuer tokenName (some issuer)
            totalSupply := Function.update db.totalSupply tokenName
              (some (wrap64 (totalSupply * 10 ^ decimal.toNat)))
            supply := Function.update db.supply tokenName (some 0)
            canTransfer := Function.update db.canTransfer tokenName (some canTransfer)
            defaultRate := Function.update db.defaultRate tokenName (some defaultRate)
            decimal := Function.update db.decimal tokenName (some decimal) } := by
  unfold createTokenABI at h
  simp only [Result.fail, Result.done] at h
  repeat' (first | (cases h; done) | split at h)
  all_goals first
    | (cases h; cases herr; done)
    | (cases h
       refine ⟨?_, _, _, _, ?_, ?_, ?_, rfl⟩
       · have := ‹¬ checkTokenExists db tokenName = true›
         simpa using this
       · omega
       · omega
       · assumption)

theorem exists_issuer (db : DB) (tok : GoString) (h : checkTokenExists db tok = true) :
    ∃ i, db.issuer tok = some i := by
  unfold checkTokenExists at h
  cases hi : db.issuer tok with
  | none => rw [hi] at h; cases h
  | some i => exact ⟨i, rfl⟩

theorem balanceOf_conserved (e : Env) (db : DB) (tokenName dst : GoString) (r : Result)
    (h : balanceOfTokenABI e db tokenName dst = some r) (herr : r.err = none)
    (hall : AllConserved db) : AllConserved r.db := by
  obtain ⟨hex, hdb, _⟩ := balanceOf_outcome e db tokenName dst r h herr
  obtain ⟨A, s, hl, hs, hfit, htot⟩ := (hall tokenName).1 hex
  obtain ⟨hl2, _, _, _⟩ := Ledger_getBalance e db tokenName dst A s hl hfit
  have hinfo := getBalance_info e db tokenName dst
  apply AllConserved_step db r.db tokenName hall
  · intro tok htok
    rw [hdb]
    exact SameToken_getBalance e db tokenName dst tok htok
  · rw [hdb]
    refine ⟨fun _ => ⟨A, s, hl2, by rw [hinfo.2.1]; exact hs, hfit, ?_⟩, ?_⟩
    · intro ts hts
      rw [hinfo.2.2.1] at hts
      exact htot ts hts
    · intro hne
      unfold checkTokenExists at hne hex
      rw [hinfo.1] at hne
      rw [hex] at hne
      cases hne

theorem destroy_token (e : Env) (db : DB) (tokenName frm amountStr : GoString) (r : Result)
    (h : destroyTokenABI e db tokenName frm amountStr = some r) (herr : r.err = none)
    (A : Finset GoString) (hc : Conserved db tokenName A) :
    Conserved r.db tokenName (insert frm A) := by
  obtain ⟨hex, amount, supply, _, hpos, hge, hsup, hdb⟩ :=
    destroy_outcome e db tokenName frm amountStr r h herr
  obtain ⟨s, hl, hs, hfit, htot⟩ := hc
  have hl1 := Ledger_mono db tokenName A _ s hl (Finset.subset_insert frm A)
  obtain ⟨hl2, hb, hb0, _⟩ := Ledger_getBalance e db tokenName frm _ s hl1 hfit
  have hinfo := getBalance_info e db tokenName frm
  have hble := balance_le _ tokenName _ s hl2 frm
  rw [hb] at hble
  have hM : (0 : Int) ≤ MaxInt64 := by unfold MaxInt64; norm_num
  have hw : wrap64 ((getBalance e db tokenName frm).1 - amount) =
      (getBalance e db tokenName frm).1 - amount := wrap64_eq _ (by omega) (by omega)
  rw [hw] at hdb hsup
  have hsupply : supply = s := by
    simp only [setBalance] at hsup
    rw [hinfo.2.1, hs] at hsup
    cases hsup; rfl
  subst hsupply
  have hw2 : wrap64 (supply - amount) = supply - amount := wrap64_eq _ (by omega) (by omega)
  rw [hw2] at hdb
  have hl3 := Ledger_setBalance _ tokenName frm _ supply
    ((getBalance e db tokenName frm).1 - amount) hl2 (Finset.mem_insert_self _ _) (by omega)
  rw [hb] at hl3
  have hl4 : Ledger r.db tokenName (insert frm A) (supply - amount) := by
    have : supply + ((getBalance e db tokenName frm).1 - amount) -
        (getBalance e db tokenName frm).1 = supply - amount := by omega
    rw [this] at hl3
    rw [hdb]
    exact Ledger_same (setBalance (getBalance e db tokenName frm).2 tokenName frm
      ((getBalance e db tokenName frm).1 - amount)) _ tokenName _ _ (fun _ => rfl)
      (fun _ => rfl) hl3
  refine ⟨supply - amount, hl4, ?_, by omega, ?_⟩
  · rw [hdb]; simp
  · intro ts hts
    have hts2 : db.totalSupply tokenName = some ts := by
      rw [hdb] at hts
      simp only [setBalance] at hts
      rw [hinfo.2.2.1] at hts
      exact hts
    obtain ⟨h1, h2, h3⟩ := htot ts hts2
    have hs0 := Ledger_nonneg db tokenName A supply hl
    refine ⟨h1, h2, ?_⟩
    rcases h3 with h3 | h3
    · omega
    · right; omega

theorem destroy_conserved (e : Env) (db : DB) (tokenName frm amountStr : GoString) (r : Result)
    (h : destroyTokenABI e db tokenName frm amountStr = some r) (herr : r.err = none)
    (hall : AllConserved db) : AllConserved r.db := by
  obtain ⟨hex, amount, supply, _, _, _, _, hdb⟩ :=
    destroy_outcome e db tokenName frm amountStr r h herr
  obtain ⟨A, hc⟩ := (hall tokenName).1 hex
  have hinfo := getBalance_info e db tokenName frm
  apply AllConserved_step db r.db tokenName hall
  · intro tok htok
    rw [hdb]
    exact SameToken_trans _ _ _ tok (SameToken_trans _ _ _ tok
      (SameToken_getBalance e db tokenName frm tok htok)
      (SameToken_setBalance _ tokenName frm tok _ htok))
      (SameToken_supply _ tokenName tok _ htok)
  · refine ⟨fun _ => ⟨insert frm A, destroy_token e db tokenName frm amountStr r h herr A hc⟩, ?_⟩
    intro hne
    obtain ⟨i, hi⟩ := exists_issuer db tokenName hex
    have : r.db.issuer tokenName = some i := by
      rw [hdb]; simp only [setBalance]; rw [hinfo.1]; exact hi
    rw [exists_of_issuer _ _ _ this] at hne
    cases hne

theorem transferFreeze_conserved (e : Env) (db : DB) (tokenName frm dst amountStr : GoString)
    (ftime : Int) (memo : GoString) (r : Result)
    (h : transferFreezeTokenABI e db tokenName frm dst amountStr ftime memo = some r)
    (herr : r.err = none) (hall : AllConserved db) : AllConserved r.db := by
  obtain ⟨hex, amount, _, hpos, hge, hdb⟩ :=
    transferFreeze_outcome e db tokenName frm dst amountStr ftime memo r h herr
  obtain ⟨A, s, hl, hs, hfit, htot⟩ := (hall tokenName).1 hex
  have hsub : A ⊆ insert frm (insert dst A) :=
    fun x hx => Finset.mem_insert_of_mem (Finset.mem_insert_of_mem hx)
  have hl1 := Ledger_mono db tokenName A _ s hl hsub
  obtain ⟨hl2, hb, hb0, _⟩ := Ledger_getBalance e db tokenName frm _ s hl1 hfit
  have hinfo := getBalance_info e db tokenName frm
  have hble := balance_le _ tokenName _ s hl2 frm
  rw [hb] at hble
  have hM : (0 : Int) ≤ MaxInt64 := by unfold MaxInt64; norm_num
  have hw : wrap64 ((getBalance e db tokenName frm).1 - amount) =
      (getBalance e db tokenName frm).1 - amount := wrap64_eq _ (by omega) (by omega)
  rw [hw] at hdb
  have hl3 := Ledger_setBalance _ tokenName frm _ s
    ((getBalance e db tokenName frm).1 - amount) hl2 (Finset.mem_insert_self _ _) (by omega)
  rw [hb] at hl3
  have hl4 := Ledger_freezeBalance _ tokenName dst _ _ amount ftime hl3
    (Finset.mem_insert_of_mem (Finset.mem_insert_self _ _)) hpos
  rw [← hdb] at hl4
  have hsum : s + ((getBalance e db tokenName frm).1 - amount) -
      (getBalance e db tokenName frm).1 + amount = s := by omega
  rw [hsum] at hl4
  apply AllConserved_step db r.db tokenName hall
  · intro tok htok
    rw [hdb]
    exact SameToken_trans _ _ _ tok (SameToken_trans _ _ _ tok
      (SameToken_getBalance e db tokenName frm tok htok)
      (SameToken_setBalance _ tokenName frm tok _ htok))
      (SameToken_freezeBalance _ tokenName dst tok _ _ htok)
  · refine ⟨fun _ => ⟨_, s, hl4, ?_, hfit, ?_⟩, ?_⟩
    · rw [hdb]; simp only [freezeBalance, setBalance]; rw [hinfo.2.1]; exact hs
    · intro ts hts
      apply htot ts
      rw [hdb] at hts
      simp only [freezeBalance, setBalance] at hts
      rw [hinfo.2.2.1] at hts
      exact hts
    · intro hne
      obtain ⟨i, hi⟩ := exists_issuer db tokenName hex
      have : r.db.issuer tokenName = some i := by
        rw [hdb]; simp only [freezeBalance, setBalance]; rw [hinfo.1]; exact hi
      rw [exists_of_issuer _ _ _ this] at hne
      cases hne

theorem transfer_conserved (e : Env) (db : DB) (tokenName frm dst amountStr memo : GoString)
    (r : Result) (h : transferTokenABI e db tokenName frm dst amountStr memo = some r)
    (herr : r.err = none) (hall : AllConserved db) : AllConserved r.db := by
  rcases transfer_outcome e db tokenName frm dst amountStr memo r h herr with
    ⟨_, hdb⟩ | ⟨hne, hex, amount, _, hpos, hge, hdb⟩
  · rw [hdb]; exact hall
  obtain ⟨A, s, hl, hs, hfit, htot⟩ := (hall tokenName).1 hex
  have hsub : A ⊆ insert frm (insert dst A) :=
    fun x hx => Finset.mem_insert_of_mem (Finset.mem_insert_of_mem hx)
  have hfrm : frm ∈ insert frm (insert dst A) := Finset.mem_insert_self _ _
  have hdst : dst ∈ insert frm (insert dst A) :=
    Finset.mem_insert_of_mem (Finset.mem_insert_self _ _)
  have hl1 := Ledger_mono db tokenName A _ s hl hsub
  obtain ⟨hl2, hb, hb0, _⟩ := Ledger_getBalance e db tokenName frm _ s hl1 hfit
  obtain ⟨hl3, hb3, hb30, _⟩ :=
    Ledger_getBalance e (getBalance e db tokenName frm).2 tokenName dst _ s hl2 hfit
  have hinfo := getBalance_info e db tokenName frm
  have hinfo3 := getBalance_info e (getBalance e db tokenName frm).2 tokenName dst
  have hk : (frm, tokenName) ≠ (dst, tokenName) := by
    intro h2; exact hne (Prod.mk.inj h2).1
  have hk2 : (dst, tokenName) ≠ (frm, tokenName) := fun h2 => hk h2.symm
  have hfb : ((getBalance e (getBalance e db tokenName frm).2 tokenName dst).2.balance
      (frm, tokenName)).getD 0 = (getBalance e db tokenName frm).1 := by
    rw [(getBalance_other e _ tokenName dst _ hk).1, hb]
  have hM : (0 : Int) ≤ MaxInt64 := by unfold MaxInt64; norm_num
  have hw : wrap64 ((getBalance e db tokenName frm).1 - amount) =
      (getBalance e db tokenName frm).1 - amount := by
    have hble := balance_le _ tokenName _ s hl2 frm
    rw [hb] at hble
    exact wrap64_eq _ (by omega) (by omega)
  -- the balance of `dst` is bounded by what is left after `frm` has paid
  have hl4 := Ledger_setBalance _ tokenName frm _ s
    ((getBalance e db tokenName frm).1 - amount) hl3 hfrm (by omega)
  rw [hfb] at hl4
  have hble2 := balance_le _ tokenName _ _ hl4 dst
  have hdb2 : (setBalance (getBalance e (getBalance e db tokenName frm).2 tokenName dst).2
      tokenName frm ((getBalance e db tokenName frm).1 - amount)).balance (dst, tokenName) =
      (getBalance e (getBalance e db tokenName frm).2 tokenName dst).2.balance
        (dst, tokenName) := by
    simp only [setBalance, Function.update_noteq hk2]
  rw [hdb2, hb3] at hble2
  have hw2 : wrap64 ((getBalance e (getBalance e db tokenName frm).2 tokenName dst).1 + amount) =
      (getBalance e (getBalance e db tokenName frm).2 tokenName dst).1 + amount :=
    wrap64_eq _ (by omega) (by omega)
  rw [hw, hw2] at hdb
  have hl5 := Ledger_setBalance _ tokenName dst _ s
    ((getBalance e (getBalance e db tokenName frm).2 tokenName dst).1 + amount) hl3 hdst
    (by omega)
  rw [hb3] at hl5
  have hl6 := Ledger_setBalance _ tokenName frm _ _
    ((getBalance e db tokenName frm).1 - amount) hl5 hfrm (by omega)
  have hfb2 : ((setBalance (getBalance e (getBalance e db tokenName frm).2 tokenName dst).2
      tokenName dst ((getBalance e (getBalance e db tokenName frm).2 tokenName dst).1 +
        amount)).balance (frm, tokenName)).getD 0 = (getBalance e db tokenName frm).1 := by
    simp only [setBalance, Function.update_noteq hk]
    exact hfb
  rw [hfb2, ← hdb] at hl6
  have hsum : s + ((getBalance e (getBalance e db tokenName frm).2 tokenName dst).1 + amount) -
      (getBalance e (getBalance e db tokenName frm).2 tokenName dst).1 +
      ((getBalance e db tokenName frm).1 - amount) - (getBalance e db tokenName frm).1 = s := by
    omega
  rw [hsum] at hl6
  apply AllConserved_step db r.db tokenName hall
  · intro tok htok
    rw [hdb]
    exact SameToken_trans _ _ _ tok (SameToken_trans _ _ _ tok (SameToken_trans _ _ _ tok
      (SameToken_getBalance e db tokenName frm tok htok)
      (SameToken_getBalance e _ tokenName dst tok htok))
      (SameToken_setBalance _ tokenName dst tok _ htok))
      (SameToken_setBalance _ tokenName frm tok _ htok)
  · refine ⟨fun _ => ⟨_, s, hl6, ?_, hfit, ?_⟩, ?_⟩
    · rw [hdb]; simp only [setBalance]; rw [hinfo3.2.1, hinfo.2.1]; exact hs
    · intro ts hts
      apply htot ts
      rw [hdb] at hts
      simp only [setBalance] at hts
      rw [hinfo3.2.2.1, hinfo.2.2.1] at hts
      exact hts
    · intro hne2
      obtain ⟨i, hi⟩ := exists_issuer db tokenName hex
      have : r.db.issuer tokenName = some i := by
        rw [hdb]; simp only [setBalance]; rw [hinfo3.1, hinfo.1]; exact hi
      rw [exists_of_issuer _ _ _ this] at hne2
      cases hne2

theorem create_conserved (e : Env) (db : DB) (tokenName issuer : GoString) (totalSupply : Int)
    (configJSON : Option Config) (r : Result)
    (h : createTokenABI e db tokenName issuer totalSupply configJSON = some r)
    (herr : r.err = none) (hall : AllConserved db) : AllConserved r.db := by
  obtain ⟨hex, decimal, canTransfer, defaultRate, _, _, _, hdb⟩ :=
    create_outcome e db tokenName issuer totalSupply configJSON r h herr
  have hno := (hall tokenName).2 hex
  apply AllConserved_step db r.db tokenName hall
  · intro tok htok
    rw [hdb]
    refine ⟨?_, ?_, ?_, fun _ => rfl, fun _ => rfl⟩
    · simp only [Function.update_noteq htok]
    · simp only [Function.update_noteq htok]
    · simp only [Function.update_noteq htok]
  · refine ⟨fun _ => ⟨∅, 0, ⟨?_, ?_, ?_, ?_⟩, ?_, ?_, ?_⟩, ?_⟩
    · intro a b hb
      rw [hdb] at hb
      simp only at hb
      rw [(hno a).1] at hb
      cases hb
    · intro a l hl
      rw [hdb] at hl
      simp only at hl
      rw [(hno a).2] at hl
      cases hl
    · intro a _
      rw [hdb]
      unfold holdings
      simp only
      rw [(hno a).1, (hno a).2]
      rfl
    · simp
    · rw [hdb]; simp
    · unfold MaxInt64; norm_num
    · intro ts hts
      rw [hdb] at hts
      simp only [Function.update_same, Option.some.injEq] at hts
      subst hts
      have := wrap64_range (totalSupply * 10 ^ decimal.toNat)
      exact ⟨this.1, this.2, Or.inl rfl⟩
    · intro hne
      have : r.db.issuer tokenName = some issuer := by rw [hdb]; simp
      rw [exists_of_issuer _ _ _ this] at hne
      cases hne

theorem runCall_conserved (e : Env) (db : DB) (c : TokenCall) (r : Result)
    (h : runCall e db c = some r) (herr : r.err = none) (hall : AllConserved db) :
    AllConserved r.db := by
  cases c with
  | create tokenName issuer totalSupply configJSON =>
    exact create_conserved e db tokenName issuer totalSupply configJSON r h herr hall
  | issue tokenName dst amountStr => exact issue_conserved e db tokenName dst amountStr r h herr hall
  | transfer tokenName frm dst amountStr memo =>
    exact transfer_conserved e db tokenName frm dst amountStr memo r h herr hall
  | transferFreeze tokenName frm dst amountStr ftime memo =>
    exact transferFreeze_conserved e db tokenName frm dst amountStr ftime memo r h herr hall
  | destroy tokenName frm amountStr =>
    exact destroy_conserved e db tokenName frm amountStr r h herr hall
  | balanceOf tokenName dst => exact balanceOf_conserved e db tokenName dst r h herr hall
  | supply tokenName =>
    rw [supply_outcome e db tokenName r h]; exact hall
  | totalSupply tokenName =>
    rw [totalSupply_outcome db tokenName r h]; exact hall

theorem AllConserved_emptyDB : AllConserved emptyDB := by
  intro tok
  refine ⟨?_, ?_⟩
  · intro h; cases h
  · intro _ a; exact ⟨rfl, rfl⟩

theorem runCalls_conserved (calls : List (Env × TokenCall)) :
    ∀ (db db2 : DB), AllConserved db → runCalls db calls = some db2 → AllConserved db2 := by
  induction calls with
  | nil => intro db db2 hall h; cases h; exact hall
  | cons ec rest ih =>
    intro db db2 hall h
    obtain ⟨e, c⟩ := ec
    unfold runCalls at h
    cases hr : runCall e db c with
    | none => rw [hr] at h; cases h
    | some r =>
      rw [hr] at h
      simp only at h
      cases herr : r.err with
      | some err => rw [herr] at h; cases h
      | none =>
        rw [herr] at h
        exact ih r.db db2 (runCall_conserved e db c r hr herr hall) h

theorem thawed_eq_filter (t : Int) (l : List FreezeItem)
    (hs : l.Sorted (fun a b => a.Ftime ≤ b.Ftime)) :
    thawed t l = l.filter (fun x => decide (x.Ftime ≤ t)) := by
  induction l with
  | nil => rfl
  | cons x rest ih =>
    have hs2 := List.sorted_cons.mp hs
    by_cases hx : x.Ftime ≤ t
    · have h1 : thawed t (x :: rest) = x :: thawed t rest := by
        simp [thawed, List.takeWhile, hx]
      rw [h1, ih hs2.2]
      simp [List.filter, hx]
    · have h1 : thawed t (x :: rest) = [] := by
        simp [thawed, List.takeWhile, hx]
      rw [h1]
      symm
      rw [List.filter_eq_nil_iff]
      intro y hy
      rcases List.mem_cons.mp hy with h | h
      · subst h; simpa using hx
      · have := hs2.1 y h
        simp only [decide_eq_true_eq]
        omega

theorem drop_thawed_eq_filter (t : Int) (l : List FreezeItem)
    (hs : l.Sorted (fun a b => a.Ftime ≤ b.Ftime)) :
    l.drop (thawed t l).length = l.filter (fun x => decide (x.Ftime > t)) := by
  induction l with
  | nil => rfl
  | cons x rest ih =>
    have hs2 := List.sorted_cons.mp hs
    by_cases hx : x.Ftime ≤ t
    · have h1 : thawed t (x :: rest) = x :: thawed t rest := by
        simp [thawed, List.takeWhile, hx]
      rw [h1]
      simp only [List.length_cons, List.drop_succ_cons]
      rw [ih hs2.2]
      have : ¬ x.Ftime > t := by omega
      simp [List.filter, this]
    · have h1 : thawed t (x :: rest) = [] := by
        simp [thawed, List.takeWhile, hx]
      rw [h1]
      simp only [List.length_nil, List.drop_zero]
      symm
      rw [List.filter_eq_self]
      intro y hy
      rcases List.mem_cons.mp hy with h | h
      · subst h; simp only [decide_eq_true_eq]; omega
      · have := hs2.1 y h
        simp only [decide_eq_true_eq]
        omega

theorem freezeLess_false_iff (a b : FreezeItem) :
    freezeLess b a = false ↔ (a.Ftime < b.Ftime ∨ (a.Ftime = b.Ftime ∧ a.Amount ≤ b.Amount)) := by
  unfold freezeLess
  simp only [Bool.or_eq_false_iff, Bool.and_eq_false_iff, decide_eq_false_iff_not]
  omega

theorem sortSlice_sorted (l : List FreezeItem) :
    (sortSlice l).Sorted
      (fun a b => a.Ftime < b.Ftime ∨ (a.Ftime = b.Ftime ∧ a.Amount ≤ b.Amount)) := by
  have htot : IsTotal FreezeItem (fun a b => freezeLess b a = false) :=
    ⟨fun a b => by
      rw [freezeLess_false_iff, freezeLess_false_iff]
      omega⟩
  have htrans : IsTrans FreezeItem (fun a b => freezeLess b a = false) :=
    ⟨fun a b c => by
      rw [freezeLess_false_iff, freezeLess_false_iff, freezeLess_false_iff]
      omega⟩
  have hs := @List.sorted_insertionSort _ (fun a b => freezeLess b a = false) _ htot htrans l
  exact List.Pairwise.imp (fun {a b} h => (freezeLess_false_iff a b).mp h) hs

/-- C36: `freezeBalance` stores a sorted permutation of the old freeze list
and the new item.  For an account with a sorted freeze list of positive
amounts, a balance that is not negative, and holdings that fit an `int64`,
`getBalance` at block time `t` returns the stored balance plus the amounts of
the items with `Ftime ≤ t`, leaves that value as the balance, and leaves in
the freeze list exactly the items with `Ftime > t`. -/
theorem freezeBalance_sorts_getBalance_thaws (e : Env) (db : DB) (tokenName frm : GoString)
    (l : List FreezeItem) (hl : db.freeze (frm, tokenName) = some l)
    (hsorted : l.Sorted
      (fun a b => a.Ftime < b.Ftime ∨ (a.Ftime = b.Ftime ∧ a.Amount ≤ b.Amount)))
    (hpos : ∀ x ∈ l, 0 < x.Amount) (hb0 : 0 ≤ (db.balance (frm, tokenName)).getD 0)
    (hfit : (db.balance (frm, tokenName)).getD 0 + frozenSum l ≤ MaxInt64) :
    (∀ (db2 : DB) (amount ftime : Int), ∃ l2,
      (freezeBalance db2 tokenName frm amount ftime).freeze (frm, tokenName) = some l2 ∧
      l2.Perm ((db2.freeze (frm, tokenName)).getD [] ++ [{ Amount := amount, Ftime := ftime }]) ∧
      l2.Sorted (fun a b => a.Ftime < b.Ftime ∨ (a.Ftime = b.Ftime ∧ a.Amount ≤ b.Amount))) ∧
    (getBalance e db tokenName frm).1 =
      (db.balance (frm, tokenName)).getD 0 +
        frozenSum (l.filter (fun x => decide (x.Ftime ≤ e.BlockTime))) ∧
    ((getBalance e db tokenName frm).2.balance (frm, tokenName)).getD 0 =
      (db.balance (frm, tokenName)).getD 0 +
        frozenSum (l.filter (fun x => decide (x.Ftime ≤ e.BlockTime))) ∧
    (l.filter (fun x => decide (x.Ftime ≤ e.BlockTime)) ≠ [] →
      (getBalance e db tokenName frm).2.balance (frm, tokenName) =
        some ((db.balance (frm, tokenName)).getD 0 +
          frozenSum (l.filter (fun x => decide (x.Ftime ≤ e.BlockTime))))) ∧
    (getBalance e db tokenName frm).2.freeze (frm, tokenName) =
      some (l.filter (fun x => decide (x.Ftime > e.BlockTime))) := by
  have hs1 : l.Sorted (fun a b => a.Ftime ≤ b.Ftime) :=
    List.Pairwise.imp (fun {a b} h => by omega) hsorted
  have hth := thawed_eq_filter e.BlockTime l hs1
  have hdr := drop_thawed_eq_filter e.BlockTime l hs1
  refine ⟨?_, ?_⟩
  · intro db2 amount ftime
    refine ⟨sortSlice ((db2.freeze (frm, tokenName)).getD [] ++
      [{ Amount := amount, Ftime := ftime }]), ?_, ?_, sortSlice_sorted _⟩
    · simp only [freezeBalance, Function.update_same]
    · exact List.perm_insertionSort _ _
  · rw [← hth]
    by_cases ht : thawed e.BlockTime l = []
    · rw [getBalance_idle e db tokenName frm l hl ht, ht]
      refine ⟨by simp [frozenSum], by simp [frozenSum], fun h => absurd rfl h, ?_⟩
      rw [hl, ← hdr, ht]
      rfl
    · have hsplit := thawed_append_drop e.BlockTime l
      have hpos1 : ∀ x ∈ thawed e.BlockTime l, 0 < x.Amount := by
        intro x hx
        apply hpos x
        rw [← hsplit]
        exact List.mem_append_left _ hx
      have hpos2 : ∀ x ∈ l.drop (thawed e.BlockTime l).length, 0 < x.Amount :=
        fun x hx => hpos x (List.mem_of_mem_drop hx)
      have hsum : frozenSum l = frozenSum (thawed e.BlockTime l) +
          frozenSum (l.drop (thawed e.BlockTime l).length) := by
        rw [← frozenSum_append, hsplit]
      have hn1 := frozenSum_nonneg _ hpos1
      have hn2 := frozenSum_nonneg _ hpos2
      rw [getBalance_thaw e db tokenName frm l hl ht hpos1 (by omega) (by omega) (by omega)]
      refine ⟨rfl, by simp, fun _ => by simp, ?_⟩
      simp only [Function.update_same]
      rw [hdr]

theorem parseAmount_error (e : Env) (db : DB) (tokenName amountStr : GoString) (err : TokenErr)
    (h : parseAmount e db tokenName amountStr = some (Except.error err)) :
    err = TokenErr.invalidAmount := by
  unfold parseAmount at h
  repeat' (first | (cases h; done) | split at h)
  all_goals (cases h; rfl)

theorem issue_supplyTooMuch_iff (e : Env) (db : DB) (tokenName dst amountStr issuer : GoString)
    (supply totalSupply : Int) (hi : db.issuer tokenName = some issuer)
    (hs : db.supply tokenName = some supply) (hts : db.totalSupply tokenName = some totalSupply) :
    (∃ r, issueTokenABI e db tokenName dst amountStr = some r ∧
        r.err = some TokenErr.supplyTooMuch) ↔
      (e.CheckCost 0 = true ∧ e.RequireAuth issuer "token.iost" = true ∧ e.CheckCost 1 = true ∧
        ∃ amount, parseAmount e db tokenName amountStr = some (Except.ok amount) ∧ 0 < amount ∧
          wrap64 (totalSupply - supply) < amount) := by
  have hex : checkTokenExists db tokenName = true := exists_of_issuer db _ _ hi
  constructor
  · rintro ⟨r, h, herr⟩
    unfold issueTokenABI at h
    rw [hi, hs, hts] at h
    simp only [hex, not_true_eq_false, if_false] at h
    repeat' (first | (cases h; done) | split at h)
    all_goals first
      | (cases h; cases herr; done)
      | (cases h
         have hp := parseAmount_error _ _ _ _ _ ‹parseAmount _ _ _ _ = some (Except.error _)›
         rw [hp] at herr
         cases herr)
      | (cases h
         refine ⟨by simpa using ‹¬ ¬ e.CheckCost 0 = true›,
           by simpa using ‹¬ ¬ e.RequireAuth issuer "token.iost" = true›,
           by simpa using ‹¬ ¬ e.CheckCost 1 = true›, _,
           ‹parseAmount _ _ _ _ = some (Except.ok _)›, by omega, ‹wrap64 _ < _›⟩)
  · rintro ⟨h0, h1, h2, amount, hp, hpos, hlt⟩
    refine ⟨{ db := db, rtn := none, err := some TokenErr.supplyTooMuch }, ?_, rfl⟩
    unfold issueTokenABI
    rw [hi, hs, hts, hp]
    simp only [hex, h0, h1, h2, not_true_eq_false, if_false]
    rw [if_neg (by omega), if_pos hlt]
    rfl

/-- C35: in a state with `0 ≤ supply ≤ totalSupply`, `issue` fails with
`supply too much` exactly when its earlier checks pass and the parsed amount
exceeds `totalSupply - supply`; when `issue` succeeds the new supply is
`supply + amount`, between 0 and `totalSupply`.  `destroy` leaves no balance
negative that was not negative before (the stored balances being `int64`
values), and in a state where the holdings add up to the supply it leaves a
supply that is not negative. -/
theorem issue_within_total_supply_destroy_nonneg (e : Env) (db : DB)
    (tokenName issuer : GoString) (supply totalSupply : Int)
    (hi : db.issuer tokenName = some issuer) (hs : db.supply tokenName = some supply)
    (hts : db.totalSupply tokenName = some totalSupply) (h0 : 0 ≤ supply)
    (h1 : supply ≤ totalSupply) (h2 : totalSupply ≤ MaxInt64) :
    (∀ dst amountStr,
      (∃ r, issueTokenABI e db tokenName dst amountStr = some r ∧
          r.err = some TokenErr.supplyTooMuch) ↔
        (e.CheckCost 0 = true ∧ e.RequireAuth issuer "token.iost" = true ∧
          e.CheckCost 1 = true ∧
          ∃ amount, parseAmount e db tokenName amountStr = some (Except.ok amount) ∧
            0 < amount ∧ totalSupply - supply < amount)) ∧
    (∀ dst amountStr r, issueTokenABI e db tokenName dst amountStr = some r → r.err = none →
      ∃ amount, parseAmount e db tokenName amountStr = some (Except.ok amount) ∧
        r.db.supply tokenName = some (supply + amount) ∧ 0 ≤ supply + amount ∧
        supply + amount ≤ totalSupply) ∧
    (∀ frm amountStr r, destroyTokenABI e db tokenName frm amountStr = some r → r.err = none →
      ((∀ b, db.balance (frm, tokenName) = some b → b ≤ MaxInt64) →
        ∀ k b, r.db.balance k = some b → b < 0 → db.balance k = some b) ∧
      (∀ A, Conserved db tokenName A → ∃ s, r.db.supply tokenName = some s ∧ 0 ≤ s)) := by
  have hM : (0 : Int) ≤ MaxInt64 := by unfold MaxInt64; norm_num
  have hw : wrap64 (totalSupply - supply) = totalSupply - supply :=
    wrap64_eq _ (by omega) (by omega)
  refine ⟨?_, ?_, ?_⟩
  · intro dst amountStr
    rw [issue_supplyTooMuch_iff e db tokenName dst amountStr issuer supply totalSupply hi hs hts,
      hw]
  · intro dst amountStr r h herr
    obtain ⟨issuer2, amount, ts, s, _, hp, hpos, hts2, hs2, hchk, hdb⟩ :=
      issue_outcome e db tokenName dst amountStr r h herr
    rw [hts] at hts2
    rw [hs] at hs2
    cases hts2
    cases hs2
    rw [hw] at hchk
    have hw2 : wrap64 (supply + amount) = supply + amount :=
      wrap64_eq _ (by omega) (by omega)
    rw [hw2] at hdb
    have hinfo := getBalance_info e
      { db with supply := Function.update db.supply tokenName (some (supply + amount)) }
      tokenName dst
    refine ⟨amount, hp, ?_, by omega, by omega⟩
    rw [hdb]; simp only [setBalance]; rw [hinfo.2.1]; simp
  · intro frm amountStr r h herr
    obtain ⟨_, amount, sup, _, hpos, hge, _, hdb⟩ :=
      destroy_outcome e db tokenName frm amountStr r h herr
    refine ⟨?_, ?_⟩
    · intro hfit k b hkb hneg
      by_cases hk : k = (frm, tokenName)
      · exfalso
        subst hk
        rw [hdb] at hkb
        simp only [setBalance, Function.update_same, Option.some.injEq] at hkb
        have hf1 : (getBalance e db tokenName frm).1 ≤ MaxInt64 := by
          unfold getBalance
          cases hfz : db.freeze (frm, tokenName) with
          | none =>
            simp only
            cases hb : db.balance (frm, tokenName) with
            | none => simpa using hM
            | some b0 => simpa using hfit b0 hb
          | some l =>
            simp only
            split <;> split
            · exact (wrap64_range _).2
            · cases hb : db.balance (frm, tokenName) with
              | none => simpa using hM
              | some b0 => simpa using hfit b0 hb
            · exact (wrap64_range _).2
            · cases hb : db.balance (frm, tokenName) with
              | none => simpa using hM
              | some b0 => simpa using hfit b0 hb
        rw [wrap64_eq _ (by omega) (by omega)] at hkb
        omega
      · rw [hdb] at hkb
        simp only [setBalance, Function.update_noteq hk] at hkb
        rw [(getBalance_other e db tokenName frm k hk).1] at hkb
        exact hkb
    · intro A hc
      obtain ⟨s, hl, hsup, _, _⟩ := destroy_token e db tokenName frm amountStr r h herr A hc
      exact ⟨s, hsup, Ledger_nonneg _ _ _ _ hl⟩

theorem allConserved_conserved (db : DB) (hall : AllConserved db) (tokenName : GoString)
    (hex : checkTokenExists db tokenName = true) : ∃ A, Conserved db tokenName A :=
  (hall tokenName).1 hex

/-- C34: after any sequence of calls from the empty maps, each returning
without error, every token that exists has a finite set of accounts outside
which nobody holds anything, and over which the stored balances and the
amounts in the freeze lists add up to the stored supply. -/
theorem holdings_add_up_to_supply (calls : List (Env × TokenCall)) (db : DB)
    (h : runCalls emptyDB calls = some db) (tokenName : GoString)
    (hex : checkTokenExists db tokenName = true) :
    ∃ A : Finset GoString,
      (∀ a, a ∉ A → (db.balance (a, tokenName)).getD 0 +
        frozenSum ((db.freeze (a, tokenName)).getD []) = 0) ∧
      db.supply tokenName = some (Finset.sum A (fun a =>
        (db.balance (a, tokenName)).getD 0 +
          frozenSum ((db.freeze (a, tokenName)).getD []))) := by
  have hall := runCalls_conserved calls emptyDB db AllConserved_emptyDB h
  obtain ⟨A, s, hl, hs, _, _⟩ := (hall tokenName).1 hex
  refine ⟨A, hl.outside, ?_⟩
  rw [hs, ← hl.total]
  rfl

theorem holdings_add_up_to_supply_witness :
    runCalls emptyDB sampleCalls = some (sampleLedger 6) ∧
    checkTokenExists (sampleLedger 6) iost = true ∧
    ∃ A : Finset GoString,
      (∀ a, a ∉ A → ((sampleLedger 6).balance (a, iost)).getD 0 +
        frozenSum (((sampleLedger 6).freeze (a, iost)).getD []) = 0) ∧
      (sampleLedger 6).supply iost = some (Finset.sum A (fun a =>
        ((sampleLedger 6).balance (a, iost)).getD 0 +
          frozenSum (((sampleLedger 6).freeze (a, iost)).getD []))) :=
  ⟨rfl, rfl, holdings_add_up_to_supply sampleCalls (sampleLedger 6) rfl iost rfl⟩

/-- C37: `create` with decimal 1 and total supply `- 2 ^ 63 + 1` returns
without error and stores the total supply 10: the product wraps. -/
theorem create_negative_total_supply_wraps :
    (createTokenABI (sampleEnv 0) emptyDB iost alice (- 2 ^ 63 + 1) decimalOne).map
        (fun r => (r.err, r.db.totalSupply iost, r.db.decimal iost)) =
      some (none, some 10, some 1) ∧
    (- 2 ^ 63 + 1 : Int) * 10 ^ 1 ≠ 10 := by
  refine ⟨by decide, by decide⟩

theorem freezeBalance_sorts_getBalance_thaws_witness :
    (sampleLedger 4).freeze (bob, iost) = some [{ Amount := 20, Ftime := 5 }] ∧
    (sampleLedger 4).balance (bob, iost) = some 30 ∧
    (freezeBalance (sampleLedger 4) iost bob 7 3).freeze (bob, iost) =
      some [{ Amount := 7, Ftime := 3 }, { Amount := 20, Ftime := 5 }] ∧
    (getBalance (sampleEnv 10) (sampleLedger 4) iost bob).1 = 50 ∧
    (getBalance (sampleEnv 10) (sampleLedger 4) iost bob).2.freeze (bob, iost) = some [] := by
  have key := freezeBalance_sorts_getBalance_thaws (sampleEnv 10) (sampleLedger 4) iost bob
    [{ Amount := 20, Ftime := 5 }] rfl (List.sorted_singleton _) (by decide) (by decide)
    (by decide)
  refine ⟨rfl, rfl, rfl, ?_, ?_⟩
  · rw [key.2.1]; decide
  · rw [key.2.2.2.2]; decide

theorem issue_within_total_supply_destroy_nonneg_witness :
    (sampleLedger 4).supply iost = some 100 ∧
    (sampleLedger 4).totalSupply iost = some 100000000000 ∧
    (∃ r, issueTokenABI (sampleEnv 10) (sampleLedger 4) iost bob (ascii "99999999901") = some r ∧
      r.err = some TokenErr.supplyTooMuch) ∧
    (¬ ∃ r, issueTokenABI (sampleEnv 10) (sampleLedger 4) iost bob (ascii "99999999900") = some r ∧
      r.err = some TokenErr.supplyTooMuch) ∧
    (∀ r, destroyTokenABI (sampleEnv 10) (sampleLedger 4) iost alice (ascii "10") = some r →
      r.err = none → ∃ s, r.db.supply iost = some s ∧ 0 ≤ s) := by
  have key := issue_within_total_supply_destroy_nonneg (sampleEnv 10) (sampleLedger 4) iost alice
    100 100000000000 rfl rfl rfl (by decide) (by decide) (by decide)
  refine ⟨rfl, rfl, ?_, ?_, ?_⟩
  · exact (key.1 bob (ascii "99999999901")).mpr
      ⟨rfl, rfl, rfl, 99999999901, rfl, by decide, by decide⟩
  · intro h
    obtain ⟨_, _, _, amount, hp, _, hlt⟩ := (key.1 bob (ascii "99999999900")).mp h
    have hp2 : parseAmount (sampleEnv 10) (sampleLedger 4) iost (ascii "99999999900") =
        some (Except.ok 99999999900) := rfl
    rw [hp2] at hp
    cases hp
    exact absurd hlt (by decide)
  · intro r h herr
    obtain ⟨A, hc⟩ := (runCalls_conserved (sampleCalls.take 4) emptyDB (sampleLedger 4)
      AllConserved_emptyDB rfl iost).1 rfl
    exact (key.2.2 alice (ascii "10") r h herr).2 A hc

end native

namespace new_vm

open golang

/-! ## The transaction engine (C38 to C40) -/

theorem unmarshalLoop_not_value {σ : Type} (o : Outside σ) (abi : ABI) (arr : List Json) :
    ∀ (i : Nat) (rtn : List Arg), i ≤ abi.Args.length → abi.Args.length < i + arr.length →
      ∀ v, unmarshalLoop o abi arr i rtn ≠ ArgResult.value v := by
  induction arr with
  | nil => intro i rtn h1 h2; simp at h2; omega
  | cons x rest ih =>
    intro i rtn h1 h2 v
    unfold unmarshalLoop
    cases hg : abi.Args.get? i with
    | none => simp
    | some typ =>
      have hi : i < abi.Args.length := by
        rcases Nat.lt_or_ge i abi.Args.length with h | h
        · exact h
        · rw [List.get?_eq_none.mpr h] at hg; cases hg
      have h3 : abi.Args.length < (i + 1) + rest.length := by
        simp only [List.length_cons] at h2; omega
      have ih2 := fun r => ih (i + 1) r hi h3 v
      simp only
      cases convertArg o typ x with
      | none => simp
      | some a => exact ih2 _

/-- With more elements in the array than the ABI declares, `unmarshalArgs`
returns no value: it stops with a panic, unless the conversion of an element
has given an error before. -/
theorem unmarshalArgs_extra_elements_no_value {σ : Type} (o : Outside σ) (abi : ABI)
    (data : String) (arr : List Json) (hjs : o.NewJson data = some (Json.array arr))
    (hlen : abi.Args.length < arr.length) (v : List Arg) :
    unmarshalArgs o abi data ≠ ArgResult.value v := by
  unfold unmarshalArgs
  rw [hjs]
  simp only
  rw [if_neg (by omega)]
  exact unmarshalLoop_not_value o abi arr 0 [] (Nat.zero_le _) (by omega) v

/-- C38: a transaction with gas price 2 and gas limit `2 ^ 62` of a publisher
who owns 1 passes `checkTx` and the balance test, because the product wraps to
`- 2 ^ 63`; `Exec` runs its action, although the balance is below gas price
times gas limit. -/
theorem Exec_runs_actions_when_product_wraps :
    checkTx sampleOutside wrappingTx = none ∧
    sampleOutside.Balance sampleHost.DB wrappingTx.Publisher = 1 ∧
    (1 : Int) < wrappingTx.GasPrice * wrappingTx.GasLimit ∧
    wrap64 (wrappingTx.GasPrice * wrappingTx.GasLimit) = - 2 ^ 63 ∧
    (Exec sampleOutside sampleHost wrappingTx).map
        (fun r => (r.1.DB, r.2.SuccActionNum, r.2.Status.Code, r.2.GasUsage)) =
      some ([("use60", 2 ^ 62)], 1, StatusCode.Success, 60) := by
  refine ⟨by decide, by decide, by decide, by decide, by decide⟩

/-- C39: with gas limit 100 and three actions that cost 60, 30 and 70, the
third action finds the gas limit `100 - 30 = 70` and not `100 - 60 - 30 = 10`;
every action stays within the limit it finds, and the receipt has gas usage
160. -/
theorem Exec_gas_limit_forgets_earlier_actions :
    (Exec sampleOutside sampleHost threeActionTx).map
        (fun r => (r.1.DB, r.2.SuccActionNum, r.2.Status.Code, r.2.GasUsage)) =
      some ([("use60", 100), ("use30", 40), ("use70", 70)], 3, StatusCode.Success, 160) ∧
    sampleCost "use60" ≤ 100 ∧ sampleCost "use30" ≤ 40 ∧ sampleCost "use70" ≤ 70 ∧
    threeActionTx.GasLimit = 100 := by
  refine ⟨by decide, by decide, by decide, by decide, by decide⟩

/-- C40: for an ABI that declares one string, and data that parse as an array
of two strings, `unmarshalArgs` stops with a panic: `abi.Args[1]` is out of
range. -/
theorem unmarshalArgs_faults_on_extra_element :
    twoStrings.NewJson "[\x22a\x22,\x22b\x22]" = some (Json.array [Json.string "a", Json.string "b"]) ∧
    unmarshalArgs twoStrings { Name := "f", Args := ["string"] } "[\x22a\x22,\x22b\x22]" =
      ArgResult.fault := by
  refine ⟨rfl, by decide⟩

end new_vm
